import Mathlib

/-!
# DMTCP worker, connection registries and the modify-env plugin

A shallow embedding of

* `src/dmtcpmessagetypes.h` (message type tags, the control message and its
  layout),
* `src/dmtcpworker.cpp` (`waitForCoordinatorMsg`, the four stage functions of
  the checkpoint thread, `determineCkptSignal`),
* `src/util_init.cpp` (`getCoordHostAndPort`, `setCoordPort`),
* `src/plugin/ipc/file/fileconnlist.cpp` and
  `src/plugin/ipc/socket/socketconnlist.cpp` (the registries of file
  descriptors, the shared-memory areas, the steps before the checkpoint),
* `plugin/modify-env/modify-env.c` (`readAndSetEnv`, `readall`,
  `read_dmtcp_env_file`),

followed by theorems about them.
-/

namespace Dmtcp

/-! ## `dmtcpmessagetypes.h` -/

/-- The enumerators of `enum DmtcpMessageType`, as the integers a C++ compiler
assigns to them (declaration order, starting at 0).  `COORD_NAMESERVICE` is
taken as defined: `dmtcpworker.cpp` uses
`DMT_DO_PRE_CKPT_NAME_SERVICE_DATA_REGISTER` outside any `#ifdef`. -/
abbrev DMT_NULL : Nat := 0
abbrev DMT_NEW_WORKER : Nat := 1
abbrev DMT_NAME_SERVICE_WORKER : Nat := 2
abbrev DMT_RESTART_WORKER : Nat := 3
abbrev DMT_ACCEPT : Nat := 4
abbrev DMT_REJECT_NOT_RESTARTING : Nat := 5
abbrev DMT_REJECT_WRONG_COMP : Nat := 6
abbrev DMT_REJECT_NOT_RUNNING : Nat := 7
abbrev DMT_UPDATE_PROCESS_INFO_AFTER_FORK : Nat := 8
abbrev DMT_UPDATE_PROCESS_INFO_AFTER_INIT_OR_EXEC : Nat := 9
abbrev DMT_UPDATE_CKPT_DIR : Nat := 10
abbrev DMT_UPDATE_GLOBAL_CKPT_DIR : Nat := 11
abbrev DMT_UPDATE_GLOBAL_CKPT_DIR_SUCCEED : Nat := 12
abbrev DMT_UPDATE_GLOBAL_CKPT_DIR_FAIL : Nat := 13
abbrev DMT_CKPT_FILENAME : Nat := 14
abbrev DMT_UNIQUE_CKPT_FILENAME : Nat := 15
abbrev DMT_USER_CMD : Nat := 16
abbrev DMT_USER_CMD_RESULT : Nat := 17
abbrev DMT_DO_SUSPEND : Nat := 18
abbrev DMT_DO_RESUME : Nat := 19
abbrev DMT_DO_FD_LEADER_ELECTION : Nat := 20
abbrev DMT_DO_PRE_CKPT_NAME_SERVICE_DATA_REGISTER : Nat := 21
abbrev DMT_DO_PRE_CKPT_NAME_SERVICE_DATA_QUERY : Nat := 22
abbrev DMT_DO_DRAIN : Nat := 23
abbrev DMT_DO_CHECKPOINT : Nat := 24
abbrev DMT_DO_REGISTER_NAME_SERVICE_DATA : Nat := 25
abbrev DMT_DO_SEND_QUERIES : Nat := 26
abbrev DMT_DO_REFILL : Nat := 27
abbrev DMT_KILL_PEER : Nat := 28
abbrev DMT_REGISTER_NAME_SERVICE_DATA : Nat := 29
abbrev DMT_REGISTER_NAME_SERVICE_DATA_SYNC : Nat := 30
abbrev DMT_REGISTER_NAME_SERVICE_DATA_SYNC_RESPONSE : Nat := 31
abbrev DMT_NAME_SERVICE_QUERY : Nat := 32
abbrev DMT_NAME_SERVICE_QUERY_RESPONSE : Nat := 33
abbrev DMT_NAME_SERVICE_GET_UNIQUE_ID : Nat := 34
abbrev DMT_NAME_SERVICE_GET_UNIQUE_ID_RESPONSE : Nat := 35
abbrev DMT_UPDATE_LOGGING : Nat := 36
abbrev DMT_OK : Nat := 37

/-- Modelled from the spec: `workerstate.h` is not among the sources.  The
states are those named by `WorkerState::...` in `dmtcpworker.cpp`, in the order
the spec lists them (section 3, WorkerState). -/
inductive eWorkerState
  | UNKNOWN
  | RUNNING
  | SUSPENDED
  | FD_LEADER_ELECTION
  | PRE_CKPT_NAME_SERVICE_DATA_REGISTER
  | PRE_CKPT_NAME_SERVICE_DATA_QUERY
  | DRAINED
  | CHECKPOINTED
  | NAME_SERVICE_DATA_REGISTERED
  | DONE_QUERYING
  | REFILLED
  deriving DecidableEq, Repr

/-- Position of a state in the spec's WorkerState order. -/
def eWorkerState.toNat : eWorkerState → Nat
  | .UNKNOWN => 0
  | .RUNNING => 1
  | .SUSPENDED => 2
  | .FD_LEADER_ELECTION => 3
  | .PRE_CKPT_NAME_SERVICE_DATA_REGISTER => 4
  | .PRE_CKPT_NAME_SERVICE_DATA_QUERY => 5
  | .DRAINED => 6
  | .CHECKPOINTED => 7
  | .NAME_SERVICE_DATA_REGISTERED => 8
  | .DONE_QUERYING => 9
  | .REFILLED => 10

/-- Modelled from the spec: `uniquepid.h` is not among the sources.  The
process identity carried in a message has the fields of the spec's wire format
(section 6): `upid()` is the triple of the first three, and
`computationGeneration()` the fourth. -/
structure UniquePid where
  hostid : Nat
  pid : Int
  time : Int
  generation : Nat
  deriving DecidableEq, Repr

/-- The value of `UniquePid::upid()`. -/
def UniquePid.upid (u : UniquePid) : Nat × Int × Int := (u.hostid, u.pid, u.time)

/-- The fields of `struct DmtcpMessage` that `dmtcpworker.cpp` reads or
writes, with `type` and `state` as the raw integers found on the wire. -/
structure DmtcpMessage where
  magicBits : List Nat
  msgSize : Nat
  extraBytes : Nat
  type : Nat
  state : Nat
  compGroup : UniquePid
  numPeers : Nat
  logMask : Nat
  deriving DecidableEq, Repr

/-- Modelled from the spec: the 16-byte sentinel of section 4.1, the text
DMTCP?MAGIC? followed by four zero bytes (`constants.h` is not among the
sources). -/
def DMTCP_MAGIC : List Nat :=
  [68, 77, 84, 67, 80, 63, 77, 65, 71, 73, 67, 63, 0, 0, 0, 0]

/-- Modelled from the spec: the canonical header size, from the wire-format
table of section 6 (the last field, `logMask`, is at offset 140 and is 4 bytes
long). -/
def DMTCP_MSG_SIZE : Nat := 144

/-- Modelled from the spec: `DmtcpMessage::isValid` (its definition is not
among the sources).  Section 4.1: the magic bytes equal the sentinel, `msgSize`
is the canonical header size, the type is in the enum range and the state is
in the WorkerState range. -/
def DmtcpMessage.isValid (m : DmtcpMessage) : Bool :=
  decide (m.magicBits = DMTCP_MAGIC) && decide (m.msgSize = DMTCP_MSG_SIZE) &&
    decide (m.type ≤ DMT_OK) && decide (m.state ≤ eWorkerState.REFILLED.toNat)

/-! ## `dmtcpworker.cpp`: the checkpoint thread -/

/-- The `DMTCP_EVENT_...` values that the stage functions pass to `eventHook`
(the enum itself is declared in `dmtcp.h`, which is not among the sources). -/
inductive DmtcpEvent_t
  | THREADS_SUSPEND
  | LEADER_ELECTION
  | PRE_CKPT_NAME_SERVICE_DATA_REGISTER
  | PRE_CKPT_NAME_SERVICE_DATA_QUERY
  | DRAIN
  | WRITE_CKPT
  | REGISTER_NAME_SERVICE_DATA
  | SEND_QUERIES
  | REFILL
  | THREADS_RESUME
  deriving DecidableEq, Repr

/-- What the checkpoint thread does that is visible outside of it, in the
order it does it.  `send t s` is `sendMsgToCoordinator` of a message with
`type = t` and `state = s`; `recv t` is a return of `recvMsgFromCoordinator`
with a message of type `t`; `hook e` is a complete call of `eventHook(e, _)`;
`setState s` is `WorkerState::setCurrentState(s)`; the others are the calls of
the same name. -/
inductive Event
  | send (type : Nat) (state : eWorkerState)
  | recv (type : Nat)
  | hook (e : DmtcpEvent_t)
  | setState (s : eWorkerState)
  | fakeSyscall
  | acquireLocks
  | releaseLocks
  | destroyDmtcpWorkerLockUnlock
  | prepareForCkpt
  | writeCkpt
  | unlinkShmFile
  | waitForCheckpointCommand
  deriving DecidableEq, Repr

/-- One item read from the coordinator link: the header, the payload that
follows it, and whether another thread has called `exit()` (setting
`_exitInProgress`) by the time the blocking read returns. -/
structure Incoming where
  msg : DmtcpMessage
  replyData : List Nat
  exitRequested : Bool
  deriving DecidableEq, Repr

/-- The process state the checkpoint thread reads and writes. -/
structure Worker where
  /-- Result of `dmtcp_no_coordinator()`. -/
  noCoordinator : Bool
  /-- Result of `GetDeviceName(PROTECTED_SHM_FD)` (used without coordinator). -/
  shmFile : List Nat
  /-- Value of `WorkerState::currentState()`. -/
  currentState : eWorkerState
  /-- The flag `DmtcpWorker::_exitInProgress`. -/
  exitInProgress : Bool
  /-- Whether the destroy-worker lock is held (by any thread). -/
  destroyDmtcpWorkerLock : Bool
  /-- Log mask kept in `SharedData`. -/
  logMask : Nat
  /-- Computation generation kept in `SharedData`. -/
  generation : Nat
  /-- Value of `SharedData::getCompId()`. -/
  compId : Nat × Int × Int
  /-- Checkpoint directory of `ProcessInfo`. -/
  ckptDir : List Nat
  /-- Computation group of `ProcessInfo`. -/
  compGroup : UniquePid
  /-- Peer count of `ProcessInfo`. -/
  numPeers : Nat
  /-- Messages the coordinator link will deliver, in order. -/
  inbox : List Incoming
  /-- Events so far, oldest first. -/
  trace : List Event
  deriving DecidableEq, Repr

/-- How a call on the checkpoint thread ends. -/
inductive Outcome
  /-- The call returns to its caller. -/
  | returned (w : Worker)
  /-- The process ends through `_exit(status)`. -/
  | exited (status : Nat) (w : Worker)
  /-- The thread is in `ckptThreadPerformExit`: `while (1) sleep(1)`. -/
  | parked (w : Worker)
  /-- A `JASSERT` failed. -/
  | assertFailed (w : Worker)
  /-- The thread waits in `recvMsgFromCoordinator` for a message that is not
  in the inbox. -/
  | blocked (w : Worker)
  deriving DecidableEq, Repr

/-- Final process state of an outcome. -/
def Outcome.worker : Outcome → Worker
  | .returned w => w
  | .exited _ w => w
  | .parked w => w
  | .assertFailed w => w
  | .blocked w => w

/-- Sequencing: the next statement runs only if the call returned. -/
def Outcome.andThen (o : Outcome) (f : Worker → Outcome) : Outcome :=
  match o with
  | .returned w => f w
  | other => other

/-- Append an event to the trace. -/
def emit (e : Event) (w : Worker) : Worker := { w with trace := w.trace ++ [e] }

/-- Statement `WorkerState::setCurrentState(s)`. -/
def setCurrentState (s : eWorkerState) (w : Worker) : Worker :=
  emit (.setState s) { w with currentState := s }

/-- Statement `eventHook(e, _)`. -/
def eventHook (e : DmtcpEvent_t) (w : Worker) : Worker := emit (.hook e) w

/-- Statement `ThreadSync::destroyDmtcpWorkerLockUnlock()`. -/
def destroyDmtcpWorkerLockUnlock (w : Worker) : Worker :=
  emit .destroyDmtcpWorkerLockUnlock { w with destroyDmtcpWorkerLock := false }

/-- The `do ... while (1)` loop of `waitForCoordinatorMsg`, on the messages
the link delivers.  It ends by `break` with the message that is neither
`DMT_KILL_PEER` nor `DMT_UPDATE_LOGGING`. -/
def recvLoop (type : Nat) : List Incoming → Worker → Outcome ⊕ (Incoming × Worker)
  | [], w => .inl (.blocked w)
  | i :: rest, w =>
    let w1 := emit (.recv i.msg.type)
      { w with inbox := rest, exitInProgress := w.exitInProgress || i.exitRequested }
    if type = DMT_DO_SUSPEND ∧ w1.exitInProgress = true then
      .inl (.parked (destroyDmtcpWorkerLockUnlock w1))
    else if i.msg.isValid = false then
      .inl (.assertFailed w1)
    else if i.msg.type = DMT_KILL_PEER then
      .inl (.exited 0 w1)
    else if i.msg.type = DMT_UPDATE_LOGGING then
      recvLoop type rest { w1 with logMask := i.msg.logMask }
    else
      .inr (i, w1)

/-- The statements of `waitForCoordinatorMsg` after the loop. -/
def afterRecv (type : Nat) (i : Incoming) (w : Worker) : Outcome :=
  if i.msg.type ≠ type then .assertFailed w
  else if type = DMT_DO_SUSPEND then
    let w1 := { w with generation := i.msg.compGroup.generation }
    if w1.compId ≠ i.msg.compGroup.upid then .assertFailed w1
    else if i.msg.extraBytes > 0 then .returned { w1 with ckptDir := i.replyData }
    else .returned w1
  else if type = DMT_DO_FD_LEADER_ELECTION then
    .returned { w with compGroup := i.msg.compGroup, numPeers := i.msg.numPeers }
  else .returned w

/-- The part of `waitForCoordinatorMsg` from `DmtcpMessage msg;` on: the
status report, the receive loop and the statements after it. -/
def talkToCoordinator (type : Nat) (w : Worker) : Outcome :=
  let w1 := if type = DMT_DO_SUSPEND then emit .fakeSyscall w
            else emit (.send DMT_OK w.currentState) w
  match recvLoop type w1.inbox w1 with
  | .inl o => o
  | .inr (i, w2) => afterRecv type i w2

/-- Function `DmtcpWorker::waitForCoordinatorMsg(msgStr, type)`. -/
def waitForCoordinatorMsg (type : Nat) (w : Worker) : Outcome :=
  if w.noCoordinator then
    if type = DMT_DO_SUSPEND then
      if w.shmFile = [] then .assertFailed w
      else
        let w1 := emit .waitForCheckpointCommand (emit .unlinkShmFile w)
        .returned { w1 with numPeers := 1,
                            compGroup := ⟨w1.compId.1, w1.compId.2.1, w1.compId.2.2, 0⟩ }
    else .returned w
  else if type = DMT_DO_SUSPEND ∧ w.destroyDmtcpWorkerLock = true then
    .parked w
  else if type = DMT_DO_SUSPEND ∧ w.exitInProgress = true then
    .parked (destroyDmtcpWorkerLockUnlock { w with destroyDmtcpWorkerLock := true })
  else
    talkToCoordinator type
      (if type = DMT_DO_SUSPEND then { w with destroyDmtcpWorkerLock := true } else w)

/-- Function `DmtcpWorker::waitForStage1Suspend()`. -/
def waitForStage1Suspend (w : Worker) : Outcome :=
  (waitForCoordinatorMsg DMT_DO_SUSPEND (setCurrentState .RUNNING w)).andThen fun w =>
  .returned (emit .acquireLocks w)

/-- Function `DmtcpWorker::waitForStage2Checkpoint()`. -/
def waitForStage2Checkpoint (w : Worker) : Outcome :=
  let w := setCurrentState .SUSPENDED w
  if w.exitInProgress then .parked (destroyDmtcpWorkerLockUnlock w)
  else
    let w := destroyDmtcpWorkerLockUnlock w
    let w := emit .releaseLocks w
    let w := emit .prepareForCkpt w
    let w := eventHook .THREADS_SUSPEND w
    (waitForCoordinatorMsg DMT_DO_FD_LEADER_ELECTION w).andThen fun w =>
    let w := eventHook .LEADER_ELECTION w
    let w := setCurrentState .FD_LEADER_ELECTION w
    (waitForCoordinatorMsg DMT_DO_PRE_CKPT_NAME_SERVICE_DATA_REGISTER w).andThen fun w =>
    let w := eventHook .PRE_CKPT_NAME_SERVICE_DATA_REGISTER w
    let w := setCurrentState .PRE_CKPT_NAME_SERVICE_DATA_REGISTER w
    (waitForCoordinatorMsg DMT_DO_PRE_CKPT_NAME_SERVICE_DATA_QUERY w).andThen fun w =>
    let w := eventHook .PRE_CKPT_NAME_SERVICE_DATA_QUERY w
    let w := setCurrentState .PRE_CKPT_NAME_SERVICE_DATA_QUERY w
    (waitForCoordinatorMsg DMT_DO_DRAIN w).andThen fun w =>
    let w := setCurrentState .DRAINED w
    let w := eventHook .DRAIN w
    (waitForCoordinatorMsg DMT_DO_CHECKPOINT w).andThen fun w =>
    let w := eventHook .WRITE_CKPT w
    .returned (emit .writeCkpt w)

/-- Function `DmtcpWorker::waitForStage3Refill(isRestart)`, with
`COORD_NAMESERVICE` defined. -/
def waitForStage3Refill (w : Worker) : Outcome :=
  let w := setCurrentState .CHECKPOINTED w
  (waitForCoordinatorMsg DMT_DO_REGISTER_NAME_SERVICE_DATA w).andThen fun w =>
  let w := eventHook .REGISTER_NAME_SERVICE_DATA w
  let w := setCurrentState .NAME_SERVICE_DATA_REGISTERED w
  (waitForCoordinatorMsg DMT_DO_SEND_QUERIES w).andThen fun w =>
  let w := eventHook .SEND_QUERIES w
  let w := setCurrentState .DONE_QUERYING w
  (waitForCoordinatorMsg DMT_DO_REFILL w).andThen fun w =>
  .returned (eventHook .REFILL w)

/-- Function `DmtcpWorker::waitForStage4Resume(isRestart)`. -/
def waitForStage4Resume (w : Worker) : Outcome :=
  let w := setCurrentState .REFILLED w
  (waitForCoordinatorMsg DMT_DO_RESUME w).andThen fun w =>
  .returned (eventHook .THREADS_RESUME w)

/-- One checkpoint cycle: the four stage functions, run in order. -/
def checkpointCycle (w : Worker) : Outcome :=
  (waitForStage1Suspend w).andThen fun w =>
  (waitForStage2Checkpoint w).andThen fun w =>
  (waitForStage3Refill w).andThen fun w =>
  waitForStage4Resume w

/-! ## `plugin/modify-env/modify-env.c`: `readAndSetEnv` -/

/-- A sequence of bytes (a `char` is a number below 256). -/
abbrev Bytes := List Nat

/-- The bytes of a text. -/
def str (s : String) : Bytes := s.toList.map Char.toNat

/-- The process environment: the value of each name, if it has one. -/
abbrev Env := Bytes → Option Bytes

/-- Library call `getenv(name)`. -/
def getenv (e : Env) (name : Bytes) : Option Bytes := e name

/-- Whether `setenv` and `unsetenv` accept the name: they fail with `EINVAL`,
changing nothing, on an empty name and on a name that contains `=`. -/
def validName (name : Bytes) : Bool := !(name.isEmpty || name.contains 61)

/-- Library call `setenv(name, value, 1)`. -/
def setenv (e : Env) (name value : Bytes) : Env :=
  if validName name then Function.update e name (some value) else e

/-- Library call `unsetenv(name)`. -/
def unsetenv (e : Env) (name : Bytes) : Env :=
  if validName name then Function.update e name none else e

/-- The macro `readEOF`, `(char)-1`: the byte 255. -/
abbrev readEOF : Nat := 255

/-- Size of `nameBuf`, of `valueBuf` and of `envName`. -/
abbrev BUF_SIZE : Nat := 1000

/-- Size of `nameChanged`. -/
abbrev NAME_CHANGED_SIZE : Nat := 10000

/-- The contents of a `char` array, by index. -/
abbrev Mem := Nat → Nat

/-- The two arrays `dest` is pointed into. -/
inductive Region
  | nameBuf
  | valueBuf
  deriving DecidableEq, Repr

/-- What goes wrong when C leaves the behaviour undefined. -/
inductive Fault
  /-- The byte `*c` is read at or after the end of the buffer. -/
  | readPastBuffer
  /-- A byte is stored outside the array the pointer belongs to. -/
  | writeOutOfBounds
  /-- A string is read on past the end of its array (no NUL inside it). -/
  | readOutOfBounds
  /-- Two pointers into different arrays are subtracted. -/
  | pointerDifference
  deriving DecidableEq, Repr

/-- The local variables of `readAndSetEnv`: `c` as an index into `buf`, `dest`
as an array and an index into it, `nameChanged_end` as an index into
`nameChanged`. -/
structure Locals where
  c : Nat
  nameBuf : Mem
  valueBuf : Mem
  nameChanged : Mem
  nameChanged_end : Nat
  destRegion : Region
  destOff : Nat
  isStringMode : Bool

/-- A change of the environment made by one `'\n'`. -/
inductive EnvAction
  | set (name value : Bytes)
  | unset (name : Bytes)
  deriving DecidableEq, Repr

/-- The environment after the action. -/
def EnvAction.apply (a : EnvAction) (e : Env) : Env :=
  match a with
  | .set n v => setenv e n v
  | .unset n => unsetenv e n

/-- The name the action is about. -/
def EnvAction.name : EnvAction → Bytes
  | .set n _ => n
  | .unset n => n

/-- One pass through the `switch` of `readAndSetEnv`. -/
inductive Step
  /-- The loop goes on with these locals, after this call of `setenv` or
  `unsetenv` if there was one. -/
  | next (s : Locals) (act : Option EnvAction)
  /-- Statement `return 0`. -/
  | done
  | fault (f : Fault)

/-- What a call of `readAndSetEnv` ends in. -/
inductive Result
  /-- The call returned 0, leaving this environment. -/
  | returned (e : Env)
  | fault (f : Fault)
  /-- The fuel given to the loop was used up (never the case for
  `readAndSetEnv`, see `readAndSetEnv_ne_outOfFuel`). -/
  | outOfFuel

/-- The array `dest` points into. -/
def Locals.destMem (s : Locals) : Mem :=
  match s.destRegion with
  | .nameBuf => s.nameBuf
  | .valueBuf => s.valueBuf

/-- Replace the contents of the array `dest` points into. -/
def Locals.setDestMem (s : Locals) (m : Mem) : Locals :=
  match s.destRegion with
  | .nameBuf => { s with nameBuf := m }
  | .valueBuf => { s with valueBuf := m }

/-- Statement `*dest = x`: both arrays have `BUF_SIZE` bytes. -/
def store (x : Nat) (s : Locals) : Except Fault Locals :=
  if s.destOff < BUF_SIZE then .ok (s.setDestMem (Function.update s.destMem s.destOff x))
  else .error .writeOutOfBounds

/-- Statement `*dest++ = x`. -/
def storeInc (x : Nat) (s : Locals) : Except Fault Locals :=
  (store x s).map fun s1 => { s1 with destOff := s1.destOff + 1 }

/-- The string that starts at index `i` of an array, read for at most `fuel`
bytes: `none` if no NUL is met. -/
def cstrAux (m : Mem) : Nat → Nat → Option Bytes
  | 0, _ => none
  | fuel + 1, i => if m i = 0 then some [] else (cstrAux m fuel (i + 1)).map (m i :: ·)

/-- The string that starts at index `start` of an array of `cap` bytes: `none`
if it is not ended inside the array. -/
def cstr (m : Mem) (start cap : Nat) : Option Bytes := cstrAux m (cap - start) start

/-- The array after `bytes` have been stored from index `off` on. -/
def blit (m : Mem) (off : Nat) : Bytes → Mem
  | [] => m
  | x :: xs => blit (Function.update m off x) (off + 1) xs

/-- The prefix of a byte string up to its first NUL: the string a `char*`
to it denotes. -/
def upToNul (v : Bytes) : Bytes := v.takeWhile (· ≠ 0)

/-- Library call `strncpy(dst + off, v, n)` on the array `m`: exactly `n`
bytes are stored, those of `v` and then NULs. -/
def strncpy (m : Mem) (off : Nat) (v : Bytes) (n : Nat) : Mem :=
  fun i => if off ≤ i ∧ i < off + n then (upToNul v).getD (i - off) 0 else m i

/-- The loop `while (*c != '\n' && *c != readEOF) c++`, on the bytes from `*c`
on: the number of bytes skipped, `none` if the buffer ends first. -/
def skipToEol : Bytes → Option Nat
  | [] => none
  | x :: xs => if x = 10 ∨ x = readEOF then some 0 else (skipToEol xs).map (· + 1)

/-- Library call `isalnum`, in the C locale. -/
def isalnum (x : Nat) : Bool :=
  (48 ≤ x && x ≤ 57) || (65 ≤ x && x ≤ 90) || (97 ≤ x && x ≤ 122)

/-- The loop `while (isalnum(*c) || *c == '_') *d++ = *c++`, on the bytes
from `*c` on: the bytes copied, `none` if the buffer ends first. -/
def readEnvName : Bytes → Option Bytes
  | [] => none
  | x :: xs => if isalnum x || x = 95 then (readEnvName xs).map (x :: ·) else some []

/-- The loop `for (n = nameChanged; n < nameChanged_end; n += strlen(n) + 1)`
that compares `envName` with each recorded name, from index `n` on: the final
`isNameChanged`, `none` if a recorded string runs out of the array. -/
def isNameChangedFrom (m : Mem) (endp : Nat) (envName : Bytes) : Nat → Nat → Option Bool
  | 0, _ => some false
  | fuel + 1, n =>
    if n < endp then
      match cstr m n NAME_CHANGED_SIZE with
      | none => none
      | some s =>
        (isNameChangedFrom m endp envName fuel (n + s.length + 1)).map
          (fun r => decide (s = envName) || r)
    else some false

/-- The value of `isNameChanged` for `envName`.  Every pass of the loop moves
`n` forward, so `nameChanged_end + 1` passes are enough to reach
`nameChanged_end`. -/
def isNameChanged (s : Locals) (envName : Bytes) : Option Bool :=
  isNameChangedFrom s.nameChanged s.nameChanged_end envName (s.nameChanged_end + 1) 0

/-- Statement `dest += strlen(dest)`. -/
def advanceDest (s : Locals) : Step :=
  match cstr s.destMem s.destOff BUF_SIZE with
  | none => .fault .readOutOfBounds
  | some t => .next { s with destOff := s.destOff + t.length } none

/-- The case `'$'` of the `switch`.  `env` is the process environment, read
by `getenv`.  The library function `dmtcp_get_restart_env` is declared in
`dmtcp.h`, which is not among the sources: the environment it consults is the
parameter `restartEnv`, and it copies as its `STANDALONE` definition in
`modify-env.c` does (`strncpy` of the value and result 0 when the name is
defined, no store and result -1 when it is not).  The difference `dest -
valueBuf` is defined only for a `dest` inside `valueBuf`. -/
def expandVar (restartEnv env : Env) (buf : Bytes) (s : Locals) : Step :=
  match readEnvName (buf.drop (s.c + 1)) with
  | none =>
    -- the buffer ends inside the name: the store of its 1001st byte comes first
    if BUF_SIZE < (buf.drop (s.c + 1)).length then .fault .writeOutOfBounds
    else .fault .readPastBuffer
  | some envName =>
    if BUF_SIZE ≤ envName.length then .fault .writeOutOfBounds
    else
      let s := { s with c := s.c + 1 + envName.length }
      match isNameChanged s envName with
      | none => .fault .readOutOfBounds
      | some changed =>
        match (if changed then getenv env envName else none) with
        | some v =>
          -- strncpy(dest, getenv(envName), sizeof nameBuf)
          if s.destOff + BUF_SIZE ≤ BUF_SIZE then
            advanceDest (s.setDestMem (strncpy s.destMem s.destOff v BUF_SIZE))
          else .fault .writeOutOfBounds
        | none =>
          -- dmtcp_get_restart_env(envName, dest, sizeof(valueBuf) - (dest - valueBuf))
          match s.destRegion with
          | .nameBuf => .fault .pointerDifference
          | .valueBuf =>
            match restartEnv envName with
            | none => .next s none
            | some v =>
              advanceDest (s.setDestMem (strncpy s.destMem s.destOff v (BUF_SIZE - s.destOff)))

/-- Statements `strcpy(nameChanged_end, nameBuf); nameChanged_end +=
strlen(nameBuf) + 1`, guarded by `nameChanged + sizeof(nameChanged) -
nameChanged_end` being non-zero. -/
def recordName (name : Bytes) (s : Locals) : Except Fault Locals :=
  if s.nameChanged_end ≠ NAME_CHANGED_SIZE then
    if s.nameChanged_end + name.length + 1 ≤ NAME_CHANGED_SIZE then
      .ok { s with nameChanged := blit s.nameChanged s.nameChanged_end (name ++ [0])
                   nameChanged_end := s.nameChanged_end + name.length + 1 }
    else .error .writeOutOfBounds
  else .ok s

/-- The case `'\n'` of the `switch` outside a string, for a line that is not
blank.  The test `dest > nameBuf && dest < nameBuf + sizeof(nameBuf)` is true
only of a `dest` that points into `nameBuf`, the arrays being disjoint. -/
def endOfLine (s : Locals) : Step :=
  match storeInc 0 s with
  | .error f => .fault f
  | .ok s1 =>
    let s1 := { s1 with c := s1.c + 1 }
    match cstr s1.nameBuf 0 BUF_SIZE with
    | none => .fault .readOutOfBounds
    | some name =>
      let unsets := s1.destRegion = .nameBuf ∧ 0 < s1.destOff ∧ s1.destOff < BUF_SIZE
      match (if unsets then some (EnvAction.unset name)
             else (cstr s1.valueBuf 0 BUF_SIZE).map (EnvAction.set name)) with
      | none => .fault .readOutOfBounds
      | some act =>
        match recordName name s1 with
        | .error f => .fault f
        | .ok s2 =>
          .next { s2 with isStringMode := false, destRegion := .nameBuf, destOff := 0 }
            (some act)

/-- Statement `*dest++ = *c++` for the byte `x` at `*c`. -/
def copyChar (x : Nat) (s : Locals) : Step :=
  match storeInc x s with
  | .error f => .fault f
  | .ok s1 => .next { s1 with c := s1.c + 1 } none

/-- One pass through the body of `while (1)` in `readAndSetEnv`. -/
def step (restartEnv env : Env) (buf : Bytes) (s : Locals) : Step :=
  match buf[s.c]? with
  | none => .fault .readPastBuffer
  | some x =>
    if x = readEOF then .done
    else if x = 10 then
      if s.isStringMode then copyChar x s
      else if s.nameBuf 0 = 0 then .next { s with c := s.c + 1 } none
      else endOfLine s
    else if x = 32 ∨ x = 9 ∨ x = 35 then
      if s.isStringMode then copyChar x s
      else
        match skipToEol (buf.drop s.c) with
        | none => .fault .readPastBuffer
        | some n => .next { s with c := s.c + n } none
    else if x = 61 then
      match store 0 s with
      | .error f => .fault f
      | .ok s1 => .next { s1 with destRegion := .valueBuf, destOff := 0, c := s1.c + 1 } none
    else if x = 92 then
      match buf[s.c + 1]? with
      | none => .fault .readPastBuffer
      | some y =>
        match storeInc y s with
        | .error f => .fault f
        | .ok s1 => .next { s1 with c := s1.c + 2 } none
    else if x = 34 then
      .next { s with isStringMode := !s.isStringMode, c := s.c + 1 } none
    else if x = 36 then expandVar restartEnv env buf s
    else copyChar x s

/-- The `while (1)` loop of `readAndSetEnv`, for at most `fuel` passes. -/
def readLoop (restartEnv : Env) (buf : Bytes) : Nat → Locals → Env → Result
  | 0, _, _ => .outOfFuel
  | fuel + 1, s, env =>
    match step restartEnv env buf s with
    | .done => .returned env
    | .fault f => .fault f
    | .next s1 act =>
      readLoop restartEnv buf fuel s1
        (match act with
         | none => env
         | some a => a.apply env)

/-- The locals of `readAndSetEnv` as initialised: the arrays all zero, `c` at
the start of `buf`, `dest` at the start of `nameBuf`. -/
def initLocals : Locals :=
  { c := 0, nameBuf := fun _ => 0, valueBuf := fun _ => 0, nameChanged := fun _ => 0,
    nameChanged_end := 0, destRegion := .nameBuf, destOff := 0, isStringMode := false }

/-- Function `readAndSetEnv(buf, size)`, `buf` being the whole mapped
buffer.  Every pass moves `c` forward, so `buf.length + 1` passes are enough. -/
def readAndSetEnv (restartEnv : Env) (buf : Bytes) (env : Env) : Result :=
  readLoop restartEnv buf (buf.length + 1) initLocals env

/-- The value of a name after the call, if the call returned. -/
def Result.lookup (r : Result) (name : Bytes) : Option (Option Bytes) :=
  match r with
  | .returned e => some (e name)
  | _ => none

/-- The fault the call ended in, if it did. -/
def Result.faultOf (r : Result) : Option Fault :=
  match r with
  | .fault f => some f
  | _ => none

/-- A line of the env file: `NAME=VALUE` for `set`, `NAME` alone for `unset`,
each ended by a newline. -/
def EnvAction.render : EnvAction → Bytes
  | .set n v => n ++ 61 :: (v ++ [10])
  | .unset n => n ++ [10]

/-- The env file made of the given lines. -/
def renderFile (ls : List EnvAction) : Bytes := (ls.map EnvAction.render).flatten

/-- The environment the spec describes for a file of such lines (section 6,
restart env file): in file order, `NAME=VALUE` sets the variable, overwriting,
and `NAME` alone removes it. -/
def specEnvAfter (ls : List EnvAction) (e : Env) : Env :=
  ls.foldl (fun e l => match l with
    | .set n v => Function.update e n (some v)
    | .unset n => Function.update e n none) e

/-- Bytes that `nameChanged` needs for the names of the lines: each name and
its NUL. -/
def recordedSize (ls : List EnvAction) : Nat := (ls.map fun l => l.name.length + 1).sum

/-- The environment after the calls of `setenv` and `unsetenv` in `acts`, in
order. -/
def applyAll (acts : List EnvAction) (e : Env) : Env :=
  acts.foldl (fun e a => a.apply e) e

/-! ## `plugin/modify-env/modify-env.c`: `readall`, `read_dmtcp_env_file` -/

/-- The largest value of an `int` (32 bits on the platforms DMTCP runs on). -/
abbrev INT_MAX : Int := 2147483647

/-- Error number `EAGAIN` of Linux. -/
abbrev EAGAIN : Int := 11

/-- Error number `EINVAL` of Linux. -/
abbrev EINVAL : Int := 22

/-- What one call `read(fd, buf+count, 100)` gives: the bytes it stored (none
at the end of the file, where it returns 0), or the result -1 with `errno`
set. -/
inductive ReadResult
  | data (bytes : Bytes)
  | error (errno : Int)
  deriving DecidableEq, Repr

/-- What a call of `readall` ends in. -/
inductive ReadallResult
  /-- The call returned `r`, having stored `stored` from `buf[0]` on. -/
  | returned (r : Int) (stored : Bytes)
  /-- The sum `count + 100` or `count + numRead` is not an `int`: the
  behaviour is undefined. -/
  | overflow
  deriving DecidableEq, Repr

/-- The loop of `readall` with `count` bytes stored so far.  `reads` are the
results of the calls of `read` to come, in order; once the list is used up the
file is at its end and `read` returns 0. -/
def readallFrom (maxCount : Int) : List ReadResult → Int → Bytes → ReadallResult
  | reads, count, stored =>
    if INT_MAX < count + 100 then .overflow
    else if count + 100 > maxCount then .returned (-1) stored
    else
      match reads with
      | [] => .returned count stored
      | .data bytes :: rest =>
        if bytes.length = 0 then .returned count stored
        else if INT_MAX < count + bytes.length then .overflow
        else readallFrom maxCount rest (count + bytes.length) (stored ++ bytes)
      | .error errno :: rest =>
        if errno ≠ EAGAIN ∧ errno ≠ EINVAL then .returned (-1) stored
        else readallFrom maxCount rest count stored

/-- Function `readall(fd, buf, maxCount)`. -/
def readall (reads : List ReadResult) (maxCount : Int) : ReadallResult :=
  readallFrom maxCount reads 0 []

/-- The value `readall` returned, if it returned. -/
def ReadallResult.code : ReadallResult → Option Int
  | .returned r _ => some r
  | .overflow => none

/-- What a call of `read_dmtcp_env_file` ends in. -/
inductive EnvFileResult
  /-- The mapped buffer is returned, with these contents. -/
  | buffer (buf : Bytes)
  /-- Statement `return NULL`: the file could not be opened. -/
  | null
  /-- Statement `exit(1)`. -/
  | exited (status : Int)
  /-- Undefined behaviour inside `readall`. -/
  | overflow
  deriving DecidableEq, Repr

/-- Function `read_dmtcp_env_file(file, size)` built without `STANDALONE`.
`mmapOk` says whether `mmap` gave a buffer, which is then `size` zero bytes;
`fd` is `none` when `open` fails and otherwise holds the results of the calls
of `read` on the file. -/
def read_dmtcp_env_file (mmapOk : Bool) (fd : Option (List ReadResult)) (size : Int) :
    EnvFileResult :=
  if !mmapOk then .exited 1
  else
    match fd with
    | none => .null
    | some reads =>
      match readall reads size with
      | .overflow => .overflow
      | .returned count stored =>
        if count < 0 then .exited 1
        else .buffer (stored ++ readEOF :: List.replicate (size - count - 1).toNat 0)

/-! ## `src/plugin/ipc/file/fileconnlist.cpp`, `src/plugin/ipc/socket/socketconnlist.cpp` -/

/-- Modelled from the spec: the kinds of `Connection` (section 3), which
`Connection::conType()` returns; `connection.h` is not among the sources. -/
inductive ConnectionType
  | FILE
  | FIFO
  | PTY
  | TCP
  | RAW
  | STDIO
  deriving DecidableEq, Repr

/-- Modelled from the spec: the subtypes that `fileconnlist.cpp` names, of
`PtyConnection` and of `FileConnection`, whose declarations are not among the
sources; `subType()` of a connection of another class is `NONE`. -/
inductive SubType
  | NONE
  | PTY_DEV_TTY
  | PTY_CTTY
  | PTY_PARENT_CTTY
  | PTY_MASTER
  | PTY_SLAVE
  | PTY_BSD_MASTER
  | PTY_BSD_SLAVE
  | FILE_REGULAR
  | FILE_BATCH_QUEUE
  | FILE_SHM
  deriving DecidableEq, Repr

/-- Modelled from the spec: a `Connection` (section 3): its kind, the FDs that
name it in this process, kind-specific state and flags.  `id` stands for the
object (its `ConnectionIdentifier`); `path` is the path of a `FileConnection`
or `FifoConnection` and the `ptsName()` of a `PtyConnection`. -/
structure Connection where
  id : Nat
  conType : ConnectionType
  subType : SubType
  path : Bytes
  flags : Int
  mode : Int
  fds : List Int
  hasLock : Bool
  preExisting : Bool
  preExistingCTTY : Bool
  preExistingPCTTY : Bool
  deriving DecidableEq, Repr

/-- Modelled from the spec: a `ConnectionList`, the registry of one kind of
resource (section 4.5): its connections in the order of their identifiers,
which is the order of their creation, and the identifier of the next new
connection. -/
structure ConnList where
  conns : List Connection
  nextId : Nat
  deriving DecidableEq, Repr

/-- A registry with no connection. -/
def ConnList.empty : ConnList := ⟨[], 0⟩

/-- What the scans learn about an open FD from the system. -/
structure FdInfo where
  /-- `Util::isValidFd(fd)`. -/
  valid : Bool
  /-- `dmtcp_is_protected_fd(fd)`. -/
  protectedFd : Bool
  /-- `st_mode` as `fstat(fd, &statbuf)` gives it, `none` when `fstat` fails. -/
  st_mode : Option Nat
  /-- `jalib::Filesystem::GetDeviceName(fd)`. -/
  device : Bytes
  /-- Device number of the underlying file. -/
  devnum : Nat
  /-- Inode number of the underlying file. -/
  inode : Nat
  deriving DecidableEq, Repr

/-- What the scans of the two registries learn from the system. -/
structure Os where
  fdInfo : Int → FdInfo
  /-- `jalib::Filesystem::GetControllingTerm()`. -/
  ctty : Bytes
  /-- `jalib::Filesystem::GetControllingTerm(getppid())`. -/
  parentCtty : Bytes
  /-- `getenv("PBS_JOBID")` is not `NULL`. -/
  pbsJobId : Bool
  /-- `getenv("SLURM_JOBID") || getenv("SLURM_JOB_ID")`. -/
  slurmJob : Bool
  /-- The weak symbol `dmtcp_is_bq_file`: `none` when no plugin defines it. -/
  isBqFile : Option (Bytes → Bool)
  /-- `jalib::Filesystem::ResolveSymlink(path)`. -/
  resolveSymlink : Bytes → Bytes

/-- An assertion of the source that failed, or an access that C++ leaves
undefined. -/
inductive Failure
  /-- `JASSERT(fstat(fd, &statbuf) == 0)`. -/
  | fstatFailed
  /-- `JASSERT(false) .Text("Not Implemented")`. -/
  | notImplemented
  /-- `JASSERT(false) (path) .Text("Unimplemented file type.")`. -/
  | unimplementedFileType
  /-- The access `getFds()[0]` to an empty list of FDs, or `shmAreaConn[i]`
  past the end of the list. -/
  | noFd
  /-- `JASSERT(fd != -1)` after a call of `_real_open`. -/
  | openFailed
  /-- `JASSERT(... != MAP_FAILED)` after a call of `_real_mmap`. -/
  | mmapFailed
  /-- `JASSERT(Util::strEndsWith(area.name, DELETED_FILE_SUFFIX))`. -/
  | notDeleted
  /-- `JASSERT(Util::createDirectoryTree(area.name))`. -/
  | createDirectoryTreeFailed
  /-- `JASSERT(lseek(fd, area.offset, SEEK_SET) == area.offset)`. -/
  | lseekFailed
  /-- `JASSERT(Util::writeAll(fd, area.addr, area.size) == (ssize_t)area.size)`. -/
  | writeAllFailed
  deriving DecidableEq, Repr

/-- Mask `S_IFMT` of Linux. -/
abbrev S_IFMT : Nat := 0o170000

/-- Macro `S_ISREG` of Linux. -/
def S_ISREG (m : Nat) : Bool := m &&& S_IFMT == 0o100000

/-- Macro `S_ISCHR` of Linux. -/
def S_ISCHR (m : Nat) : Bool := m &&& S_IFMT == 0o020000

/-- Macro `S_ISDIR` of Linux. -/
def S_ISDIR (m : Nat) : Bool := m &&& S_IFMT == 0o040000

/-- Macro `S_ISBLK` of Linux. -/
def S_ISBLK (m : Nat) : Bool := m &&& S_IFMT == 0o060000

/-- Macro `S_ISFIFO` of Linux. -/
def S_ISFIFO (m : Nat) : Bool := m &&& S_IFMT == 0o010000

/-- Modelled from the spec: `Util::strStartsWith(str, pattern)`, of `util.h`,
not among the sources. -/
def strStartsWith (s pattern : Bytes) : Bool := pattern.isPrefixOf s

/-- Modelled from the spec: `Util::strEndsWith(str, pattern)`, of `util.h`,
not among the sources. -/
def strEndsWith (s pattern : Bytes) : Bool := pattern.isSuffixOf s

/-- The test `dmtcp_is_bq_file && dmtcp_is_bq_file(path)`. -/
def isBq (os : Os) (path : Bytes) : Bool :=
  match os.isBqFile with
  | some f => f path
  | none => false

/-- Modelled from the spec: `ConnectionList::add(fd, c)` (section 3: a
Connection has the list of FDs naming it): a connection that is in the
registry gets `fd` at the end of its FD list, a connection that is not is put
into the registry with `fd` as its only FD. -/
def ConnList.add (l : ConnList) (fd : Int) (c : Connection) : ConnList :=
  if l.conns.any (·.id == c.id) then
    { l with conns := l.conns.map fun x => if x.id = c.id then { x with fds := x.fds ++ [fd] } else x }
  else { l with conns := l.conns ++ [{ c with fds := c.fds ++ [fd] }] }

/-- Expression `new C(...)`: the object gets the next identifier. -/
def ConnList.alloc (l : ConnList) (c : Connection) : Connection × ConnList :=
  ({ c with id := l.nextId }, { l with nextId := l.nextId + 1 })

/-- Statements `c = new C(...); add(fd, c)`. -/
def ConnList.addNew (l : ConnList) (fd : Int) (c : Connection) : ConnList :=
  let (c1, l1) := l.alloc c
  l1.add fd c1

/-- Modelled from the spec: `ConnectionList::processDup(oldfd, newfd)`: the
new FD names the connection that the old FD names. -/
def ConnList.processDup (l : ConnList) (oldfd newfd : Int) : ConnList :=
  match l.conns.find? (fun c => oldfd ∈ c.fds) with
  | some c => l.add newfd c
  | none => l

/-- A connection as its constructor leaves it, but for the fields the
constructor is given. -/
def Connection.blank (t : ConnectionType) : Connection :=
  { id := 0, conType := t, subType := .NONE, path := [], flags := 0, mode := 0, fds := [],
    hasLock := false, preExisting := false, preExistingCTTY := false,
    preExistingPCTTY := false }

/-- Constructor `PtyConnection(fd, path, flags, mode, type)`. -/
def PtyConnection (path : Bytes) (flags mode : Int) (type : SubType) : Connection :=
  { Connection.blank .PTY with subType := type, path := path, flags := flags, mode := mode }

/-- Constructor `FileConnection(path, flags, mode, type)`. -/
def FileConnection (path : Bytes) (flags mode : Int) (type : SubType) : Connection :=
  { Connection.blank .FILE with subType := type, path := path, flags := flags, mode := mode }

/-- Constructor `FifoConnection(path, flags, mode)`. -/
def FifoConnection (path : Bytes) (flags mode : Int) : Connection :=
  { Connection.blank .FIFO with path := path, flags := flags, mode := mode }

/-- Constructor `StdioConnection(fd)`. -/
def StdioConnection : Connection := open ConnectionType in Connection.blank STDIO

/-- Constructor `TcpConnection(0, 0, 0)`. -/
def TcpConnection : Connection := Connection.blank .TCP

/-- Modelled from the spec: `FileConnection::checkDup(fd, path)`, not among
the sources: duplicates are FDs opened on the same device and inode (section
4.5), here those of the first FD of the connection. -/
def checkDup (os : Os) (c : Connection) (fd : Int) : Bool :=
  match c.fds.head? with
  | some fd0 =>
    (os.fdInfo fd0).devnum == (os.fdInfo fd).devnum && (os.fdInfo fd0).inode == (os.fdInfo fd).inode
  | none => false

/-- Function `FileConnList::findDuplication(fd, path)`. -/
def findDuplication (os : Os) (l : ConnList) (fd : Int) : Option Connection :=
  l.conns.find? fun con => con.conType == .FILE && checkDup os con fd

/-- The string `device` of `processFileConnection`: the device name of the FD
when `path` is `NULL` (here `none`), else the path with a symbolic link
resolved, or the path itself when `ResolveSymlink` gives the empty string. -/
def resolveDevice (os : Os) (fd : Int) (path : Option Bytes) : Bytes :=
  match path with
  | none => (os.fdInfo fd).device
  | some p => if os.resolveSymlink p = [] then p else os.resolveSymlink p

/-- Function `FileConnList::processFileConnection(fd, path, flags, mode)`;
`path` is `none` for `NULL`. -/
def processFileConnection (os : Os) (l : ConnList) (fd : Int) (path : Option Bytes)
    (flags mode : Int) : Except Failure ConnList :=
  match (os.fdInfo fd).st_mode with
  | none => .error .fstatFailed
  | some st_mode =>
    let device := resolveDevice os fd path
    let path := upToNul device
    if path = str "/dev/tty" then
      .ok (l.addNew fd (PtyConnection path flags mode .PTY_DEV_TTY))
    else if path = str "/dev/pty" then .error .notImplemented
    else if strStartsWith path (str "/dev/pty") then
      .ok (l.addNew fd (PtyConnection path flags mode .PTY_BSD_MASTER))
    else if strStartsWith path (str "/dev/tty") then
      .ok (l.addNew fd (PtyConnection path flags mode .PTY_BSD_SLAVE))
    else if path = str "/dev/ptmx" ∨ path = str "/dev/pts/ptmx" then
      .ok (l.addNew fd (PtyConnection path flags mode .PTY_MASTER))
    else if strStartsWith path (str "/dev/pts/") then
      let con := PtyConnection path flags mode .PTY_SLAVE
      let con :=
        if device = os.parentCtty then { con with preExistingPCTTY := true }
        else if device = os.ctty then { con with preExistingCTTY := true }
        else con
      .ok (l.addNew fd con)
    else if S_ISREG st_mode || S_ISCHR st_mode || S_ISDIR st_mode || S_ISBLK st_mode then
      let type := if isBq os path then SubType.FILE_BATCH_QUEUE else .FILE_REGULAR
      .ok (l.addNew fd (FileConnection path flags mode type))
    else if S_ISFIFO st_mode then .ok (l.addNew fd (FifoConnection path flags mode))
    else .error .unimplementedFileType

/-- The body shared by two branches of `FileConnList::scanForPreExisting`: a
duplicate of a regular file joins its connection, any other FD goes to
`processFileConnection`. -/
def scanFile (os : Os) (l : ConnList) (fd : Int) (isRegularFile : Bool) (device : Bytes) :
    Except Failure ConnList :=
  match (if isRegularFile then findDuplication os l fd else none) with
  | some c => .ok (l.add fd c)
  | none => processFileConnection os l fd (some (upToNul device)) (-1) (-1)

/-- One pass of the loop of `FileConnList::scanForPreExisting`, for the FD
`fd`. -/
def scanFd (os : Os) (l : ConnList) (fd : Int) : Except Failure ConnList :=
  if !(os.fdInfo fd).valid then .ok l
  else if (os.fdInfo fd).protectedFd then .ok l
  else
    match (os.fdInfo fd).st_mode with
    | none => .error .fstatFailed
    | some st_mode =>
      let isRegularFile := S_ISREG st_mode || S_ISCHR st_mode || S_ISDIR st_mode || S_ISBLK st_mode
      let device := (os.fdInfo fd).device
      if device = os.ctty ∨ device = os.parentCtty then
        let cttyType := if device = os.ctty then SubType.PTY_CTTY else .PTY_PARENT_CTTY
        match l.conns.find? (fun c => c.subType == cttyType && c.path == device) with
        | some c =>
          match c.fds.head? with
          | none => .error .noFd
          | some fd0 => .ok (l.processDup fd0 fd)
        | none =>
          .ok (l.addNew fd { PtyConnection (upToNul device) (-1) (-1) cttyType with
            preExistingCTTY := true })
      else if isBq os (upToNul device) then scanFile os l fd isRegularFile device
      else if fd ≤ 2 then .ok (l.addNew fd StdioConnection)
      else if os.pbsJobId ∧ strStartsWith device (str "/proc") ∧
          strEndsWith device (str "environ") then .ok l
      else if strStartsWith device (str "/") then scanFile os l fd isRegularFile device
      else .ok l

/-- The loop of `FileConnList::scanForPreExisting` over the open FDs. -/
def scanFds (os : Os) : List Int → ConnList → Except Failure ConnList
  | [], l => .ok l
  | fd :: fds, l =>
    match scanFd os l fd with
    | .error f => .error f
    | .ok l1 => scanFds os fds l1

/-- Function `FileConnList::scanForPreExisting`; `fds` is what
`jalib::Filesystem::ListOpenFds()` returns. -/
def FileConnList_scanForPreExisting (os : Os) (fds : List Int) (l : ConnList) :
    Except Failure ConnList :=
  scanFds os fds l

/-- One pass of the loop of `SocketConnList::scanForPreExisting`. -/
def socketScanFd (os : Os) (l : ConnList) (fd : Int) : ConnList :=
  if !(os.fdInfo fd).valid then l
  else if (os.fdInfo fd).protectedFd then l
  else
    let device := (os.fdInfo fd).device
    if device = os.ctty then l
    else if isBq os (upToNul device) then l
    else if fd ≤ 2 then l
    else if strStartsWith device (str "/") then l
    else l.addNew fd { TcpConnection with preExisting := true }

/-- Function `SocketConnList::scanForPreExisting`. -/
def SocketConnList_scanForPreExisting (os : Os) (fds : List Int) (l : ConnList) : ConnList :=
  if os.slurmJob then l else fds.foldl (socketScanFd os) l

/-! ### Shared-memory areas -/

/-- Modelled from the spec: a `ProcMapsArea` (section 3, Shm Area), with the
fields `fileconnlist.cpp` uses; `procmapsarea.h` is not among the sources. -/
structure ProcMapsArea where
  addr : Nat
  size : Nat
  prot : Nat
  flags : Nat
  offset : Nat
  name : Bytes
  deriving DecidableEq, Repr

/-- Flag `MAP_SHARED` of Linux. -/
abbrev MAP_SHARED : Nat := 0x01

/-- Flag `MAP_PRIVATE` of Linux. -/
abbrev MAP_PRIVATE : Nat := 0x02

/-- Flag `MAP_FIXED` of Linux. -/
abbrev MAP_FIXED : Nat := 0x10

/-- Flag `MAP_ANONYMOUS` of Linux. -/
abbrev MAP_ANONYMOUS : Nat := 0x20

/-- Protection `PROT_NONE`. -/
abbrev PROT_NONE : Nat := 0

/-- Flag `O_RDWR` of Linux. -/
abbrev O_RDWR : Nat := 0o2

/-- Flag `O_CREAT` of Linux. -/
abbrev O_CREAT : Nat := 0o100

/-- Flag `O_EXCL` of Linux. -/
abbrev O_EXCL : Nat := 0o200

/-- A call made by the shared-memory code of `fileconnlist.cpp`, with its
result where the code looks at it. -/
inductive SysEvent
  | msync (addr size : Nat)
  /-- Call `_real_open(name, flags, ...)` that returned `fd` (-1 on failure). -/
  | openFile (name : Bytes) (flags : Nat) (fd : Int)
  /-- Call `_real_mmap(addr, size, prot, flags, fd, offset)`. -/
  | mmap (addr size prot flags : Nat) (fd : Int) (offset : Nat)
  | close (fd : Int)
  | unlink (name : Bytes)
  | createDirectoryTree (name : Bytes)
  | lseek (fd : Int) (offset : Nat)
  | writeAll (fd : Int) (addr size : Nat)
  /-- A `JWARNING` whose condition is false. -/
  | warning (name : Bytes)
  | setVirtualPtyId (id : Nat)
  /-- Call `pcon->postRestart()` on the connection `id`. -/
  | ptyPostRestart (id : Nat)
  /-- Call `pcon->preRefill(isRestart)` on the connection `id`. -/
  | ptyPreRefill (id : Nat) (isRestart : Bool)
  /-- Call `ConnectionList::postRestart()`. -/
  | basePostRestart
  /-- Call `ConnectionList::refill(isRestart)`. -/
  | baseRefill (isRestart : Bool)
  /-- Call `ConnectionList::resume(isRestart)`. -/
  | baseResume (isRestart : Bool)
  deriving DecidableEq, Repr

/-- What the shared-memory code learns from the system and from headers that
are not among the sources.  The calls that can fail are told apart by the
number of calls made before them. -/
structure ShmOs where
  /-- `Util::isNscdArea(area)`. -/
  isNscdArea : ProcMapsArea → Bool
  /-- `Util::isIBShmArea(area)`. -/
  isIBShmArea : ProcMapsArea → Bool
  /-- `Util::isSysVShmArea(area)`. -/
  isSysVShmArea : ProcMapsArea → Bool
  /-- `Util::memProtToOpenFlags(prot)`. -/
  memProtToOpenFlags : Nat → Nat
  /-- The constant `DELETED_FILE_SUFFIX`. -/
  DELETED_FILE_SUFFIX : Bytes
  /-- The constant `DEV_ZERO_DELETED_STR`. -/
  DEV_ZERO_DELETED_STR : Bytes
  /-- The constant `DEV_NULL_DELETED_STR`. -/
  DEV_NULL_DELETED_STR : Bytes
  /-- `_real_access(name, W_OK) == 0`. -/
  accessW : Bytes → Bool
  /-- What `_real_open` returns for a file it may open or create, as the call
  number `n`: an FD, or -1. -/
  openResult : Nat → Bytes → Int
  /-- The call number `n`, other than an `open`, succeeds. -/
  callOk : Nat → Bool

/-- The state of the file registry of a process: the `FileConnList` and the
static variables of `fileconnlist.cpp`; the files that exist on disk; the
calls made so far. -/
structure FileState where
  list : ConnList
  shmAreas : List ProcMapsArea
  unlinkedShmAreas : List ProcMapsArea
  missingUnlinkedShmFiles : List ProcMapsArea
  /-- The connections `shmAreaConn` points to, by identifier. -/
  shmAreaConn : List Nat
  virtPtyId : Nat
  /-- `jalib::Filesystem::FileExists(name)`. -/
  fileExists : Bytes → Bool
  trace : List SysEvent

/-- Record a call. -/
def FileState.emit (st : FileState) (e : SysEvent) : FileState :=
  { st with trace := st.trace ++ [e] }

/-- Library call `strstr(name, pattern) != NULL`. -/
def hasSubstr (name pattern : Bytes) : Bool := name.tails.any fun t => pattern.isPrefixOf t

/-- The names of the areas that `prepareShmList` passes over first. -/
def isInternalName (name : Bytes) : Bool :=
  hasSubstr name (str "ptraceSharedInfo") || hasSubstr name (str "dmtcpPidMap") ||
  hasSubstr name (str "dmtcpSharedArea") || hasSubstr name (str "dmtcpSharedArea") ||
  hasSubstr name (str "synchronization-log") || hasSubstr name (str "infiniband") ||
  hasSubstr name (str "synchronization-read-log")

/-- Call `_real_mmap` followed by `JASSERT(... != MAP_FAILED)`. -/
def mmapAssert (os : ShmOs) (st : FileState) (addr size prot flags : Nat) (fd : Int)
    (offset : Nat) : Except Failure FileState :=
  if os.callOk st.trace.length then .ok (st.emit (.mmap addr size prot flags fd offset))
  else .error .mmapFailed

/-- Call `_real_open(name, flags)` of a file that is not to be created,
followed by `JASSERT(fd != -1)`: the FD and the state after. -/
def openAssert (os : ShmOs) (st : FileState) (name : Bytes) (flags : Nat) :
    Except Failure (Int × FileState) :=
  let fd := os.openResult st.trace.length name
  if fd = -1 then .error .openFailed else .ok (fd, st.emit (.openFile name flags fd))

/-- The body of the loop of `FileConnList::prepareShmList` for one area of
`/proc/self/maps`. -/
def prepareShmArea (os : ShmOs) (st : FileState) (area : ProcMapsArea) :
    Except Failure FileState :=
  if area.flags &&& MAP_SHARED ≠ 0 ∧ area.prot ≠ 0 then
    if isInternalName area.name then .ok st
    else if os.isNscdArea area || os.isIBShmArea area || os.isSysVShmArea area then .ok st
    else
      let st := st.emit (.msync area.addr area.size)
      if st.fileExists area.name then
        if os.accessW area.name then
          let flags := os.memProtToOpenFlags area.prot
          match openAssert os st area.name flags with
          | .error f => .error f
          | .ok (fd, st) =>
            let (fileConn, list) := st.list.alloc (FileConnection area.name flags 0 .FILE_SHM)
            let st := { st with list := list.add fd fileConn
                                shmAreas := st.shmAreas ++ [area]
                                shmAreaConn := st.shmAreaConn ++ [fileConn.id] }
            mmapAssert os st area.addr area.size PROT_NONE
              (MAP_PRIVATE ||| MAP_ANONYMOUS ||| MAP_FIXED) (-1) 0
        else .ok st
      else if strEndsWith area.name os.DELETED_FILE_SUFFIX then
        if strStartsWith area.name os.DEV_ZERO_DELETED_STR ||
            strStartsWith area.name os.DEV_NULL_DELETED_STR then
          .ok (st.emit (.warning area.name))
        else
          let area := { area with
            name := area.name.take (area.name.length - os.DELETED_FILE_SUFFIX.length) }
          .ok { st with unlinkedShmAreas := st.unlinkedShmAreas ++ [area] }
      else .error .notDeleted
  else .ok st

/-- A loop over areas whose body may fail an assertion. -/
def forAreas (body : FileState → ProcMapsArea → Except Failure FileState) :
    List ProcMapsArea → FileState → Except Failure FileState
  | [], st => .ok st
  | a :: rest, st =>
    match body st a with
    | .error f => .error f
    | .ok st1 => forAreas body rest st1

/-- Function `FileConnList::prepareShmList`; `areas` are the areas that
`procSelfMaps.getNextArea` gives, in order. -/
def prepareShmList (os : ShmOs) (areas : List ProcMapsArea) (st : FileState) :
    Except Failure FileState :=
  forAreas (prepareShmArea os) areas
    { st with shmAreas := [], unlinkedShmAreas := [], missingUnlinkedShmFiles := [],
              shmAreaConn := [] }

/-- Function `FileConnList::restoreShmArea(area, fd)`. -/
def restoreShmArea (os : ShmOs) (st : FileState) (area : ProcMapsArea) (fd : Int) :
    Except Failure FileState :=
  match (if fd = -1 then openAssert os st area.name (os.memProtToOpenFlags area.prot)
         else .ok (fd, st)) with
  | .error f => .error f
  | .ok (fd, st) =>
    match mmapAssert os st area.addr area.size area.prot (MAP_FIXED ||| area.flags) fd
        area.offset with
    | .error f => .error f
    | .ok st => .ok (st.emit (.close fd))

/-- Function `FileConnList::recreateShmFileAndMap(area)`. -/
def recreateShmFileAndMap (os : ShmOs) (st : FileState) (area : ProcMapsArea) :
    Except Failure FileState :=
  if !os.callOk st.trace.length then .error .createDirectoryTreeFailed
  else
    let st := st.emit (.createDirectoryTree area.name)
    -- `_real_open(area.name, O_CREAT | O_EXCL | O_RDWR, ...)` fails with `EEXIST`
    -- when the file is there
    let opened : Except Failure (Int × FileState) :=
      if st.fileExists area.name then
        openAssert os (st.emit (.openFile area.name (O_CREAT ||| O_EXCL ||| O_RDWR) (-1)))
          area.name O_RDWR
      else
        match openAssert os st area.name (O_CREAT ||| O_EXCL ||| O_RDWR) with
        | .error f => .error f
        | .ok (fd, st) =>
          .ok (fd, { st with fileExists := Function.update st.fileExists area.name true })
    match opened with
    | .error f => .error f
    | .ok (fd, st) =>
      if !os.callOk st.trace.length then .error .lseekFailed
      else
        let st := st.emit (.lseek fd area.offset)
        if !os.callOk st.trace.length then .error .writeAllFailed
        else restoreShmArea os (st.emit (.writeAll fd area.addr area.size)) area fd

/-- The body of the second loop of `FileConnList::postRestart`. -/
def postRestartArea (os : ShmOs) (st : FileState) (area : ProcMapsArea) :
    Except Failure FileState :=
  if st.fileExists area.name then restoreShmArea os (st.emit (.warning area.name)) area (-1)
  else .ok { st with missingUnlinkedShmFiles := st.missingUnlinkedShmFiles ++ [area] }

/-- Function `FileConnList::postRestart`. -/
def postRestart (os : ShmOs) (st : FileState) : Except Failure FileState :=
  let st := st.emit (.setVirtualPtyId st.virtPtyId)
  let st := (st.list.conns.filter fun con =>
      !con.hasLock && con.conType == .PTY && con.preExistingCTTY).foldl
    (fun st con => st.emit (.ptyPostRestart con.id)) st
  match forAreas (postRestartArea os) st.unlinkedShmAreas st with
  | .error f => .error f
  | .ok st => .ok (st.emit .basePostRestart)

/-- Function `FileConnList::refill(isRestart)`. -/
def refill (os : ShmOs) (isRestart : Bool) (st : FileState) : Except Failure FileState :=
  let st := (st.list.conns.filter fun con => con.hasLock && con.conType == .PTY).foldl
    (fun st con => st.emit (.ptyPreRefill con.id isRestart)) st
  match (if isRestart then forAreas (recreateShmFileAndMap os) st.missingUnlinkedShmFiles st
         else .ok st) with
  | .error f => .error f
  | .ok st => .ok (st.emit (.baseRefill isRestart))

/-- Modelled from the spec: `ConnectionList::processClose(fd)`: the FD no
longer names its connection, and a connection that no FD names leaves the
registry. -/
def ConnList.processClose (l : ConnList) (fd : Int) : ConnList :=
  let closed := l.conns.map fun c => { c with fds := c.fds.filter (· ≠ fd) }
  { l with conns := closed.filter fun c => !c.fds.isEmpty }

/-- The loop of `FileConnList::remapShmMaps` from index `i` on. -/
def remapFrom (os : ShmOs) : List ProcMapsArea → Nat → FileState → Except Failure FileState
  | [], _, st => .ok st
  | area :: rest, i, st =>
    match st.shmAreaConn[i]? with
    | none => .error .noFd
    | some id =>
      match (st.list.conns.find? (·.id == id)).bind (·.fds.head?) with
      | none => .error .noFd
      | some fd =>
        match mmapAssert os st area.addr area.size area.prot (MAP_FIXED ||| area.flags) fd
            area.offset with
        | .error f => .error f
        | .ok st =>
          let st := st.emit (.close fd)
          remapFrom os rest (i + 1) { st with list := st.list.processClose fd }

/-- Function `FileConnList::remapShmMaps`. -/
def remapShmMaps (os : ShmOs) (st : FileState) : Except Failure FileState :=
  match remapFrom os st.shmAreas 0 st with
  | .error f => .error f
  | .ok st => .ok { st with shmAreas := [], shmAreaConn := [] }

/-- The loop of `FileConnList::resume` that unlinks the recreated files: a
failure of `unlink` only gives a warning. -/
def unlinkArea (os : ShmOs) (st : FileState) (area : ProcMapsArea) : FileState :=
  if st.fileExists area.name && os.callOk st.trace.length then
    { st.emit (.unlink area.name) with
      fileExists := Function.update st.fileExists area.name false }
  else (st.emit (.unlink area.name)).emit (.warning area.name)

/-- Function `FileConnList::resume(isRestart)`. -/
def resume (os : ShmOs) (isRestart : Bool) (st : FileState) : Except Failure FileState :=
  match remapShmMaps os (st.emit (.baseResume isRestart)) with
  | .error f => .error f
  | .ok st =>
    .ok (if isRestart then st.missingUnlinkedShmFiles.foldl (unlinkArea os) st else st)

/-! ## `src/dmtcpworker.cpp`: `DmtcpWorker::determineCkptSignal` -/

/-- The largest value of a `long` where it has 64 bits, as on the 64-bit
platforms DMTCP runs on. -/
abbrev LONG_MAX : Int := 9223372036854775807

/-- The smallest value of a `long` of 64 bits. -/
abbrev LONG_MIN : Int := -9223372036854775808

/-- Error number `ERANGE` of Linux. -/
abbrev ERANGE : Int := 34

/-- Library function `isspace` in the C locale. -/
def isspace (c : Nat) : Bool := c == 32 || (9 ≤ c && c ≤ 13)

/-- The value of a byte as a digit or letter, as `strtol` takes it. -/
def digitVal (c : Nat) : Option Nat :=
  if 48 ≤ c ∧ c ≤ 57 then some (c - 48)
  else if 97 ≤ c ∧ c ≤ 122 then some (c - 87)
  else if 65 ≤ c ∧ c ≤ 90 then some (c - 55)
  else none

/-- The digits of `strtol` in the given base: the value of the longest run of
digits at the start of the string, after the value `acc` of `n` digits, and
the number of digits in all. -/
def parseDigits (base : Nat) : Bytes → Nat → Nat → Nat × Nat
  | [], acc, n => (acc, n)
  | c :: rest, acc, n =>
    match digitVal c with
    | some d => if d < base then parseDigits base rest (acc * base + d) (n + 1) else (acc, n)
    | none => (acc, n)

/-- What a call `strtol(nptr, &endp, 0)` gives. -/
structure StrtolResult where
  /-- The value returned. -/
  value : Int
  /-- No conversion was made: `endp == nptr`. -/
  noConversion : Bool
  /-- The value was out of the range of `long`: `errno` is set to `ERANGE`. -/
  erange : Bool
  deriving DecidableEq, Repr

/-- Library function `strtol(nptr, &endp, 0)` of C, for a `long` of 64 bits:
white space, an optional sign, then a number that is hexadecimal after `0x`,
octal after `0` and decimal otherwise; what follows the number is left
alone.  A value out of range is replaced by `LONG_MAX` or `LONG_MIN`. -/
def strtol (nptr : Bytes) : StrtolResult :=
  let s1 := nptr.dropWhile isspace
  let (neg, s2) :=
    match s1 with
    | 45 :: r => (true, r)
    | 43 :: r => (false, r)
    | _ => (false, s1)
  let (base, s3) :=
    match s2 with
    | 48 :: x :: h :: r =>
      if (x = 120 ∨ x = 88) ∧ (digitVal h).any (· < 16) then (16, h :: r) else (8, s2)
    | 48 :: _ => (8, s2)
    | _ => (10, s2)
  let (v, n) := parseDigits base s3 0 0
  if n = 0 then ⟨0, true, false⟩
  else
    let x : Int := if neg then -(v : Int) else v
    if LONG_MAX < x then ⟨LONG_MAX, false, true⟩
    else if x < LONG_MIN then ⟨LONG_MIN, false, true⟩
    else ⟨x, false, false⟩

/-- The conversion of a `long` to `int` that the assignment `sig = strtol(...)`
makes: the value is kept when it is an `int` and is otherwise reduced modulo
2^32, as GCC defines it. -/
def longToInt (x : Int) : Int := (x + 2147483648) % 4294967296 - 2147483648

/-- Function `DmtcpWorker::determineCkptSignal`, at its first call.
`CKPT_SIGNAL` is the constant of `constants.h`, `errno` the value of `errno`
when the function is entered, `tmp` what `getenv(ENV_VAR_SIGCKPT)` returns,
`none` for `NULL`. -/
def determineCkptSignal (CKPT_SIGNAL : Int) (errno : Int) (tmp : Option Bytes) : Int :=
  let sig := CKPT_SIGNAL
  match tmp with
  | none => sig
  | some tmp =>
    let r := strtol tmp
    let sig := longToInt r.value
    let errno := if r.erange then ERANGE else errno
    let sig := if errno ≠ 0 ∨ r.noConversion then CKPT_SIGNAL else sig
    let sig := if sig < 1 ∨ sig > 31 then CKPT_SIGNAL else sig
    sig

/-! ## `src/util_init.cpp`: `Util::getCoordHostAndPort`, `Util::setCoordPort` -/

/-- The constants and the library function that `Util::getCoordHostAndPort`
takes from headers that are not among the sources. -/
structure CoordConfig where
  DEFAULT_HOST : Bytes
  DEFAULT_PORT : Int
  UNINITIALIZED_PORT : Int
  /-- Flag `COORD_NEW` of `CoordinatorMode`. -/
  COORD_NEW : Nat
  /-- Value `COORD_ANY` of `CoordinatorMode`. -/
  COORD_ANY : Nat
  /-- `jalib::StringToInt`. -/
  StringToInt : Bytes → Int

/-- What `getenv` returns for the four variables that
`Util::getCoordHostAndPort` reads, `none` for `NULL`. -/
structure CoordEnv where
  /-- `getenv(ENV_VAR_NAME_HOST)`, the variable `DMTCP_COORD_HOST`. -/
  coordHost : Option Bytes
  /-- `getenv("DMTCP_HOST")`. -/
  host : Option Bytes
  /-- `getenv(ENV_VAR_NAME_PORT)`, the variable `DMTCP_COORD_PORT`. -/
  coordPort : Option Bytes
  /-- `getenv("DMTCP_PORT")`. -/
  port : Option Bytes

/-- What `Util::getCoordHostAndPort` asks of `SharedData`. -/
structure SharedData where
  initialized : Bool
  coordHost : Bytes
  coordPort : Int

/-- The static variables of `Util::getCoordHostAndPort`. -/
structure CoordCache where
  _firstTime : Bool
  _cachedHost : Bytes
  _cachedPort : Int
  deriving DecidableEq, Repr

/-- The static variables before the first call. -/
def CoordCache.init : CoordCache := ⟨true, [], 0⟩

/-- Function `Util::getCoordHostAndPort(mode, host, port)`: the values left in
`host` and `*port`, and the static variables after the call. -/
def getCoordHostAndPort (cfg : CoordConfig) (sd : SharedData) (env : CoordEnv) (s : CoordCache)
    (mode : Nat) (host : Bytes) (port : Int) : Bytes × Int × CoordCache :=
  if sd.initialized then (sd.coordHost, sd.coordPort, s)
  else if s._firstTime then
    let (host, cachedHost) :=
      if host = [] then
        match env.coordHost with
        | some h => (h, h)
        | none =>
          match env.host with
          | some h => (h, h)
          | none => (cfg.DEFAULT_HOST, cfg.DEFAULT_HOST)
      else (host, upToNul host)
    let port :=
      if port = cfg.UNINITIALIZED_PORT then
        match env.coordPort with
        | some p => cfg.StringToInt p
        | none =>
          match env.port with
          | some p => cfg.StringToInt p
          | none => if mode &&& cfg.COORD_NEW ≠ 0 then 0 else cfg.DEFAULT_PORT
      else port
    (host, port, { _firstTime := false, _cachedHost := cachedHost, _cachedPort := port })
  else
    let cachedPort := if port > 0 ∧ s._cachedPort = 0 then port else s._cachedPort
    (s._cachedHost, cachedPort, { s with _cachedPort := cachedPort })

/-- Function `Util::setCoordPort(port)`: the static variables after the
call. -/
def setCoordPort (cfg : CoordConfig) (sd : SharedData) (env : CoordEnv) (s : CoordCache)
    (port : Int) : CoordCache :=
  (getCoordHostAndPort cfg sd env s cfg.COORD_ANY [] port).2.2

/-! ## `src/dmtcpmessagetypes.h`: the layout of `struct DmtcpMessage` -/

/-- The types of the fields of `struct DmtcpMessage`. -/
inductive FieldType
  /-- Type `char[n]`. -/
  | chars (n : Nat)
  | uint32_t
  | int32_t
  | uint64_t
  /-- An enumeration: `DmtcpMessageType`, `WorkerState::eWorkerState`. -/
  | enumeration
  | pid_t
  | in_addr
  /-- Class `UniquePid`. -/
  | UniquePid
  deriving DecidableEq, Repr

/-- The fields of `struct DmtcpMessage`, in the order of their declaration. -/
def DmtcpMessage.fieldDecls : List (String × FieldType) :=
  [("_magicBits", .chars 16), ("_msgSize", .uint32_t), ("extraBytes", .uint32_t),
    ("type", .enumeration), ("state", .enumeration), ("from", .UniquePid),
    ("compGroup", .UniquePid), ("virtualPid", .pid_t), ("realPid", .pid_t),
    ("nsid", .chars 8), ("keyLen", .uint32_t), ("valLen", .uint32_t), ("numPeers", .uint32_t),
    ("isRunning", .uint32_t), ("coordCmd", .uint32_t), ("coordCmdStatus", .int32_t),
    ("coordTimeStamp", .uint64_t), ("theCheckpointInterval", .uint32_t), ("ipAddr", .in_addr),
    ("uniqueIdOffset", .uint32_t), ("logMask", .uint32_t)]

/-- The size of a field in bytes: `UniquePid` is 24 bytes (spec, section 6),
an enumeration, a `pid_t` and an `in_addr` are 4 bytes. -/
def FieldType.size : FieldType → Nat
  | .chars n => n
  | .uint32_t => 4
  | .int32_t => 4
  | .uint64_t => 8
  | .enumeration => 4
  | .pid_t => 4
  | .in_addr => 4
  | .UniquePid => 24

/-- The alignment of a field, where a 64-bit integer is aligned to `a64`
bytes: 8 on 64-bit hosts, 4 on 32-bit x86.  `UniquePid` holds 64-bit
integers and is aligned as they are. -/
def FieldType.align (a64 : Nat) : FieldType → Nat
  | .chars _ => 1
  | .uint64_t => a64
  | .UniquePid => a64
  | _ => 4

/-- The least multiple of `a` that is not below `off`. -/
def alignUp (off a : Nat) : Nat := (off + a - 1) / a * a

/-- The fields laid out one after the other from the offset `off`, each at the
next multiple of its alignment: the name, offset and size of each. -/
def layoutFrom (a64 : Nat) : List (String × FieldType) → Nat → List (String × Nat × Nat)
  | [], _ => []
  | (name, t) :: rest, off =>
    (name, alignUp off (t.align a64), t.size) ::
      layoutFrom a64 rest (alignUp off (t.align a64) + t.size)

/-- The layout of `struct DmtcpMessage`. -/
def DmtcpMessage.layout (a64 : Nat) : List (String × Nat × Nat) :=
  layoutFrom a64 DmtcpMessage.fieldDecls 0

/-- The value of `sizeof(DmtcpMessage)`: the end of the last field, rounded up
to the largest alignment of a field. -/
def DmtcpMessage.sizeof (a64 : Nat) : Nat :=
  alignUp (((DmtcpMessage.layout a64).map fun f => f.2.1 + f.2.2).foldl max 0)
    ((DmtcpMessage.fieldDecls.map fun f => f.2.align a64).foldl max 1)

/-- Modelled from the spec: the wire-format table of section 6: offset and
size of each field. -/
def wireFormat : List (Nat × Nat) :=
  [(0, 16), (16, 4), (20, 4), (24, 4), (28, 4), (32, 24), (56, 24), (80, 4), (84, 4), (88, 8),
    (96, 4), (100, 4), (104, 4), (108, 4), (112, 4), (116, 4), (120, 8), (128, 4), (132, 4),
    (136, 4), (140, 4)]

/-! ## `src/plugin/ipc/socket/socketconnlist.cpp`, `src/plugin/ipc/file/fileconnlist.cpp`: the steps before the checkpoint -/

/-- A worker of the computation, as the steps before the checkpoint see it:
its `UniquePid` (as its rank in the order of `UniquePid`s), its registry, and,
for a connection given by its identifier, the kernel object that it names
(spec, section 4.4), `sockDomain()` and `checkpointed()`. -/
structure Peer where
  upid : Nat
  list : ConnList
  objectOf : Nat → Nat
  sockDomain : Nat → Int
  checkpointed : Nat → Bool

/-- What a worker does for a connection before the checkpoint. -/
inductive ConnAct
  /-- Call `((TcpConnection *)con)->sendPeerInformation()`. -/
  | sendPeerInformation (id : Nat)
  /-- Call `((TcpConnection *)con)->recvPeerInformation()`. -/
  | recvPeerInformation (id : Nat)
  /-- Call `((TcpConnection*)con)->doSendHandshakes(coordId)`. -/
  | doSendHandshakes (id : Nat)
  /-- Call `((TcpConnection*)con)->doRecvHandshakes(coordId)`. -/
  | doRecvHandshakes (id : Nat)
  /-- The line of `fd-info.txt` written for a file connection. -/
  | writeFdInfo (id : Nat)
  deriving DecidableEq, Repr

/-- The connection that an act is for. -/
def ConnAct.conn : ConnAct → Nat
  | .sendPeerInformation id => id
  | .recvPeerInformation id => id
  | .doSendHandshakes id => id
  | .doRecvHandshakes id => id
  | .writeFdInfo id => id

/-- Modelled from the spec: the order of the election of section 4.4, "lowest
ConnectionIdentifier wins; ties broken by lowest UniquePid", on pairs of a
connection identifier and a `UniquePid`. -/
def electBefore (a b : Nat × Nat) : Bool := a.1 < b.1 || (a.1 == b.1 && a.2 ≤ b.2)

/-- Modelled from the spec: `Connection::checkLocking()`, not among the
sources, which sets `_hasLock`: the worker is the leader of the connection
(section 4.4) when no connection of a worker of the computation that names the
same kernel object comes before it in the order of the election. -/
def checkLocking (comp : List Peer) (p : Peer) (con : Connection) : Connection :=
  { con with hasLock := comp.all fun q => q.list.conns.all fun d =>
      !(q.objectOf d.id == p.objectOf con.id) || electBefore (con.id, p.upid) (d.id, q.upid) }

/-- Function `SocketConnList::preCkptRegisterNSData`, run by the worker `p` of
the computation `comp`: the connections after the loop, and the calls of
`sendPeerInformation` made. -/
def SocketConnList_preCkptRegisterNSData (comp : List Peer) (p : Peer) :
    List Connection × List ConnAct :=
  p.list.conns.foldl
    (fun (acc : List Connection × List ConnAct) con =>
      let con := checkLocking comp p con
      if con.hasLock && con.conType == .TCP then
        (acc.1 ++ [con], acc.2 ++ [.sendPeerInformation con.id])
      else (acc.1 ++ [con], acc.2))
    ([], [])

/-- Function `SocketConnList::preCkptSendQueries`: the calls made. -/
def SocketConnList_preCkptSendQueries (conns : List Connection) : List ConnAct :=
  (conns.filter fun con => con.hasLock && con.conType == .TCP).map
    fun con => .recvPeerInformation con.id

/-- Domain `AF_UNIX` of Linux. -/
abbrev AF_UNIX : Int := 1

/-- Domain `AF_INET` of Linux. -/
abbrev AF_INET : Int := 2

/-- Domain `AF_INET6` of Linux. -/
abbrev AF_INET6 : Int := 10

/-- Function `SocketConnList::preCkpt`: the calls made, and the values left in
`_hasIPv4Sock`, `_hasIPv6Sock` and `_hasUNIXSock`. -/
def SocketConnList_preCkpt (p : Peer) (conns : List Connection) :
    List ConnAct × Bool × Bool × Bool :=
  let locked := conns.filter fun con => con.hasLock && con.conType == .TCP
  (locked.map (fun con => .doSendHandshakes con.id) ++
      locked.map (fun con => .doRecvHandshakes con.id),
    locked.any (fun con => p.sockDomain con.id == AF_INET),
    locked.any (fun con => p.sockDomain con.id == AF_INET6),
    locked.any (fun con => p.sockDomain con.id ≠ AF_INET && p.sockDomain con.id ≠ AF_INET6 &&
      p.sockDomain con.id == AF_UNIX))

/-- The loop of `FileConnList::preCkpt`: the lines of `fd-info.txt` written. -/
def FileConnList_preCkpt (p : Peer) (conns : List Connection) : List ConnAct :=
  (conns.filter fun con =>
    con.hasLock && con.conType == .FILE && p.checkpointed con.id).map
      fun con => .writeFdInfo con.id

/-! ## Vocabulary for the statements about the checkpoint thread -/

/-- Keeps every event but the receipt of a `DMT_UPDATE_LOGGING` message. -/
def notLog (e : Event) : Bool := decide (e ≠ Event.recv DMT_UPDATE_LOGGING)

/-- Events of `waitForStage1Suspend`, receipts of `DMT_UPDATE_LOGGING` left out. -/
def stage1Skeleton : List Event :=
  [.setState .RUNNING, .fakeSyscall, .recv DMT_DO_SUSPEND, .acquireLocks]

/-- Events of `waitForStage2Checkpoint`, receipts of `DMT_UPDATE_LOGGING` left out. -/
def stage2Skeleton : List Event :=
  [.setState .SUSPENDED, .destroyDmtcpWorkerLockUnlock, .releaseLocks, .prepareForCkpt,
   .hook .THREADS_SUSPEND,
   .send DMT_OK .SUSPENDED, .recv DMT_DO_FD_LEADER_ELECTION,
   .hook .LEADER_ELECTION, .setState .FD_LEADER_ELECTION,
   .send DMT_OK .FD_LEADER_ELECTION, .recv DMT_DO_PRE_CKPT_NAME_SERVICE_DATA_REGISTER,
   .hook .PRE_CKPT_NAME_SERVICE_DATA_REGISTER, .setState .PRE_CKPT_NAME_SERVICE_DATA_REGISTER,
   .send DMT_OK .PRE_CKPT_NAME_SERVICE_DATA_REGISTER,
   .recv DMT_DO_PRE_CKPT_NAME_SERVICE_DATA_QUERY,
   .hook .PRE_CKPT_NAME_SERVICE_DATA_QUERY, .setState .PRE_CKPT_NAME_SERVICE_DATA_QUERY,
   .send DMT_OK .PRE_CKPT_NAME_SERVICE_DATA_QUERY, .recv DMT_DO_DRAIN,
   .setState .DRAINED, .hook .DRAIN,
   .send DMT_OK .DRAINED, .recv DMT_DO_CHECKPOINT,
   .hook .WRITE_CKPT, .writeCkpt]

/-- Events of `waitForStage3Refill`, receipts of `DMT_UPDATE_LOGGING` left out. -/
def stage3Skeleton : List Event :=
  [.setState .CHECKPOINTED,
   .send DMT_OK .CHECKPOINTED, .recv DMT_DO_REGISTER_NAME_SERVICE_DATA,
   .hook .REGISTER_NAME_SERVICE_DATA, .setState .NAME_SERVICE_DATA_REGISTERED,
   .send DMT_OK .NAME_SERVICE_DATA_REGISTERED, .recv DMT_DO_SEND_QUERIES,
   .hook .SEND_QUERIES, .setState .DONE_QUERYING,
   .send DMT_OK .DONE_QUERYING, .recv DMT_DO_REFILL,
   .hook .REFILL]

/-- Events of `waitForStage4Resume`, receipts of `DMT_UPDATE_LOGGING` left out. -/
def stage4Skeleton : List Event :=
  [.setState .REFILLED, .send DMT_OK .REFILLED, .recv DMT_DO_RESUME, .hook .THREADS_RESUME]

/-- Events of one returned checkpoint cycle, receipts of `DMT_UPDATE_LOGGING`
left out. -/
def cycleSkeleton : List Event :=
  stage1Skeleton ++ stage2Skeleton ++ stage3Skeleton ++ stage4Skeleton

/-- The process state after the receive loop has taken the messages `logs`,
all of them `DMT_UPDATE_LOGGING`, leaving `rest` on the link. -/
def afterLogs (logs rest : List Incoming) (w : Worker) : Worker :=
  { w with
    inbox := rest
    exitInProgress := w.exitInProgress || logs.any (fun l => l.exitRequested)
    logMask := (logs.getLast?.map (fun l => l.msg.logMask)).getD w.logMask
    trace := w.trace ++ List.replicate logs.length (Event.recv DMT_UPDATE_LOGGING) }

/-- The status report `waitForCoordinatorMsg(T)` makes before it waits: the
dummy syscall for `DMT_DO_SUSPEND`, a `DMT_OK` with the current state for every
other type. -/
def report (T : Nat) (w : Worker) : Event :=
  if T = DMT_DO_SUSPEND then .fakeSyscall else .send DMT_OK w.currentState

/-- The process state when `waitForCoordinatorMsg(T)` starts to wait: for
`DMT_DO_SUSPEND` the destroy-worker lock has been taken; the report is made. -/
def entered (T : Nat) (w : Worker) : Worker :=
  emit (report T w) (if T = DMT_DO_SUSPEND then { w with destroyDmtcpWorkerLock := true } else w)

/-- A valid message of type `t` from the computation group `(1, 2, 3)`. -/
def sampleMsg (t : Nat) : DmtcpMessage :=
  { magicBits := DMTCP_MAGIC, msgSize := DMTCP_MSG_SIZE, extraBytes := 0, type := t,
    state := 0, compGroup := ⟨1, 2, 3, 7⟩, numPeers := 4, logMask := 0 }

/-- A link item carrying `sampleMsg t`, with no payload and no exit requested. -/
def sampleIn (t : Nat) : Incoming := ⟨sampleMsg t, [], false⟩

/-- A running worker of computation `(1, 2, 3)` with a coordinator, the lock
free, no exit in progress, and `inbox` on its link. -/
def sampleWorker (inbox : List Incoming) : Worker :=
  { noCoordinator := false, shmFile := [47], currentState := .RUNNING,
    exitInProgress := false, destroyDmtcpWorkerLock := false, logMask := 0,
    generation := 0, compId := (1, 2, 3), ckptDir := [], compGroup := ⟨1, 2, 3, 0⟩,
    numPeers := 1, inbox := inbox, trace := [] }

/-- The ten stage commands of one cycle, as the coordinator broadcasts them. -/
def cycleCommands : List Nat :=
  [DMT_DO_SUSPEND, DMT_DO_FD_LEADER_ELECTION, DMT_DO_PRE_CKPT_NAME_SERVICE_DATA_REGISTER,
   DMT_DO_PRE_CKPT_NAME_SERVICE_DATA_QUERY, DMT_DO_DRAIN, DMT_DO_CHECKPOINT,
   DMT_DO_REGISTER_NAME_SERVICE_DATA, DMT_DO_SEND_QUERIES, DMT_DO_REFILL, DMT_DO_RESUME]

/-- The worker's conversation on the coordinator link: the sends and receipts
of a trace, in order. -/
def conversation (tr : List Event) : List Event :=
  tr.filter fun e => match e with
    | .send _ _ => true
    | .recv _ => true
    | _ => false

/-- The values given to `WorkerState::setCurrentState`, in order. -/
def assignedStates (tr : List Event) : List eWorkerState :=
  tr.filterMap fun e => match e with
    | .setState s => some s
    | _ => none

/-- The sends of a trace, in order. -/
def sends (tr : List Event) : List Event :=
  tr.filter fun e => match e with
    | .send _ _ => true
    | _ => false

/-- Events that are neither a send to the coordinator, nor an event hook, nor
an assignment of the WorkerState. -/
def silent (e : Event) : Bool :=
  match e with
  | .send _ _ => false
  | .hook _ => false
  | .setState _ => false
  | _ => true

/-- A `DMT_UPDATE_LOGGING` message setting the log mask to `n`. -/
def logMsg (n : Nat) : Incoming := ⟨{ sampleMsg DMT_UPDATE_LOGGING with logMask := n }, [], false⟩

/-- An outcome is a return to the caller. -/
def Outcome.isReturned : Outcome → Bool
  | .returned _ => true
  | _ => false

/-- An outcome is a failed assertion. -/
def Outcome.isAssertFailed : Outcome → Bool
  | .assertFailed _ => true
  | _ => false

/-! ## Vocabulary for the statements about `readAndSetEnv` -/

/-- Bytes with no meaning of their own in the `switch` of `readAndSetEnv`:
they take the `default` case. -/
def plainByte (x : Nat) : Prop :=
  x ≠ readEOF ∧ x ≠ 10 ∧ x ≠ 32 ∧ x ≠ 9 ∧ x ≠ 35 ∧ x ≠ 61 ∧ x ≠ 92 ∧ x ≠ 34 ∧ x ≠ 36

/-- The locals after the bytes `t` have been copied to `dest` one by one. -/
def Locals.copied (s : Locals) (t : Bytes) : Locals :=
  { s.setDestMem (blit s.destMem s.destOff t) with
    c := s.c + t.length, destOff := s.destOff + t.length }

/-- The locals after `*dest++ = *c++` has stored the byte `x`. -/
def Locals.put (s : Locals) (x : Nat) : Locals :=
  { s.setDestMem (Function.update s.destMem s.destOff x) with
    destOff := s.destOff + 1, c := s.c + 1 }

/-- The locals at the start of a line: `dest` at the start of `nameBuf`, not
in a string. -/
def Locals.atLineStart (s : Locals) : Prop :=
  s.destRegion = .nameBuf ∧ s.destOff = 0 ∧ s.isStringMode = false

/-- A name or value as the env-file grammar has them: not empty, shorter than
999 bytes, no whitespace that the reader acts on, none of `#`, `"`, `\`, `$`,
`=`, no EOF sentinel and no NUL. -/
def okText (t : Bytes) : Prop :=
  t ≠ [] ∧ t.length < BUF_SIZE - 1 ∧ ∀ x ∈ t, plainByte x ∧ x ≠ 0

/-- A line whose name, and value if it has one, are `okText`. -/
def okLine : EnvAction → Prop
  | .set n v => okText n ∧ okText v
  | .unset n => okText n

/-- The bytes of `nameChanged` that hold the names `names`: each name and its
NUL. -/
def encodeNames (names : List Bytes) : Bytes := (names.map (· ++ [0])).flatten

/-- The array `nameChanged` holds exactly the names `names`, one after the
other from its start up to `nameChanged_end`. -/
def Layout (s : Locals) (names : List Bytes) : Prop :=
  s.nameChanged_end = (encodeNames names).length ∧
  s.nameChanged_end ≤ NAME_CHANGED_SIZE ∧
  (∀ i, i < s.nameChanged_end → s.nameChanged i = (encodeNames names).getD i 0) ∧
  ∀ n ∈ names, ∀ x ∈ n, x ≠ 0

/-- The two sets of locals have the same `nameChanged` and `nameChanged_end`. -/
def SameRecord (s s' : Locals) : Prop :=
  s'.nameChanged = s.nameChanged ∧ s'.nameChanged_end = s.nameChanged_end

/-- The environment of spec scenario 5 before restart: `HOME=/old`,
`EDITOR=vi`. -/
def sampleEnv : Env := fun n =>
  if n = str "HOME" then some (str "/old")
  else if n = str "EDITOR" then some (str "vi")
  else none

/-- A restart environment with no variable at all. -/
def emptyEnv : Env := fun _ => none

/-- The env file of spec scenario 5, followed by the EOF sentinel and the
zero bytes of the mapped buffer: `HOME=/new`, `HOST="a b"`, `EDITOR`,
`FOO=$HOME/x`. -/
def scenarioFile : Bytes :=
  str "HOME=/new\nHOST=\"a b\"\nEDITOR\nFOO=$HOME/x\n" ++ [readEOF, 0, 0]

/-! ## Vocabulary for the grammar of the environment file -/

/-- From the locals `s` and the environment `e` the loop of `readAndSetEnv`
comes, after some passes, to the locals `s'` and the environment `e'`. -/
def Reaches (R : Env) (buf : Bytes) (s : Locals) (e : Env) (s' : Locals) (e' : Env) : Prop :=
  ∃ n, ∀ fuel, readLoop R buf (fuel + n) s e = readLoop R buf fuel s' e'

/-- The bytes `t` stand in `buf` from index `c` on. -/
def At (buf : Bytes) (c : Nat) (t : Bytes) : Prop :=
  ∀ k, k < t.length → buf[c + k]? = some (t.getD k 0)

/-- The locals after the bytes `t` have been stored through `dest` while `c`
moved on by `n`. -/
def Locals.wrote (s : Locals) (t : Bytes) (n : Nat) : Locals :=
  { s.setDestMem (blit s.destMem s.destOff t) with
    c := s.c + n, destOff := s.destOff + t.length }

/-- Bytes that are copied as they are inside a string `"…"`: all but the EOF
sentinel, `=`, the backslash, `"` and `$`. -/
def quotedByte (x : Nat) : Prop :=
  x ≠ readEOF ∧ x ≠ 61 ∧ x ≠ 92 ∧ x ≠ 34 ∧ x ≠ 36

/-- A piece of a name or value of the env file. -/
inductive Tok
  /-- A byte that stands for itself. -/
  | plain (x : Nat)
  /-- A backslash followed by the byte `x`. -/
  | esc (x : Nat)
  /-- The bytes `t` between two `"`. -/
  | quoted (t : Bytes)
  deriving DecidableEq, Repr

/-- The bytes of the piece in the file. -/
def Tok.render : Tok → Bytes
  | .plain x => [x]
  | .esc x => [92, x]
  | .quoted t => 34 :: (t ++ [34])

/-- The bytes the spec has the piece stand for (section 6, restart env file):
itself, the escaped byte, the text between the quotes. -/
def Tok.text : Tok → Bytes
  | .plain x => [x]
  | .esc x => [x]
  | .quoted t => t

/-- The piece is well formed. -/
def Tok.ok : Tok → Prop
  | .plain x => plainByte x
  | .esc _ => True
  | .quoted t => ∀ x ∈ t, quotedByte x

/-- The bytes of a sequence of pieces in the file. -/
def renderToks (ts : List Tok) : Bytes := (ts.map Tok.render).flatten

/-- The bytes a sequence of pieces stands for. -/
def textOf (ts : List Tok) : Bytes := (ts.map Tok.text).flatten

/-- What may stand between the last piece of a line and its newline: nothing,
or a space, a tab or a `#` followed by bytes other than the newline and the EOF
sentinel. -/
def okTail : Bytes → Prop
  | [] => True
  | w :: rest => (w = 32 ∨ w = 9 ∨ w = 35) ∧ ∀ x ∈ rest, x ≠ 10 ∧ x ≠ readEOF

/-- A line of the env file: the pieces of its name, those of its value if it
has a `=`, and what stands between the last piece and the newline. -/
structure Line where
  name : List Tok
  value : Option (List Tok)
  tail : Bytes

/-- The bytes of the line in the file, its newline included. -/
def Line.render (l : Line) : Bytes :=
  renderToks l.name ++
    ((match l.value with
      | some v => 61 :: renderToks v
      | none => []) ++ (l.tail ++ [10]))

/-- The change the spec has the line make (section 6, restart env file):
`NAME=VALUE` sets, `NAME` alone unsets. -/
def Line.action (l : Line) : EnvAction :=
  match l.value with
  | some v => .set (textOf l.name) (textOf v)
  | none => .unset (textOf l.name)

/-- Pieces that are well formed and whose text is shorter than 999 bytes and
holds no NUL. -/
def okToks (ts : List Tok) : Prop :=
  (∀ t ∈ ts, t.ok) ∧ (textOf ts).length < BUF_SIZE - 1 ∧ ∀ x ∈ textOf ts, x ≠ 0

/-- A well-formed line: its name is not empty. -/
def Line.ok (l : Line) : Prop :=
  okToks l.name ∧ textOf l.name ≠ [] ∧ (∀ v, l.value = some v → okToks v) ∧ okTail l.tail

/-- The bytes of a run of comment and blank lines. -/
def renderJunk (js : List Bytes) : Bytes := (js.map (· ++ [10])).flatten

/-- The bytes of a file of lines. -/
def renderLines (ls : List Line) : Bytes := (ls.map Line.render).flatten

/-- Bytes that `nameChanged` needs for the names of the lines. -/
def linesSize (ls : List Line) : Nat := (ls.map fun l => (textOf l.name).length + 1).sum

/-- The line of the plain file format as a line of pieces: every byte a piece
of its own, nothing before the newline. -/
def EnvAction.toLine : EnvAction → Line
  | .set n v => ⟨n.map .plain, some (v.map .plain), []⟩
  | .unset n => ⟨n.map .plain, none, []⟩

/-- The bytes of a line of the plain file format without its newline. -/
def EnvAction.body : EnvAction → Bytes
  | .set n v => n ++ 61 :: v
  | .unset n => n

/-- A line of the plain file format together with what is added to it: the
bytes put after its last token (such as ` # text`) and the comment and blank
lines put after it. -/
structure Decorated where
  line : EnvAction
  tail : Bytes
  after : List Bytes

/-- The bytes of a line with what is added to it. -/
def Decorated.render (d : Decorated) : Bytes :=
  d.line.body ++ (d.tail ++ 10 :: renderJunk d.after)

/-- The env file: comment and blank lines, then the lines with what is added
to each. -/
def renderDecorated (lead : List Bytes) (ds : List Decorated) : Bytes :=
  renderJunk lead ++ (ds.map Decorated.render).flatten

/-- Bytes of `nameChanged` that the file uses: for each line its name and a
NUL, and one more byte when comment or blank lines follow it. -/
def decoratedSize (ds : List Decorated) : Nat :=
  (ds.map fun d => d.line.name.length + 1 + if d.after = [] then 0 else 1).sum

/-- The line and what is added to it are well formed: the added lines are
empty or start with `#`, a space or a tab, and no added text holds a newline
or the EOF sentinel. -/
def Decorated.ok (d : Decorated) : Prop :=
  okLine d.line ∧ okTail d.tail ∧ ∀ j ∈ d.after, okTail j

/-- The example of the comment at the head of `modify-env.c`: the lines
`HOME=me # new value of HOME`, followed by a blank line, and
`EDITOR  # if no '='`. -/
def sampleDecorated : List Decorated :=
  [⟨.set (str "HOME") (str "me"), str " # new value of HOME", [[]]⟩,
   ⟨.unset (str "EDITOR"), str "  # if no '='", []⟩]

/-! ## Vocabulary for the statements about the registries -/

/-- The identifiers of the connections of a registry are all different and
below the identifier of the next new connection. -/
def ConnList.wf (l : ConnList) : Prop :=
  (l.conns.map (·.id)).Nodup ∧ ∀ c ∈ l.conns, c.id < l.nextId

/-- The number of connections of the registry that have `fd` in their FD
list. -/
def ConnList.holders (l : ConnList) (fd : Int) : Nat :=
  (l.conns.filter fun c => decide (fd ∈ c.fds)).length

/-- The path that `processFileConnection` classifies: the device name of the FD
when no path is given, else the path with a symbolic link resolved, as a C
string. -/
def resolvedPath (os : Os) (fd : Int) (path : Option Bytes) : Bytes :=
  upToNul (resolveDevice os fd path)

/-- The kind and subtype that claim C16 gives to a resolved path and a stat
mode, rule by rule, the first rule that matches winning; `none` where the claim
has an assertion fail. `bq` is what `dmtcp_is_bq_file` says of the path. -/
def classOf (path : Bytes) (st_mode : Nat) (bq : Bool) : Option (ConnectionType × SubType) :=
  if path = str "/dev/tty" then some (.PTY, .PTY_DEV_TTY)
  else if path = str "/dev/pty" then none
  else if strStartsWith path (str "/dev/pty") then some (.PTY, .PTY_BSD_MASTER)
  else if strStartsWith path (str "/dev/tty") then some (.PTY, .PTY_BSD_SLAVE)
  else if path = str "/dev/ptmx" ∨ path = str "/dev/pts/ptmx" then some (.PTY, .PTY_MASTER)
  else if strStartsWith path (str "/dev/pts/") then some (.PTY, .PTY_SLAVE)
  else if S_ISREG st_mode || S_ISCHR st_mode || S_ISDIR st_mode || S_ISBLK st_mode then
    some (.FILE, if bq then .FILE_BATCH_QUEUE else .FILE_REGULAR)
  else if S_ISFIFO st_mode then some (.FIFO, .NONE)
  else none

/-- The test of the PBS workaround in `FileConnList::scanForPreExisting`. -/
def pbsEnviron (os : Os) (device : Bytes) : Bool :=
  os.pbsJobId && strStartsWith device (str "/proc") && strEndsWith device (str "environ")

/-- What `FileConnList::scanForPreExisting` does with an FD. -/
inductive Branch
  /-- No connection is made for the FD. -/
  | skipped
  /-- The FD is a controlling terminal: it joins or gets a `PtyConnection`. -/
  | ctty
  /-- The FD is handled as a file: it joins the connection of a duplicate or goes
  to `processFileConnection`. -/
  | file
  /-- The FD gets a `StdioConnection`. -/
  | stdio
  deriving DecidableEq, Repr

/-- The branch of `FileConnList::scanForPreExisting` that an FD takes: the FD
is passed over when it is not valid or is protected; else its device is the
controlling terminal or that of the parent; else it is a batch-queue file;
else it is one of the FDs 0 to 2; else it is passed over as a
`/proc/.../environ` file under PBS; else its device name starts with `/`; any
other FD is passed over. -/
def branchOf (os : Os) (fd : Int) : Branch :=
  if !(os.fdInfo fd).valid || (os.fdInfo fd).protectedFd then .skipped
  else if (os.fdInfo fd).device = os.ctty ∨ (os.fdInfo fd).device = os.parentCtty then .ctty
  else if isBq os (upToNul (os.fdInfo fd).device) then .file
  else if fd ≤ 2 then .stdio
  else if pbsEnviron os (os.fdInfo fd).device then .skipped
  else if strStartsWith (os.fdInfo fd).device (str "/") then .file
  else .skipped

/-- The test `S_ISREG || S_ISCHR || S_ISDIR || S_ISBLK` of the scan. -/
def isRegularFile (st_mode : Nat) : Bool :=
  S_ISREG st_mode || S_ISCHR st_mode || S_ISDIR st_mode || S_ISBLK st_mode

/-- The subtype that the scan gives the controlling terminal of the
process, respectively of its parent. -/
def cttyTypeOf (os : Os) (fd : Int) : SubType :=
  if (os.fdInfo fd).device = os.ctty then .PTY_CTTY else .PTY_PARENT_CTTY

/-- What the scan does with the connection of a controlling terminal. -/
def scanCtty (os : Os) (l : ConnList) (fd : Int) : Except Failure ConnList :=
  match l.conns.find? (fun c => c.subType == cttyTypeOf os fd && c.path == (os.fdInfo fd).device) with
  | some c =>
    match c.fds.head? with
    | none => .error .noFd
    | some fd0 => .ok (l.processDup fd0 fd)
  | none =>
    .ok (l.addNew fd { PtyConnection (upToNul (os.fdInfo fd).device) (-1) (-1) (cttyTypeOf os fd) with
      preExistingCTTY := true })

/-- The FD `fd` has joined a connection of the registry or got a new one. -/
def Joined (l : ConnList) (fd : Int) (l' : ConnList) : Prop :=
  (∃ c ∈ l.conns, l' = l.add fd c) ∨ (∃ c, c.fds = [] ∧ l' = l.addNew fd c)

/-- FDs on the same underlying file: the same device and inode. -/
def sameFile (os : Os) (a b : Int) : Prop :=
  (os.fdInfo a).devnum = (os.fdInfo b).devnum ∧ (os.fdInfo a).inode = (os.fdInfo b).inode

/-- An FD that the scan handles as a file, whose file is regular, character,
directory or block, and that `processFileConnection` classifies as a file. -/
def fileClass (os : Os) (fd : Int) : Prop :=
  branchOf os fd = .file ∧
    ∃ m t, (os.fdInfo fd).st_mode = some m ∧ isRegularFile m = true ∧
      classOf (resolvedPath os fd (some (upToNul (os.fdInfo fd).device))) m
        (isBq os (resolvedPath os fd (some (upToNul (os.fdInfo fd).device)))) = some (.FILE, t)

/-- What holds of the registry while `FileConnList::scanForPreExisting`, begun
on the empty registry, has gone through the FDs `processed`. -/
structure ScanInv (os : Os) (processed : List Int) (l : ConnList) : Prop where
  wf : l.wf
  fds_ne : ∀ c ∈ l.conns, c.fds ≠ []
  fds_proc : ∀ c ∈ l.conns, ∀ x ∈ c.fds, x ∈ processed
  once : ∀ x, l.holders x ≤ 1
  same : ∀ c ∈ l.conns, c.conType = .FILE → ∀ x ∈ c.fds, checkDup os c x = true
  uniq : ∀ c1 ∈ l.conns, ∀ c2 ∈ l.conns, c1.conType = .FILE → c2.conType = .FILE →
    ∀ x ∈ c2.fds, checkDup os c1 x = true → c1 = c2
  held : ∀ x ∈ processed, fileClass os x → ∃ c ∈ l.conns, c.conType = .FILE ∧ x ∈ c.fds
  notCtty : ∀ c ∈ l.conns, c.conType = .FILE →
    c.subType ≠ .PTY_CTTY ∧ c.subType ≠ .PTY_PARENT_CTTY

/-- The FDs for which `SocketConnList::scanForPreExisting` makes a
`TcpConnection`: valid, not protected, the device not the controlling
terminal and not a batch-queue file, the FD above 2, the device name not
starting with `/`. -/
def socketTakes (os : Os) (fd : Int) : Bool :=
  (os.fdInfo fd).valid && !(os.fdInfo fd).protectedFd &&
    !decide ((os.fdInfo fd).device = os.ctty) && !isBq os (upToNul (os.fdInfo fd).device) &&
    !decide (fd ≤ 2) && !strStartsWith (os.fdInfo fd).device (str "/")

/-- The areas that `prepareShmList` looks at further: `MAP_SHARED`, a
protection other than 0, not a DMTCP-internal, NSCD, InfiniBand or SysV
region. -/
def shmCandidate (os : ShmOs) (a : ProcMapsArea) : Bool :=
  decide (a.flags &&& MAP_SHARED ≠ 0) && decide (a.prot ≠ 0) && !isInternalName a.name &&
    !(os.isNscdArea a || os.isIBShmArea a || os.isSysVShmArea a)

/-- The areas that claim C19 has appended to `shmAreas`: a remaining area
whose backing file exists and is writable. -/
def isBlankedArea (os : ShmOs) (fileExists : Bytes → Bool) (a : ProcMapsArea) : Bool :=
  shmCandidate os a && fileExists a.name && os.accessW a.name

/-- The areas that claim C19 has appended to `unlinkedShmAreas`: a remaining
area whose file does not exist and whose name ends with the deleted suffix and
does not start with the `/dev/zero` or `/dev/null` deleted name. -/
def isUnlinkedArea (os : ShmOs) (fileExists : Bytes → Bool) (a : ProcMapsArea) : Bool :=
  shmCandidate os a && !fileExists a.name && strEndsWith a.name os.DELETED_FILE_SUFFIX &&
    !(strStartsWith a.name os.DEV_ZERO_DELETED_STR || strStartsWith a.name os.DEV_NULL_DELETED_STR)

/-- The area with the deleted suffix stripped from its name. -/
def stripDeleted (os : ShmOs) (a : ProcMapsArea) : ProcMapsArea :=
  { a with name := a.name.take (a.name.length - os.DELETED_FILE_SUFFIX.length) }

/-- The calls of `_real_mmap` among the calls made. -/
def mmapsOf (trace : List SysEvent) : List SysEvent :=
  trace.filter fun e => match e with
    | .mmap _ _ _ _ _ _ => true
    | _ => false

/-- The mapping that `prepareShmList` puts in the place of an area. -/
def blankMapping (a : ProcMapsArea) : SysEvent :=
  .mmap a.addr a.size PROT_NONE (MAP_PRIVATE ||| MAP_ANONYMOUS ||| MAP_FIXED) (-1) 0

/-- The FDs that the calls of `_real_open` among the calls made returned. -/
def opensOf (trace : List SysEvent) : List Int :=
  trace.filterMap fun e => match e with
    | .openFile _ _ fd => some fd
    | _ => none

/-- What `prepareShmList` has made of the state `st0`, with its four lists
emptied, when it has gone through the areas `done`: `news` are the
connections made, `evs` the calls made. -/
structure ShmPrepared (os : ShmOs) (st0 : FileState) (done : List ProcMapsArea)
    (st : FileState) (news : List Connection) (evs : List SysEvent) : Prop where
  fileExists : st.fileExists = st0.fileExists
  virtPtyId : st.virtPtyId = st0.virtPtyId
  shmAreas : st.shmAreas = done.filter (isBlankedArea os st0.fileExists)
  unlinked : st.unlinkedShmAreas =
    (done.filter (isUnlinkedArea os st0.fileExists)).map (stripDeleted os)
  missing : st.missingUnlinkedShmFiles = []
  wf : st.list.wf
  conns : st.list.conns = st0.list.conns ++ news
  ids : news.map (·.id) = st.shmAreaConn
  kinds : news.map (fun c => (c.conType, c.subType, c.path)) =
    (done.filter (isBlankedArea os st0.fileExists)).map fun a => (.FILE, .FILE_SHM, a.name)
  fds : news.map (·.fds) = (opensOf evs).map fun fd => [fd]
  trace : st.trace = st0.trace ++ evs
  mmaps : mmapsOf evs =
    (done.filter (isBlankedArea os st0.fileExists)).map blankMapping

/-- What a call does to a shared-memory area or its file, the FD left out. -/
inductive ShmAct
  /-- Call `_real_mmap(addr, size, prot, flags, fd, offset)`. -/
  | remap (addr size prot flags offset : Nat)
  /-- Call `Util::createDirectoryTree(name)`, with which `recreateShmFileAndMap`
  begins. -/
  | recreate (name : Bytes)
  /-- Call `Util::writeAll(fd, addr, size)`. -/
  | populate (addr size : Nat)
  /-- Call `unlink(name)`. -/
  | unlink (name : Bytes)
  deriving DecidableEq, Repr

/-- The act of a call, if it is one on a shared-memory area or its file. -/
def SysEvent.act : SysEvent → Option ShmAct
  | .mmap a s p f _ o => some (.remap a s p f o)
  | .createDirectoryTree n => some (.recreate n)
  | .writeAll _ a s => some (.populate a s)
  | .unlink n => some (.unlink n)
  | _ => none

/-- The acts among the calls made. -/
def actsOf (trace : List SysEvent) : List ShmAct := trace.filterMap SysEvent.act

/-- The mapping that restores an area: its address, size, protection, flags
and offset. -/
def restoreAct (a : ProcMapsArea) : ShmAct :=
  .remap a.addr a.size a.prot (MAP_FIXED ||| a.flags) a.offset

/-- The state `st'` is `st` after the calls `evs`, but for the list
`missingUnlinkedShmFiles`, which may have grown, and the files on disk. -/
structure ShmFrame (st st' : FileState) (evs : List SysEvent) : Prop where
  list : st'.list = st.list
  shmAreas : st'.shmAreas = st.shmAreas
  unlinked : st'.unlinkedShmAreas = st.unlinkedShmAreas
  shmAreaConn : st'.shmAreaConn = st.shmAreaConn
  virtPtyId : st'.virtPtyId = st.virtPtyId
  trace : st'.trace = st.trace ++ evs

/-- The acts of `recreateShmFileAndMap` on an area. -/
def recreateActs (a : ProcMapsArea) : List ShmAct :=
  [.recreate a.name, .populate a.addr a.size, restoreAct a]

/-- The connection of identifier `id` is in the registry and `fd` is its only
FD. -/
def HoldsOnly (l : ConnList) (id : Nat) (fd : Int) : Prop :=
  ∃ c ∈ l.conns, c.id = id ∧ c.fds = [fd]

/-- The open FDs of a sample process: 0, 1 and 2 on the terminal `/dev/pts/3`,
3 and 4 opened on the same regular file `/tmp/log`, 5 on `/dev/pts/ptmx`, 6 a
socket, 7 and 8 opened on the same FIFO `/tmp/fifo`, 9 on `/dev/pty`. -/
def sampleFdInfo (fd : Int) : FdInfo :=
  if fd = 0 ∨ fd = 1 ∨ fd = 2 then ⟨true, false, some 0o020620, str "/dev/pts/3", 12, 6⟩
  else if fd = 3 ∨ fd = 4 then ⟨true, false, some 0o100644, str "/tmp/log", 8, 100⟩
  else if fd = 5 then ⟨true, false, some 0o020666, str "/dev/pts/ptmx", 12, 2⟩
  else if fd = 6 then ⟨true, false, some 0o140777, str "socket:[4242]", 7, 4242⟩
  else if fd = 7 ∨ fd = 8 then ⟨true, false, some 0o010644, str "/tmp/fifo", 8, 200⟩
  else if fd = 9 then ⟨true, false, some 0o020666, str "/dev/pty", 5, 9⟩
  else ⟨false, false, none, [], 0, 0⟩

/-- A sample system with the given controlling terminals: no batch-queue
plugin, no PBS or SLURM job, no symbolic link among the device names. -/
def sampleOs (ctty parentCtty : Bytes) : Os :=
  { fdInfo := sampleFdInfo, ctty := ctty, parentCtty := parentCtty, pbsJobId := false,
    slurmJob := false, isBqFile := none, resolveSymlink := fun _ => [] }

/-- The registry that a scan leaves, the empty one if an assertion failed. -/
def registryOf (r : Except Failure ConnList) : ConnList :=
  match r with
  | .ok l => l
  | .error _ => ConnList.empty

/-- The open FDs 0 to 8 of the sample process. -/
def sampleFds : List Int := [0, 1, 2, 3, 4, 5, 6, 7, 8]

/-- The state that a function of the file registry leaves, `st` itself if an
assertion failed. -/
def stateOf (r : Except Failure FileState) (st : FileState) : FileState :=
  match r with
  | .ok st' => st'
  | .error _ => st

/-- A sample system: the deleted suffix of Linux, every call succeeds, `open`
returns the FD 10 plus the number of calls made before it;
`/tmp/shm` is writable. -/
def sampleShmOs : ShmOs :=
  { isNscdArea := fun _ => false, isIBShmArea := fun _ => false, isSysVShmArea := fun _ => false,
    memProtToOpenFlags := fun _ => O_RDWR, DELETED_FILE_SUFFIX := str " (deleted)",
    DEV_ZERO_DELETED_STR := str "/dev/zero (deleted)",
    DEV_NULL_DELETED_STR := str "/dev/null (deleted)",
    accessW := fun n => n == str "/tmp/shm", openResult := fun n _ => 10 + n,
    callOk := fun _ => true }

/-- The areas of a sample process: a shared mapping of the writable file
`/tmp/shm`, a private mapping, a shared mapping of the unlinked file
`/tmp/gone`, one of the unlinked `/dev/zero`, one of the read-only file
`/usr/ro`, and one with protection 0. -/
def sampleAreas : List ProcMapsArea :=
  [⟨0x1000, 4096, 3, MAP_SHARED, 0, str "/tmp/shm"⟩,
    ⟨0x2000, 4096, 5, MAP_PRIVATE, 0, str "/lib/libc.so"⟩,
    ⟨0x3000, 8192, 3, MAP_SHARED, 4096, str "/tmp/gone (deleted)"⟩,
    ⟨0x5000, 4096, 3, MAP_SHARED, 0, str "/dev/zero (deleted)"⟩,
    ⟨0x6000, 4096, 1, MAP_SHARED, 0, str "/usr/ro"⟩,
    ⟨0x7000, 4096, 0, MAP_SHARED, 0, str "/tmp/shm"⟩]

/-- A sample state of the file registry: no connection, lists left over from
an earlier checkpoint, the files `/tmp/shm`, `/usr/ro` and `/lib/libc.so` on
disk. -/
def sampleFileState : FileState :=
  { list := ConnList.empty, shmAreas := [⟨0x9000, 4096, 3, MAP_SHARED, 0, str "/old"⟩],
    unlinkedShmAreas := [⟨0x9000, 4096, 3, MAP_SHARED, 0, str "/old"⟩],
    missingUnlinkedShmFiles := [⟨0x9000, 4096, 3, MAP_SHARED, 0, str "/old"⟩],
    shmAreaConn := [7], virtPtyId := 0,
    fileExists := fun n => n == str "/tmp/shm" || n == str "/usr/ro" || n == str "/lib/libc.so",
    trace := [] }

/-- The sample state after `prepareShmList`. -/
def samplePrepared : FileState :=
  stateOf (prepareShmList sampleShmOs sampleAreas sampleFileState) sampleFileState

/-- The sample process at restart: `prepareShmList` had found two unlinked
areas; the file `/tmp/back` of the second is on disk again, the file
`/tmp/gone` of the first is not. -/
def sampleRestartState : FileState :=
  { list := ConnList.empty, shmAreas := [],
    unlinkedShmAreas := [⟨0x3000, 8192, 3, MAP_SHARED, 4096, str "/tmp/gone"⟩,
      ⟨0x8000, 4096, 3, MAP_SHARED, 0, str "/tmp/back"⟩],
    missingUnlinkedShmFiles := [], shmAreaConn := [], virtPtyId := 0,
    fileExists := fun n => n == str "/tmp/back", trace := [] }

/-- The sample process after `postRestart`. -/
def sampleRestart1 : FileState :=
  stateOf (postRestart sampleShmOs sampleRestartState) sampleRestartState

/-- The sample process after `postRestart` and `refill(true)`. -/
def sampleRestart2 : FileState := stateOf (refill sampleShmOs true sampleRestart1) sampleRestart1

/-- The sample process after `postRestart`, `refill(true)` and `resume(true)`. -/
def sampleRestart3 : FileState := stateOf (resume sampleShmOs true sampleRestart2) sampleRestart2

/-- The sample state after `prepareShmList` and `remapShmMaps`. -/
def sampleRemapped : FileState := stateOf (remapShmMaps sampleShmOs samplePrepared) samplePrepared

/-! ## Vocabulary for the statements about start-up and the wire format -/

/-- The worker `p` has the lock of a connection that names the kernel object
`o`, after `SocketConnList::preCkptRegisterNSData`. -/
def HasLockOn (comp : List Peer) (p : Peer) (o : Nat) : Prop :=
  ∃ c ∈ (SocketConnList_preCkptRegisterNSData comp p).1, p.objectOf c.id = o ∧ c.hasLock = true

/-- The host that claim C22 has returned by the first call. -/
def firstCallHost (cfg : CoordConfig) (env : CoordEnv) (host : Bytes) : Bytes :=
  if host ≠ [] then host
  else if env.coordHost.isSome then env.coordHost.getD []
  else if env.host.isSome then env.host.getD []
  else cfg.DEFAULT_HOST

/-- The port that claim C22 has returned by the first call. -/
def firstCallPort (cfg : CoordConfig) (env : CoordEnv) (mode : Nat) (port : Int) : Int :=
  if port ≠ cfg.UNINITIALIZED_PORT then port
  else if env.coordPort.isSome then cfg.StringToInt (env.coordPort.getD [])
  else if env.port.isSome then cfg.StringToInt (env.port.getD [])
  else if mode &&& cfg.COORD_NEW ≠ 0 then 0
  else cfg.DEFAULT_PORT

/-- A sample configuration: the default coordinator `127.0.0.1:7779`, the
port -1 for a port not given, `COORD_NEW` the flag 2, decimal numbers of up to
four digits read by `StringToInt`. -/
def sampleCoordConfig : CoordConfig :=
  { DEFAULT_HOST := str "127.0.0.1", DEFAULT_PORT := 7779, UNINITIALIZED_PORT := -1,
    COORD_NEW := 2, COORD_ANY := 7,
    StringToInt := fun s => ((s.take 4).foldl (fun n c => n * 10 + (c - 48)) 0 : Nat) }

/-- A sample environment: both the new variables and their deprecated aliases
are set. -/
def sampleCoordEnv : CoordEnv :=
  { coordHost := some (str "nodeA"), host := some (str "nodeB"), coordPort := some (str "9000"),
    port := some (str "9001") }

/-- Shared data that is not initialised. -/
def noSharedData : SharedData := ⟨false, [], 0⟩

/-- No padding lies between the fields: each begins where the one before it
ends. -/
def contiguous : List (String × Nat × Nat) → Bool
  | f :: g :: rest => f.2.1 + f.2.2 == g.2.1 && contiguous (g :: rest)
  | _ => true

/-- The calls that a worker makes for the connections of a registry in the
steps before the checkpoint. -/
def actsBeforeCkpt (comp : List Peer) (p : Peer) : List ConnAct :=
  (SocketConnList_preCkptRegisterNSData comp p).2 ++
    SocketConnList_preCkptSendQueries (SocketConnList_preCkptRegisterNSData comp p).1 ++
    (SocketConnList_preCkpt p (SocketConnList_preCkptRegisterNSData comp p).1).1 ++
    FileConnList_preCkpt p (SocketConnList_preCkptRegisterNSData comp p).1

/-- A sample computation of two workers: both hold the connection 5 on the
socket 77, which the second inherited from the first, and the second holds the
connection 6 on a socket of its own. -/
def samplePeers : List Peer :=
  [{ upid := 1, list := ⟨[{ TcpConnection with id := 5, fds := [3] }], 6⟩,
      objectOf := fun _ => 77, sockDomain := fun _ => AF_INET, checkpointed := fun _ => false },
    { upid := 2,
      list := ⟨[{ TcpConnection with id := 5, fds := [3] },
        { TcpConnection with id := 6, fds := [4] }], 7⟩,
      objectOf := fun id => if id = 5 then 77 else 78, sockDomain := fun _ => AF_INET,
      checkpointed := fun _ => false }]

/-- The arguments of a call of `Util::getCoordHostAndPort`, with the shared
data as they are at the call. -/
structure CoordCall where
  sd : SharedData
  mode : Nat
  host : Bytes
  port : Int

/-- The static variables after a sequence of calls of
`Util::getCoordHostAndPort`. -/
def afterCalls (cfg : CoordConfig) (env : CoordEnv) (s : CoordCache) (calls : List CoordCall) :
    CoordCache :=
  calls.foldl (fun c x => (getCoordHostAndPort cfg x.sd env c x.mode x.host x.port).2.2) s

/-- The first positive port passed in a call made while the shared data are
not initialised, 0 if there is none. -/
def firstPositivePort (calls : List CoordCall) : Int :=
  match calls.find? (fun x => !x.sd.initialized && decide (0 < x.port)) with
  | some x => x.port
  | none => 0

/-! ## Vocabulary for the statements about the buffers of the plugin -/

/-- The case `'$'` of the `switch` once the name after the `$` has been read
and `c` moved past it. -/
def expandBody (restartEnv env : Env) (envName : Bytes) (s : Locals) : Step :=
  match isNameChanged s envName with
  | none => .fault .readOutOfBounds
  | some changed =>
    match (if changed then getenv env envName else none) with
    | some v =>
      if s.destOff + BUF_SIZE ≤ BUF_SIZE then
        advanceDest (s.setDestMem (strncpy s.destMem s.destOff v BUF_SIZE))
      else .fault .writeOutOfBounds
    | none =>
      match s.destRegion with
      | .nameBuf => .fault .pointerDifference
      | .valueBuf =>
        match restartEnv envName with
        | none => .next s none
        | some v =>
          advanceDest (s.setDestMem (strncpy s.destMem s.destOff v (BUF_SIZE - s.destOff)))

/-- The case `'$'` of the `switch` for a name read after the `$`. -/
def expandName (restartEnv env : Env) (envName : Bytes) (s : Locals) : Step :=
  if BUF_SIZE ≤ envName.length then .fault .writeOutOfBounds
  else expandBody restartEnv env envName { s with c := s.c + 1 + envName.length }

/-- The buffers `buf` and `buf'` hold the same bytes up to the index `p`,
where both hold the EOF sentinel, and the byte before it is no backslash. -/
structure SameUpTo (buf buf' : Bytes) (p : Nat) : Prop where
  eof : buf[p]? = some readEOF
  eof' : buf'[p]? = some readEOF
  same : ∀ i, i < p → buf[i]? = buf'[i]?
  noesc : ∀ i, i + 1 = p → buf[i]? ≠ some 92

/-- Bytes that are copied as they are in a value: outside a string the bytes
of the `default` case, inside a string those and the space, the tab, `#` and
the newline. -/
def valueByte (quoted : Bool) (x : Nat) : Prop :=
  if quoted then quotedByte x else plainByte x

/-- The `"` that opens or closes a quoted value, nothing for a value that is
not quoted. -/
def quoteIf (quoted : Bool) : Bytes := if quoted then [34] else []

/-- The stretches of a value that end in a `=`, each followed by its `=`. -/
def joinEq (segs : List Bytes) : Bytes := (segs.map (· ++ [61])).flatten

/-- The line `NAME=VALUE`, VALUE being the stretches `segs`, a `=` after each,
and then `last`; with `quoted`, VALUE stands between two `"`. -/
def eqLine (name : Bytes) (quoted : Bool) (segs : List Bytes) (last : Bytes) : Bytes :=
  name ++ 61 :: (quoteIf quoted ++ (joinEq segs ++ (last ++ (quoteIf quoted ++ [10]))))

/-- A restart environment in which `A` is `1` and nothing else is defined. -/
def sampleRestartEnv : Env := fun n => if n = [65] then some [49] else none

/-! ## The checkpoint thread: lemmas -/

/-- What a `break` out of the receive loop tells about the message and the
process state. -/
theorem recvLoop_inr (T : Nat) : ∀ (inbox : List Incoming) (w : Worker) (i : Incoming)
    (w' : Worker), recvLoop T inbox w = .inr (i, w') →
    i.msg.type ≠ DMT_UPDATE_LOGGING ∧ i.msg.type ≠ DMT_KILL_PEER ∧ i.msg.isValid = true ∧
    w'.trace.filter notLog = w.trace.filter notLog ++ [Event.recv i.msg.type] ∧
    w'.currentState = w.currentState ∧ w'.noCoordinator = w.noCoordinator := by
  intro inbox
  induction inbox with
  | nil => intro w i w' h; simp [recvLoop] at h
  | cons a rest ih =>
    intro w i w' h
    simp only [recvLoop] at h
    split_ifs at h with h1 h2 h3 h4
    · have := ih _ _ _ h
      obtain ⟨a1, a2, a3, a4, a5, a6⟩ := this
      refine ⟨a1, a2, a3, ?_, a5, a6⟩
      rw [a4]
      simp [emit, notLog, h4]
    · simp only [Sum.inr.injEq, Prod.mk.injEq] at h
      obtain ⟨rfl, rfl⟩ := h
      refine ⟨h4, h3, by simpa using h2, ?_, rfl, rfl⟩
      simp [emit, notLog, h4]

/-- The receive loop never makes the call return: it ends the call or breaks. -/
theorem recvLoop_inl_ne_returned (T : Nat) : ∀ (inbox : List Incoming) (w : Worker)
    (o : Outcome), recvLoop T inbox w = .inl o → ∀ w', o ≠ .returned w' := by
  intro inbox
  induction inbox with
  | nil => intro w o h w'; simp [recvLoop] at h; subst h; simp
  | cons a rest ih =>
    intro w o h w'
    simp only [recvLoop] at h
    split_ifs at h with h1 h2 h3 h4
    · simp at h; subst h; simp
    · simp at h; subst h; simp
    · simp at h; subst h; simp
    · exact ih _ _ h w'

/-- A returned `talkToCoordinator(T)`: trace, WorkerState and coordinator
flag. -/
theorem talkToCoordinator_returned (T : Nat) (w w' : Worker)
    (h : talkToCoordinator T w = .returned w') :
    w'.trace.filter notLog = w.trace.filter notLog ++
      [if T = DMT_DO_SUSPEND then Event.fakeSyscall else Event.send DMT_OK w.currentState,
       Event.recv T] ∧
    w'.currentState = w.currentState ∧ w'.noCoordinator = w.noCoordinator := by
  unfold talkToCoordinator at h
  simp only at h
  generalize hw1 : (if T = DMT_DO_SUSPEND then emit Event.fakeSyscall w
      else emit (Event.send DMT_OK w.currentState) w) = w1 at h
  cases hr : recvLoop T w1.inbox w1 with
  | inl o =>
    rw [hr] at h
    simp only at h
    exact absurd h (recvLoop_inl_ne_returned T _ _ _ hr w')
  | inr p =>
    obtain ⟨i, w2⟩ := p
    rw [hr] at h
    simp only at h
    obtain ⟨a1, a2, a3, a4, a5, a6⟩ := recvLoop_inr T _ _ _ _ hr
    have b4 : w1.trace.filter notLog = w.trace.filter notLog ++
        [if T = DMT_DO_SUSPEND then Event.fakeSyscall
          else Event.send DMT_OK w.currentState] := by
      subst hw1; split_ifs <;> simp [emit, notLog]
    have b5 : w1.currentState = w.currentState := by
      subst hw1; split_ifs <;> simp [emit]
    have b6 : w1.noCoordinator = w.noCoordinator := by
      subst hw1; split_ifs <;> simp [emit]
    unfold afterRecv at h
    simp only at h
    split_ifs at h with g1 g2 g3 g4 g5
    all_goals
      simp only [Outcome.returned.injEq] at h
      subst h
      simp only [ne_eq, Decidable.not_not] at g1
      simp [a4, a5, a6, b4, b5, b6, g1]

/-- A returned `waitForCoordinatorMsg(T)` with a coordinator present added to
the trace, apart from receipts of `DMT_UPDATE_LOGGING`, exactly its status
report and the receipt of a message of type `T`, and left the WorkerState
alone. -/
theorem waitForCoordinatorMsg_returned (T : Nat) (w w' : Worker)
    (hc : w.noCoordinator = false)
    (h : waitForCoordinatorMsg T w = .returned w') :
    w'.trace.filter notLog = w.trace.filter notLog ++
      [if T = DMT_DO_SUSPEND then Event.fakeSyscall else Event.send DMT_OK w.currentState,
       Event.recv T] ∧
    w'.currentState = w.currentState ∧ w'.noCoordinator = false := by
  unfold waitForCoordinatorMsg at h
  rw [hc] at h
  simp only [Bool.false_eq_true, if_false] at h
  split_ifs at h with h1 h2 h3
  all_goals
    obtain ⟨a, b, c⟩ := talkToCoordinator_returned T _ _ h
    simp_all

/-- Inversion of sequencing: the whole returned only if both parts did. -/
theorem andThen_returned (o : Outcome) (f : Worker → Outcome) (w' : Worker)
    (h : o.andThen f = .returned w') : ∃ w1, o = .returned w1 ∧ f w1 = .returned w' := by
  cases o <;> simp [Outcome.andThen] at h ⊢
  exact h

theorem waitForStage1Suspend_returned (w w' : Worker) (hc : w.noCoordinator = false)
    (h : waitForStage1Suspend w = .returned w') :
    w'.trace.filter notLog = w.trace.filter notLog ++ stage1Skeleton ∧
    w'.currentState = .RUNNING ∧ w'.noCoordinator = false := by
  unfold waitForStage1Suspend at h
  obtain ⟨w1, h1, h⟩ := andThen_returned _ _ _ h
  obtain ⟨a, b, c⟩ := waitForCoordinatorMsg_returned _ _ _ (by simpa [setCurrentState, emit] using hc) h1
  simp only [Outcome.returned.injEq] at h
  subst h
  simp [emit, setCurrentState, notLog, stage1Skeleton] at a b c ⊢
  simp [a, b, c, notLog]

theorem waitForStage4Resume_returned (w w' : Worker) (hc : w.noCoordinator = false)
    (h : waitForStage4Resume w = .returned w') :
    w'.trace.filter notLog = w.trace.filter notLog ++ stage4Skeleton ∧
    w'.currentState = .REFILLED ∧ w'.noCoordinator = false := by
  unfold waitForStage4Resume at h
  obtain ⟨w1, h1, h⟩ := andThen_returned _ _ _ h
  obtain ⟨a, b, c⟩ := waitForCoordinatorMsg_returned _ _ _ (by simpa [setCurrentState, emit] using hc) h1
  simp only [Outcome.returned.injEq] at h
  subst h
  simp [emit, setCurrentState, eventHook, notLog, stage4Skeleton] at a b c ⊢
  simp [a, b, c, notLog]

theorem waitForStage3Refill_returned (w w' : Worker) (hc : w.noCoordinator = false)
    (h : waitForStage3Refill w = .returned w') :
    w'.trace.filter notLog = w.trace.filter notLog ++ stage3Skeleton ∧
    w'.noCoordinator = false := by
  unfold waitForStage3Refill at h
  obtain ⟨w1, h1, h⟩ := andThen_returned _ _ _ h
  obtain ⟨a1, b1, c1⟩ :=
    waitForCoordinatorMsg_returned _ _ _ (by simpa [setCurrentState, emit] using hc) h1
  obtain ⟨w2, h2, h⟩ := andThen_returned _ _ _ h
  obtain ⟨a2, b2, c2⟩ :=
    waitForCoordinatorMsg_returned _ _ _ (by simpa [setCurrentState, eventHook, emit] using c1) h2
  obtain ⟨w3, h3, h⟩ := andThen_returned _ _ _ h
  obtain ⟨a3, b3, c3⟩ :=
    waitForCoordinatorMsg_returned _ _ _ (by simpa [setCurrentState, eventHook, emit] using c2) h3
  simp only [Outcome.returned.injEq] at h
  subst h
  simp [emit, setCurrentState, eventHook, notLog] at a1 b1 c1 a2 b2 c2 a3 b3 c3 ⊢
  simp [a1, a2, a3, c3, notLog, stage3Skeleton]

theorem waitForStage2Checkpoint_returned (w w' : Worker) (hc : w.noCoordinator = false)
    (h : waitForStage2Checkpoint w = .returned w') :
    w'.trace.filter notLog = w.trace.filter notLog ++ stage2Skeleton ∧
    w'.noCoordinator = false := by
  unfold waitForStage2Checkpoint at h
  simp only at h
  split_ifs at h with hx
  obtain ⟨w1, h1, h⟩ := andThen_returned _ _ _ h
  obtain ⟨a1, b1, c1⟩ := waitForCoordinatorMsg_returned _ _ _
    (by simpa [setCurrentState, eventHook, destroyDmtcpWorkerLockUnlock, emit] using hc) h1
  obtain ⟨w2, h2, h⟩ := andThen_returned _ _ _ h
  obtain ⟨a2, b2, c2⟩ :=
    waitForCoordinatorMsg_returned _ _ _ (by simpa [setCurrentState, eventHook, emit] using c1) h2
  obtain ⟨w3, h3, h⟩ := andThen_returned _ _ _ h
  obtain ⟨a3, b3, c3⟩ :=
    waitForCoordinatorMsg_returned _ _ _ (by simpa [setCurrentState, eventHook, emit] using c2) h3
  obtain ⟨w4, h4, h⟩ := andThen_returned _ _ _ h
  obtain ⟨a4, b4, c4⟩ :=
    waitForCoordinatorMsg_returned _ _ _ (by simpa [setCurrentState, eventHook, emit] using c3) h4
  obtain ⟨w5, h5, h⟩ := andThen_returned _ _ _ h
  obtain ⟨a5, b5, c5⟩ :=
    waitForCoordinatorMsg_returned _ _ _ (by simpa [setCurrentState, eventHook, emit] using c4) h5
  simp only [Outcome.returned.injEq] at h
  subst h
  simp [emit, setCurrentState, eventHook, destroyDmtcpWorkerLockUnlock, notLog]
    at a1 b1 c1 a2 b2 c2 a3 b3 c3 a4 b4 c4 a5 b5 c5 ⊢
  simp [a1, a2, a3, a4, a5, c5, notLog, stage2Skeleton]

/-- Whatever the coordinator sent, a cycle that ran to its end with a
coordinator present has the events of `cycleSkeleton`, in that order, with
receipts of `DMT_UPDATE_LOGGING` in between, and ends in state `REFILLED`. -/
theorem checkpointCycle_returned (w w' : Worker) (hc : w.noCoordinator = false)
    (h : checkpointCycle w = .returned w') :
    w'.trace.filter notLog = w.trace.filter notLog ++ cycleSkeleton ∧
    w'.currentState = .REFILLED := by
  unfold checkpointCycle at h
  obtain ⟨w1, h1, h⟩ := andThen_returned _ _ _ h
  obtain ⟨a1, _, c1⟩ := waitForStage1Suspend_returned _ _ hc h1
  obtain ⟨w2, h2, h⟩ := andThen_returned _ _ _ h
  obtain ⟨a2, c2⟩ := waitForStage2Checkpoint_returned _ _ c1 h2
  obtain ⟨w3, h3, h⟩ := andThen_returned _ _ _ h
  obtain ⟨a3, c3⟩ := waitForStage3Refill_returned _ _ c2 h3
  obtain ⟨a4, b4, _⟩ := waitForStage4Resume_returned _ _ c3 h
  refine ⟨?_, b4⟩
  rw [a4, a3, a2, a1]
  simp [cycleSkeleton]

/-- Valid `DMT_UPDATE_LOGGING` messages are consumed one by one, each setting
the log mask, and the loop goes on with what follows them. -/
theorem recvLoop_logs (T : Nat) (rest : List Incoming) :
    ∀ (logs : List Incoming) (w : Worker),
    w.inbox = logs ++ rest →
    (∀ l ∈ logs, l.msg.isValid = true ∧ l.msg.type = DMT_UPDATE_LOGGING) →
    (T = DMT_DO_SUSPEND → w.exitInProgress = false ∧ ∀ l ∈ logs, l.exitRequested = false) →
    recvLoop T (logs ++ rest) w = recvLoop T rest (afterLogs logs rest w) := by
  intro logs
  induction logs with
  | nil =>
    intro w hin _ _
    simp [afterLogs] at hin ⊢
    rw [← hin]
  | cons l logs ih =>
    intro w hin hv hx
    have hl := hv l (List.mem_cons_self _ _)
    have hx1 : ¬ (T = DMT_DO_SUSPEND ∧ (w.exitInProgress || l.exitRequested) = true) := by
      rintro ⟨h1, h2⟩
      have := hx h1
      simp [this.1, this.2 l (List.mem_cons_self _ _)] at h2
    simp only [List.cons_append, recvLoop, emit, hx1, hl.1, hl.2, if_false, if_true,
      Bool.true_eq_false]
    simp only [DMT_UPDATE_LOGGING, DMT_KILL_PEER, Nat.reduceEqDiff, if_false, List.append_eq]
    rw [ih]
    · congr 1
      simp only [afterLogs, List.any_cons, Bool.or_assoc, List.length_cons,
        List.replicate_succ, List.append_assoc, List.singleton_append]
      cases logs with
      | nil => simp
      | cons a t =>
        have hne : (a :: t) ≠ [] := by simp
        simp [List.getLast?_cons_cons, List.getLast?_eq_getLast _ hne]
    · rfl
    · intro a ha
      exact hv a (List.mem_cons_of_mem _ ha)
    · intro h1
      have := hx h1
      refine ⟨?_, fun a ha => this.2 a (List.mem_cons_of_mem _ ha)⟩
      simp [this.1, this.2 l (List.mem_cons_self _ _)]

/-- With a coordinator present and, for `DMT_DO_SUSPEND`, the lock free and no
exit in progress, `waitForCoordinatorMsg(T)` reports, takes the valid
`DMT_UPDATE_LOGGING` messages `logs` and goes on with the message after them. -/
theorem waitForCoordinatorMsg_logs (T : Nat) (w : Worker) (logs rest : List Incoming)
    (hc : w.noCoordinator = false) (hin : w.inbox = logs ++ rest)
    (hv : ∀ l ∈ logs, l.msg.isValid = true ∧ l.msg.type = DMT_UPDATE_LOGGING)
    (hs : T = DMT_DO_SUSPEND → w.destroyDmtcpWorkerLock = false ∧ w.exitInProgress = false ∧
      ∀ l ∈ logs, l.exitRequested = false) :
    waitForCoordinatorMsg T w =
      match recvLoop T rest (afterLogs logs rest (entered T w)) with
      | .inl o => o
      | .inr (i, w2) => afterRecv T i w2 := by
  have e1 : (entered T w).inbox = logs ++ rest := by
    unfold entered report; split_ifs <;> simpa [emit] using hin
  have e2 : T = DMT_DO_SUSPEND → (entered T w).exitInProgress = false ∧
      ∀ l ∈ logs, l.exitRequested = false := by
    intro h
    obtain ⟨_, b, c⟩ := hs h
    refine ⟨?_, c⟩
    unfold entered report
    split_ifs
    simpa [emit] using b
  have e3 := recvLoop_logs T rest logs (entered T w) e1 hv e2
  unfold waitForCoordinatorMsg
  rw [hc]
  simp only [Bool.false_eq_true, if_false]
  have n1 : ¬ (T = DMT_DO_SUSPEND ∧ w.destroyDmtcpWorkerLock = true) := by
    rintro ⟨h1, h2⟩; simp [(hs h1).1] at h2
  have n2 : ¬ (T = DMT_DO_SUSPEND ∧ w.exitInProgress = true) := by
    rintro ⟨h1, h2⟩; simp [(hs h1).2.1] at h2
  rw [if_neg n1, if_neg n2]
  unfold talkToCoordinator
  simp only
  have e4 : (if T = DMT_DO_SUSPEND then
        emit Event.fakeSyscall
          (if T = DMT_DO_SUSPEND then
            { w with noCoordinator := false, destroyDmtcpWorkerLock := true } else w)
      else emit (Event.send DMT_OK (if T = DMT_DO_SUSPEND then
            { w with noCoordinator := false, destroyDmtcpWorkerLock := true } else w).currentState)
          (if T = DMT_DO_SUSPEND then
            { w with noCoordinator := false, destroyDmtcpWorkerLock := true } else w)) =
      entered T w := by
    unfold entered report
    split_ifs
    · cases w; simp_all [emit]
    · rfl
  rw [e4, e1, e3]

/-- The receive loop never assigns the WorkerState. -/
theorem recvLoop_currentState (T : Nat) : ∀ (inbox : List Incoming) (w : Worker),
    match recvLoop T inbox w with
    | .inl o => o.worker.currentState = w.currentState
    | .inr (_, w') => w'.currentState = w.currentState := by
  intro inbox
  induction inbox with
  | nil => intro w; simp [recvLoop, Outcome.worker]
  | cons a rest ih =>
    intro w
    simp only [recvLoop]
    split_ifs with h1 h2 h3 h4
    · simp [Outcome.worker, destroyDmtcpWorkerLockUnlock, emit]
    · simp [Outcome.worker, emit]
    · simp [Outcome.worker, emit]
    · have := ih { emit (Event.recv a.msg.type)
          { w with inbox := rest, exitInProgress := w.exitInProgress || a.exitRequested } with
          logMask := a.msg.logMask }
      simpa [emit] using this
    · simp [emit]

/-- Function `talkToCoordinator` never assigns the WorkerState. -/
theorem talkToCoordinator_currentState (T : Nat) (w : Worker) :
    (talkToCoordinator T w).worker.currentState = w.currentState := by
  unfold talkToCoordinator
  simp only
  generalize hw1 : (if T = DMT_DO_SUSPEND then emit Event.fakeSyscall w
      else emit (Event.send DMT_OK w.currentState) w) = w1
  have b5 : w1.currentState = w.currentState := by
    subst hw1; split_ifs <;> simp [emit]
  have := recvLoop_currentState T w1.inbox w1
  cases ho : recvLoop T w1.inbox w1 with
  | inl o =>
    rw [ho] at this
    simpa [b5] using this
  | inr p =>
    obtain ⟨i, w2⟩ := p
    rw [ho] at this
    simp only at this
    unfold afterRecv
    simp only
    split_ifs <;> simp [Outcome.worker, this, b5]

/-- Function `waitForCoordinatorMsg` never assigns the WorkerState, however it
ends. -/
theorem waitForCoordinatorMsg_currentState (T : Nat) (w : Worker) :
    (waitForCoordinatorMsg T w).worker.currentState = w.currentState := by
  unfold waitForCoordinatorMsg
  split_ifs with h1 h2 h3 h4 h5
  · simp [Outcome.worker]
  · simp [Outcome.worker, emit]
  · simp [Outcome.worker]
  · simp [Outcome.worker]
  · simp [Outcome.worker, emit, destroyDmtcpWorkerLockUnlock]
  · exact talkToCoordinator_currentState T _
  · exact talkToCoordinator_currentState T _

/-- Function `waitForStage1Suspend` leaves the WorkerState at RUNNING, however
it ends. -/
theorem waitForStage1Suspend_currentState (w : Worker) :
    (waitForStage1Suspend w).worker.currentState = .RUNNING := by
  unfold waitForStage1Suspend
  have := waitForCoordinatorMsg_currentState DMT_DO_SUSPEND (setCurrentState .RUNNING w)
  generalize waitForCoordinatorMsg DMT_DO_SUSPEND (setCurrentState .RUNNING w) = o at this
  cases o <;> simpa [Outcome.worker, Outcome.andThen, emit, setCurrentState] using this

/-- Without a coordinator `waitForCoordinatorMsg` returns at once for every
type but `DMT_DO_SUSPEND`. -/
theorem waitForCoordinatorMsg_noCoordinator (T : Nat) (w : Worker)
    (hc : w.noCoordinator = true) (hT : T ≠ DMT_DO_SUSPEND) :
    waitForCoordinatorMsg T w = .returned w := by
  simp [waitForCoordinatorMsg, hc, hT]

/-- Without a coordinator a returned cycle assigns the same states, in the
same order, and ends in `REFILLED`. -/
theorem checkpointCycle_noCoordinator (w w' : Worker) (hc : w.noCoordinator = true)
    (h : checkpointCycle w = .returned w') :
    w'.trace.filterMap (fun e => match e with
      | .setState s => some s
      | _ => none) =
    w.trace.filterMap (fun e => match e with
      | .setState s => some s
      | _ => none) ++
      [.RUNNING, .SUSPENDED, .FD_LEADER_ELECTION, .PRE_CKPT_NAME_SERVICE_DATA_REGISTER,
       .PRE_CKPT_NAME_SERVICE_DATA_QUERY, .DRAINED, .CHECKPOINTED,
       .NAME_SERVICE_DATA_REGISTERED, .DONE_QUERYING, .REFILLED] ∧
    w'.currentState = .REFILLED := by
  unfold checkpointCycle waitForStage1Suspend at h
  simp only [waitForCoordinatorMsg, setCurrentState, emit, hc, if_true] at h
  split_ifs at h with h1
  · simp [Outcome.andThen] at h
  · simp only [Outcome.andThen, waitForStage2Checkpoint, setCurrentState, emit] at h
    split_ifs at h with h2
    simp [Outcome.andThen, waitForStage3Refill, waitForStage4Resume,
      waitForCoordinatorMsg_noCoordinator, setCurrentState, emit, eventHook,
      destroyDmtcpWorkerLockUnlock, hc] at h
    subst h
    simp [List.filterMap_append]

/-- Receipts of `DMT_UPDATE_LOGGING` assign no WorkerState. -/
theorem filterMap_setState_filter_notLog (tr : List Event) :
    (tr.filter notLog).filterMap (fun e => match e with
      | .setState s => some s
      | _ => none) =
    tr.filterMap (fun e => match e with
      | .setState s => some s
      | _ => none) := by
  induction tr with
  | nil => rfl
  | cons e es ih =>
    by_cases h : notLog e = true
    · rw [List.filter_cons_of_pos h]
      simp only [List.filterMap_cons, ih]
    · have : e = Event.recv DMT_UPDATE_LOGGING := by simpa [notLog] using h
      rw [List.filter_cons_of_neg h, ih]
      subst this
      simp [List.filterMap_cons]

/-! ### Cycles that do not run to their end -/

/-- C1: in one checkpoint cycle with a coordinator present in which the four
stage functions ran in order and no received message was other than the
expected one, the conversation on the coordinator link is exactly: receive
DMT_DO_SUSPEND, then for each later stage command send the DMT_OK carrying the
state the coordinator awaits and receive the command; nothing is sent before
DMT_DO_SUSPEND is received. -/
theorem C1_cycle_conversation (w w' : Worker) (hc : w.noCoordinator = false)
    (ht : w.trace = []) (h : checkpointCycle w = .returned w')
    (hexp : Event.recv DMT_UPDATE_LOGGING ∉ w'.trace) :
    conversation w'.trace =
      [.recv DMT_DO_SUSPEND,
       .send DMT_OK .SUSPENDED, .recv DMT_DO_FD_LEADER_ELECTION,
       .send DMT_OK .FD_LEADER_ELECTION, .recv DMT_DO_PRE_CKPT_NAME_SERVICE_DATA_REGISTER,
       .send DMT_OK .PRE_CKPT_NAME_SERVICE_DATA_REGISTER,
       .recv DMT_DO_PRE_CKPT_NAME_SERVICE_DATA_QUERY,
       .send DMT_OK .PRE_CKPT_NAME_SERVICE_DATA_QUERY, .recv DMT_DO_DRAIN,
       .send DMT_OK .DRAINED, .recv DMT_DO_CHECKPOINT,
       .send DMT_OK .CHECKPOINTED, .recv DMT_DO_REGISTER_NAME_SERVICE_DATA,
       .send DMT_OK .NAME_SERVICE_DATA_REGISTERED, .recv DMT_DO_SEND_QUERIES,
       .send DMT_OK .DONE_QUERYING, .recv DMT_DO_REFILL,
       .send DMT_OK .REFILLED, .recv DMT_DO_RESUME] := by
  have hs := (checkpointCycle_returned w w' hc h).1
  have hf : w'.trace.filter notLog = w'.trace := by
    rw [List.filter_eq_self]
    intro e he
    simp only [notLog, decide_eq_true_eq]
    rintro rfl
    exact hexp he
  rw [hf, ht] at hs
  rw [hs]
  decide

/-- C1, at a concrete cycle: the coordinator sends the ten stage commands. -/
theorem C1_cycle_conversation_witness :
    conversation (checkpointCycle (sampleWorker (cycleCommands.map sampleIn))).worker.trace =
      [.recv DMT_DO_SUSPEND,
       .send DMT_OK .SUSPENDED, .recv DMT_DO_FD_LEADER_ELECTION,
       .send DMT_OK .FD_LEADER_ELECTION, .recv DMT_DO_PRE_CKPT_NAME_SERVICE_DATA_REGISTER,
       .send DMT_OK .PRE_CKPT_NAME_SERVICE_DATA_REGISTER,
       .recv DMT_DO_PRE_CKPT_NAME_SERVICE_DATA_QUERY,
       .send DMT_OK .PRE_CKPT_NAME_SERVICE_DATA_QUERY, .recv DMT_DO_DRAIN,
       .send DMT_OK .DRAINED, .recv DMT_DO_CHECKPOINT,
       .send DMT_OK .CHECKPOINTED, .recv DMT_DO_REGISTER_NAME_SERVICE_DATA,
       .send DMT_OK .NAME_SERVICE_DATA_REGISTERED, .recv DMT_DO_SEND_QUERIES,
       .send DMT_OK .DONE_QUERYING, .recv DMT_DO_REFILL,
       .send DMT_OK .REFILLED, .recv DMT_DO_RESUME] :=
  C1_cycle_conversation (sampleWorker (cycleCommands.map sampleIn))
    (checkpointCycle (sampleWorker (cycleCommands.map sampleIn))).worker
    (by decide) (by decide) (by decide) (by decide)

/-- C3 (amended): in one checkpoint cycle the successive values given to
WorkerState by the four stage functions are RUNNING, SUSPENDED,
FD_LEADER_ELECTION, PRE_CKPT_NS_REGISTER, PRE_CKPT_NS_QUERY, DRAINED,
CHECKPOINTED, NAME_SERVICE_DATA_REGISTERED, DONE_QUERYING, REFILLED, each
strictly later in the spec's order than the one before; when
waitForStage4Resume returns the state is still REFILLED, and the next
waitForStage1Suspend puts it back to RUNNING. -/
theorem C3_states_in_cycle (w w' : Worker) (ht : w.trace = [])
    (h : checkpointCycle w = .returned w') :
    assignedStates w'.trace =
      [.RUNNING, .SUSPENDED, .FD_LEADER_ELECTION, .PRE_CKPT_NAME_SERVICE_DATA_REGISTER,
       .PRE_CKPT_NAME_SERVICE_DATA_QUERY, .DRAINED, .CHECKPOINTED,
       .NAME_SERVICE_DATA_REGISTERED, .DONE_QUERYING, .REFILLED] ∧
    List.Chain' (fun a b => a.toNat < b.toNat) (assignedStates w'.trace) ∧
    w'.currentState = .REFILLED ∧
    (waitForStage1Suspend w').worker.currentState = .RUNNING := by
  have key : assignedStates w'.trace =
      [.RUNNING, .SUSPENDED, .FD_LEADER_ELECTION, .PRE_CKPT_NAME_SERVICE_DATA_REGISTER,
       .PRE_CKPT_NAME_SERVICE_DATA_QUERY, .DRAINED, .CHECKPOINTED,
       .NAME_SERVICE_DATA_REGISTERED, .DONE_QUERYING, .REFILLED] ∧
      w'.currentState = .REFILLED := by
    cases hc : w.noCoordinator with
    | true =>
      have := checkpointCycle_noCoordinator w w' hc h
      rw [ht] at this
      simpa [assignedStates] using this
    | false =>
      obtain ⟨a, b⟩ := checkpointCycle_returned w w' hc h
      refine ⟨?_, b⟩
      rw [ht] at a
      simp only [List.filter_nil, List.nil_append] at a
      unfold assignedStates
      rw [← filterMap_setState_filter_notLog, a]
      decide
  refine ⟨key.1, ?_, key.2, waitForStage1Suspend_currentState w'⟩
  rw [key.1]
  simp [eWorkerState.toNat]

/-- C3 (amended), at a concrete cycle. -/
theorem C3_states_in_cycle_witness :
    assignedStates (checkpointCycle (sampleWorker (cycleCommands.map sampleIn))).worker.trace =
      [.RUNNING, .SUSPENDED, .FD_LEADER_ELECTION, .PRE_CKPT_NAME_SERVICE_DATA_REGISTER,
       .PRE_CKPT_NAME_SERVICE_DATA_QUERY, .DRAINED, .CHECKPOINTED,
       .NAME_SERVICE_DATA_REGISTERED, .DONE_QUERYING, .REFILLED] ∧
    List.Chain' (fun a b => a.toNat < b.toNat)
      (assignedStates (checkpointCycle (sampleWorker (cycleCommands.map sampleIn))).worker.trace) ∧
    (checkpointCycle (sampleWorker (cycleCommands.map sampleIn))).worker.currentState =
      .REFILLED ∧
    (waitForStage1Suspend
      (checkpointCycle (sampleWorker (cycleCommands.map sampleIn))).worker).worker.currentState =
      .RUNNING :=
  C3_states_in_cycle (sampleWorker (cycleCommands.map sampleIn))
    (checkpointCycle (sampleWorker (cycleCommands.map sampleIn))).worker
    (by decide) (by decide)

/-- C3 as stated fails: a cycle in which DMT_DO_RESUME was received and
waitForStage4Resume returned ends with the state REFILLED, not RUNNING. -/
theorem C3_counterexample :
    ∃ w', checkpointCycle (sampleWorker (cycleCommands.map sampleIn)) = .returned w' ∧
      Event.recv DMT_DO_RESUME ∈ w'.trace ∧
      w'.currentState = .REFILLED ∧ w'.currentState ≠ .RUNNING :=
  ⟨(checkpointCycle (sampleWorker (cycleCommands.map sampleIn))).worker,
    by decide, by decide, by decide, by decide⟩

/-- C4 (amended): with a coordinator present, whatever type T the worker waits
for, a received message that is valid and of type DMT_KILL_PEER (after any
number of valid DMT_UPDATE_LOGGING messages) makes the worker exit with status
0, unless T is DMT_DO_SUSPEND and process exit is in progress when it arrives:
the call does not return, nothing is sent after the status report made before
waiting, and whatever would follow the call (`next`) does not run. -/
theorem C4_kill_peer_exits (T : Nat) (w : Worker) (logs rest : List Incoming)
    (k : Incoming) (next : Worker → Outcome)
    (hc : w.noCoordinator = false) (hin : w.inbox = logs ++ k :: rest)
    (hv : ∀ l ∈ logs, l.msg.isValid = true ∧ l.msg.type = DMT_UPDATE_LOGGING)
    (hk : k.msg.isValid = true) (hkt : k.msg.type = DMT_KILL_PEER)
    (hs : T = DMT_DO_SUSPEND → w.destroyDmtcpWorkerLock = false ∧ w.exitInProgress = false ∧
      (∀ l ∈ logs, l.exitRequested = false) ∧ k.exitRequested = false) :
    ∃ w', waitForCoordinatorMsg T w = .exited 0 w' ∧
      (waitForCoordinatorMsg T w).andThen next = .exited 0 w' ∧
      w'.trace = w.trace ++ report T w ::
        (List.replicate logs.length (Event.recv DMT_UPDATE_LOGGING) ++
          [Event.recv DMT_KILL_PEER]) ∧
      w'.inbox = rest := by
  have hs' : T = DMT_DO_SUSPEND → w.destroyDmtcpWorkerLock = false ∧
      w.exitInProgress = false ∧ ∀ l ∈ logs, l.exitRequested = false :=
    fun h => ⟨(hs h).1, (hs h).2.1, (hs h).2.2.1⟩
  rw [waitForCoordinatorMsg_logs T w logs (k :: rest) hc hin hv hs']
  have hx : ¬ (T = DMT_DO_SUSPEND ∧
      ((afterLogs logs (k :: rest) (entered T w)).exitInProgress || k.exitRequested) = true) := by
    rintro ⟨h1, h2⟩
    obtain ⟨_, b, c, d⟩ := hs h1
    have : List.any logs (fun l => l.exitRequested) = false := by
      rw [List.any_eq_false]
      intro x hx
      simp [c x hx]
    simp [afterLogs, entered, report, emit, h1, b, d, this] at h2
  simp only [recvLoop, emit, hx, hk, hkt, if_false, if_true, Bool.true_eq_false,
    Outcome.andThen]
  refine ⟨_, rfl, rfl, ?_, rfl⟩
  unfold afterLogs entered
  by_cases hT : T = DMT_DO_SUSPEND <;> simp [emit, hT]

/-- C4 (amended), at a concrete input: the worker waits for DMT_DO_DRAIN and
receives a DMT_UPDATE_LOGGING, then DMT_KILL_PEER. -/
theorem C4_kill_peer_exits_witness :
    ∃ w', waitForCoordinatorMsg DMT_DO_DRAIN
        (sampleWorker [sampleIn DMT_UPDATE_LOGGING, sampleIn DMT_KILL_PEER]) = .exited 0 w' ∧
      (waitForCoordinatorMsg DMT_DO_DRAIN
        (sampleWorker [sampleIn DMT_UPDATE_LOGGING, sampleIn DMT_KILL_PEER])).andThen
          waitForStage3Refill = .exited 0 w' ∧
      w'.trace = [] ++ report DMT_DO_DRAIN
          (sampleWorker [sampleIn DMT_UPDATE_LOGGING, sampleIn DMT_KILL_PEER]) ::
        (List.replicate 1 (Event.recv DMT_UPDATE_LOGGING) ++ [Event.recv DMT_KILL_PEER]) ∧
      w'.inbox = [] :=
  C4_kill_peer_exits DMT_DO_DRAIN
    (sampleWorker [sampleIn DMT_UPDATE_LOGGING, sampleIn DMT_KILL_PEER])
    [sampleIn DMT_UPDATE_LOGGING] [] (sampleIn DMT_KILL_PEER) waitForStage3Refill
    (by decide) (by decide) (by decide) (by decide) (by decide) (by decide)

/-- C4 as stated fails: a received DMT_KILL_PEER does not always end in
exit(0).  While the worker waits for DMT_DO_SUSPEND and exit is in progress
when the message arrives, the thread parks; and a DMT_KILL_PEER whose header
is not valid (here: empty magic bytes) fails the validity assertion. -/
theorem C4_counterexample :
    (∃ w', waitForCoordinatorMsg DMT_DO_SUSPEND
        (sampleWorker [⟨sampleMsg DMT_KILL_PEER, [], true⟩]) = .parked w') ∧
    (∃ w', waitForCoordinatorMsg DMT_DO_DRAIN
        (sampleWorker [⟨{ sampleMsg DMT_KILL_PEER with magicBits := [] }, [], false⟩]) =
          .assertFailed w') :=
  ⟨⟨(waitForCoordinatorMsg DMT_DO_SUSPEND
        (sampleWorker [⟨sampleMsg DMT_KILL_PEER, [], true⟩])).worker, by decide⟩,
   ⟨(waitForCoordinatorMsg DMT_DO_DRAIN
        (sampleWorker [⟨{ sampleMsg DMT_KILL_PEER with magicBits := [] }, [], false⟩])).worker,
      by decide⟩⟩

/-- C5 (amended): DMT_UPDATE_LOGGING is out-of-band.  With a coordinator
present, T a stage command (neither DMT_UPDATE_LOGGING nor DMT_KILL_PEER), and,
when T is DMT_DO_SUSPEND, the destroy-worker lock free, no exit in progress
and the message's computation group equal to the worker's: on n valid
DMT_UPDATE_LOGGING messages followed by a valid message of type T the call
returns, has consumed exactly those n+1 messages, leaves the log mask of the
last DMT_UPDATE_LOGGING (unchanged when n = 0), and has sent only the DMT_OK
made before waiting (nothing for DMT_DO_SUSPEND). -/
theorem C5_update_logging_out_of_band (T : Nat) (w : Worker) (logs rest : List Incoming)
    (m : Incoming)
    (hc : w.noCoordinator = false) (hin : w.inbox = logs ++ m :: rest)
    (hv : ∀ l ∈ logs, l.msg.isValid = true ∧ l.msg.type = DMT_UPDATE_LOGGING)
    (hm : m.msg.isValid = true) (hmt : m.msg.type = T)
    (hT1 : T ≠ DMT_UPDATE_LOGGING) (hT2 : T ≠ DMT_KILL_PEER)
    (hs : T = DMT_DO_SUSPEND → w.destroyDmtcpWorkerLock = false ∧ w.exitInProgress = false ∧
      (∀ l ∈ logs, l.exitRequested = false) ∧ m.exitRequested = false ∧
      w.compId = m.msg.compGroup.upid) :
    ∃ w', waitForCoordinatorMsg T w = .returned w' ∧
      w'.inbox = rest ∧
      w'.logMask = (logs.getLast?.map (fun l => l.msg.logMask)).getD w.logMask ∧
      w'.trace = w.trace ++ report T w ::
        (List.replicate logs.length (Event.recv DMT_UPDATE_LOGGING) ++ [Event.recv T]) ∧
      sends w'.trace = sends w.trace ++
        (if T = DMT_DO_SUSPEND then [] else [Event.send DMT_OK w.currentState]) := by
  have hs' : T = DMT_DO_SUSPEND → w.destroyDmtcpWorkerLock = false ∧
      w.exitInProgress = false ∧ ∀ l ∈ logs, l.exitRequested = false :=
    fun h => ⟨(hs h).1, (hs h).2.1, (hs h).2.2.1⟩
  rw [waitForCoordinatorMsg_logs T w logs (m :: rest) hc hin hv hs']
  have hx : ¬ (T = DMT_DO_SUSPEND ∧
      ((afterLogs logs (m :: rest) (entered T w)).exitInProgress || m.exitRequested) = true) := by
    rintro ⟨h1, h2⟩
    obtain ⟨_, b, c, d, _⟩ := hs h1
    have : List.any logs (fun l => l.exitRequested) = false := by
      rw [List.any_eq_false]
      intro x hx
      simp [c x hx]
    simp [afterLogs, entered, report, emit, h1, b, d, this] at h2
  have hrep : ∀ n : Nat, sends (List.replicate n (Event.recv DMT_UPDATE_LOGGING)) = [] := by
    intro n
    induction n with
    | zero => rfl
    | succ n _ => simp [sends, List.replicate_succ]
  simp only [recvLoop, emit, hx, hm, hmt, hT1, hT2, if_false, Bool.true_eq_false]
  by_cases hT : T = DMT_DO_SUSPEND
  · obtain ⟨_, _, _, _, e⟩ := hs hT
    simp only [afterRecv, hmt, ne_eq, not_true_eq_false, if_false, hT, if_true]
    have e' : (afterLogs logs (m :: rest) (entered DMT_DO_SUSPEND w)).compId =
        m.msg.compGroup.upid := by
      simpa [afterLogs, entered, emit] using e
    simp only [e', not_true_eq_false, if_false]
    have hrep' := hrep logs.length
    unfold sends at hrep' ⊢
    split_ifs
    all_goals
      refine ⟨_, rfl, rfl, ?_, ?_, ?_⟩
      · simp [afterLogs, entered, emit]
      · simp [afterLogs, entered, emit, report]
      · simp [afterLogs, entered, emit, report, List.filter_append, hrep']
  · have hrep' := hrep logs.length
    unfold sends at hrep' ⊢
    simp only [afterRecv, hmt, ne_eq, not_true_eq_false, if_false, hT]
    split_ifs
    all_goals
      refine ⟨_, rfl, rfl, ?_, ?_, ?_⟩
      · simp [afterLogs, entered, emit, hT]
      · simp [afterLogs, entered, emit, report, hT]
      · simp [afterLogs, entered, emit, report, hT, List.filter_append, hrep']

/-- C5 (amended), at a concrete input: two log-mask changes, then DMT_DO_DRAIN. -/
theorem C5_update_logging_out_of_band_witness :
    ∃ w', waitForCoordinatorMsg DMT_DO_DRAIN
        (sampleWorker [logMsg 5, logMsg 9, sampleIn DMT_DO_DRAIN, sampleIn DMT_DO_CHECKPOINT]) =
          .returned w' ∧
      w'.inbox = [sampleIn DMT_DO_CHECKPOINT] ∧
      w'.logMask = 9 ∧
      w'.trace = [.send DMT_OK .RUNNING, .recv DMT_UPDATE_LOGGING, .recv DMT_UPDATE_LOGGING,
        .recv DMT_DO_DRAIN] ∧
      sends w'.trace = [.send DMT_OK .RUNNING] :=
  C5_update_logging_out_of_band DMT_DO_DRAIN
    (sampleWorker [logMsg 5, logMsg 9, sampleIn DMT_DO_DRAIN, sampleIn DMT_DO_CHECKPOINT])
    [logMsg 5, logMsg 9] [sampleIn DMT_DO_CHECKPOINT] (sampleIn DMT_DO_DRAIN)
    (by decide) (by decide) (by decide) (by decide) (by decide) (by decide) (by decide)
    (by decide)

/-- C5 as stated fails for T = DMT_DO_SUSPEND: a valid DMT_DO_SUSPEND whose
computation group is not the worker's fails an assertion, and one that arrives
when process exit is in progress, or when the destroy-worker lock is held,
parks the thread; none of these calls returns. -/
theorem C5_counterexample :
    (⟨{ sampleMsg DMT_DO_SUSPEND with compGroup := ⟨9, 9, 9, 0⟩ }, [], false⟩ :
        Incoming).msg.isValid = true ∧
    (∃ w', waitForCoordinatorMsg DMT_DO_SUSPEND
        (sampleWorker [⟨{ sampleMsg DMT_DO_SUSPEND with compGroup := ⟨9, 9, 9, 0⟩ }, [], false⟩]) =
          .assertFailed w') ∧
    (sampleIn DMT_DO_SUSPEND).msg.isValid = true ∧
    (∃ w', waitForCoordinatorMsg DMT_DO_SUSPEND
        { sampleWorker [sampleIn DMT_DO_SUSPEND] with exitInProgress := true } = .parked w') ∧
    (∃ w', waitForCoordinatorMsg DMT_DO_SUSPEND
        { sampleWorker [sampleIn DMT_DO_SUSPEND] with destroyDmtcpWorkerLock := true } =
          .parked w') :=
  ⟨by decide,
   ⟨(waitForCoordinatorMsg DMT_DO_SUSPEND
        (sampleWorker [⟨{ sampleMsg DMT_DO_SUSPEND with compGroup := ⟨9, 9, 9, 0⟩ }, [], false⟩])).worker,
      by decide⟩,
   by decide,
   ⟨(waitForCoordinatorMsg DMT_DO_SUSPEND
        { sampleWorker [sampleIn DMT_DO_SUSPEND] with exitInProgress := true }).worker,
      by decide⟩,
   ⟨(waitForCoordinatorMsg DMT_DO_SUSPEND
        { sampleWorker [sampleIn DMT_DO_SUSPEND] with destroyDmtcpWorkerLock := true }).worker,
      by decide⟩⟩

/-- C6 (amended): a protocol violation is fatal for the worker.  With a
coordinator present, T a stage command, and, when T is DMT_DO_SUSPEND, the
destroy-worker lock free and no exit in progress: let `m` be the first received
message that is not a valid DMT_UPDATE_LOGGING.  The call returns if and only
if `m` is valid, has type exactly T and, when T is DMT_DO_SUSPEND, names the
worker's computation group.  If `m` is invalid, or has a type other than T and
DMT_KILL_PEER, the call fails an assertion and the checkpoint directory, the
computation group and the peer count are as they were. -/
theorem C6_protocol_violation_fatal (T : Nat) (w : Worker) (logs rest : List Incoming)
    (m : Incoming)
    (hc : w.noCoordinator = false) (hin : w.inbox = logs ++ m :: rest)
    (hv : ∀ l ∈ logs, l.msg.isValid = true ∧ l.msg.type = DMT_UPDATE_LOGGING)
    (hfirst : ¬ (m.msg.isValid = true ∧ m.msg.type = DMT_UPDATE_LOGGING))
    (hT1 : T ≠ DMT_UPDATE_LOGGING) (hT2 : T ≠ DMT_KILL_PEER)
    (hs : T = DMT_DO_SUSPEND → w.destroyDmtcpWorkerLock = false ∧ w.exitInProgress = false ∧
      (∀ l ∈ logs, l.exitRequested = false) ∧ m.exitRequested = false) :
    ((∃ w', waitForCoordinatorMsg T w = .returned w') ↔
      (m.msg.isValid = true ∧ m.msg.type = T ∧
        (T = DMT_DO_SUSPEND → w.compId = m.msg.compGroup.upid))) ∧
    ((m.msg.isValid = false ∨ (m.msg.type ≠ T ∧ m.msg.type ≠ DMT_KILL_PEER)) →
      ∃ w', waitForCoordinatorMsg T w = .assertFailed w' ∧
        w'.ckptDir = w.ckptDir ∧ w'.compGroup = w.compGroup ∧ w'.numPeers = w.numPeers) := by
  have hs' : T = DMT_DO_SUSPEND → w.destroyDmtcpWorkerLock = false ∧
      w.exitInProgress = false ∧ ∀ l ∈ logs, l.exitRequested = false :=
    fun h => ⟨(hs h).1, (hs h).2.1, (hs h).2.2.1⟩
  rw [waitForCoordinatorMsg_logs T w logs (m :: rest) hc hin hv hs']
  have hx : ¬ (T = DMT_DO_SUSPEND ∧
      ((afterLogs logs (m :: rest) (entered T w)).exitInProgress || m.exitRequested) = true) := by
    rintro ⟨h1, h2⟩
    obtain ⟨_, b, c, d⟩ := hs h1
    have : List.any logs (fun l => l.exitRequested) = false := by
      rw [List.any_eq_false]
      intro x hx
      simp [c x hx]
    simp [afterLogs, entered, report, emit, h1, b, d, this] at h2
  have f1 : ∀ x : Worker, (afterLogs logs (m :: rest) x).ckptDir = x.ckptDir ∧
      (afterLogs logs (m :: rest) x).compGroup = x.compGroup ∧
      (afterLogs logs (m :: rest) x).numPeers = x.numPeers ∧
      (afterLogs logs (m :: rest) x).compId = x.compId := fun _ => ⟨rfl, rfl, rfl, rfl⟩
  have f2 : (entered T w).ckptDir = w.ckptDir ∧ (entered T w).compGroup = w.compGroup ∧
      (entered T w).numPeers = w.numPeers ∧ (entered T w).compId = w.compId := by
    unfold entered; split_ifs <;> simp [emit]
  simp only [recvLoop, emit, hx, if_false]
  cases hmv : m.msg.isValid with
  | false =>
    simp only [if_true]
    refine ⟨by simp, fun _ => ⟨_, rfl, ?_, ?_, ?_⟩⟩
    · exact ((f1 _).1).trans f2.1
    · exact ((f1 _).2.1).trans f2.2.1
    · exact ((f1 _).2.2.1).trans f2.2.2.1
  | true =>
    have hmu : m.msg.type ≠ DMT_UPDATE_LOGGING := fun h => hfirst ⟨hmv, h⟩
    simp only [Bool.true_eq_false, if_false, hmu]
    by_cases hk : m.msg.type = DMT_KILL_PEER
    · simp only [hk, if_true]
      refine ⟨by simp [Ne.symm hT2], ?_⟩
      rintro (h | h)
      · simp at h
      · exact absurd rfl h.2
    · simp only [hk, if_false]
      by_cases hmt : m.msg.type = T
      · by_cases hT : T = DMT_DO_SUSPEND
        · subst hT
          simp only [afterRecv, hmt, ne_eq, not_true_eq_false, if_false, if_true, true_and,
            true_implies, f1, f2, emit]
          by_cases hcomp : w.compId = m.msg.compGroup.upid
          · simp only [hcomp, not_true_eq_false, if_false]
            refine ⟨?_, fun h => by simp at h⟩
            split_ifs <;> simp
          · simp only [hcomp, not_false_eq_true, if_true]
            refine ⟨by simp, fun h => by simp at h⟩
        · simp only [afterRecv, hmt, ne_eq, not_true_eq_false, if_false, hT, true_and,
            false_implies, and_true]
          refine ⟨?_, fun h => by simp at h⟩
          split_ifs <;> simp
      · simp only [afterRecv, ne_eq, hmt, not_false_eq_true, if_true, false_and, and_false]
        refine ⟨by simp, fun _ => ⟨_, rfl, ?_, ?_, ?_⟩⟩
        · exact ((f1 _).1).trans f2.1
        · exact ((f1 _).2.1).trans f2.2.1
        · exact ((f1 _).2.2.1).trans f2.2.2.1

/-- C6 (amended), at a concrete input: the worker waits for DMT_DO_DRAIN and,
after a log-mask change, receives DMT_DO_CHECKPOINT. -/
theorem C6_protocol_violation_fatal_witness :
    ((∃ w', waitForCoordinatorMsg DMT_DO_DRAIN
        (sampleWorker [logMsg 5, sampleIn DMT_DO_CHECKPOINT]) = .returned w') ↔
      ((sampleIn DMT_DO_CHECKPOINT).msg.isValid = true ∧
        (sampleIn DMT_DO_CHECKPOINT).msg.type = DMT_DO_DRAIN ∧
        (DMT_DO_DRAIN = DMT_DO_SUSPEND →
          (sampleWorker [logMsg 5, sampleIn DMT_DO_CHECKPOINT]).compId =
            (sampleIn DMT_DO_CHECKPOINT).msg.compGroup.upid))) ∧
    (((sampleIn DMT_DO_CHECKPOINT).msg.isValid = false ∨
        ((sampleIn DMT_DO_CHECKPOINT).msg.type ≠ DMT_DO_DRAIN ∧
          (sampleIn DMT_DO_CHECKPOINT).msg.type ≠ DMT_KILL_PEER)) →
      ∃ w', waitForCoordinatorMsg DMT_DO_DRAIN
          (sampleWorker [logMsg 5, sampleIn DMT_DO_CHECKPOINT]) = .assertFailed w' ∧
        w'.ckptDir = (sampleWorker [logMsg 5, sampleIn DMT_DO_CHECKPOINT]).ckptDir ∧
        w'.compGroup = (sampleWorker [logMsg 5, sampleIn DMT_DO_CHECKPOINT]).compGroup ∧
        w'.numPeers = (sampleWorker [logMsg 5, sampleIn DMT_DO_CHECKPOINT]).numPeers) :=
  C6_protocol_violation_fatal DMT_DO_DRAIN
    (sampleWorker [logMsg 5, sampleIn DMT_DO_CHECKPOINT])
    [logMsg 5] [] (sampleIn DMT_DO_CHECKPOINT)
    (by decide) (by decide) (by decide) (by decide) (by decide) (by decide) (by decide)

/-- C6 as stated fails.  A valid message of exactly the awaited type
DMT_DO_SUSPEND, received first, does not make the call return when its
computation group is not the worker's.  A DMT_UPDATE_LOGGING with bad magic
bytes ends the call although the first message of another type is valid and
of the awaited type.  And a message of a wrong type that arrives while the
worker waits for DMT_DO_SUSPEND and exit is in progress parks the thread: no
assertion fails. -/
theorem C6_counterexample :
    (({ sampleMsg DMT_DO_SUSPEND with compGroup := ⟨9, 9, 9, 0⟩ } : DmtcpMessage).isValid =
        true ∧
      ({ sampleMsg DMT_DO_SUSPEND with compGroup := ⟨9, 9, 9, 0⟩ } : DmtcpMessage).type =
        DMT_DO_SUSPEND ∧
      (waitForCoordinatorMsg DMT_DO_SUSPEND
        (sampleWorker
          [⟨{ sampleMsg DMT_DO_SUSPEND with compGroup := ⟨9, 9, 9, 0⟩ }, [], false⟩])).isReturned =
        false) ∧
    ((sampleMsg DMT_DO_DRAIN).isValid = true ∧
      (waitForCoordinatorMsg DMT_DO_DRAIN
        (sampleWorker [⟨{ sampleMsg DMT_UPDATE_LOGGING with magicBits := [] }, [], false⟩,
          sampleIn DMT_DO_DRAIN])).isReturned = false) ∧
    ((sampleMsg DMT_DO_DRAIN).type ≠ DMT_DO_SUSPEND ∧
      (sampleMsg DMT_DO_DRAIN).type ≠ DMT_KILL_PEER ∧
      (waitForCoordinatorMsg DMT_DO_SUSPEND
        (sampleWorker [⟨sampleMsg DMT_DO_DRAIN, [], true⟩])).isAssertFailed = false) := by
  decide

/-- C7 (amended): if process exit is in progress the checkpoint thread parks.
With a coordinator present: (1) when the destroy-worker lock cannot be taken
or the flag is set on entry to waitForCoordinatorMsg(DMT_DO_SUSPEND), and (2)
when the flag is set as a message arrives while waiting for DMT_DO_SUSPEND,
the call parks, and from that entry on nothing is sent, no hook runs and no
WorkerState is set.  (3) When the flag is set on entry to
waitForStage2Checkpoint, that call parks after setting the state SUSPENDED
and nothing else: nothing is sent, no hook runs, no other state is set.  A
parked call never returns, so what follows it (`next`) does not run. -/
theorem C7_exit_in_progress_parks :
    (∀ (w : Worker) (next : Worker → Outcome), w.noCoordinator = false →
      (w.destroyDmtcpWorkerLock = true ∨ w.exitInProgress = true) →
      ∃ w' added, waitForCoordinatorMsg DMT_DO_SUSPEND w = .parked w' ∧
        (waitForCoordinatorMsg DMT_DO_SUSPEND w).andThen next = .parked w' ∧
        w'.trace = w.trace ++ added ∧ added.all silent = true ∧
        w'.currentState = w.currentState) ∧
    (∀ (w : Worker) (next : Worker → Outcome) (logs rest : List Incoming) (i : Incoming),
      w.noCoordinator = false → w.destroyDmtcpWorkerLock = false →
      w.exitInProgress = false → w.inbox = logs ++ i :: rest →
      (∀ l ∈ logs, l.msg.isValid = true ∧ l.msg.type = DMT_UPDATE_LOGGING ∧
        l.exitRequested = false) →
      i.exitRequested = true →
      ∃ w' added, waitForCoordinatorMsg DMT_DO_SUSPEND w = .parked w' ∧
        (waitForCoordinatorMsg DMT_DO_SUSPEND w).andThen next = .parked w' ∧
        w'.trace = w.trace ++ added ∧ added.all silent = true ∧
        w'.currentState = w.currentState) ∧
    (∀ (w : Worker) (next : Worker → Outcome), w.exitInProgress = true →
      ∃ w' added, waitForStage2Checkpoint w = .parked w' ∧
        (waitForStage2Checkpoint w).andThen next = .parked w' ∧
        w'.trace = w.trace ++ Event.setState .SUSPENDED :: added ∧
        added.all silent = true ∧ w'.currentState = .SUSPENDED) := by
  refine ⟨?_, ?_, ?_⟩
  · intro w next hc h
    unfold waitForCoordinatorMsg
    rw [hc]
    simp only [Bool.false_eq_true, if_false, true_and]
    by_cases hl : w.destroyDmtcpWorkerLock = true
    · rw [if_pos hl]
      exact ⟨w, [], rfl, rfl, by simp, rfl, rfl⟩
    · have he : w.exitInProgress = true := h.resolve_left hl
      rw [if_neg hl, if_pos he]
      exact ⟨_, [.destroyDmtcpWorkerLockUnlock], rfl, rfl,
        by simp [destroyDmtcpWorkerLockUnlock, emit], rfl, rfl⟩
  · intro w next logs rest i hc hl he hin hv hi
    rw [waitForCoordinatorMsg_logs DMT_DO_SUSPEND w logs (i :: rest) hc hin
      (fun l h => ⟨(hv l h).1, (hv l h).2.1⟩) (fun _ => ⟨hl, he, fun l h => (hv l h).2.2⟩)]
    simp only [recvLoop, emit, hi, Bool.or_true, and_self, if_true, Outcome.andThen]
    refine ⟨_, Event.fakeSyscall ::
      (List.replicate logs.length (Event.recv DMT_UPDATE_LOGGING) ++
        [Event.recv i.msg.type, Event.destroyDmtcpWorkerLockUnlock]), rfl, rfl, ?_, ?_, ?_⟩
    · simp [destroyDmtcpWorkerLockUnlock, emit, afterLogs, entered, report]
    · simp [silent, List.all_append, List.all_replicate]
    · simp [destroyDmtcpWorkerLockUnlock, emit, afterLogs, entered, report]
  · intro w next he
    unfold waitForStage2Checkpoint
    simp only [setCurrentState, emit, he, if_true, Outcome.andThen]
    exact ⟨_, [.destroyDmtcpWorkerLockUnlock], rfl, rfl,
      by simp [destroyDmtcpWorkerLockUnlock, emit], rfl, rfl⟩

/-- C7 (amended), at concrete inputs: exit in progress on entry to
waitForCoordinatorMsg(DMT_DO_SUSPEND); exit requested as DMT_DO_SUSPEND
arrives; exit in progress on entry to waitForStage2Checkpoint. -/
theorem C7_exit_in_progress_parks_witness :
    (∃ w' added, waitForCoordinatorMsg DMT_DO_SUSPEND
        { sampleWorker [sampleIn DMT_DO_SUSPEND] with exitInProgress := true } = .parked w' ∧
      (waitForCoordinatorMsg DMT_DO_SUSPEND
        { sampleWorker [sampleIn DMT_DO_SUSPEND] with exitInProgress := true }).andThen
          waitForStage2Checkpoint = .parked w' ∧
      w'.trace = [] ++ added ∧ added.all silent = true ∧ w'.currentState = .RUNNING) ∧
    (∃ w' added, waitForCoordinatorMsg DMT_DO_SUSPEND
        (sampleWorker [logMsg 5, ⟨sampleMsg DMT_DO_SUSPEND, [], true⟩]) = .parked w' ∧
      (waitForCoordinatorMsg DMT_DO_SUSPEND
        (sampleWorker [logMsg 5, ⟨sampleMsg DMT_DO_SUSPEND, [], true⟩])).andThen
          waitForStage2Checkpoint = .parked w' ∧
      w'.trace = [] ++ added ∧ added.all silent = true ∧ w'.currentState = .RUNNING) ∧
    (∃ w' added, waitForStage2Checkpoint
        { sampleWorker [] with exitInProgress := true } = .parked w' ∧
      (waitForStage2Checkpoint { sampleWorker [] with exitInProgress := true }).andThen
          waitForStage3Refill = .parked w' ∧
      w'.trace = [] ++ Event.setState .SUSPENDED :: added ∧
      added.all silent = true ∧ w'.currentState = .SUSPENDED) :=
  ⟨C7_exit_in_progress_parks.1
      { sampleWorker [sampleIn DMT_DO_SUSPEND] with exitInProgress := true }
      waitForStage2Checkpoint (by decide) (by decide),
   C7_exit_in_progress_parks.2.1
      (sampleWorker [logMsg 5, ⟨sampleMsg DMT_DO_SUSPEND, [], true⟩])
      waitForStage2Checkpoint [logMsg 5] [] ⟨sampleMsg DMT_DO_SUSPEND, [], true⟩
      (by decide) (by decide) (by decide) (by decide) (by decide) (by decide),
   C7_exit_in_progress_parks.2.2
      { sampleWorker [] with exitInProgress := true } waitForStage3Refill (by decide)⟩

/-- C7 as stated fails.  With the flag set on entry to waitForStage2Checkpoint
the call does set a WorkerState (SUSPENDED, before it tests the flag); and
without a coordinator waitForCoordinatorMsg(DMT_DO_SUSPEND) entered with the
flag set returns to its caller. -/
theorem C7_counterexample :
    (∃ w', waitForStage2Checkpoint { sampleWorker [] with exitInProgress := true } =
        .parked w' ∧
      Event.setState .SUSPENDED ∈ w'.trace ∧ w'.currentState = .SUSPENDED ∧
      (sampleWorker []).currentState = .RUNNING) ∧
    (∃ w', waitForCoordinatorMsg DMT_DO_SUSPEND
        { sampleWorker [] with noCoordinator := true, exitInProgress := true } =
        .returned w') :=
  ⟨⟨(waitForStage2Checkpoint { sampleWorker [] with exitInProgress := true }).worker,
      by decide, by decide, by decide, by decide⟩,
   ⟨(waitForCoordinatorMsg DMT_DO_SUSPEND
      { sampleWorker [] with noCoordinator := true, exitInProgress := true }).worker,
      by decide⟩⟩

/-! ## `readAndSetEnv`: lemmas -/

theorem blit_apply (t : Bytes) : ∀ (m : Mem) (off i : Nat),
    blit m off t i = if off ≤ i ∧ i < off + t.length then t.getD (i - off) 0 else m i := by
  induction t with
  | nil =>
    intro m off i
    have : ¬ (off ≤ i ∧ i < off + ([] : Bytes).length) := by simp
    rw [if_neg this]
    rfl
  | cons x xs ih =>
    intro m off i
    simp only [blit, ih, List.length_cons]
    by_cases h1 : off + 1 ≤ i ∧ i < off + 1 + xs.length
    · have h2 : off ≤ i ∧ i < off + (xs.length + 1) := by omega
      rw [if_pos h1, if_pos h2]
      obtain ⟨k, hk⟩ : ∃ k, i - off = k + 1 := ⟨i - off - 1, by omega⟩
      rw [hk, List.getD_cons_succ]
      congr 1
      omega
    · rw [if_neg h1]
      by_cases h3 : i = off
      · subst h3
        simp
      · have h2 : ¬ (off ≤ i ∧ i < off + (xs.length + 1)) := by omega
        rw [if_neg h2, Function.update_noteq h3]

/-- A string followed by a NUL is read back from the array it was stored in. -/
theorem cstrAux_of_bytes (m : Mem) (t : Bytes) : ∀ (fuel i : Nat),
    t.length < fuel → (∀ k, k < t.length → m (i + k) = t.getD k 0) → m (i + t.length) = 0 →
    (∀ x ∈ t, x ≠ 0) → cstrAux m fuel i = some t := by
  induction t with
  | nil =>
    intro fuel i hf _ h0 _
    cases fuel with
    | zero => simp at hf
    | succ f => simpa [cstrAux] using h0
  | cons x xs ih =>
    intro fuel i hf hm h0 hnz
    cases fuel with
    | zero => simp at hf
    | succ f =>
      have hx : m i = x := by simpa using hm 0 (by simp)
      have hx0 : x ≠ 0 := hnz x (List.mem_cons_self _ _)
      simp only [cstrAux, hx, hx0, if_false]
      rw [ih f (i + 1) (by simpa using hf)
        (fun k hk => by
          have := hm (k + 1) (by simpa using hk)
          simpa [Nat.add_assoc, Nat.add_comm 1 k] using this)
        (by simpa [Nat.add_assoc, Nat.add_comm 1 xs.length] using h0)
        (fun y hy => hnz y (List.mem_cons_of_mem _ hy))]
      rfl

/-- A string read from an array has no NUL in it and ends inside the array. -/
theorem cstrAux_some (m : Mem) : ∀ (fuel i : Nat) (t : Bytes), cstrAux m fuel i = some t →
    (∀ x ∈ t, x ≠ 0) ∧ t.length < fuel ∧ (∀ k, k < t.length → m (i + k) = t.getD k 0) ∧
    m (i + t.length) = 0 := by
  intro fuel
  induction fuel with
  | zero => intro i t h; simp [cstrAux] at h
  | succ f ih =>
    intro i t h
    simp only [cstrAux] at h
    split_ifs at h with h0
    · simp only [Option.some.injEq] at h
      subst h
      simpa using h0
    · cases hr : cstrAux m f (i + 1) with
      | none => simp [hr] at h
      | some r =>
        simp only [hr, Option.map_some', Option.some.injEq] at h
        subst h
        obtain ⟨a, b, c, d⟩ := ih (i + 1) r hr
        refine ⟨?_, by simpa using b, ?_, ?_⟩
        · intro x hx
          rcases List.mem_cons.mp hx with rfl | hx
          · exact h0
          · exact a x hx
        · intro k hk
          cases k with
          | zero => simp
          | succ k =>
            have := c k (by simpa using hk)
            simpa [Nat.add_assoc, Nat.add_comm 1 k] using this
        · simpa [Nat.add_assoc, Nat.add_comm 1 r.length] using d

theorem step_plain (R env : Env) (buf : Bytes) (s : Locals) (x : Nat)
    (hb : buf[s.c]? = some x) (hp : plainByte x) : step R env buf s = copyChar x s := by
  obtain ⟨h1, h2, h3, h4, h5, h6, h7, h8, h9⟩ := hp
  simp [step, hb, h1, h2, h3, h4, h5, h6, h7, h8, h9]

theorem copyChar_eq (s : Locals) (x : Nat) (h : s.destOff < BUF_SIZE) :
    copyChar x s = .next (s.put x) none := by
  cases s with
  | mk c nb vb nc ne r off sm =>
    cases r <;> simp_all [copyChar, storeInc, store, Except.map, Locals.put, Locals.setDestMem]

theorem copied_cons (s : Locals) (x : Nat) (xs : Bytes) :
    (s.put x).copied xs = s.copied (x :: xs) := by
  cases s with
  | mk c nb vb nc ne r off sm =>
    cases r <;>
      simp [Locals.copied, Locals.put, Locals.setDestMem, Locals.destMem, blit, Nat.add_assoc,
        Nat.add_comm 1 xs.length]

/-- A run of plain bytes is copied to `dest`, one pass of the loop each. -/
theorem readLoop_copy (R : Env) (buf : Bytes) (env : Env) (t : Bytes) :
    ∀ (s : Locals) (fuel : Nat), (∀ x ∈ t, plainByte x) →
    (∀ k, k < t.length → buf[s.c + k]? = some (t.getD k 0)) →
    s.destOff + t.length ≤ BUF_SIZE →
    readLoop R buf (fuel + t.length) s env = readLoop R buf fuel (s.copied t) env := by
  induction t with
  | nil =>
    intro s fuel _ _ _
    cases s with
    | mk c nb vb nc ne r off sm =>
      cases r <;> simp [Locals.copied, Locals.setDestMem, Locals.destMem, blit]
  | cons x xs ih =>
    intro s fuel hp hb hd
    have hx : buf[s.c]? = some x := by simpa using hb 0 (by simp)
    have hlt : s.destOff < BUF_SIZE := by simp at hd; omega
    rw [List.length_cons, ← Nat.add_assoc]
    simp only [readLoop, step_plain R env buf s x hx (hp x (List.mem_cons_self _ _)),
      copyChar_eq s x hlt]
    rw [← copied_cons]
    have hc : (s.put x).c = s.c + 1 := by
      cases s with
      | mk c nb vb nc ne r off sm => cases r <;> rfl
    have ho : (s.put x).destOff = s.destOff + 1 := by
      cases s with
      | mk c nb vb nc ne r off sm => cases r <;> rfl
    apply ih
    · intro y hy
      exact hp y (List.mem_cons_of_mem _ hy)
    · intro k hk
      have := hb (k + 1) (by simpa using hk)
      simp only [List.getD_cons_succ] at this
      rw [hc]
      simpa [Nat.add_assoc, Nat.add_comm 1 k] using this
    · rw [ho]
      simp at hd
      omega

/-- A string stored at the start of an array and followed by a NUL is the
string the array holds. -/
theorem cstr_of_bytes (m : Mem) (t : Bytes) (hl : t.length < BUF_SIZE)
    (hm : ∀ k, k < t.length → m k = t.getD k 0) (h0 : m t.length = 0)
    (hnz : ∀ x ∈ t, x ≠ 0) : cstr m 0 BUF_SIZE = some t := by
  unfold cstr
  apply cstrAux_of_bytes m t _ 0 (by simpa using hl)
  · intro k hk; simpa using hm k hk
  · simpa using h0
  · exact hnz

/-- The bytes of a list, by position in a longer list. -/
theorem getElem?_mid (pre t post buf : Bytes) (k n : Nat) (hk : k < t.length)
    (hbuf : buf = pre ++ t ++ post) (hn : n = pre.length + k) :
    buf[n]? = some (t.getD k 0) := by
  subst hbuf hn
  rw [List.append_assoc, List.getElem?_append_right (by omega)]
  simp only [Nat.add_sub_cancel_left]
  rw [List.getElem?_append_left hk, List.getD_eq_getElem?_getD, List.getElem?_eq_getElem hk]
  rfl

/-- A line `NAME=VALUE` read from the start of a line: the loop passes over
it, calls `setenv(NAME, VALUE, 1)` and is at the start of the next line. -/
theorem readLoop_setLine (R : Env) (env : Env) (pre name value post : Bytes)
    (s : Locals) (fuel : Nat)
    (hs : s.atLineStart) (hc : s.c = pre.length)
    (hn : ∀ x ∈ name, plainByte x ∧ x ≠ 0) (hv : ∀ x ∈ value, plainByte x ∧ x ≠ 0)
    (hne : name ≠ []) (hnl : name.length < BUF_SIZE) (hvl : value.length < BUF_SIZE)
    (hrec : s.nameChanged_end + name.length + 1 ≤ NAME_CHANGED_SIZE) :
    ∃ s', readLoop R (pre ++ (name ++ 61 :: (value ++ 10 :: post)))
        (fuel + (name.length + 1 + value.length + 1)) s env =
      readLoop R (pre ++ (name ++ 61 :: (value ++ 10 :: post))) fuel s' (setenv env name value) ∧
      s'.atLineStart ∧ s'.c = pre.length + (name.length + 1 + value.length + 1) ∧
      s'.nameChanged_end = s.nameChanged_end + name.length + 1 := by
  obtain ⟨hr, ho, hm⟩ := hs
  generalize hbuf : pre ++ (name ++ 61 :: (value ++ 10 :: post)) = buf
  have hb1 : ∀ k, k < name.length → buf[s.c + k]? = some (name.getD k 0) := fun k hk =>
    getElem?_mid pre name (61 :: (value ++ 10 :: post)) buf k _ hk (by simp [← hbuf])
      (by rw [hc])
  have hb2 : buf[pre.length + name.length]? = some 61 :=
    getElem?_mid (pre ++ name) [61] (value ++ 10 :: post) buf 0 _ (by simp)
      (by simp [← hbuf]) (by simp)
  have hb3 : ∀ k, k < value.length →
      buf[pre.length + name.length + 1 + k]? = some (value.getD k 0) := fun k hk =>
    getElem?_mid (pre ++ name ++ [61]) value (10 :: post) buf k _ hk (by simp [← hbuf])
      (by simp; omega)
  have hb4 : buf[pre.length + name.length + 1 + value.length]? = some 10 :=
    getElem?_mid (pre ++ name ++ [61] ++ value) [10] post buf 0 _ (by simp)
      (by simp [← hbuf]) (by simp; omega)
  -- the name
  have e1 : fuel + (name.length + 1 + value.length + 1) =
      (fuel + 1 + value.length + 1) + name.length := by omega
  rw [e1, readLoop_copy R buf env name s _ (fun x hx => (hn x hx).1) hb1 (by omega)]
  -- the '='
  have c1 : (s.copied name).c = pre.length + name.length := by
    simp [Locals.copied, Locals.setDestMem, hr, hc]
  have o1 : (s.copied name).destOff = name.length := by
    simp [Locals.copied, Locals.setDestMem, hr, ho]
  have r1 : (s.copied name).destRegion = .nameBuf := by
    simp [Locals.copied, Locals.setDestMem, hr]
  have st2 : step R env buf (s.copied name) =
      .next { s.copied name with
        nameBuf := Function.update (s.copied name).nameBuf name.length 0
        destRegion := .valueBuf, destOff := 0, c := pre.length + name.length + 1 } none := by
    simp [step, c1, hb2, store, o1, hnl, Locals.setDestMem, Locals.destMem, r1]
  rw [show fuel + 1 + value.length + 1 = (fuel + 1 + value.length) + 1 by omega]
  simp only [readLoop, st2]
  -- the value
  generalize hs2 : ({ s.copied name with
        nameBuf := Function.update (s.copied name).nameBuf name.length 0
        destRegion := .valueBuf, destOff := 0, c := pre.length + name.length + 1 } : Locals) = s2
  have c2 : s2.c = pre.length + name.length + 1 := by subst hs2; rfl
  have o2 : s2.destOff = 0 := by subst hs2; rfl
  have r2 : s2.destRegion = .valueBuf := by subst hs2; rfl
  have m2 : s2.isStringMode = false := by
    subst hs2; simp [Locals.copied, Locals.setDestMem, hr, hm]
  have n2 : s2.nameBuf = Function.update (blit s.nameBuf 0 name) name.length 0 := by
    subst hs2; simp [Locals.copied, Locals.setDestMem, Locals.destMem, hr, ho]
  have e2 : s2.nameChanged_end = s.nameChanged_end := by
    subst hs2; simp [Locals.copied, Locals.setDestMem, hr]
  rw [readLoop_copy R buf env value s2 _ (fun x hx => (hv x hx).1)
    (by intro k hk; rw [c2]; exact hb3 k hk) (by rw [o2]; simp; omega)]
  -- the end of the line
  generalize hs3 : s2.copied value = s3
  have c3 : s3.c = pre.length + name.length + 1 + value.length := by
    subst hs3; simp [Locals.copied, Locals.setDestMem, r2, c2]
  have o3 : s3.destOff = value.length := by
    subst hs3; simp [Locals.copied, Locals.setDestMem, r2, o2]
  have r3 : s3.destRegion = .valueBuf := by
    subst hs3; simp [Locals.copied, Locals.setDestMem, r2]
  have m3 : s3.isStringMode = false := by
    subst hs3; simp [Locals.copied, Locals.setDestMem, r2, m2]
  have n3 : s3.nameBuf = Function.update (blit s.nameBuf 0 name) name.length 0 := by
    subst hs3; simp [Locals.copied, Locals.setDestMem, r2, n2]
  have v3 : s3.valueBuf = blit s2.valueBuf 0 value := by
    subst hs3; simp [Locals.copied, Locals.setDestMem, Locals.destMem, r2, o2]
  have e3 : s3.nameChanged_end = s.nameChanged_end := by
    subst hs3; simp [Locals.copied, Locals.setDestMem, r2, e2]
  have hname : cstr s3.nameBuf 0 BUF_SIZE = some name := by
    apply cstr_of_bytes _ _ hnl
    · intro k hk
      rw [n3, Function.update_noteq (by omega), blit_apply]
      simp [hk]
    · rw [n3]; simp
    · exact fun x hx => (hn x hx).2
  have hvalue : cstr (Function.update s3.valueBuf value.length 0) 0 BUF_SIZE = some value := by
    apply cstr_of_bytes _ _ hvl
    · intro k hk
      rw [v3, Function.update_noteq (by omega), blit_apply]
      simp [hk]
    · simp
    · exact fun x hx => (hv x hx).2
  have hfirst : s3.nameBuf 0 ≠ 0 := by
    obtain ⟨a, t, rfl⟩ := List.exists_cons_of_ne_nil hne
    rw [n3, Function.update_noteq (by simp), blit_apply]
    simpa using (hn a (List.mem_cons_self _ _)).2
  have st4 : ∃ s4, step R env buf s3 = .next s4 (some (.set name value)) ∧
      s4.atLineStart ∧ s4.c = pre.length + (name.length + 1 + value.length + 1) ∧
      s4.nameChanged_end = s.nameChanged_end + name.length + 1 := by
    have hne' : s.nameChanged_end ≠ NAME_CHANGED_SIZE := by omega
    simp only [step, c3, hb4, m3, hfirst, endOfLine, storeInc, store, o3, hvl, Except.map,
      Locals.setDestMem, Locals.destMem, r3, hname, hvalue, recordName, e3, hne', hrec,
      readEOF, Nat.reduceEqDiff, if_false, if_true, Bool.false_eq_true, ne_eq,
      not_false_eq_true, reduceCtorEq, false_and, Option.map_some']
    refine ⟨_, rfl, ⟨rfl, rfl, rfl⟩, ?_, rfl⟩
    simp only [c3]
    omega
  obtain ⟨s4, h4, a4, b4, d4⟩ := st4
  refine ⟨s4, ?_, a4, b4, d4⟩
  simp only [readLoop, h4, EnvAction.apply]

/-- A line `NAME` with no `=`, read from the start of a line, up to its
`'\n'`: the name is in `nameBuf`, `dest` is after it. -/
theorem readLoop_nameOnly (R : Env) (env : Env) (pre name post : Bytes)
    (s : Locals) (fuel : Nat)
    (hs : s.atLineStart) (hc : s.c = pre.length)
    (hn : ∀ x ∈ name, plainByte x ∧ x ≠ 0)
    (hne : name ≠ []) (hnl : name.length < BUF_SIZE) :
    ∃ s1, readLoop R (pre ++ (name ++ 10 :: post)) (fuel + name.length) s env =
        readLoop R (pre ++ (name ++ 10 :: post)) fuel s1 env ∧
      s1.c = pre.length + name.length ∧ s1.destRegion = .nameBuf ∧
      s1.destOff = name.length ∧ s1.isStringMode = false ∧
      s1.nameChanged_end = s.nameChanged_end ∧ s1.nameBuf 0 ≠ 0 ∧
      cstr (Function.update s1.nameBuf name.length 0) 0 BUF_SIZE = some name ∧
      (pre ++ (name ++ 10 :: post))[s1.c]? = some 10 := by
  obtain ⟨hr, ho, hm⟩ := hs
  generalize hbuf : pre ++ (name ++ 10 :: post) = buf
  have hb1 : ∀ k, k < name.length → buf[s.c + k]? = some (name.getD k 0) := fun k hk =>
    getElem?_mid pre name (10 :: post) buf k _ hk (by simp [← hbuf]) (by rw [hc])
  have hb2 : buf[pre.length + name.length]? = some 10 :=
    getElem?_mid (pre ++ name) [10] post buf 0 _ (by simp) (by simp [← hbuf]) (by simp)
  rw [readLoop_copy R buf env name s _ (fun x hx => (hn x hx).1) hb1 (by omega)]
  have c1 : (s.copied name).c = pre.length + name.length := by
    simp [Locals.copied, Locals.setDestMem, hr, hc]
  have n1 : (s.copied name).nameBuf = blit s.nameBuf 0 name := by
    simp [Locals.copied, Locals.setDestMem, Locals.destMem, hr, ho]
  refine ⟨s.copied name, rfl, c1, ?_, ?_, ?_, ?_, ?_, ?_, ?_⟩
  · simp [Locals.copied, Locals.setDestMem, hr]
  · simp [Locals.copied, Locals.setDestMem, hr, ho]
  · simp [Locals.copied, Locals.setDestMem, hr, hm]
  · simp [Locals.copied, Locals.setDestMem, hr]
  · obtain ⟨a, t, rfl⟩ := List.exists_cons_of_ne_nil hne
    rw [n1, blit_apply]
    simpa using (hn a (List.mem_cons_self _ _)).2
  · apply cstr_of_bytes _ _ hnl
    · intro k hk
      rw [n1, Function.update_noteq (by omega), blit_apply]
      simp [hk]
    · simp
    · exact fun x hx => (hn x hx).2
  · rw [c1]; exact hb2

/-- A line `NAME` with no `=` read from the start of a line: the loop passes
over it, calls `unsetenv(NAME)` and is at the start of the next line. -/
theorem readLoop_unsetLine (R : Env) (env : Env) (pre name post : Bytes)
    (s : Locals) (fuel : Nat)
    (hs : s.atLineStart) (hc : s.c = pre.length)
    (hn : ∀ x ∈ name, plainByte x ∧ x ≠ 0)
    (hne : name ≠ []) (hnl : name.length < BUF_SIZE - 1)
    (hrec : s.nameChanged_end + name.length + 1 ≤ NAME_CHANGED_SIZE) :
    ∃ s', readLoop R (pre ++ (name ++ 10 :: post)) (fuel + (name.length + 1)) s env =
      readLoop R (pre ++ (name ++ 10 :: post)) fuel s' (unsetenv env name) ∧
      s'.atLineStart ∧ s'.c = pre.length + (name.length + 1) ∧
      s'.nameChanged_end = s.nameChanged_end + name.length + 1 := by
  have hnl' : name.length < BUF_SIZE := by simp only [BUF_SIZE] at hnl ⊢; omega
  obtain ⟨s1, h1, c1, r1, o1, m1, e1, f1, n1, b1⟩ :=
    readLoop_nameOnly R env pre name post s (fuel + 1) hs hc hn hne hnl'
  rw [show fuel + (name.length + 1) = fuel + 1 + name.length by omega, h1]
  have hne' : s.nameChanged_end ≠ NAME_CHANGED_SIZE := by omega
  have hlt : name.length + 1 < BUF_SIZE := by simp only [BUF_SIZE] at hnl ⊢; omega
  have st : ∃ s4, step R env (pre ++ (name ++ 10 :: post)) s1 =
        .next s4 (some (.unset name)) ∧
      s4.atLineStart ∧ s4.c = pre.length + (name.length + 1) ∧
      s4.nameChanged_end = s.nameChanged_end + name.length + 1 := by
    simp only [step, b1, m1, f1, endOfLine, storeInc, store, o1, hnl', Except.map,
      Locals.setDestMem, Locals.destMem, r1, n1, recordName, e1, hne', hrec, hlt,
      readEOF, Nat.reduceEqDiff, if_false, if_true, Bool.false_eq_true, ne_eq,
      not_false_eq_true, Nat.zero_lt_succ, and_self, true_and]
    refine ⟨_, rfl, ⟨rfl, rfl, rfl⟩, ?_, rfl⟩
    simp only [c1]
    omega
  obtain ⟨s4, h4, a4, b4, d4⟩ := st
  refine ⟨s4, ?_, a4, b4, d4⟩
  simp only [readLoop, h4, EnvAction.apply]

/-- A line `NAME` whose name does not fit in what is left of `nameChanged`,
while `nameChanged_end` is not at its very end: `strcpy` stores outside the
array. -/
theorem readLoop_unsetLine_overflow (R : Env) (env : Env) (pre name post : Bytes)
    (s : Locals) (fuel : Nat)
    (hs : s.atLineStart) (hc : s.c = pre.length)
    (hn : ∀ x ∈ name, plainByte x ∧ x ≠ 0)
    (hne : name ≠ []) (hnl : name.length < BUF_SIZE - 1)
    (hend : s.nameChanged_end ≠ NAME_CHANGED_SIZE)
    (hrec : ¬ s.nameChanged_end + name.length + 1 ≤ NAME_CHANGED_SIZE) :
    readLoop R (pre ++ (name ++ 10 :: post)) (fuel + (name.length + 1)) s env =
      .fault .writeOutOfBounds := by
  have hnl' : name.length < BUF_SIZE := by simp only [BUF_SIZE] at hnl ⊢; omega
  obtain ⟨s1, h1, c1, r1, o1, m1, e1, f1, n1, b1⟩ :=
    readLoop_nameOnly R env pre name post s (fuel + 1) hs hc hn hne hnl'
  rw [show fuel + (name.length + 1) = fuel + 1 + name.length by omega, h1]
  have hlt : name.length + 1 < BUF_SIZE := by simp only [BUF_SIZE] at hnl ⊢; omega
  have st : step R env (pre ++ (name ++ 10 :: post)) s1 = .fault .writeOutOfBounds := by
    simp only [step, b1, m1, f1, endOfLine, storeInc, store, o1, hnl', Except.map,
      Locals.setDestMem, Locals.destMem, r1, n1, recordName, e1, hend, hrec, hlt,
      readEOF, Nat.reduceEqDiff, if_false, if_true, Bool.false_eq_true, ne_eq,
      not_false_eq_true, Nat.zero_lt_succ, and_self, true_and]
  simp only [readLoop, st]

theorem validName_of_okText (t : Bytes) (h : okText t) : validName t = true := by
  obtain ⟨h1, _, h3⟩ := h
  have h61 : ¬ (61 ∈ t) := fun hm => (h3 61 hm).1.2.2.2.2.2.1 rfl
  cases t with
  | nil => exact absurd rfl h1
  | cons a t => simpa [validName] using h61

/-- The loop passes over a file of well-formed lines, line by line, making the
changes the spec describes. -/
theorem readLoop_file (R : Env) (post : Bytes) : ∀ (ls : List EnvAction) (pre : Bytes)
    (s : Locals) (fuel : Nat) (env : Env),
    s.atLineStart → s.c = pre.length → (∀ l ∈ ls, okLine l) →
    s.nameChanged_end + recordedSize ls ≤ NAME_CHANGED_SIZE →
    ∃ s', readLoop R (pre ++ (renderFile ls ++ post)) (fuel + (renderFile ls).length) s env =
        readLoop R (pre ++ (renderFile ls ++ post)) fuel s' (specEnvAfter ls env) ∧
      s'.atLineStart ∧ s'.c = pre.length + (renderFile ls).length ∧
      s'.nameChanged_end = s.nameChanged_end + recordedSize ls := by
  intro ls
  induction ls with
  | nil =>
    intro pre s fuel env hs hc _ _
    exact ⟨s, by simp [renderFile, specEnvAfter], hs, by simpa [renderFile] using hc,
      by simp [recordedSize]⟩
  | cons l ls ih =>
    intro pre s fuel env hs hc hok hsz
    have hl := hok l (List.mem_cons_self _ _)
    have hrs : recordedSize (l :: ls) = l.name.length + 1 + recordedSize ls := by
      simp [recordedSize]
    cases l with
    | set n v =>
      obtain ⟨⟨n1, n2, n3⟩, ⟨_, v2, v3⟩⟩ := hl
      have hb : pre ++ (renderFile (.set n v :: ls) ++ post) =
          pre ++ (n ++ 61 :: (v ++ 10 :: (renderFile ls ++ post))) := by
        simp [renderFile, EnvAction.render]
      have hb' : (pre ++ (n ++ 61 :: (v ++ [10]))) ++ (renderFile ls ++ post) =
          pre ++ (n ++ 61 :: (v ++ 10 :: (renderFile ls ++ post))) := by simp
      have hlen : (renderFile (.set n v :: ls)).length =
          (renderFile ls).length + (n.length + 1 + v.length + 1) := by
        simp [renderFile, EnvAction.render]; omega
      simp only [EnvAction.name] at hrs
      obtain ⟨s1, h1, a1, c1, e1⟩ := readLoop_setLine R env pre n v (renderFile ls ++ post) s
        (fuel + (renderFile ls).length) hs hc n3 v3 n1
        (by simp only [BUF_SIZE] at n2 ⊢; omega) (by simp only [BUF_SIZE] at v2 ⊢; omega)
        (by omega)
      obtain ⟨s2, h2, a2, c2, e2⟩ := ih (pre ++ (n ++ 61 :: (v ++ [10]))) s1 fuel
        (setenv env n v) a1 (by simp [c1]; omega)
        (fun x hx => hok x (List.mem_cons_of_mem _ hx)) (by omega)
      rw [hb'] at h2
      refine ⟨s2, ?_, a2, ?_, ?_⟩
      · rw [hb, hlen, ← Nat.add_assoc, h1, h2]
        simp [specEnvAfter, setenv, validName_of_okText n ⟨n1, n2, n3⟩]
      · rw [c2, hlen]; simp; omega
      · rw [e2, e1, hrs]; omega
    | unset n =>
      obtain ⟨n1, n2, n3⟩ := hl
      have hb : pre ++ (renderFile (.unset n :: ls) ++ post) =
          pre ++ (n ++ 10 :: (renderFile ls ++ post)) := by
        simp [renderFile, EnvAction.render]
      have hb' : (pre ++ (n ++ [10])) ++ (renderFile ls ++ post) =
          pre ++ (n ++ 10 :: (renderFile ls ++ post)) := by simp
      have hlen : (renderFile (.unset n :: ls)).length =
          (renderFile ls).length + (n.length + 1) := by
        simp [renderFile, EnvAction.render]; omega
      simp only [EnvAction.name] at hrs
      obtain ⟨s1, h1, a1, c1, e1⟩ := readLoop_unsetLine R env pre n (renderFile ls ++ post) s
        (fuel + (renderFile ls).length) hs hc n3 n1 n2 (by omega)
      obtain ⟨s2, h2, a2, c2, e2⟩ := ih (pre ++ (n ++ [10])) s1 fuel
        (unsetenv env n) a1 (by simp [c1])
        (fun x hx => hok x (List.mem_cons_of_mem _ hx)) (by omega)
      rw [hb'] at h2
      refine ⟨s2, ?_, a2, ?_, ?_⟩
      · rw [hb, hlen, ← Nat.add_assoc, h1, h2]
        simp [specEnvAfter, unsetenv, validName_of_okText n ⟨n1, n2, n3⟩]
      · rw [c2, hlen]; simp; omega
      · rw [e2, e1, hrs]; omega

/-- A variable no line of the file names keeps its value in the environment
the spec describes. -/
theorem specEnvAfter_other (ls : List EnvAction) : ∀ (e : Env) (n : Bytes),
    n ∉ ls.map EnvAction.name → specEnvAfter ls e n = e n := by
  induction ls with
  | nil => intro e n _; rfl
  | cons l ls ih =>
    intro e n hn
    simp only [List.map_cons, List.mem_cons, not_or] at hn
    cases l with
    | set a v =>
      have := ih (Function.update e a (some v)) n hn.2
      simp only [specEnvAfter, List.foldl_cons] at this ⊢
      rw [this]
      exact Function.update_noteq hn.1 _ _
    | unset a =>
      have := ih (Function.update e a none) n hn.2
      simp only [specEnvAfter, List.foldl_cons] at this ⊢
      rw [this]
      exact Function.update_noteq hn.1 _ _

theorem renderFile_append (a b : List EnvAction) :
    renderFile (a ++ b) = renderFile a ++ renderFile b := by
  simp [renderFile]

theorem initLocals_atLineStart : initLocals.atLineStart := ⟨rfl, rfl, rfl⟩

/-- Function `readAndSetEnv` on a file of well-formed lines whose names fit in
`nameChanged` returns the environment the spec describes. -/
theorem readAndSetEnv_file (R env : Env) (ls : List EnvAction) (pad : Bytes)
    (hok : ∀ l ∈ ls, okLine l) (hsz : recordedSize ls ≤ NAME_CHANGED_SIZE) :
    readAndSetEnv R (renderFile ls ++ readEOF :: pad) env = .returned (specEnvAfter ls env) := by
  unfold readAndSetEnv
  rw [show (renderFile ls ++ readEOF :: pad).length + 1 =
    pad.length + 1 + (renderFile ls).length + 1 by simp; omega]
  rw [show pad.length + 1 + (renderFile ls).length + 1 =
    (pad.length + 1 + 1) + (renderFile ls).length by omega]
  obtain ⟨s2, h2, _, c2, _⟩ := readLoop_file R (readEOF :: pad) ls [] initLocals
    (pad.length + 1 + 1) env initLocals_atLineStart rfl hok (by simpa [initLocals] using hsz)
  simp only [List.nil_append, List.length_nil, Nat.zero_add] at h2 c2
  rw [h2]
  have hb : (renderFile ls ++ readEOF :: pad)[s2.c]? = some readEOF :=
    getElem?_mid (renderFile ls) [readEOF] pad _ 0 _ (by simp) (by simp) (by rw [c2]; rfl)
  simp [readLoop, step, hb]

/-- After well-formed lines that leave `nameChanged` neither full nor with
room for one more name, a line with that name makes `readAndSetEnv` store
outside `nameChanged`. -/
theorem readAndSetEnv_overflow (R env : Env) (ls : List EnvAction) (name pad : Bytes)
    (hok : ∀ l ∈ ls, okLine l) (hn : okText name)
    (hsz : recordedSize ls < NAME_CHANGED_SIZE)
    (hover : ¬ recordedSize ls + name.length + 1 ≤ NAME_CHANGED_SIZE) :
    readAndSetEnv R (renderFile (ls ++ [.unset name]) ++ readEOF :: pad) env =
      .fault .writeOutOfBounds := by
  unfold readAndSetEnv
  have hb : renderFile (ls ++ [.unset name]) ++ readEOF :: pad =
      [] ++ (renderFile ls ++ (name ++ 10 :: readEOF :: pad)) := by
    simp [renderFile, EnvAction.render]
  have hb' : renderFile ls ++ (name ++ 10 :: readEOF :: pad) =
      [] ++ (renderFile ls ++ (name ++ 10 :: readEOF :: pad)) := by simp
  obtain ⟨s1, h1, a1, c1, e1⟩ := readLoop_file R (name ++ 10 :: readEOF :: pad) ls []
    initLocals (pad.length + 1 + 1 + (name.length + 1)) env initLocals_atLineStart rfl hok
    (by simp only [initLocals]; omega)
  have := readLoop_unsetLine_overflow R (specEnvAfter ls env) (renderFile ls) name
    (readEOF :: pad) s1 (pad.length + 1 + 1) a1 (by simpa using c1) hn.2.2 hn.1 hn.2.1
    (by rw [e1]; simp only [initLocals]; omega) (by rw [e1]; simp only [initLocals]; omega)
  rw [hb'] at this
  have hlen : ([] ++ (renderFile ls ++ (name ++ 10 :: readEOF :: pad))).length + 1 =
      pad.length + 1 + 1 + (name.length + 1) + (renderFile ls).length := by
    simp; omega
  rw [hb, hlen, h1, this]

theorem recordedSize_replicate (n : Nat) (l : EnvAction) :
    recordedSize (List.replicate n l) = n * (l.name.length + 1) := by
  induction n with
  | zero => simp [recordedSize]
  | succ n ih =>
    simp only [recordedSize, List.replicate_succ, List.map_cons, List.sum_cons] at ih ⊢
    rw [ih]
    ring

theorem renderFile_replicate_length (n : Nat) (l : EnvAction) :
    (renderFile (List.replicate n l)).length = n * l.render.length := by
  induction n with
  | zero => simp [renderFile]
  | succ n ih =>
    simp only [renderFile, List.replicate_succ, List.map_cons, List.flatten_cons,
      List.length_append] at ih ⊢
    rw [ih]
    ring

/-! ### Replaying the calls of `setenv` and `unsetenv` -/

theorem applyAll_append (a b : List EnvAction) (e : Env) :
    applyAll (a ++ b) e = applyAll b (applyAll a e) := by
  simp [applyAll, List.foldl_append]

theorem apply_other (a : EnvAction) (e : Env) (n : Bytes) (h : n ≠ a.name) :
    a.apply e n = e n := by
  cases a with
  | set m v =>
    simp only [EnvAction.apply, setenv]
    split_ifs
    · exact Function.update_noteq h _ _
    · rfl
  | unset m =>
    simp only [EnvAction.apply, unsetenv]
    split_ifs
    · exact Function.update_noteq h _ _
    · rfl

theorem apply_invalid (a : EnvAction) (e : Env) (n : Bytes) (h : validName n = false) :
    a.apply e n = e n := by
  by_cases hn : n = a.name
  · cases a with
    | set m v =>
      simp only [EnvAction.name] at hn
      subst hn
      simp [EnvAction.apply, setenv, h]
    | unset m =>
      simp only [EnvAction.name] at hn
      subst hn
      simp [EnvAction.apply, unsetenv, h]
  · exact apply_other a e n hn

/-- A valid call decides the value of its name, whatever it was. -/
theorem apply_same (a : EnvAction) (e e' : Env) (h : validName a.name = true) :
    a.apply e a.name = a.apply e' a.name := by
  cases a with
  | set m v =>
    simp only [EnvAction.name] at h
    simp [EnvAction.apply, setenv, EnvAction.name, h]
  | unset m =>
    simp only [EnvAction.name] at h
    simp [EnvAction.apply, unsetenv, EnvAction.name, h]

/-- Names that `setenv` and `unsetenv` refuse keep their value. -/
theorem applyAll_invalid (acts : List EnvAction) : ∀ (e : Env) (n : Bytes),
    validName n = false → applyAll acts e n = e n := by
  induction acts with
  | nil => intro e n _; rfl
  | cons a as ih =>
    intro e n h
    show applyAll as (a.apply e) n = e n
    rw [ih _ n h, apply_invalid a e n h]

/-- Names no call is about keep their value. -/
theorem applyAll_not_mem (acts : List EnvAction) : ∀ (e : Env) (n : Bytes),
    n ∉ acts.map EnvAction.name → applyAll acts e n = e n := by
  induction acts with
  | nil => intro e n _; rfl
  | cons a as ih =>
    intro e n h
    simp only [List.map_cons, List.mem_cons, not_or] at h
    show applyAll as (a.apply e) n = e n
    rw [ih _ n h.2, apply_other a e n h.1]

/-- Two environments that agree at a name still do after the same calls. -/
theorem applyAll_congr (acts : List EnvAction) : ∀ (e e' : Env) (n : Bytes),
    e n = e' n → applyAll acts e n = applyAll acts e' n := by
  induction acts with
  | nil => intro e e' n h; exact h
  | cons a as ih =>
    intro e e' n h
    show applyAll as (a.apply e) n = applyAll as (a.apply e') n
    apply ih
    by_cases hn : n = a.name
    · by_cases hv : validName n = true
      · subst hn
        exact apply_same a e e' hv
      · rw [apply_invalid a e n (by simpa using hv), apply_invalid a e' n (by simpa using hv), h]
    · rw [apply_other a e n hn, apply_other a e' n hn, h]

/-- After the same calls, two environments that agree on the names `setenv`
refuses agree on every name a call was about. -/
theorem applyAll_agree (acts : List EnvAction) : ∀ (e e' : Env) (n : Bytes),
    (∀ m, validName m = false → e m = e' m) → n ∈ acts.map EnvAction.name →
    applyAll acts e n = applyAll acts e' n := by
  induction acts with
  | nil => intro e e' n _ h; simp at h
  | cons a as ih =>
    intro e e' n hinv h
    show applyAll as (a.apply e) n = applyAll as (a.apply e') n
    by_cases hn : n = a.name
    · apply applyAll_congr
      by_cases hv : validName n = true
      · subst hn
        exact apply_same a e e' hv
      · have hv' : validName n = false := by simpa using hv
        rw [apply_invalid a e n hv', apply_invalid a e' n hv', hinv n hv']
    · apply ih
      · intro m hm
        rw [apply_invalid a e m hm, apply_invalid a e' m hm, hinv m hm]
      · simp only [List.map_cons, List.mem_cons] at h
        exact h.resolve_left hn

/-- Making the same calls a second time changes nothing. -/
theorem applyAll_idem (acts : List EnvAction) (e : Env) :
    applyAll acts (applyAll acts e) = applyAll acts e := by
  funext n
  by_cases h : n ∈ acts.map EnvAction.name
  · exact (applyAll_agree acts e (applyAll acts e) n
      (fun m hm => (applyAll_invalid acts e m hm).symm) h).symm
  · exact applyAll_not_mem acts _ n h

/-! ### The names recorded in `nameChanged` -/

theorem encodeNames_append (a b : List Bytes) :
    encodeNames (a ++ b) = encodeNames a ++ encodeNames b := by
  simp [encodeNames]

theorem getD_mid (pre t post : Bytes) (k : Nat) (hk : k < t.length) :
    (pre ++ t ++ post).getD (pre.length + k) 0 = t.getD k 0 := by
  have := getElem?_mid pre t post _ k _ hk rfl rfl
  rw [List.getD_eq_getElem?_getD, this]
  rfl

/-- The loop over the recorded names finds only names that were recorded. -/
theorem isNameChangedFrom_sound (m : Mem) (endp : Nat) (envName : Bytes) :
    ∀ (rest pre : List Bytes) (fuel : Nat),
    endp = (encodeNames (pre ++ rest)).length → endp ≤ NAME_CHANGED_SIZE →
    (∀ i, i < endp → m i = (encodeNames (pre ++ rest)).getD i 0) →
    (∀ n ∈ pre ++ rest, ∀ x ∈ n, x ≠ 0) →
    isNameChangedFrom m endp envName fuel (encodeNames pre).length = some true →
    envName ∈ rest := by
  intro rest
  induction rest with
  | nil =>
    intro pre fuel he _ _ _ h
    cases fuel with
    | zero => simp [isNameChangedFrom] at h
    | succ f =>
      simp only [List.append_nil] at he
      simp [isNameChangedFrom, he] at h
  | cons r rest ih =>
    intro pre fuel he hle hm hnz h
    cases fuel with
    | zero => simp [isNameChangedFrom] at h
    | succ f =>
      have henc : encodeNames (pre ++ r :: rest) =
          encodeNames pre ++ (r ++ [0]) ++ encodeNames rest := by
        simp [encodeNames]
      have hlen : endp = (encodeNames pre).length + (r.length + 1) +
          (encodeNames rest).length := by
        rw [he, henc]; simp; omega
      have hlt : (encodeNames pre).length < endp := by omega
      have hr : cstr m (encodeNames pre).length NAME_CHANGED_SIZE = some r := by
        unfold cstr
        apply cstrAux_of_bytes
        · simp only [NAME_CHANGED_SIZE] at hle ⊢; omega
        · intro k hk
          rw [hm _ (by omega), henc, getD_mid _ _ _ k (by simp; omega)]
          rw [List.getD_eq_getElem?_getD, List.getD_eq_getElem?_getD,
            List.getElem?_append_left hk]
        · rw [hm _ (by omega), henc, getD_mid _ _ _ r.length (by simp)]
          simp [List.getD_eq_getElem?_getD]
        · exact hnz r (by simp)
      simp only [isNameChangedFrom, hlt, if_true, hr] at h
      have hpre : (encodeNames pre).length + r.length + 1 =
          (encodeNames (pre ++ [r])).length := by
        simp [encodeNames]; omega
      rw [hpre] at h
      cases hrec : isNameChangedFrom m endp envName f (encodeNames (pre ++ [r])).length with
      | none => simp [hrec] at h
      | some b =>
        simp only [hrec, Option.map_some', Option.some.injEq, Bool.or_eq_true,
          decide_eq_true_eq] at h
        rcases h with h | h
        · subst h; exact List.mem_cons_self _ _
        · subst h
          have := ih (pre ++ [r]) f (by simpa using he) hle (by simpa using hm)
            (by simpa using hnz) hrec
          exact List.mem_cons_of_mem _ this

/-- A name `isNameChanged` reports was recorded. -/
theorem isNameChanged_sound (s : Locals) (names : List Bytes) (envName : Bytes)
    (hl : Layout s names) (h : isNameChanged s envName = some true) : envName ∈ names := by
  obtain ⟨a, b, c, d⟩ := hl
  exact isNameChangedFrom_sound s.nameChanged s.nameChanged_end envName names [] _
    (by simpa using a) b (by simpa using c) (by simpa using d)
    (by simpa [encodeNames, isNameChanged] using h)

/-- Recording one more name keeps the layout. -/
theorem Layout_record (s s' : Locals) (names : List Bytes) (name : Bytes)
    (hl : Layout s names) (hnz : ∀ x ∈ name, x ≠ 0)
    (hm : s'.nameChanged = blit s.nameChanged s.nameChanged_end (name ++ [0]))
    (he : s'.nameChanged_end = s.nameChanged_end + name.length + 1)
    (hle : s.nameChanged_end + name.length + 1 ≤ NAME_CHANGED_SIZE) :
    Layout s' (names ++ [name]) := by
  obtain ⟨a, b, c, d⟩ := hl
  have henc : encodeNames (names ++ [name]) = encodeNames names ++ (name ++ [0]) := by
    simp [encodeNames]
  refine ⟨?_, by omega, ?_, ?_⟩
  · rw [he, henc, a]; simp; omega
  · intro i hi
    rw [hm, blit_apply, henc]
    by_cases h1 : i < s.nameChanged_end
    · rw [if_neg (by omega), c i h1, List.getD_eq_getElem?_getD, List.getD_eq_getElem?_getD,
        List.getElem?_append_left (by omega)]
    · rw [if_pos (by simp; omega)]
      have := getD_mid (encodeNames names) (name ++ [0]) [] (i - s.nameChanged_end)
        (by simp; omega)
      rw [List.append_nil, ← a, show s.nameChanged_end + (i - s.nameChanged_end) = i by omega]
        at this
      rw [this]
  · intro n hn
    rcases List.mem_append.mp hn with h | h
    · exact d n h
    · simp only [List.mem_singleton] at h
      subst h
      exact hnz

theorem setDestMem_sameRecord (s : Locals) (m : Mem) : SameRecord s (s.setDestMem m) := by
  cases h : s.destRegion <;> simp [SameRecord, Locals.setDestMem, h]

theorem store_sameRecord (x : Nat) (s s1 : Locals) (h : store x s = .ok s1) :
    SameRecord s s1 := by
  unfold store at h
  split_ifs at h
  simp only [Except.ok.injEq] at h
  subst h
  exact setDestMem_sameRecord _ _

theorem storeInc_sameRecord (x : Nat) (s s1 : Locals) (h : storeInc x s = .ok s1) :
    SameRecord s s1 := by
  unfold storeInc at h
  cases hs : store x s with
  | error f => simp [hs, Except.map] at h
  | ok s0 =>
    simp only [hs, Except.map, Except.ok.injEq] at h
    subst h
    exact store_sameRecord x s s0 hs

theorem copyChar_sameRecord (x : Nat) (s s' : Locals) (act : Option EnvAction)
    (h : copyChar x s = .next s' act) : act = none ∧ SameRecord s s' := by
  unfold copyChar at h
  cases hs : storeInc x s with
  | error f => simp [hs] at h
  | ok s0 =>
    simp only [hs, Step.next.injEq] at h
    obtain ⟨rfl, rfl⟩ := h
    exact ⟨rfl, storeInc_sameRecord x s s0 hs⟩

theorem advanceDest_sameRecord (s s' : Locals) (act : Option EnvAction)
    (h : advanceDest s = .next s' act) : act = none ∧ SameRecord s s' := by
  unfold advanceDest at h
  cases hs : cstr s.destMem s.destOff BUF_SIZE with
  | none => simp [hs] at h
  | some t =>
    simp only [hs, Step.next.injEq] at h
    obtain ⟨rfl, rfl⟩ := h
    exact ⟨rfl, rfl, rfl⟩

theorem advanceDest_setDestMem_sameRecord (s0 s' : Locals) (m : Mem)
    (act : Option EnvAction) (h : advanceDest (s0.setDestMem m) = .next s' act) :
    act = none ∧ SameRecord s0 s' := by
  obtain ⟨a, b, c⟩ := advanceDest_sameRecord _ _ _ h
  obtain ⟨b', c'⟩ := setDestMem_sameRecord s0 m
  exact ⟨a, b.trans b', c.trans c'⟩

theorem expandVar_sameRecord (R env : Env) (buf : Bytes) (s s' : Locals)
    (act : Option EnvAction) (h : expandVar R env buf s = .next s' act) :
    act = none ∧ SameRecord s s' := by
  unfold expandVar at h
  split at h
  · split_ifs at h
  · split_ifs at h
    simp only at h
    split at h
    · simp at h
    · split at h
      · split_ifs at h
        have := advanceDest_setDestMem_sameRecord _ _ _ _ h
        exact this
      · split at h
        · simp at h
        · split at h
          · simp only [Step.next.injEq] at h
            obtain ⟨rfl, rfl⟩ := h
            exact ⟨rfl, rfl, rfl⟩
          · have := advanceDest_setDestMem_sameRecord _ _ _ _ h
            exact this

theorem cstr_noNul (m : Mem) (start cap : Nat) (t : Bytes) (h : cstr m start cap = some t) :
    ∀ x ∈ t, x ≠ 0 :=
  (cstrAux_some m _ _ t h).1

/-- What the end of a line does to the record of changed names: it calls
`setenv` or `unsetenv` on a name and either records that name or, the array
being full, leaves the record alone. -/
theorem endOfLine_record (s s' : Locals) (act : Option EnvAction)
    (h : endOfLine s = .next s' act) :
    ∃ a, act = some a ∧ (∀ x ∈ a.name, x ≠ 0) ∧
      (SameRecord s s' ∨
        (s'.nameChanged = blit s.nameChanged s.nameChanged_end (a.name ++ [0]) ∧
          s'.nameChanged_end = s.nameChanged_end + a.name.length + 1 ∧
          s.nameChanged_end + a.name.length + 1 ≤ NAME_CHANGED_SIZE)) := by
  unfold endOfLine at h
  cases hs : storeInc 0 s with
  | error f => simp [hs] at h
  | ok s1 =>
    obtain ⟨r1, r2⟩ := storeInc_sameRecord 0 s s1 hs
    simp only [hs] at h
    cases hn : cstr s1.nameBuf 0 BUF_SIZE with
    | none => simp [hn] at h
    | some name =>
      have hnz := cstr_noNul _ _ _ _ hn
      simp only [hn] at h
      split at h
      · simp at h
      · rename_i a ha
        have hname : a.name = name := by
          split_ifs at ha with hu
          · simp only [Option.some.injEq] at ha
            subst ha; rfl
          · cases hv : cstr s1.valueBuf 0 BUF_SIZE with
            | none => simp [hv] at ha
            | some v =>
              simp only [hv, Option.map_some', Option.some.injEq] at ha
              subst ha; rfl
        unfold recordName at h
        simp only at h
        split_ifs at h with h1 h2
        · simp only [Step.next.injEq] at h
          obtain ⟨rfl, rfl⟩ := h
          refine ⟨a, rfl, by rw [hname]; exact hnz, Or.inr ?_⟩
          simp only [hname, r1, r2]
          exact ⟨trivial, trivial, by simpa [r2] using h2⟩
        · simp only [Step.next.injEq] at h
          obtain ⟨rfl, rfl⟩ := h
          exact ⟨a, rfl, by rw [hname]; exact hnz, Or.inl ⟨r1, r2⟩⟩

/-- What one pass of the loop does to the record of changed names. -/
theorem step_record (R env : Env) (buf : Bytes) (s s' : Locals) (act : Option EnvAction)
    (h : step R env buf s = .next s' act) :
    (act = none ∧ SameRecord s s') ∨
    ∃ a, act = some a ∧ (∀ x ∈ a.name, x ≠ 0) ∧
      (SameRecord s s' ∨
        (s'.nameChanged = blit s.nameChanged s.nameChanged_end (a.name ++ [0]) ∧
          s'.nameChanged_end = s.nameChanged_end + a.name.length + 1 ∧
          s.nameChanged_end + a.name.length + 1 ≤ NAME_CHANGED_SIZE)) := by
  unfold step at h
  split at h
  · simp at h
  · split_ifs at h
    · exact Or.inl (copyChar_sameRecord _ _ _ _ h)
    · simp only [Step.next.injEq] at h
      obtain ⟨rfl, rfl⟩ := h
      exact Or.inl ⟨rfl, rfl, rfl⟩
    · exact Or.inr (endOfLine_record _ _ _ h)
    · exact Or.inl (copyChar_sameRecord _ _ _ _ h)
    · split at h
      · simp at h
      · simp only [Step.next.injEq] at h
        obtain ⟨rfl, rfl⟩ := h
        exact Or.inl ⟨rfl, rfl, rfl⟩
    · split at h
      · simp at h
      · rename_i s1 hs1
        simp only [Step.next.injEq] at h
        obtain ⟨rfl, rfl⟩ := h
        have := store_sameRecord _ _ _ hs1
        exact Or.inl ⟨rfl, this.1, this.2⟩
    · split at h
      · simp at h
      · split at h
        · simp at h
        · rename_i s1 hs1
          simp only [Step.next.injEq] at h
          obtain ⟨rfl, rfl⟩ := h
          have := storeInc_sameRecord _ _ _ hs1
          exact Or.inl ⟨rfl, this.1, this.2⟩
    · simp only [Step.next.injEq] at h
      obtain ⟨rfl, rfl⟩ := h
      exact Or.inl ⟨rfl, rfl, rfl⟩
    · exact Or.inl (expandVar_sameRecord _ _ _ _ _ _ h)
    · exact Or.inl (copyChar_sameRecord _ _ _ _ h)

/-- One pass of the loop keeps the layout of `nameChanged`; a name it records
is the name of the call it makes. -/
theorem step_layout (R env : Env) (buf : Bytes) (s s' : Locals) (act : Option EnvAction)
    (names : List Bytes) (hl : Layout s names) (h : step R env buf s = .next s' act) :
    ∃ names', Layout s' names' ∧
      ∀ n ∈ names', n ∈ names ∨ ∃ a, act = some a ∧ a.name = n := by
  have same : ∀ {t : Locals}, SameRecord s t → Layout t names := by
    intro t ht
    obtain ⟨a, b, c, d⟩ := hl
    exact ⟨by rw [ht.2]; exact a, by rw [ht.2]; exact b,
      by rw [ht.1, ht.2]; exact c, d⟩
  rcases step_record R env buf s s' act h with ⟨_, hs⟩ | ⟨a, rfl, hnz, hs | ⟨h1, h2, h3⟩⟩
  · exact ⟨names, same hs, fun n hn => Or.inl hn⟩
  · exact ⟨names, same hs, fun n hn => Or.inl hn⟩
  · refine ⟨names ++ [a.name], Layout_record s s' names a.name hl hnz h1 h2 h3, ?_⟩
    intro n hn
    rcases List.mem_append.mp hn with hn | hn
    · exact Or.inl hn
    · exact Or.inr ⟨a, rfl, (List.mem_singleton.mp hn).symm⟩

/-- One pass of the loop looks at the environment only for names that
`isNameChanged` reports. -/
theorem step_env_indep (R e e' : Env) (buf : Bytes) (s : Locals)
    (h : ∀ n, isNameChanged s n = some true → e n = e' n) :
    step R e buf s = step R e' buf s := by
  have hx : expandVar R e buf s = expandVar R e' buf s := by
    unfold expandVar
    cases hr : readEnvName (buf.drop (s.c + 1)) with
    | none => rfl
    | some envName =>
      simp only
      by_cases hb : BUF_SIZE ≤ envName.length
      · rw [if_pos hb, if_pos hb]
      · rw [if_neg hb, if_neg hb]
        have hi : isNameChanged { s with c := s.c + 1 + envName.length } envName =
            isNameChanged s envName := rfl
        rw [hi]
        cases hc : isNameChanged s envName with
        | none => rfl
        | some changed =>
          cases changed with
          | false => rfl
          | true =>
            simp only [if_true, getenv, h envName hc]
  unfold step
  rw [hx]

/-- A returned run of the loop made a list of calls of `setenv` and
`unsetenv`, and from any other environment that agrees on the names these
refuse the loop returns too, having made the same calls. -/
theorem readLoop_replay (R : Env) (buf : Bytes) : ∀ (fuel : Nat) (s : Locals)
    (acts0 : List EnvAction) (names : List Bytes) (E E' e1 : Env),
    Layout s names → (∀ n ∈ names, n ∈ acts0.map EnvAction.name) →
    (∀ m, validName m = false → E m = E' m) →
    readLoop R buf fuel s (applyAll acts0 E) = .returned e1 →
    ∃ acts, e1 = applyAll (acts0 ++ acts) E ∧
      readLoop R buf fuel s (applyAll acts0 E') = .returned (applyAll (acts0 ++ acts) E') := by
  intro fuel
  induction fuel with
  | zero => intro s acts0 names E E' e1 _ _ _ h; simp [readLoop] at h
  | succ f ih =>
    intro s acts0 names E E' e1 hl hsub hinv h
    have hagree : ∀ n, isNameChanged s n = some true →
        applyAll acts0 E n = applyAll acts0 E' n := fun n hn =>
      applyAll_agree acts0 E E' n hinv (hsub n (isNameChanged_sound s names n hl hn))
    have hstep := step_env_indep R (applyAll acts0 E) (applyAll acts0 E') buf s hagree
    simp only [readLoop] at h ⊢
    rw [← hstep]
    cases hs : step R (applyAll acts0 E) buf s with
    | done =>
      simp only [hs, Result.returned.injEq] at h
      exact ⟨[], by simpa using h.symm, by simp⟩
    | fault x => simp [hs] at h
    | next s1 act =>
      simp only [hs] at h ⊢
      obtain ⟨names', hl', hsub'⟩ := step_layout R _ buf s s1 act names hl hs
      cases act with
      | none =>
        simp only at h ⊢
        have hsub1 : ∀ n ∈ names', n ∈ acts0.map EnvAction.name := by
          intro n hn
          rcases hsub' n hn with h1 | ⟨a, h1, _⟩
          · exact hsub n h1
          · simp at h1
        exact ih s1 acts0 names' E E' e1 hl' hsub1 hinv h
      | some a =>
        simp only at h ⊢
        have e1' : a.apply (applyAll acts0 E) = applyAll (acts0 ++ [a]) E := by
          rw [applyAll_append]; rfl
        have e2' : a.apply (applyAll acts0 E') = applyAll (acts0 ++ [a]) E' := by
          rw [applyAll_append]; rfl
        rw [e1'] at h
        rw [e2']
        have hsub1 : ∀ n ∈ names', n ∈ (acts0 ++ [a]).map EnvAction.name := by
          intro n hn
          rcases hsub' n hn with h1 | ⟨b, h1, h2⟩
          · simp only [List.map_append, List.mem_append]
            exact Or.inl (hsub n h1)
          · simp only [Option.some.injEq] at h1
            subst h1
            simp [h2]
        obtain ⟨acts, r1, r2⟩ := ih s1 (acts0 ++ [a]) names' E E' e1 hl' hsub1 hinv h
        exact ⟨a :: acts, by simpa using r1, by simpa using r2⟩

theorem initLocals_layout : Layout initLocals [] :=
  ⟨rfl, by simp [initLocals], by intro i hi; simp [initLocals] at hi, by simp⟩

/-- A returned call of `readAndSetEnv` made a list of calls of `setenv` and
`unsetenv`; from any other environment that agrees on the names these refuse
the call returns too, having made the same calls. -/
theorem readAndSetEnv_replay (R : Env) (buf : Bytes) (E E' e1 : Env)
    (hinv : ∀ m, validName m = false → E m = E' m)
    (h : readAndSetEnv R buf E = .returned e1) :
    ∃ acts, e1 = applyAll acts E ∧ readAndSetEnv R buf E' = .returned (applyAll acts E') := by
  have := readLoop_replay R buf (buf.length + 1) initLocals [] [] E E' e1 initLocals_layout
    (by simp) hinv h
  simpa using this

/-! ### Every pass moves `c` forward -/

theorem store_c (x : Nat) (s s1 : Locals) (h : store x s = .ok s1) : s1.c = s.c := by
  unfold store at h
  split_ifs at h
  simp only [Except.ok.injEq] at h
  subst h
  cases hr : s.destRegion <;> simp [Locals.setDestMem, hr]

theorem storeInc_c (x : Nat) (s s1 : Locals) (h : storeInc x s = .ok s1) : s1.c = s.c := by
  unfold storeInc at h
  cases hs : store x s with
  | error f => simp [hs, Except.map] at h
  | ok s0 =>
    simp only [hs, Except.map, Except.ok.injEq] at h
    subst h
    exact store_c x s s0 hs

theorem copyChar_c (x : Nat) (s s' : Locals) (act : Option EnvAction)
    (h : copyChar x s = .next s' act) : s'.c = s.c + 1 := by
  unfold copyChar at h
  cases hs : storeInc x s with
  | error f => simp [hs] at h
  | ok s0 =>
    simp only [hs, Step.next.injEq] at h
    obtain ⟨rfl, _⟩ := h
    simp [storeInc_c x s s0 hs]

theorem advanceDest_c (s s' : Locals) (act : Option EnvAction)
    (h : advanceDest s = .next s' act) : s'.c = s.c := by
  unfold advanceDest at h
  cases hs : cstr s.destMem s.destOff BUF_SIZE with
  | none => simp [hs] at h
  | some t =>
    simp only [hs, Step.next.injEq] at h
    obtain ⟨rfl, _⟩ := h
    rfl

theorem setDestMem_c (s : Locals) (m : Mem) : (s.setDestMem m).c = s.c := by
  cases hr : s.destRegion <;> simp [Locals.setDestMem, hr]

theorem expandVar_c (R env : Env) (buf : Bytes) (s s' : Locals)
    (act : Option EnvAction) (h : expandVar R env buf s = .next s' act) : s.c < s'.c := by
  unfold expandVar at h
  split at h
  · split_ifs at h
  · split_ifs at h
    simp only at h
    split at h
    · simp at h
    · split at h
      · split_ifs at h
        have := advanceDest_c _ _ _ h
        rw [this, setDestMem_c]
        simp only
        omega
      · split at h
        · simp at h
        · split at h
          · simp only [Step.next.injEq] at h
            obtain ⟨rfl, _⟩ := h
            simp only
            omega
          · have := advanceDest_c _ _ _ h
            rw [this, setDestMem_c]
            simp only
            omega

theorem endOfLine_c (s s' : Locals) (act : Option EnvAction)
    (h : endOfLine s = .next s' act) : s'.c = s.c + 1 := by
  unfold endOfLine at h
  cases hs : storeInc 0 s with
  | error f => simp [hs] at h
  | ok s1 =>
    have hc := storeInc_c 0 s s1 hs
    simp only [hs] at h
    split at h
    · simp at h
    · split at h
      · simp at h
      · unfold recordName at h
        simp only at h
        split_ifs at h
        all_goals
          simp only [Step.next.injEq] at h
          obtain ⟨rfl, _⟩ := h
          simp [hc]

theorem skipToEol_pos (x : Nat) (xs : Bytes) (n : Nat) (hx : x ≠ 10 ∧ x ≠ readEOF)
    (h : skipToEol (x :: xs) = some n) : 0 < n := by
  simp only [skipToEol, hx.1, hx.2, or_self, if_false] at h
  cases hr : skipToEol xs with
  | none => simp [hr] at h
  | some k =>
    simp only [hr, Option.map_some', Option.some.injEq] at h
    omega

/-- A pass of the loop that does not end it has read `*c` inside the buffer
and leaves `c` further on. -/
theorem step_progress (R env : Env) (buf : Bytes) (s s' : Locals) (act : Option EnvAction)
    (h : step R env buf s = .next s' act) : s.c < buf.length ∧ s.c < s'.c := by
  unfold step at h
  cases hb : buf[s.c]? with
  | none => simp [hb] at h
  | some x =>
    have hlt : s.c < buf.length := by
      by_contra hge
      rw [List.getElem?_eq_none (by omega)] at hb
      simp at hb
    refine ⟨hlt, ?_⟩
    simp only [hb] at h
    split_ifs at h with h1 h2 h3 h4 h5 h6 h7 h8 h9 h10
    · have := copyChar_c _ _ _ _ h; omega
    · simp only [Step.next.injEq] at h
      obtain ⟨rfl, _⟩ := h
      simp
    · have := endOfLine_c _ _ _ h; omega
    · have := copyChar_c _ _ _ _ h; omega
    · have hd : buf.drop s.c = x :: buf.drop (s.c + 1) := by
        rw [List.drop_eq_getElem_cons hlt]
        congr 1
        rw [List.getElem?_eq_getElem hlt] at hb
        simpa using hb
      rw [hd] at h
      split at h
      · simp at h
      · rename_i n hn
        simp only [Step.next.injEq] at h
        obtain ⟨rfl, _⟩ := h
        have := skipToEol_pos x _ n ⟨h2, h1⟩ hn
        simp only
        omega
    · split at h
      · simp at h
      · rename_i s1 hs1
        simp only [Step.next.injEq] at h
        obtain ⟨rfl, _⟩ := h
        simp [store_c _ _ _ hs1]
    · split at h
      · simp at h
      · split at h
        · simp at h
        · rename_i s1 hs1
          simp only [Step.next.injEq] at h
          obtain ⟨rfl, _⟩ := h
          simp [storeInc_c _ _ _ hs1]
    · simp only [Step.next.injEq] at h
      obtain ⟨rfl, _⟩ := h
      simp
    · exact expandVar_c _ _ _ _ _ _ h
    · have := copyChar_c _ _ _ _ h; omega

/-- The loop does not run out of fuel when it has one pass for every byte
from `*c` to the end of the buffer and one more. -/
theorem readLoop_ne_outOfFuel (R : Env) (buf : Bytes) : ∀ (fuel : Nat) (s : Locals)
    (env : Env), buf.length + 1 ≤ s.c + fuel → 0 < fuel →
    readLoop R buf fuel s env ≠ .outOfFuel := by
  intro fuel
  induction fuel with
  | zero => intro s env _ h; omega
  | succ f ih =>
    intro s env hf _
    simp only [readLoop]
    cases hs : step R env buf s with
    | done => simp
    | fault x => simp
    | next s1 act =>
      obtain ⟨h1, h2⟩ := step_progress R env buf s s1 act hs
      exact ih s1 _ (by omega) (by omega)

/-- Function `readAndSetEnv` always returns or meets undefined behaviour: the
fuel of its loop is never used up. -/
theorem readAndSetEnv_ne_outOfFuel (R : Env) (buf : Bytes) (env : Env) :
    readAndSetEnv R buf env ≠ .outOfFuel :=
  readLoop_ne_outOfFuel R buf _ initLocals env (by simp [initLocals]) (by omega)

/-! ## `readAndSetEnv`: stated properties -/

/-- C8 (amended): for every env file made of lines NAME=VALUE or NAME alone,
each ended by a newline (NAME and VALUE non-empty, shorter than 999 bytes, with
no space, tab, newline, '#', '"', backslash, '$', '=', EOF sentinel or NUL
byte) whose names, each with its terminating NUL, take at most 10000 bytes in
all, readAndSetEnv returns, and the environment is the initial one updated in
file order by setting NAME to VALUE for each NAME=VALUE line and removing NAME
for each line with no '='; every variable not named in the file is
unchanged. -/
theorem C8_set_unset_line_by_line (R env : Env) (ls : List EnvAction) (pad : Bytes)
    (hok : ∀ l ∈ ls, okLine l) (hsz : recordedSize ls ≤ NAME_CHANGED_SIZE) :
    readAndSetEnv R (renderFile ls ++ readEOF :: pad) env = .returned (specEnvAfter ls env) ∧
    ∀ n, n ∉ ls.map EnvAction.name → specEnvAfter ls env n = env n :=
  ⟨readAndSetEnv_file R env ls pad hok hsz, fun n hn => specEnvAfter_other ls env n hn⟩

/-- C8 (amended), at a concrete file: the lines HOME=/new and EDITOR. -/
theorem C8_set_unset_line_by_line_witness :
    readAndSetEnv emptyEnv
        (renderFile [.set (str "HOME") (str "/new"), .unset (str "EDITOR")] ++ readEOF :: [0, 0])
        sampleEnv =
      .returned (specEnvAfter [.set (str "HOME") (str "/new"), .unset (str "EDITOR")] sampleEnv) ∧
    ∀ n, n ∉ [EnvAction.set (str "HOME") (str "/new"), .unset (str "EDITOR")].map EnvAction.name →
      specEnvAfter [.set (str "HOME") (str "/new"), .unset (str "EDITOR")] sampleEnv n =
        sampleEnv n :=
  C8_set_unset_line_by_line emptyEnv sampleEnv
    [.set (str "HOME") (str "/new"), .unset (str "EDITOR")] [0, 0]
    (by
      intro l hl
      simp only [List.mem_cons, List.mem_singleton, List.not_mem_nil, or_false] at hl
      rcases hl with rfl | rfl <;>
        simp [okLine, okText, plainByte, str])
    (by decide)

/-- C8 as stated fails.  A name may hold a NUL byte, which the claim does not
exclude: for the line `A<NUL>B=1` the variable `A` is set and no variable
`A<NUL>B` exists.  A last line `A=1` that no newline ends is not applied.  And
3334 lines `AB`, a file of 10002 bytes, make the call store outside
`nameChanged`, so that it has no resulting environment. -/
theorem C8_counterexample :
    ((∀ x ∈ [65, 0, 66], plainByte x) ∧
      (readAndSetEnv emptyEnv (renderFile [.set [65, 0, 66] (str "1")] ++ [readEOF])
        sampleEnv).lookup [65, 0, 66] = some none ∧
      (readAndSetEnv emptyEnv (renderFile [.set [65, 0, 66] (str "1")] ++ [readEOF])
        sampleEnv).lookup (str "A") = some (some (str "1")) ∧
      specEnvAfter [.set [65, 0, 66] (str "1")] sampleEnv [65, 0, 66] = some (str "1")) ∧
    ((readAndSetEnv emptyEnv (str "A=1" ++ [readEOF]) sampleEnv).lookup (str "A") =
        some none ∧
      specEnvAfter [.set (str "A") (str "1")] sampleEnv (str "A") = some (str "1")) ∧
    ((renderFile (List.replicate 3334 (.unset (str "AB")))).length = 10002 ∧
      (readAndSetEnv emptyEnv
        (renderFile (List.replicate 3334 (.unset (str "AB"))) ++ [readEOF]) sampleEnv).faultOf =
        some .writeOutOfBounds) := by
  refine ⟨⟨by simp [plainByte], by decide!, by decide!, by decide⟩,
    ⟨by decide!, by decide⟩, ?_, ?_⟩
  · rw [renderFile_replicate_length]
    rfl
  · have hok : ∀ l ∈ List.replicate 3333 (EnvAction.unset (str "AB")), okLine l := by
      intro l hl
      rw [List.eq_of_mem_replicate hl]
      simp [okLine, okText, plainByte, str]
    have h := readAndSetEnv_overflow emptyEnv sampleEnv
      (List.replicate 3333 (.unset (str "AB"))) (str "AB") [] hok
      (by simp [okText, plainByte, str])
      (by rw [recordedSize_replicate]; decide)
      (by rw [recordedSize_replicate]; decide)
    rw [show List.replicate 3334 (EnvAction.unset (str "AB")) =
      List.replicate 3333 (.unset (str "AB")) ++ [.unset (str "AB")] from
        List.replicate_succ' _ _, h]
    rfl

/-- C9: the witness of the claim holds (with HOME=/old and EDITOR=vi
beforehand the scenario file yields HOME=/new, HOST=a b, EDITOR unset,
FOO=/new/x), but a reference to a variable changed earlier in the file that
has text before it, as in `FOO=a$HOME` after `HOME=/new`, makes `strncpy`
store 1000 bytes from `valueBuf + 1` on, one byte past the end of `valueBuf`:
the call has no defined result instead of setting FOO to `a/new`. -/
theorem C9_expansion_after_text_overflows :
    ((readAndSetEnv emptyEnv scenarioFile sampleEnv).lookup (str "HOME") =
        some (some (str "/new")) ∧
      (readAndSetEnv emptyEnv scenarioFile sampleEnv).lookup (str "HOST") =
        some (some (str "a b")) ∧
      (readAndSetEnv emptyEnv scenarioFile sampleEnv).lookup (str "EDITOR") = some none ∧
      (readAndSetEnv emptyEnv scenarioFile sampleEnv).lookup (str "FOO") =
        some (some (str "/new/x"))) ∧
    (readAndSetEnv emptyEnv (str "HOME=/new\nFOO=a$HOME\n" ++ [readEOF, 0, 0])
      sampleEnv).faultOf = some .writeOutOfBounds := by
  refine ⟨⟨?_, ?_, ?_, ?_⟩, ?_⟩ <;> decide!

/-- C10: env-file idempotence.  With the restart environment fixed, for every
buffer and every initial environment from which readAndSetEnv returns, a
second call on the same buffer, started from the environment the first call
left, returns and leaves that same environment. -/
theorem C10_env_file_idempotent (R : Env) (buf : Bytes) (E E1 : Env)
    (h : readAndSetEnv R buf E = .returned E1) :
    readAndSetEnv R buf E1 = .returned E1 := by
  obtain ⟨acts0, r0, _⟩ := readAndSetEnv_replay R buf E E E1 (fun _ _ => rfl) h
  obtain ⟨acts, r1, r2⟩ := readAndSetEnv_replay R buf E E1 E1
    (fun m hm => by rw [r0, applyAll_invalid acts0 E m hm]) h
  rw [r2]
  congr 1
  rw [r1, applyAll_idem]

/-- C10, at the scenario file of the spec, whose last line expands `$HOME`:
the first call returns, and so does the second, with the same environment. -/
theorem C10_env_file_idempotent_witness :
    ∃ E1, readAndSetEnv emptyEnv scenarioFile sampleEnv = .returned E1 ∧
      readAndSetEnv emptyEnv scenarioFile E1 = .returned E1 ∧
      E1 (str "FOO") = some (str "/new/x") := by
  have hf : (readAndSetEnv emptyEnv scenarioFile sampleEnv).lookup (str "FOO") =
      some (some (str "/new/x")) := by decide!
  cases h : readAndSetEnv emptyEnv scenarioFile sampleEnv with
  | returned e =>
    rw [h] at hf
    exact ⟨e, rfl, C10_env_file_idempotent emptyEnv scenarioFile sampleEnv e h,
      by simpa [Result.lookup] using hf⟩
  | fault f => rw [h] at hf; simp [Result.lookup] at hf
  | outOfFuel => rw [h] at hf; simp [Result.lookup] at hf

/-! ## `readAndSetEnv`: quoting, escapes, comments -/

theorem Reaches.refl (R : Env) (buf : Bytes) (s : Locals) (e : Env) : Reaches R buf s e s e :=
  ⟨0, fun _ => rfl⟩

theorem Reaches.trans {R : Env} {buf : Bytes} {s1 s2 s3 : Locals} {e1 e2 e3 : Env}
    (h1 : Reaches R buf s1 e1 s2 e2) (h2 : Reaches R buf s2 e2 s3 e3) :
    Reaches R buf s1 e1 s3 e3 := by
  obtain ⟨n, hn⟩ := h1
  obtain ⟨m, hm⟩ := h2
  refine ⟨m + n, fun fuel => ?_⟩
  rw [← Nat.add_assoc, hn, hm]

/-- One pass of the loop that goes on without a call of `setenv` or
`unsetenv`. -/
theorem Reaches.pass {R : Env} {buf : Bytes} {s s' : Locals} {e : Env}
    (h : step R e buf s = .next s' none) : Reaches R buf s e s' e :=
  ⟨1, fun fuel => by simp only [readLoop, h]⟩

/-- One pass of the loop that makes a call of `setenv` or `unsetenv`. -/
theorem Reaches.call {R : Env} {buf : Bytes} {s s' : Locals} {e : Env} {a : EnvAction}
    (h : step R e buf s = .next s' (some a)) : Reaches R buf s e s' (a.apply e) :=
  ⟨1, fun fuel => by simp only [readLoop, h]⟩

/-- More fuel does not change what a run of the loop ends in. -/
theorem readLoop_mono (R : Env) (buf : Bytes) : ∀ (fuel k : Nat) (s : Locals) (e : Env),
    readLoop R buf fuel s e ≠ .outOfFuel →
    readLoop R buf (fuel + k) s e = readLoop R buf fuel s e := by
  intro fuel
  induction fuel with
  | zero => intro k s e h; exact absurd rfl h
  | succ f ih =>
    intro k s e h
    rw [show f + 1 + k = (f + k) + 1 by omega]
    simp only [readLoop] at h ⊢
    cases hs : step R e buf s with
    | done => rfl
    | fault x => rfl
    | next s1 act =>
      simp only [hs] at h ⊢
      exact ih k s1 _ h

/-- What the loop ends in from locals it reaches is what the call ends in. -/
theorem readAndSetEnv_of_reaches (R : Env) (buf : Bytes) (e e' : Env) (s' : Locals) (r : Result)
    (h : Reaches R buf initLocals e s' e') (hr : readLoop R buf 1 s' e' = r)
    (hne : r ≠ .outOfFuel) : readAndSetEnv R buf e = r := by
  obtain ⟨n, hn⟩ := h
  have h1 : readLoop R buf (1 + n) initLocals e = r := by rw [hn, hr]
  have h2 := readLoop_mono R buf (1 + n) (buf.length + 1) initLocals e (by rw [h1]; exact hne)
  have h3 := readLoop_mono R buf (buf.length + 1) (1 + n) initLocals e
    (readAndSetEnv_ne_outOfFuel R buf e)
  unfold readAndSetEnv
  rw [← h3, show buf.length + 1 + (1 + n) = 1 + n + (buf.length + 1) by omega, h2, h1]

/-- The call returns the environment with which the loop reaches the EOF
sentinel. -/
theorem readAndSetEnv_of_reaches_eof (R : Env) (buf : Bytes) (e e' : Env) (s' : Locals)
    (h : Reaches R buf initLocals e s' e') (hb : buf[s'.c]? = some readEOF) :
    readAndSetEnv R buf e = .returned e' :=
  readAndSetEnv_of_reaches R buf e e' s' _ h (by simp [readLoop, step, hb]) (by simp)

theorem At.left {buf : Bytes} {c : Nat} {a b : Bytes} (h : At buf c (a ++ b)) : At buf c a := by
  intro k hk
  have := h k (by simp; omega)
  rwa [List.getD_append _ _ _ _ hk] at this

theorem At.right {buf : Bytes} {c : Nat} {a b : Bytes} (h : At buf c (a ++ b)) :
    At buf (c + a.length) b := by
  intro k hk
  have := h (a.length + k) (by simp; omega)
  rw [List.getD_append_right _ _ _ _ (by omega)] at this
  simpa [Nat.add_assoc] using this

theorem At.head {buf : Bytes} {c x : Nat} {t : Bytes} (h : At buf c (x :: t)) :
    buf[c]? = some x := by
  simpa using h 0 (by simp)

theorem At.tail {buf : Bytes} {c x : Nat} {t : Bytes} (h : At buf c (x :: t)) :
    At buf (c + 1) t :=
  At.right (a := [x]) (by simpa using h)

theorem At_mid (pre t post : Bytes) : At (pre ++ (t ++ post)) pre.length t := by
  intro k hk
  exact getElem?_mid pre t post _ k _ hk (by simp) rfl

theorem put_isStringMode (s : Locals) (x : Nat) : (s.put x).isStringMode = s.isStringMode := by
  cases s with
  | mk c nb vb nc ne r off sm => cases r <;> rfl

theorem put_c (s : Locals) (x : Nat) : (s.put x).c = s.c + 1 := by
  cases s with
  | mk c nb vb nc ne r off sm => cases r <;> rfl

theorem put_destOff (s : Locals) (x : Nat) : (s.put x).destOff = s.destOff + 1 := by
  cases s with
  | mk c nb vb nc ne r off sm => cases r <;> rfl

/-- A run of bytes that each take a case `*dest++ = *c++` of the `switch` is
copied to `dest`. -/
theorem reaches_copyRun (R : Env) (buf : Bytes) (e : Env) (t : Bytes) : ∀ (s : Locals),
    At buf s.c t → s.destOff + t.length ≤ BUF_SIZE →
    (∀ x ∈ t, ∀ s1 : Locals, s1.isStringMode = s.isStringMode → buf[s1.c]? = some x →
      step R e buf s1 = copyChar x s1) →
    Reaches R buf s e (s.copied t) e := by
  induction t with
  | nil =>
    intro s _ _ _
    have : s.copied [] = s := by
      cases s with
      | mk c nb vb nc ne r off sm =>
        cases r <;> simp [Locals.copied, Locals.setDestMem, Locals.destMem, blit]
    rw [this]
    exact Reaches.refl R buf s e
  | cons x xs ih =>
    intro s hat hd hstep
    have hlt : s.destOff < BUF_SIZE := by simp at hd; omega
    have h1 : step R e buf s = .next (s.put x) none := by
      rw [hstep x (List.mem_cons_self _ _) s rfl hat.head, copyChar_eq s x hlt]
    rw [← copied_cons]
    refine (Reaches.pass h1).trans (ih (s.put x) ?_ ?_ ?_)
    · rw [put_c]; exact hat.tail
    · rw [put_destOff]; simp at hd; omega
    · intro y hy s1 hs1 hb
      exact hstep y (List.mem_cons_of_mem _ hy) s1 (by rw [hs1, put_isStringMode]) hb

theorem step_quoted (R env : Env) (buf : Bytes) (s : Locals) (x : Nat)
    (hm : s.isStringMode = true) (hb : buf[s.c]? = some x) (hq : quotedByte x) :
    step R env buf s = copyChar x s := by
  obtain ⟨h1, h2, h3, h4, h5⟩ := hq
  simp only [step, hb, h1, h2, h3, h4, h5, hm, if_false, if_true]
  split_ifs <;> rfl

theorem copied_eq_wrote (s : Locals) (t : Bytes) : s.copied t = s.wrote t t.length := rfl

theorem wrote_wrote (s : Locals) (a b : Bytes) (n m : Nat) :
    (s.wrote a n).wrote b m = s.wrote (a ++ b) (n + m) := by
  have hb : ∀ (a b : Bytes) (mem : Mem) (off : Nat),
      blit (blit mem off a) (off + a.length) b = blit mem off (a ++ b) := by
    intro a
    induction a with
    | nil => intro b mem off; simp [blit]
    | cons x xs ih =>
      intro b mem off
      simp only [blit, List.length_cons, List.cons_append]
      rw [show off + (xs.length + 1) = off + 1 + xs.length by omega]
      exact ih b _ _
  cases s with
  | mk c nb vb nc ne r off sm =>
    cases r <;>
      simp [Locals.wrote, Locals.setDestMem, Locals.destMem, hb, Nat.add_assoc]

theorem wrote_nil (s : Locals) : s.wrote [] 0 = s := by
  cases s with
  | mk c nb vb nc ne r off sm =>
    cases r <;> simp [Locals.wrote, Locals.setDestMem, Locals.destMem, blit]

/-- A well-formed piece read outside a string appends its text to `dest`; the
loop is outside a string again after it. -/
theorem reaches_tok (R : Env) (buf : Bytes) (e : Env) (tok : Tok) (s : Locals)
    (hm : s.isStringMode = false) (hat : At buf s.c tok.render) (hok : tok.ok)
    (hd : s.destOff + tok.text.length ≤ BUF_SIZE) :
    Reaches R buf s e (s.wrote tok.text tok.render.length) e := by
  cases tok with
  | plain x =>
    have := reaches_copyRun R buf e [x] s hat (by simpa using hd)
      (fun y hy s1 _ hb => by
        simp only [List.mem_singleton] at hy
        subst hy
        exact step_plain R e buf s1 y hb hok)
    exact this
  | esc x =>
    have h0 : buf[s.c]? = some 92 := hat.head
    have h1 : buf[s.c + 1]? = some x := hat.tail.head
    have hlt : s.destOff < BUF_SIZE := by simp [Tok.text] at hd; omega
    apply Reaches.pass
    cases s with
    | mk c nb vb nc ne r off sm =>
      simp only at h0 h1 hlt
      cases r <;>
        simp [step, h0, h1, storeInc, store, hlt, Except.map, Locals.wrote, Locals.setDestMem,
          Locals.destMem, blit, Tok.text, Tok.render]
  | quoted t =>
    have h0 : buf[s.c]? = some 34 := hat.head
    have hrun : At buf (s.c + 1) t := (At.tail hat).left
    have hend : buf[s.c + 1 + t.length]? = some 34 := (At.tail hat).right.head
    simp only [Tok.text] at hd
    -- the opening quote
    have st1 : step R e buf s = .next { s with isStringMode := true, c := s.c + 1 } none := by
      simp [step, h0, hm]
    -- the bytes of the string
    have run := reaches_copyRun R buf e t { s with isStringMode := true, c := s.c + 1 }
      hrun hd (fun y hy s1 hs1 hb => step_quoted R e buf s1 y hs1 hb (hok y hy))
    -- the closing quote
    have st3 : step R e buf (({ s with isStringMode := true, c := s.c + 1 } : Locals).copied t) =
        .next (s.wrote t (t.length + 2)) none := by
      cases s with
      | mk c nb vb nc ne r off sm =>
        simp only at hend hm
        subst hm
        have hend2 : buf[c + (t.length + 1)]? = some 34 := by
          rw [← hend]; congr 1; omega
        cases r <;>
          simp [step, Locals.copied, Locals.setDestMem, Locals.destMem, hend2, Locals.wrote,
            Nat.add_assoc, Nat.add_comm 1 t.length]
    have : (Tok.quoted t).render.length = t.length + 2 := by simp [Tok.render]
    rw [Tok.text, this]
    exact (Reaches.pass st1).trans (run.trans (Reaches.pass st3))

theorem renderToks_cons (t : Tok) (ts : List Tok) :
    renderToks (t :: ts) = t.render ++ renderToks ts := by
  simp [renderToks]

theorem textOf_cons (t : Tok) (ts : List Tok) : textOf (t :: ts) = t.text ++ textOf ts := by
  simp [textOf]

theorem wrote_isStringMode (s : Locals) (t : Bytes) (n : Nat) :
    (s.wrote t n).isStringMode = s.isStringMode := by
  cases s with
  | mk c nb vb nc ne r off sm => cases r <;> rfl

theorem wrote_c (s : Locals) (t : Bytes) (n : Nat) : (s.wrote t n).c = s.c + n := by
  cases s with
  | mk c nb vb nc ne r off sm => cases r <;> rfl

theorem wrote_destOff (s : Locals) (t : Bytes) (n : Nat) :
    (s.wrote t n).destOff = s.destOff + t.length := by
  cases s with
  | mk c nb vb nc ne r off sm => cases r <;> rfl

/-- A sequence of well-formed pieces read outside a string appends its text to
`dest`. -/
theorem reaches_toks (R : Env) (buf : Bytes) (e : Env) : ∀ (ts : List Tok) (s : Locals),
    s.isStringMode = false → At buf s.c (renderToks ts) → (∀ t ∈ ts, t.ok) →
    s.destOff + (textOf ts).length ≤ BUF_SIZE →
    Reaches R buf s e (s.wrote (textOf ts) (renderToks ts).length) e := by
  intro ts
  induction ts with
  | nil =>
    intro s _ _ _ _
    simp only [textOf, renderToks, List.map_nil, List.flatten_nil, List.length_nil]
    rw [wrote_nil]
    exact Reaches.refl R buf s e
  | cons t ts ih =>
    intro s hm hat hok hd
    rw [renderToks_cons] at hat
    rw [textOf_cons, List.length_append] at hd
    have h1 := reaches_tok R buf e t s hm hat.left (hok t (List.mem_cons_self _ _)) (by omega)
    have h2 := ih (s.wrote t.text t.render.length) (by rw [wrote_isStringMode, hm])
      (by rw [wrote_c]; exact hat.right) (fun x hx => hok x (List.mem_cons_of_mem _ hx))
      (by rw [wrote_destOff]; omega)
    rw [wrote_wrote] at h2
    rw [renderToks_cons, textOf_cons, List.length_append]
    exact h1.trans h2

theorem drop_of_getElem? (buf : Bytes) (c x : Nat) (h : buf[c]? = some x) :
    buf.drop c = x :: buf.drop (c + 1) := by
  have hlt : c < buf.length := by
    by_contra hge
    rw [List.getElem?_eq_none (by omega)] at h
    simp at h
  rw [List.drop_eq_getElem_cons hlt]
  congr 1
  rw [List.getElem?_eq_getElem hlt] at h
  simpa using h

theorem skipToEol_at (buf : Bytes) : ∀ (t : Bytes) (c : Nat), At buf c (t ++ [10]) →
    (∀ x ∈ t, x ≠ 10 ∧ x ≠ readEOF) → skipToEol (buf.drop c) = some t.length := by
  intro t
  induction t with
  | nil =>
    intro c hat _
    rw [drop_of_getElem? buf c 10 hat.head]
    simp [skipToEol]
  | cons x xs ih =>
    intro c hat hx
    rw [drop_of_getElem? buf c x hat.head]
    have h1 := hx x (List.mem_cons_self _ _)
    simp only [skipToEol, h1.1, h1.2, or_self, if_false]
    rw [ih (c + 1) (At.tail hat) (fun y hy => hx y (List.mem_cons_of_mem _ hy))]
    rfl

/-- The rest of a line after a space, a tab or a `#` outside a string is
passed over: the loop comes to the newline. -/
theorem reaches_tail (R : Env) (buf : Bytes) (e : Env) (tail : Bytes) (s : Locals)
    (hm : s.isStringMode = false) (hok : okTail tail) (hat : At buf s.c (tail ++ [10])) :
    Reaches R buf s e { s with c := s.c + tail.length } e ∧
      buf[s.c + tail.length]? = some 10 := by
  refine ⟨?_, hat.right.head⟩
  cases tail with
  | nil => exact Reaches.refl R buf s e
  | cons w rest =>
    obtain ⟨hw, hrest⟩ := hok
    have hb : buf[s.c]? = some w := hat.head
    have hsk : skipToEol (buf.drop s.c) = some (w :: rest).length := by
      apply skipToEol_at buf (w :: rest) s.c hat
      intro x hx
      rcases List.mem_cons.mp hx with rfl | hx
      · rcases hw with rfl | rfl | rfl <;> decide
      · exact hrest x hx
    apply Reaches.pass
    have h1 : w ≠ readEOF := by rcases hw with rfl | rfl | rfl <;> decide
    have h2 : w ≠ 10 := by rcases hw with rfl | rfl | rfl <;> decide
    simp only [step, hb, h1, h2, hw, hm, hsk, if_false, if_true, Bool.false_eq_true]

/-- The newline that ends a line `NAME=VALUE`: `setenv` is called and the
name recorded. -/
theorem step_endSet (R e : Env) (buf : Bytes) (s : Locals) (name value : Bytes)
    (hb : buf[s.c]? = some 10) (hm : s.isStringMode = false) (hfirst : s.nameBuf 0 ≠ 0)
    (hr : s.destRegion = .valueBuf) (ho : s.destOff < BUF_SIZE)
    (hname : cstr s.nameBuf 0 BUF_SIZE = some name)
    (hvalue : cstr (Function.update s.valueBuf s.destOff 0) 0 BUF_SIZE = some value)
    (hrec : s.nameChanged_end + name.length + 1 ≤ NAME_CHANGED_SIZE) :
    ∃ s', step R e buf s = .next s' (some (.set name value)) ∧ s'.atLineStart ∧
      s'.c = s.c + 1 ∧ s'.nameChanged_end = s.nameChanged_end + name.length + 1 ∧
      s'.nameBuf = s.nameBuf := by
  have hne : s.nameChanged_end ≠ NAME_CHANGED_SIZE := by omega
  cases s with
  | mk c nb vb nc ne r off sm =>
    simp only at hb hm hfirst hr ho hname hvalue hrec hne
    subst hr hm
    simp only [step, hb, hfirst, endOfLine, storeInc, store, ho, Except.map,
      Locals.setDestMem, Locals.destMem, hname, hvalue, recordName, hne, hrec,
      readEOF, Nat.reduceEqDiff, if_false, if_true, Bool.false_eq_true, ne_eq,
      not_false_eq_true, reduceCtorEq, false_and, Option.map_some']
    exact ⟨_, rfl, ⟨rfl, rfl, rfl⟩, rfl, rfl, rfl⟩

/-- The newline that ends a line `NAME`: `unsetenv` is called and the name
recorded, when `nameChanged` is not full. -/
theorem step_endUnset (R e : Env) (buf : Bytes) (s : Locals) (name : Bytes)
    (hb : buf[s.c]? = some 10) (hm : s.isStringMode = false) (hfirst : s.nameBuf 0 ≠ 0)
    (hr : s.destRegion = .nameBuf) (ho : s.destOff + 1 < BUF_SIZE)
    (hname : cstr (Function.update s.nameBuf s.destOff 0) 0 BUF_SIZE = some name)
    (hrec : s.nameChanged_end + name.length + 1 ≤ NAME_CHANGED_SIZE) :
    ∃ s', step R e buf s = .next s' (some (.unset name)) ∧ s'.atLineStart ∧
      s'.c = s.c + 1 ∧ s'.nameChanged_end = s.nameChanged_end + name.length + 1 ∧
      s'.nameBuf = Function.update s.nameBuf s.destOff 0 := by
  have hne : s.nameChanged_end ≠ NAME_CHANGED_SIZE := by omega
  have ho' : s.destOff < BUF_SIZE := by omega
  cases s with
  | mk c nb vb nc ne r off sm =>
    simp only at hb hm hfirst hr ho ho' hname hrec hne
    subst hr hm
    simp only [step, hb, hfirst, endOfLine, storeInc, store, ho, ho', Except.map,
      Locals.setDestMem, Locals.destMem, hname, recordName, hne, hrec,
      readEOF, Nat.reduceEqDiff, if_false, if_true, Bool.false_eq_true, ne_eq,
      not_false_eq_true, Nat.zero_lt_succ, and_self, true_and]
    exact ⟨_, rfl, ⟨rfl, rfl, rfl⟩, rfl, rfl, rfl⟩

theorem reaches_line (R : Env) (buf : Bytes) (e : Env) (l : Line) (s : Locals)
    (hs : s.atLineStart) (hat : At buf s.c l.render) (hok : l.ok)
    (hrec : s.nameChanged_end + (textOf l.name).length + 1 ≤ NAME_CHANGED_SIZE) :
    ∃ s', Reaches R buf s e s' (l.action.apply e) ∧ s'.atLineStart ∧
      s'.c = s.c + l.render.length ∧
      s'.nameChanged_end = s.nameChanged_end + (textOf l.name).length + 1 ∧
      s'.nameBuf 0 ≠ 0 := by
  obtain ⟨⟨n1, n2, n3⟩, nne, hval, htail⟩ := hok
  obtain ⟨hr, ho, hm⟩ := hs
  have n2' : (textOf l.name).length < BUF_SIZE := by simp only [BUF_SIZE] at n2 ⊢; omega
  have hrun := reaches_toks R buf e l.name s hm hat.left n1 (by rw [ho]; omega)
  have hfirst : ∀ m : Mem, blit m 0 (textOf l.name) 0 ≠ 0 := by
    intro m
    obtain ⟨a, t, ha⟩ := List.exists_cons_of_ne_nil nne
    rw [ha, blit_apply]
    have := n3 a (by rw [ha]; exact List.mem_cons_self _ _)
    simpa using this
  cases s with
  | mk c nb vb nc ne r off sm =>
    simp only at hr ho hm hat hrec
    subst hr ho hm
    simp only [Locals.wrote, Locals.setDestMem, Locals.destMem, Nat.zero_add] at hrun
    rcases l with ⟨name, value, tail⟩
    simp only at n1 n2 n3 nne hval htail hrun hfirst n2' hrec
    cases value with
    | none =>
      simp only [Line.render, List.nil_append] at hat ⊢
      obtain ⟨ht, hnl⟩ := reaches_tail R buf e tail
        { c := c + (renderToks name).length, nameBuf := blit nb 0 (textOf name),
          valueBuf := vb, nameChanged := nc, nameChanged_end := ne,
          destRegion := .nameBuf, destOff := (textOf name).length, isStringMode := false }
        rfl htail hat.right
      simp only at ht hnl
      have hname : cstr (Function.update (blit nb 0 (textOf name)) (textOf name).length 0)
          0 BUF_SIZE = some (textOf name) := by
        apply cstr_of_bytes _ _ n2'
        · intro k hk
          rw [Function.update_noteq (by omega), blit_apply]
          simp [hk]
        · simp
        · exact n3
      obtain ⟨s', h4, a4, c4, e4, b4⟩ := step_endUnset R e buf
        { c := c + (renderToks name).length + tail.length, nameBuf := blit nb 0 (textOf name),
          valueBuf := vb, nameChanged := nc, nameChanged_end := ne,
          destRegion := .nameBuf, destOff := (textOf name).length, isStringMode := false }
        (textOf name) hnl rfl
        (hfirst nb) rfl (by simp only [BUF_SIZE] at n2 ⊢; omega) hname hrec
      refine ⟨s', hrun.trans (ht.trans (Reaches.call h4)), a4, ?_, e4, ?_⟩
      · rw [c4]; simp; omega
      · rw [b4]
        simp only
        rw [Function.update_noteq]
        · exact hfirst nb
        · intro h
          exact nne (List.length_eq_zero.mp h.symm)
    | some v =>
      obtain ⟨v1, v2, v3⟩ := hval v rfl
      have v2' : (textOf v).length < BUF_SIZE := by simp only [BUF_SIZE] at v2 ⊢; omega
      simp only [Line.render] at hat ⊢
      -- the '='
      have hb2 : buf[c + (renderToks name).length]? = some 61 := hat.right.head
      have st2 : step R e buf
          { c := c + (renderToks name).length, nameBuf := blit nb 0 (textOf name),
            valueBuf := vb, nameChanged := nc, nameChanged_end := ne,
            destRegion := .nameBuf, destOff := (textOf name).length, isStringMode := false } =
          .next
            { c := c + (renderToks name).length + 1,
              nameBuf := Function.update (blit nb 0 (textOf name)) (textOf name).length 0,
              valueBuf := vb, nameChanged := nc, nameChanged_end := ne,
              destRegion := .valueBuf, destOff := 0, isStringMode := false } none := by
        simp [step, hb2, store, n2', Locals.setDestMem, Locals.destMem]
      -- the value
      have hat3 : At buf (c + (renderToks name).length + 1) (renderToks v ++ (tail ++ [10])) := by
        have := At.tail (At.right hat)
        simpa using this
      have hrun3 := reaches_toks R buf e v
        { c := c + (renderToks name).length + 1,
          nameBuf := Function.update (blit nb 0 (textOf name)) (textOf name).length 0,
          valueBuf := vb, nameChanged := nc, nameChanged_end := ne,
          destRegion := .valueBuf, destOff := 0, isStringMode := false }
        rfl hat3.left v1 (by simp only [BUF_SIZE] at v2 ⊢; omega)
      simp only [Locals.wrote, Locals.setDestMem, Locals.destMem, Nat.zero_add] at hrun3
      obtain ⟨ht, hnl⟩ := reaches_tail R buf e tail
        { c := c + (renderToks name).length + 1 + (renderToks v).length,
          nameBuf := Function.update (blit nb 0 (textOf name)) (textOf name).length 0,
          valueBuf := blit vb 0 (textOf v), nameChanged := nc, nameChanged_end := ne,
          destRegion := .valueBuf, destOff := (textOf v).length, isStringMode := false }
        rfl htail hat3.right
      simp only at ht hnl
      have hname : cstr (Function.update (blit nb 0 (textOf name)) (textOf name).length 0)
          0 BUF_SIZE = some (textOf name) := by
        apply cstr_of_bytes _ _ n2'
        · intro k hk
          rw [Function.update_noteq (by omega), blit_apply]
          simp [hk]
        · simp
        · exact n3
      have hvalue : cstr (Function.update (blit vb 0 (textOf v)) (textOf v).length 0)
          0 BUF_SIZE = some (textOf v) := by
        apply cstr_of_bytes _ _ v2'
        · intro k hk
          rw [Function.update_noteq (by omega), blit_apply]
          simp [hk]
        · simp
        · exact v3
      have hf2 : Function.update (blit nb 0 (textOf name)) (textOf name).length 0 0 ≠ 0 := by
        rw [Function.update_noteq]
        · exact hfirst nb
        · intro h
          exact nne (List.length_eq_zero.mp h.symm)
      obtain ⟨s', h4, a4, c4, e4, b4⟩ := step_endSet R e buf
        { c := c + (renderToks name).length + 1 + (renderToks v).length + tail.length,
          nameBuf := Function.update (blit nb 0 (textOf name)) (textOf name).length 0,
          valueBuf := blit vb 0 (textOf v), nameChanged := nc, nameChanged_end := ne,
          destRegion := .valueBuf, destOff := (textOf v).length, isStringMode := false }
        (textOf name) (textOf v) hnl rfl
        hf2 rfl v2' hname hvalue hrec
      refine ⟨s', hrun.trans ((Reaches.pass st2).trans (hrun3.trans (ht.trans (Reaches.call h4)))),
        a4, ?_, e4, ?_⟩
      · rw [c4]; simp; omega
      · rw [b4]; exact hf2

/-- A comment or blank line read at the start of a line while `nameBuf` holds
the empty string: it is passed over and nothing changes. -/
theorem reaches_junkFresh (R : Env) (buf : Bytes) (e : Env) (j : Bytes) (s : Locals)
    (hs : s.atLineStart) (hz : s.nameBuf 0 = 0) (hok : okTail j) (hat : At buf s.c (j ++ [10])) :
    Reaches R buf s e { s with c := s.c + j.length + 1 } e := by
  obtain ⟨ht, hnl⟩ := reaches_tail R buf e j s hs.2.2 hok hat
  refine ht.trans (Reaches.pass ?_)
  simp only [step, hnl, hs.2.2, hz, readEOF, Nat.reduceEqDiff, if_false, if_true,
    Bool.false_eq_true]

theorem cstr_empty (m : Mem) (h : m 0 = 0) : cstr m 0 BUF_SIZE = some [] := by
  simp [cstr, BUF_SIZE, cstrAux, h]

/-- A comment or blank line read at the start of a line while `nameBuf` still
holds the name of the line before: `unsetenv("")` is called, which changes
nothing, and the empty name is recorded in `nameChanged`. -/
theorem reaches_junkDirty (R : Env) (buf : Bytes) (e : Env) (j : Bytes) (s : Locals)
    (hs : s.atLineStart) (hz : s.nameBuf 0 ≠ 0) (hok : okTail j) (hat : At buf s.c (j ++ [10]))
    (hrec : s.nameChanged_end + 1 ≤ NAME_CHANGED_SIZE) :
    ∃ s', Reaches R buf s e s' e ∧ s'.atLineStart ∧ s'.nameBuf 0 = 0 ∧
      s'.c = s.c + j.length + 1 ∧ s'.nameChanged_end = s.nameChanged_end + 1 := by
  obtain ⟨ht, hnl⟩ := reaches_tail R buf e j s hs.2.2 hok hat
  have ho : s.destOff = 0 := hs.2.1
  have hu : Function.update s.nameBuf s.destOff 0 0 = 0 := by
    rw [ho]; exact Function.update_same _ _ _
  obtain ⟨s', h4, a4, c4, e4, b4⟩ := step_endUnset R e buf { s with c := s.c + j.length } []
    hnl hs.2.2 hz hs.1 (by rw [hs.2.1]; decide) (cstr_empty _ hu)
    (by simpa using hrec)
  have hcall := Reaches.call h4
  have hap : (EnvAction.unset []).apply e = e := by
    simp [EnvAction.apply, unsetenv, validName]
  rw [hap] at hcall
  refine ⟨s', ht.trans hcall, a4, ?_, c4, by simpa using e4⟩
  rw [b4]
  exact hu

/-- A run of comment and blank lines read at the start of a line: nothing
changes in the environment; if `nameBuf` still holds a name, the empty name is
recorded once. -/
theorem reaches_junk (R : Env) (buf : Bytes) (e : Env) : ∀ (js : List Bytes) (s : Locals),
    s.atLineStart → (∀ j ∈ js, okTail j) → At buf s.c (renderJunk js) →
    s.nameChanged_end + 1 ≤ NAME_CHANGED_SIZE ∨ js = [] ∨ s.nameBuf 0 = 0 →
    ∃ s', Reaches R buf s e s' e ∧ s'.atLineStart ∧
      s'.c = s.c + (renderJunk js).length ∧
      s'.nameChanged_end = s.nameChanged_end + (if js = [] ∨ s.nameBuf 0 = 0 then 0 else 1) := by
  intro js
  induction js with
  | nil =>
    intro s hs _ _ _
    exact ⟨s, Reaches.refl R buf s e, hs, by simp [renderJunk], by simp⟩
  | cons j js ih =>
    intro s hs hok hat hrec
    have hrj : renderJunk (j :: js) = (j ++ [10]) ++ renderJunk js := by simp [renderJunk]
    rw [hrj] at hat
    by_cases hz : s.nameBuf 0 = 0
    · have h1 := reaches_junkFresh R buf e j s hs hz (hok j (List.mem_cons_self _ _)) hat.left
      obtain ⟨s', h2, a2, c2, e2⟩ := ih { s with c := s.c + j.length + 1 } hs
        (fun x hx => hok x (List.mem_cons_of_mem _ hx))
        (by simpa [Nat.add_assoc] using hat.right) (Or.inr (Or.inr hz))
      refine ⟨s', h1.trans h2, a2, ?_, ?_⟩
      · rw [c2, hrj]; simp; omega
      · rw [e2]; simp [hz]
    · have hrec' : s.nameChanged_end + 1 ≤ NAME_CHANGED_SIZE := by
        rcases hrec with h | h | h
        · exact h
        · simp at h
        · exact absurd h hz
      obtain ⟨s1, h1, a1, z1, c1, e1⟩ := reaches_junkDirty R buf e j s hs hz
        (hok j (List.mem_cons_self _ _)) hat.left hrec'
      obtain ⟨s', h2, a2, c2, e2⟩ := ih s1 a1
        (fun x hx => hok x (List.mem_cons_of_mem _ hx))
        (by rw [c1]; simpa [Nat.add_assoc] using hat.right) (Or.inr (Or.inr z1))
      refine ⟨s', h1.trans h2, a2, ?_, ?_⟩
      · rw [c2, c1, hrj]; simp; omega
      · rw [e2, e1]; simp [hz, z1]

/-- The loop passes over a file of well-formed lines, line by line, making for
each the call of `setenv` or `unsetenv` the spec describes. -/
theorem reaches_lines (R : Env) (buf : Bytes) : ∀ (ls : List Line) (s : Locals) (e : Env),
    s.atLineStart → At buf s.c (renderLines ls) → (∀ l ∈ ls, l.ok) →
    s.nameChanged_end + linesSize ls ≤ NAME_CHANGED_SIZE →
    ∃ s', Reaches R buf s e s' (applyAll (ls.map Line.action) e) ∧ s'.atLineStart ∧
      s'.c = s.c + (renderLines ls).length ∧
      s'.nameChanged_end = s.nameChanged_end + linesSize ls := by
  intro ls
  induction ls with
  | nil =>
    intro s e hs _ _ _
    exact ⟨s, Reaches.refl R buf s e, hs, by simp [renderLines], by simp [linesSize]⟩
  | cons l ls ih =>
    intro s e hs hat hok hsz
    have hr : renderLines (l :: ls) = l.render ++ renderLines ls := by simp [renderLines]
    have hz : linesSize (l :: ls) = (textOf l.name).length + 1 + linesSize ls := by
      simp [linesSize]
    rw [hr] at hat
    rw [hz] at hsz
    obtain ⟨s1, h1, a1, c1, e1, _⟩ := reaches_line R buf e l s hs hat.left
      (hok l (List.mem_cons_self _ _)) (by omega)
    obtain ⟨s2, h2, a2, c2, e2⟩ := ih s1 (l.action.apply e) a1 (by rw [c1]; exact hat.right)
      (fun x hx => hok x (List.mem_cons_of_mem _ hx)) (by omega)
    refine ⟨s2, h1.trans ?_, a2, ?_, ?_⟩
    · simpa [applyAll] using h2
    · rw [c2, c1, hr]; simp; omega
    · rw [e2, e1, hz]; omega

/-- Function `readAndSetEnv` on a file of well-formed lines whose names fit in
`nameChanged`: it returns, having made for each line the call of `setenv` or
`unsetenv` the spec describes. -/
theorem readAndSetEnv_lines (R env : Env) (ls : List Line) (pad : Bytes)
    (hok : ∀ l ∈ ls, l.ok) (hsz : linesSize ls ≤ NAME_CHANGED_SIZE) :
    readAndSetEnv R (renderLines ls ++ readEOF :: pad) env =
      .returned (applyAll (ls.map Line.action) env) := by
  have hat : At (renderLines ls ++ readEOF :: pad) initLocals.c (renderLines ls) := by
    have := At_mid [] (renderLines ls) (readEOF :: pad)
    simpa [initLocals] using this
  obtain ⟨s', h, _, c, _⟩ := reaches_lines R _ ls initLocals env initLocals_atLineStart hat hok
    (by simpa [initLocals] using hsz)
  apply readAndSetEnv_of_reaches_eof R _ env _ s' h
  rw [c]
  have := At_mid (renderLines ls) [readEOF] pad
  simpa [initLocals] using this.head

theorem renderToks_plain (t : Bytes) : renderToks (t.map .plain) = t := by
  induction t with
  | nil => rfl
  | cons x xs ih => rw [List.map_cons, renderToks_cons, ih]; rfl

theorem textOf_plain (t : Bytes) : textOf (t.map .plain) = t := by
  induction t with
  | nil => rfl
  | cons x xs ih => rw [List.map_cons, textOf_cons, ih]; rfl

theorem okToks_plain (t : Bytes) (h : okText t) : okToks (t.map .plain) := by
  obtain ⟨_, h2, h3⟩ := h
  refine ⟨?_, by rw [textOf_plain]; exact h2, by rw [textOf_plain]; exact fun x hx => (h3 x hx).2⟩
  intro tok htok
  obtain ⟨x, hx, rfl⟩ := List.mem_map.mp htok
  exact (h3 x hx).1

theorem toLine_render (a : EnvAction) : a.toLine.render = a.render := by
  cases a <;> simp [EnvAction.toLine, Line.render, EnvAction.render, renderToks_plain]

theorem toLine_action (a : EnvAction) : a.toLine.action = a := by
  cases a <;> simp [EnvAction.toLine, Line.action, textOf_plain]

theorem toLine_ok (a : EnvAction) (h : okLine a) : a.toLine.ok := by
  cases a with
  | set n v =>
    obtain ⟨hn, hv⟩ := h
    refine ⟨okToks_plain n hn, by simpa [EnvAction.toLine, textOf_plain] using hn.1, ?_, trivial⟩
    intro v' hv'
    simp only [EnvAction.toLine, Option.some.injEq] at hv'
    subst hv'
    exact okToks_plain v hv
  | unset n =>
    refine ⟨okToks_plain n h, by simpa [EnvAction.toLine, textOf_plain] using h.1, ?_, trivial⟩
    intro v' hv'
    simp [EnvAction.toLine] at hv'

theorem renderLines_toLine (ls : List EnvAction) :
    renderLines (ls.map EnvAction.toLine) = renderFile ls := by
  simp [renderLines, renderFile, List.map_map, Function.comp_def, toLine_render]

theorem linesSize_toLine (ls : List EnvAction) :
    linesSize (ls.map EnvAction.toLine) = recordedSize ls := by
  simp only [linesSize, recordedSize, List.map_map]
  congr 1
  apply List.map_congr_left
  intro a _
  cases a <;> simp [EnvAction.toLine, textOf_plain, EnvAction.name]

theorem map_action_toLine (ls : List EnvAction) :
    (ls.map EnvAction.toLine).map Line.action = ls := by
  simp [List.map_map, Function.comp_def, toLine_action]

theorem renderLines_append (a b : List Line) :
    renderLines (a ++ b) = renderLines a ++ renderLines b := by
  simp [renderLines]

theorem linesSize_append (a b : List Line) : linesSize (a ++ b) = linesSize a + linesSize b := by
  simp [linesSize]

/-- Calls of `setenv` and `unsetenv` on names they accept make the changes the
spec describes. -/
theorem applyAll_eq_specEnvAfter (acts : List EnvAction) : ∀ (e : Env),
    (∀ a ∈ acts, validName a.name = true) → applyAll acts e = specEnvAfter acts e := by
  induction acts with
  | nil => intro e _; rfl
  | cons a acts ih =>
    intro e h
    have ha := h a (List.mem_cons_self _ _)
    have := ih (a.apply e) (fun x hx => h x (List.mem_cons_of_mem _ hx))
    simp only [applyAll, specEnvAfter, List.foldl_cons] at this ⊢
    rw [this]
    cases a <;> simp_all [EnvAction.apply, setenv, unsetenv, EnvAction.name]

theorem validName_of_okLine (a : EnvAction) (h : okLine a) : validName a.name = true := by
  cases a with
  | set n v => exact validName_of_okText n h.1
  | unset n => exact validName_of_okText n h

/-- Function `readAndSetEnv` on a file of plain lines with one line of pieces
among them. -/
theorem readAndSetEnv_around (R env : Env) (ls ls2 : List EnvAction) (l : Line) (pad : Bytes)
    (hls : ∀ a ∈ ls, okLine a) (hls2 : ∀ a ∈ ls2, okLine a) (hl : l.ok)
    (hsz : recordedSize ls + ((textOf l.name).length + 1) + recordedSize ls2 ≤
      NAME_CHANGED_SIZE) :
    readAndSetEnv R (renderFile ls ++ (l.render ++ (renderFile ls2 ++ readEOF :: pad))) env =
      .returned (specEnvAfter ls2 (l.action.apply (specEnvAfter ls env))) := by
  have h := readAndSetEnv_lines R env (ls.map EnvAction.toLine ++ l :: ls2.map EnvAction.toLine)
    pad
    (by
      intro x hx
      rcases List.mem_append.mp hx with hx | hx
      · obtain ⟨a, ha, rfl⟩ := List.mem_map.mp hx
        exact toLine_ok a (hls a ha)
      · rcases List.mem_cons.mp hx with rfl | hx
        · exact hl
        · obtain ⟨a, ha, rfl⟩ := List.mem_map.mp hx
          exact toLine_ok a (hls2 a ha))
    (by
      rw [linesSize_append, linesSize_toLine]
      have : linesSize (l :: ls2.map EnvAction.toLine) =
          (textOf l.name).length + 1 + recordedSize ls2 := by
        rw [← linesSize_toLine]; simp [linesSize]
      rw [this]
      omega)
  have hr : renderLines (ls.map EnvAction.toLine ++ l :: ls2.map EnvAction.toLine) =
      renderFile ls ++ (l.render ++ renderFile ls2) := by
    rw [renderLines_append, renderLines_toLine]
    have : renderLines (l :: ls2.map EnvAction.toLine) = l.render ++ renderFile ls2 := by
      rw [← renderLines_toLine]; simp [renderLines]
    rw [this]
  rw [hr] at h
  simp only [List.append_assoc] at h
  rw [h]
  congr 1
  rw [List.map_append, List.map_cons, map_action_toLine, map_action_toLine, applyAll_append]
  have e1 := applyAll_eq_specEnvAfter ls env (fun a ha => validName_of_okLine a (hls a ha))
  rw [e1]
  have e2 := applyAll_eq_specEnvAfter ls2 (l.action.apply (specEnvAfter ls env))
    (fun a ha => validName_of_okLine a (hls2 a ha))
  rw [← e2]
  rfl

theorem specEnvAfter_middle (ls ls2 : List EnvAction) (n v : Bytes) (e : Env) :
    specEnvAfter (ls ++ .set n v :: ls2) e =
      specEnvAfter ls2 (Function.update (specEnvAfter ls e) n (some v)) := by
  simp [specEnvAfter, List.foldl_append]

/-- A line `NAME="V"` at the start of the file whose V has as many bytes as
`valueBuf`: the NUL that ends the value is stored outside the array. -/
theorem readAndSetEnv_quoted_overflow (R env : Env) (name V pad : Bytes) (hname : okText name)
    (hV : ∀ x ∈ V, quotedByte x) (hlen : V.length = BUF_SIZE) :
    readAndSetEnv R (name ++ 61 :: 34 :: (V ++ 34 :: 10 :: readEOF :: pad)) env =
      .fault .writeOutOfBounds := by
  obtain ⟨nne, n2, n3⟩ := hname
  have n2' : name.length < BUF_SIZE := by simp only [BUF_SIZE] at n2 ⊢; omega
  generalize hbuf : name ++ 61 :: 34 :: (V ++ 34 :: 10 :: readEOF :: pad) = buf
  have hat : At buf 0 (name ++ (61 :: ((34 :: (V ++ [34])) ++ (10 :: readEOF :: pad)))) := by
    have := At_mid [] (name ++ (61 :: ((34 :: (V ++ [34])) ++ (10 :: readEOF :: pad)))) []
    simpa [← hbuf] using this
  have hrun := reaches_toks R buf env (name.map .plain) initLocals rfl
    (by rw [renderToks_plain]; exact hat.left)
    (by
      intro tok htok
      obtain ⟨x, hx, rfl⟩ := List.mem_map.mp htok
      exact (n3 x hx).1)
    (by rw [textOf_plain]; simp only [initLocals]; omega)
  rw [textOf_plain, renderToks_plain] at hrun
  simp only [Locals.wrote, Locals.setDestMem, Locals.destMem, initLocals, Nat.zero_add] at hrun
  have hb2 : buf[name.length]? = some 61 := by simpa using hat.right.head
  have st2 : step R env buf
      { c := name.length, nameBuf := blit (fun _ => 0) 0 name,
        valueBuf := fun _ => 0, nameChanged := fun _ => 0, nameChanged_end := 0,
        destRegion := .nameBuf, destOff := name.length, isStringMode := false } =
      .next
        { c := name.length + 1,
          nameBuf := Function.update (blit (fun _ => 0) 0 name) name.length 0,
          valueBuf := fun _ => 0, nameChanged := fun _ => 0, nameChanged_end := 0,
          destRegion := .valueBuf, destOff := 0, isStringMode := false } none := by
    simp [step, hb2, store, n2', Locals.setDestMem, Locals.destMem]
  have hat3 : At buf (name.length + 1) ((34 :: (V ++ [34])) ++ (10 :: readEOF :: pad)) := by
    have := At.tail (At.right hat)
    simpa using this
  have hrun3 := reaches_tok R buf env (.quoted V)
    { c := name.length + 1,
      nameBuf := Function.update (blit (fun _ => 0) 0 name) name.length 0,
      valueBuf := fun _ => 0, nameChanged := fun _ => 0, nameChanged_end := 0,
      destRegion := .valueBuf, destOff := 0, isStringMode := false }
    rfl hat3.left hV (by simp [Tok.text, hlen])
  simp only [Locals.wrote, Locals.setDestMem, Locals.destMem, Nat.zero_add, Tok.text,
    Tok.render] at hrun3
  have hnl : buf[name.length + 1 + (34 :: (V ++ [34])).length]? = some 10 := hat3.right.head
  have hfirst : blit (fun _ => 0) 0 name 0 ≠ 0 := by
    obtain ⟨a, t, ha⟩ := List.exists_cons_of_ne_nil nne
    rw [ha, blit_apply]
    have := (n3 a (by rw [ha]; exact List.mem_cons_self _ _)).2
    simpa using this
  have hf2 : Function.update (blit (fun _ => 0) 0 name) name.length 0 0 ≠ 0 := by
    rw [Function.update_noteq]
    · exact hfirst
    · intro h
      exact nne (List.length_eq_zero.mp h.symm)
  apply readAndSetEnv_of_reaches R buf env env _ _
    (hrun.trans ((Reaches.pass st2).trans hrun3)) _ (by simp)
  simp only [readLoop, step, hnl, hf2, endOfLine, storeInc, store, hlen, Except.map,
    Locals.destMem, readEOF, Nat.reduceEqDiff, if_false, if_true, Bool.false_eq_true,
    Nat.lt_irrefl]

theorem render_eq_body (a : EnvAction) : a.render = a.body ++ [10] := by
  cases a <;> simp [EnvAction.render, EnvAction.body]

theorem reaches_decoratedLine (R : Env) (buf : Bytes) (e : Env) (d : Decorated) (s : Locals)
    (hs : s.atLineStart) (hat : At buf s.c d.render) (hok : d.ok)
    (hrec : s.nameChanged_end + (d.line.name.length + 1 + if d.after = [] then 0 else 1) ≤
      NAME_CHANGED_SIZE) :
    ∃ s', Reaches R buf s e s' (d.line.apply e) ∧ s'.atLineStart ∧
      s'.c = s.c + d.render.length ∧
      s'.nameChanged_end =
        s.nameChanged_end + (d.line.name.length + 1 + if d.after = [] then 0 else 1) := by
  obtain ⟨h1, h2, h3⟩ := hok
  have hlok : (({ d.line.toLine with tail := d.tail } : Line)).ok := by
    obtain ⟨a, b, c, _⟩ := toLine_ok d.line h1
    exact ⟨a, b, c, h2⟩
  have hrl : ({ d.line.toLine with tail := d.tail } : Line).render = d.line.body ++ (d.tail ++ [10]) := by
    cases hd : d.line <;>
      simp [EnvAction.toLine, Line.render, EnvAction.body, renderToks_plain]
  have hname : textOf ({ d.line.toLine with tail := d.tail } : Line).name = d.line.name := by
    cases hd : d.line <;> simp [EnvAction.toLine, textOf_plain, EnvAction.name]
  have hact : ({ d.line.toLine with tail := d.tail } : Line).action = d.line := by
    cases hd : d.line <;> simp [EnvAction.toLine, Line.action, textOf_plain]
  have hsplit : d.render = (d.line.body ++ (d.tail ++ [10])) ++ renderJunk d.after := by
    simp [Decorated.render]
  rw [hsplit] at hat
  obtain ⟨s1, r1, a1, c1, e1, z1⟩ := reaches_line R buf e _ s hs (by rw [hrl]; exact hat.left)
    hlok (by rw [hname]; omega)
  rw [hact] at r1
  rw [hrl] at c1
  rw [hname] at e1
  obtain ⟨s2, r2, a2, c2, e2⟩ := reaches_junk R buf (d.line.apply e) d.after s1 a1 h3
    (by rw [c1]; exact hat.right)
    (by
      by_cases hj : d.after = []
      · exact Or.inr (Or.inl hj)
      · left
        rw [e1]
        simp only [hj, if_false] at hrec
        omega)
  refine ⟨s2, r1.trans r2, a2, ?_, ?_⟩
  · rw [c2, c1, hsplit]; simp only [List.length_append]; omega
  · rw [e2, e1]
    simp only [z1, or_false]
    omega

/-- The loop passes over a file of plain lines with comments and blank lines
added, making the changes the spec describes for the plain lines. -/
theorem reaches_decorated (R : Env) (buf : Bytes) : ∀ (ds : List Decorated) (s : Locals)
    (e : Env), s.atLineStart → At buf s.c (ds.map Decorated.render).flatten →
    (∀ d ∈ ds, d.ok) → s.nameChanged_end + decoratedSize ds ≤ NAME_CHANGED_SIZE →
    ∃ s', Reaches R buf s e s' (applyAll (ds.map (·.line)) e) ∧ s'.atLineStart ∧
      s'.c = s.c + ((ds.map Decorated.render).flatten).length ∧
      s'.nameChanged_end = s.nameChanged_end + decoratedSize ds := by
  intro ds
  induction ds with
  | nil =>
    intro s e hs _ _ _
    exact ⟨s, Reaches.refl R buf s e, hs, by simp, by simp [decoratedSize]⟩
  | cons d ds ih =>
    intro s e hs hat hok hsz
    have hz : decoratedSize (d :: ds) =
        (d.line.name.length + 1 + if d.after = [] then 0 else 1) + decoratedSize ds := by
      simp [decoratedSize]
    simp only [List.map_cons, List.flatten_cons] at hat ⊢
    rw [hz] at hsz
    obtain ⟨s1, h1, a1, c1, e1⟩ := reaches_decoratedLine R buf e d s hs hat.left
      (hok d (List.mem_cons_self _ _)) (by omega)
    obtain ⟨s2, h2, a2, c2, e2⟩ := ih s1 (d.line.apply e) a1 (by rw [c1]; exact hat.right)
      (fun x hx => hok x (List.mem_cons_of_mem _ hx)) (by omega)
    refine ⟨s2, h1.trans ?_, a2, ?_, ?_⟩
    · simpa [applyAll] using h2
    · rw [c2, c1]; simp only [List.length_append]; omega
    · rw [e2, e1, hz]; omega

/-- The loop from the start of a file of plain lines with comments and blank
lines added. -/
theorem reaches_decoratedFile (R env : Env) (buf : Bytes) (lead : List Bytes)
    (ds : List Decorated) (hat : At buf 0 (renderDecorated lead ds))
    (hlead : ∀ j ∈ lead, okTail j) (hok : ∀ d ∈ ds, d.ok)
    (hsz : decoratedSize ds ≤ NAME_CHANGED_SIZE) :
    ∃ s', Reaches R buf initLocals env s' (specEnvAfter (ds.map (·.line)) env) ∧
      s'.atLineStart ∧ s'.c = (renderDecorated lead ds).length ∧
      s'.nameChanged_end = decoratedSize ds := by
  obtain ⟨s1, r1, a1, c1, e1⟩ := reaches_junk R buf env lead initLocals initLocals_atLineStart
    hlead hat.left (Or.inr (Or.inr rfl))
  obtain ⟨s2, r2, a2, c2, e2⟩ := reaches_decorated R buf ds s1 env a1
    (by rw [c1]; simpa [initLocals] using hat.right) hok
    (by rw [e1]; simpa [initLocals] using hsz)
  have hspec : applyAll (ds.map (·.line)) env = specEnvAfter (ds.map (·.line)) env :=
    applyAll_eq_specEnvAfter _ env (by
      intro a ha
      obtain ⟨d, hd, rfl⟩ := List.mem_map.mp ha
      exact validName_of_okLine _ (hok d hd).1)
  rw [hspec] at r2
  refine ⟨s2, r1.trans r2, a2, ?_, ?_⟩
  · rw [c2, c1]; simp [renderDecorated, initLocals]
  · rw [e2, e1]; simp [initLocals]

/-- Function `readAndSetEnv` on a file of plain lines with comments and blank
lines added returns the environment the spec describes for the plain lines. -/
theorem readAndSetEnv_decorated (R env : Env) (lead : List Bytes) (ds : List Decorated)
    (pad : Bytes) (hlead : ∀ j ∈ lead, okTail j) (hok : ∀ d ∈ ds, d.ok)
    (hsz : decoratedSize ds ≤ NAME_CHANGED_SIZE) :
    readAndSetEnv R (renderDecorated lead ds ++ readEOF :: pad) env =
      .returned (specEnvAfter (ds.map (·.line)) env) := by
  have hat : At (renderDecorated lead ds ++ readEOF :: pad) 0 (renderDecorated lead ds) := by
    simpa using At_mid [] (renderDecorated lead ds) (readEOF :: pad)
  obtain ⟨s', h, _, c, _⟩ := reaches_decoratedFile R env _ lead ds hat hlead hok hsz
  apply readAndSetEnv_of_reaches_eof R _ env _ s' h
  rw [c]
  have := At_mid (renderDecorated lead ds) [readEOF] pad
  simpa using this.head

theorem recordedSize_le_decoratedSize (ds : List Decorated) :
    recordedSize (ds.map (·.line)) ≤ decoratedSize ds := by
  induction ds with
  | nil => simp [recordedSize, decoratedSize]
  | cons d ds ih =>
    simp only [recordedSize, decoratedSize, List.map_cons, List.sum_cons, List.map_map] at ih ⊢
    omega

/-- After a file of plain lines with comments and blank lines added that
leaves `nameChanged` neither full nor with room for one more name, a line with
that name makes `readAndSetEnv` store outside `nameChanged`. -/
theorem readAndSetEnv_decorated_overflow (R env : Env) (lead : List Bytes)
    (ds : List Decorated) (name pad : Bytes) (hlead : ∀ j ∈ lead, okTail j)
    (hok : ∀ d ∈ ds, d.ok) (hn : okText name) (hsz : decoratedSize ds < NAME_CHANGED_SIZE)
    (hover : ¬ decoratedSize ds + name.length + 1 ≤ NAME_CHANGED_SIZE) :
    readAndSetEnv R (renderDecorated lead ds ++ (name ++ 10 :: readEOF :: pad)) env =
      .fault .writeOutOfBounds := by
  generalize hbuf : renderDecorated lead ds ++ (name ++ 10 :: readEOF :: pad) = buf
  have hat : At buf 0 (renderDecorated lead ds ++ (name ++ [10])) := by
    have := At_mid [] (renderDecorated lead ds ++ (name ++ [10])) (readEOF :: pad)
    simpa [← hbuf] using this
  obtain ⟨s1, r1, ⟨hr, ho, hm⟩, c1, e1⟩ := reaches_decoratedFile R env buf lead ds hat.left
    hlead hok (by omega)
  obtain ⟨nne, n2, n3⟩ := hn
  have n2' : name.length < BUF_SIZE := by simp only [BUF_SIZE] at n2 ⊢; omega
  have hat2 : At buf s1.c (name ++ [10]) := by
    rw [c1]; simpa using hat.right
  have hrun := reaches_toks R buf (specEnvAfter (ds.map (·.line)) env) (name.map .plain) s1 hm
    (by rw [renderToks_plain]; exact hat2.left)
    (by
      intro tok htok
      obtain ⟨x, hx, rfl⟩ := List.mem_map.mp htok
      exact (n3 x hx).1)
    (by rw [textOf_plain, ho]; omega)
  rw [textOf_plain, renderToks_plain] at hrun
  have hnl : buf[s1.c + name.length]? = some 10 := hat2.right.head
  have hfirst : ∀ m : Mem, blit m 0 name 0 ≠ 0 := by
    intro m
    obtain ⟨a, t, ha⟩ := List.exists_cons_of_ne_nil nne
    rw [ha, blit_apply]
    have := (n3 a (by rw [ha]; exact List.mem_cons_self _ _)).2
    simpa using this
  have hname : ∀ m : Mem, cstr (Function.update (blit m 0 name) name.length 0) 0 BUF_SIZE =
      some name := by
    intro m
    apply cstr_of_bytes _ _ n2'
    · intro k hk
      rw [Function.update_noteq (by omega), blit_apply]
      simp [hk]
    · simp
    · exact fun x hx => (n3 x hx).2
  apply readAndSetEnv_of_reaches R buf env _ _ _ (r1.trans hrun) _ (by simp)
  have hne : s1.nameChanged_end ≠ NAME_CHANGED_SIZE := by omega
  have hov : ¬ s1.nameChanged_end + name.length + 1 ≤ NAME_CHANGED_SIZE := by rw [e1]; exact hover
  have hlt : name.length + 1 < BUF_SIZE := by simp only [BUF_SIZE] at n2 ⊢; omega
  cases s1 with
  | mk c nb vb nc ne r off sm =>
    simp only at hr ho hm hnl hne hov
    subst hr ho hm
    simp only [readLoop, step, Locals.wrote, Locals.setDestMem, Locals.destMem, hnl, hfirst,
      endOfLine, storeInc, store, n2', Except.map, hname, recordName, hne, hov, hlt,
      Nat.zero_add, readEOF, Nat.reduceEqDiff, if_false, if_true, Bool.false_eq_true, ne_eq,
      not_false_eq_true, Nat.zero_lt_succ, and_self, true_and]

/-! ## `readAndSetEnv`: quoting, escapes, comments: stated properties -/

/-- C11 (amended): quoting in readAndSetEnv.  In a file of NAME=VALUE and NAME
lines as in C8, a line NAME="V" where V is shorter than 999 bytes and holds no
'"', backslash, '$', '=', EOF byte or NUL byte (spaces, tabs, '#' and newlines
allowed) sets NAME to V, the quotes removed; and a line NAME=V1 w REST, where w
is a space or a tab and REST holds no newline and no EOF byte, sets NAME to V1:
the call returns the environment the spec describes for the file with the line
NAME=V, respectively NAME=V1, in that place. -/
theorem C11_quoting (R env : Env) (ls ls2 : List EnvAction) (name V V1 rest pad : Bytes)
    (w : Nat)
    (hls : ∀ l ∈ ls, okLine l) (hls2 : ∀ l ∈ ls2, okLine l) (hname : okText name)
    (hV : V.length < BUF_SIZE - 1 ∧ ∀ x ∈ V, quotedByte x ∧ x ≠ 0)
    (hV1 : V1.length < BUF_SIZE - 1 ∧ ∀ x ∈ V1, plainByte x ∧ x ≠ 0)
    (hw : w = 32 ∨ w = 9) (hrest : ∀ x ∈ rest, x ≠ 10 ∧ x ≠ readEOF)
    (hsz : recordedSize ls + (name.length + 1) + recordedSize ls2 ≤ NAME_CHANGED_SIZE) :
    readAndSetEnv R
        (renderFile ls ++
          (name ++ 61 :: 34 :: (V ++ 34 :: 10 :: (renderFile ls2 ++ readEOF :: pad)))) env =
      .returned (specEnvAfter (ls ++ .set name V :: ls2) env) ∧
    readAndSetEnv R
        (renderFile ls ++
          (name ++ 61 :: (V1 ++ w :: (rest ++ 10 :: (renderFile ls2 ++ readEOF :: pad))))) env =
      .returned (specEnvAfter (ls ++ .set name V1 :: ls2) env) := by
  have hvn := validName_of_okText name hname
  constructor
  · have h := readAndSetEnv_around R env ls ls2 ⟨name.map .plain, some [.quoted V], []⟩ pad
      hls hls2
      ⟨okToks_plain name hname, by simpa [textOf_plain] using hname.1,
        by
          intro v hv
          simp only [Option.some.injEq] at hv
          subst hv
          exact ⟨by simpa [Tok.ok] using fun x hx => (hV.2 x hx).1,
            by simpa [textOf, Tok.text] using hV.1,
            by simpa [textOf, Tok.text] using fun x hx => (hV.2 x hx).2⟩,
        trivial⟩
      (by simpa [textOf_plain] using hsz)
    simp only [Line.render, renderToks_plain] at h
    simp only [renderToks, Tok.render, List.map_cons,
      List.map_nil, List.flatten_cons, List.flatten_nil, List.append_nil, List.nil_append,
      List.cons_append, List.append_assoc, List.singleton_append] at h
    rw [h, specEnvAfter_middle]
    simp only [Line.action, textOf_plain]
    simp [textOf, Tok.text, EnvAction.apply, setenv, hvn]
  · have h := readAndSetEnv_around R env ls ls2 ⟨name.map .plain, some (V1.map .plain), w :: rest⟩
      pad hls hls2
      ⟨okToks_plain name hname, by simpa [textOf_plain] using hname.1,
        by
          intro v hv
          simp only [Option.some.injEq] at hv
          subst hv
          refine ⟨?_, by simpa [textOf_plain] using hV1.1,
            by simpa [textOf_plain] using fun x hx => (hV1.2 x hx).2⟩
          intro tok htok
          obtain ⟨x, hx, rfl⟩ := List.mem_map.mp htok
          exact (hV1.2 x hx).1,
        ⟨by rcases hw with h | h <;> simp [h], hrest⟩⟩
      (by simpa [textOf_plain] using hsz)
    simp only [Line.render, renderToks_plain, List.cons_append, List.append_assoc,
      List.singleton_append, List.nil_append] at h
    rw [h, specEnvAfter_middle]
    simp [Line.action, textOf_plain, EnvAction.apply, setenv, hvn]

/-- C11 (amended), at the lines HOST="a b" of spec scenario 5 and
HOST=x y z: the variable becomes `a b`, respectively `x`. -/
theorem C11_quoting_witness :
    readAndSetEnv emptyEnv
        (renderFile [.set (str "HOME") (str "/new")] ++
          (str "HOST" ++ 61 :: 34 :: (str "a b" ++ 34 :: 10 :: (renderFile [] ++ readEOF :: []))))
        sampleEnv =
      .returned (specEnvAfter ([.set (str "HOME") (str "/new")] ++
        .set (str "HOST") (str "a b") :: []) sampleEnv) ∧
    readAndSetEnv emptyEnv
        (renderFile [.set (str "HOME") (str "/new")] ++
          (str "HOST" ++ 61 :: (str "x" ++ 32 :: (str "y z" ++ 10 ::
            (renderFile [] ++ readEOF :: [])))))
        sampleEnv =
      .returned (specEnvAfter ([.set (str "HOME") (str "/new")] ++
        .set (str "HOST") (str "x") :: []) sampleEnv) :=
  C11_quoting emptyEnv sampleEnv [.set (str "HOME") (str "/new")] [] (str "HOST") (str "a b")
    (str "x") (str "y z") [] 32
    (by
      intro l hl
      simp only [List.mem_singleton] at hl
      subst hl
      simp [okLine, okText, plainByte, str])
    (by simp) (by simp [okText, plainByte, str]) (by simp [quotedByte, str])
    (by simp [plainByte, str]) (Or.inl rfl) (by simp [str]) (by decide)

/-- C11 as stated fails.  The claim lets V hold a NUL byte and sets no bound on
its length: for the line `A="a<NUL>b"` the variable A becomes `a`, and for a V
of 1000 bytes the call stores outside `valueBuf`.  It lets REST hold the EOF
byte: for the line `A=1 <EOF byte>` the call returns at that byte and A is not
set. -/
theorem C11_counterexample :
    ((∀ x ∈ [97, 0, 98], quotedByte x) ∧
      (readAndSetEnv emptyEnv (str "A" ++ 61 :: 34 :: ([97, 0, 98] ++ 34 :: 10 :: readEOF :: []))
        sampleEnv).lookup (str "A") = some (some [97])) ∧
    ((∀ x ∈ List.replicate 1000 97, quotedByte x) ∧
      (readAndSetEnv emptyEnv
        (str "A" ++ 61 :: 34 :: (List.replicate 1000 97 ++ 34 :: 10 :: readEOF :: []))
        sampleEnv).faultOf = some .writeOutOfBounds) ∧
    ((∀ x ∈ [readEOF], x ≠ 10) ∧
      (readAndSetEnv emptyEnv (str "A" ++ 61 :: (str "1" ++ 32 :: ([readEOF] ++ 10 :: readEOF :: [])))
        sampleEnv).lookup (str "A") = some none) := by
  have hq : ∀ x ∈ List.replicate 1000 97, quotedByte x := by
    intro x hx
    rw [List.eq_of_mem_replicate hx]
    simp [quotedByte]
  refine ⟨⟨by simp [quotedByte], by decide!⟩, ⟨hq, ?_⟩, ⟨by simp, by decide!⟩⟩
  rw [readAndSetEnv_quoted_overflow emptyEnv sampleEnv (str "A") (List.replicate 1000 97) []
    (by simp [okText, plainByte, str]) hq (List.length_replicate _ _)]
  rfl

/-- C12: escape in readAndSetEnv.  For every byte x, a backslash followed by x,
read while `dest` has room for one more byte, stores exactly x through `dest`
and goes on after x: no other local changes, and no call of `setenv` or
`unsetenv` is made, whatever x is.  So in a file of NAME=VALUE and NAME lines a
well-formed line whose name and value are made of plain bytes, backslash-x
pairs and quoted strings makes the change the spec describes for it, each pair
standing for its x. -/
theorem C12_escape :
    (∀ (R env : Env) (buf : Bytes) (s : Locals) (x : Nat),
      buf[s.c]? = some 92 → buf[s.c + 1]? = some x → s.destOff < BUF_SIZE →
      step R env buf s = .next (s.wrote [x] 2) none) ∧
    (∀ (R env : Env) (ls ls2 : List EnvAction) (l : Line) (pad : Bytes),
      (∀ a ∈ ls, okLine a) → (∀ a ∈ ls2, okLine a) → l.ok →
      recordedSize ls + ((textOf l.name).length + 1) + recordedSize ls2 ≤ NAME_CHANGED_SIZE →
      readAndSetEnv R (renderFile ls ++ (l.render ++ (renderFile ls2 ++ readEOF :: pad))) env =
        .returned (specEnvAfter ls2 (l.action.apply (specEnvAfter ls env)))) := by
  constructor
  · intro R env buf s x h0 h1 hlt
    cases s with
    | mk c nb vb nc ne r off sm =>
      simp only at h0 h1 hlt
      cases r <;>
        simp [step, h0, h1, storeInc, store, hlt, Except.map, Locals.wrote, Locals.setDestMem,
          Locals.destMem, blit]
  · intro R env ls ls2 l pad hls hls2 hl hsz
    exact readAndSetEnv_around R env ls ls2 l pad hls hls2 hl hsz

/-- C12, at a state in the middle of a value and at the line
`FOO=\#\"\$\=\ \\`: the byte after the backslash is stored, and FOO becomes
`#"$= \`. -/
theorem C12_escape_witness :
    step emptyEnv sampleEnv [70, 61, 92, 36, 10, readEOF]
        { initLocals with c := 2, destRegion := .valueBuf } =
      .next (({ initLocals with c := 2, destRegion := .valueBuf } : Locals).wrote [36] 2) none ∧
    readAndSetEnv emptyEnv
        [70, 79, 79, 61, 92, 35, 92, 34, 92, 36, 92, 61, 92, 32, 92, 92, 10, readEOF] sampleEnv =
      .returned (setenv sampleEnv [70, 79, 79] [35, 34, 36, 61, 32, 92]) :=
  ⟨C12_escape.1 emptyEnv sampleEnv [70, 61, 92, 36, 10, readEOF]
      { initLocals with c := 2, destRegion := .valueBuf } 36 (by decide) (by decide) (by decide),
    C12_escape.2 emptyEnv sampleEnv [] []
      ⟨[.plain 70, .plain 79, .plain 79],
        some [.esc 35, .esc 34, .esc 36, .esc 61, .esc 32, .esc 92], []⟩ []
      (by simp) (by simp)
      (by
        refine ⟨⟨?_, by decide, by decide⟩, by decide, ?_, trivial⟩
        · intro t ht
          simp only [List.mem_cons, List.mem_singleton, List.not_mem_nil, or_false] at ht
          rcases ht with rfl | rfl | rfl <;> simp [Tok.ok, plainByte]
        · intro v hv
          simp only [Option.some.injEq] at hv
          subst hv
          refine ⟨?_, by decide, by decide⟩
          intro t ht
          simp only [List.mem_cons, List.mem_singleton, List.not_mem_nil, or_false] at ht
          rcases ht with rfl | rfl | rfl | rfl | rfl | rfl <;> exact trivial)
      (by decide)⟩

theorem decoratedSize_cons_replicate (d0 d : Decorated) (n : Nat) :
    decoratedSize (d0 :: List.replicate n d) =
      (d0.line.name.length + 1 + if d0.after = [] then 0 else 1) +
        n * (d.line.name.length + 1 + if d.after = [] then 0 else 1) := by
  simp [decoratedSize, List.map_replicate, List.sum_replicate]

theorem renderDecorated_snoc (lead : List Bytes) (ds : List Decorated) (name : Bytes) :
    renderDecorated lead (ds ++ [⟨.unset name, [], []⟩]) =
      renderDecorated lead ds ++ (name ++ [10]) := by
  simp [renderDecorated, Decorated.render, EnvAction.body, renderJunk]

/-- C13 (amended): comments and blank lines are ignored by readAndSetEnv.  For
every env file F of NAME=VALUE and NAME lines as in C8, put before its lines,
and after any of them, any number of lines that are empty or start with '#' (or
a space or a tab), and put after the last token of any line a space, a tab or a
'#' followed by any text, no added text holding a newline or the EOF byte.  If
`nameChanged` has room for the names of F and for one more byte for each line
of F that added lines follow, the call returns the same environment as for F
itself: the one the spec describes for F. -/
theorem C13_comments_ignored (R env : Env) (lead : List Bytes) (ds : List Decorated)
    (pad : Bytes) (hlead : ∀ j ∈ lead, okTail j) (hok : ∀ d ∈ ds, d.ok)
    (hsz : decoratedSize ds ≤ NAME_CHANGED_SIZE) :
    readAndSetEnv R (renderDecorated lead ds ++ readEOF :: pad) env =
      readAndSetEnv R (renderFile (ds.map (·.line)) ++ readEOF :: pad) env ∧
    readAndSetEnv R (renderDecorated lead ds ++ readEOF :: pad) env =
      .returned (specEnvAfter (ds.map (·.line)) env) := by
  have h1 := readAndSetEnv_decorated R env lead ds pad hlead hok hsz
  have h2 := readAndSetEnv_file R env (ds.map (·.line)) pad
    (by
      intro a ha
      obtain ⟨d, hd, rfl⟩ := List.mem_map.mp ha
      exact (hok d hd).1)
    (Nat.le_trans (recordedSize_le_decoratedSize ds) hsz)
  exact ⟨by rw [h1, h2], h1⟩

/-- C13 (amended), at the example of the comment in `modify-env.c`, after the
comment line `# comment`. -/
theorem C13_comments_ignored_witness :
    readAndSetEnv emptyEnv
        (renderDecorated [str "# comment"] sampleDecorated ++ readEOF :: [0]) sampleEnv =
      readAndSetEnv emptyEnv
        (renderFile (sampleDecorated.map (·.line)) ++ readEOF :: [0]) sampleEnv ∧
    readAndSetEnv emptyEnv
        (renderDecorated [str "# comment"] sampleDecorated ++ readEOF :: [0]) sampleEnv =
      .returned (specEnvAfter (sampleDecorated.map (·.line)) sampleEnv) :=
  C13_comments_ignored emptyEnv sampleEnv [str "# comment"] sampleDecorated [0]
    (by simp [okTail, str])
    (by
      intro d hd
      simp only [sampleDecorated, List.mem_cons, List.mem_singleton, List.not_mem_nil,
        or_false] at hd
      rcases hd with rfl | rfl <;>
        simp [Decorated.ok, okLine, okText, okTail, plainByte, str])
    (by decide)

/-- C13 as stated fails.  A comment may hold the EOF byte: with the line
`#<EOF byte>` put before `A=1` the call returns at that byte and A is not set.
And every run of added lines that follows a line of F uses a byte of
`nameChanged`: 5000 lines `A` fill the array exactly and the call returns, but
with one blank line put after the first of them the last name is stored
outside the array. -/
theorem C13_counterexample :
    ((readAndSetEnv emptyEnv (renderFile [.set (str "A") (str "1")] ++ [readEOF])
        sampleEnv).lookup (str "A") = some (some (str "1")) ∧
      (readAndSetEnv emptyEnv
        (renderDecorated [[35, readEOF]] [⟨.set (str "A") (str "1"), [], []⟩] ++ [readEOF])
        sampleEnv).lookup (str "A") = some none) ∧
    ((∃ e, readAndSetEnv emptyEnv
        (renderFile (List.replicate 5000 (.unset (str "A"))) ++ [readEOF]) sampleEnv =
          .returned e) ∧
      (readAndSetEnv emptyEnv
        (renderDecorated [] (⟨.unset (str "A"), [], [[]]⟩ ::
          (List.replicate 4998 ⟨.unset (str "A"), [], []⟩ ++ [⟨.unset (str "A"), [], []⟩])) ++
            [readEOF]) sampleEnv).faultOf = some .writeOutOfBounds) := by
  refine ⟨⟨by decide!, by decide!⟩,
    ⟨⟨specEnvAfter (List.replicate 5000 (.unset (str "A"))) sampleEnv, ?_⟩, ?_⟩⟩
  · exact readAndSetEnv_file emptyEnv sampleEnv (List.replicate 5000 (.unset (str "A"))) []
      (by
        intro l hl
        rw [List.eq_of_mem_replicate hl]
        simp [okLine, okText, plainByte, str])
      (by rw [recordedSize_replicate]; decide)
  · have h := readAndSetEnv_decorated_overflow emptyEnv sampleEnv []
      (⟨.unset (str "A"), [], [[]]⟩ :: List.replicate 4998 ⟨.unset (str "A"), [], []⟩)
      (str "A") [] (by simp)
      (by
        intro d hd
        rcases List.mem_cons.mp hd with rfl | hd
        · simp [Decorated.ok, okLine, okText, okTail, plainByte, str]
        · rw [List.eq_of_mem_replicate hd]
          simp [Decorated.ok, okLine, okText, okTail, plainByte, str])
      (by simp [okText, plainByte, str])
      (by rw [decoratedSize_cons_replicate]; decide)
      (by rw [decoratedSize_cons_replicate]; decide)
    rw [← List.cons_append, renderDecorated_snoc, List.append_assoc]
    rw [show (str "A" ++ [10]) ++ [readEOF] = str "A" ++ 10 :: readEOF :: [] by rfl, h]
    rfl

/-! ## `readall`: lemmas -/

/-- The loop of `readall` on a file that `read` delivers in chunks of 1 to 100
bytes without error, when `maxCount + 100` is an `int`. -/
theorem readallFrom_chunks (maxCount : Int) (hmax : maxCount ≤ INT_MAX - 100) :
    ∀ (chunks : List Bytes) (count : Int) (stored : Bytes),
    (∀ c ∈ chunks, 1 ≤ c.length ∧ c.length ≤ 100) → 0 ≤ count → count ≤ INT_MAX - 100 →
    (readallFrom maxCount (chunks.map .data) count stored).code =
        some (if count + chunks.flatten.length + 100 ≤ maxCount
          then count + chunks.flatten.length else -1) ∧
      (count + chunks.flatten.length + 100 ≤ maxCount →
        readallFrom maxCount (chunks.map .data) count stored =
          .returned (count + chunks.flatten.length) (stored ++ chunks.flatten)) := by
  intro chunks
  induction chunks with
  | nil =>
    intro count stored _ h0 hc
    have h1 : ¬ INT_MAX < count + 100 := by omega
    unfold readallFrom
    simp only [List.map_nil, List.flatten_nil, List.length_nil, Int.ofNat_zero, Int.add_zero,
      h1, if_false, List.append_nil]
    by_cases h2 : count + 100 > maxCount
    · have h3 : ¬ count + 100 ≤ maxCount := by omega
      simp [h2, h3, ReadallResult.code]
    · have h3 : count + 100 ≤ maxCount := by omega
      simp [h2, h3, ReadallResult.code]
  | cons c cs ih =>
    intro count stored hsz h0 hc
    obtain ⟨c1, c2⟩ := hsz c (List.mem_cons_self _ _)
    have h1 : ¬ INT_MAX < count + 100 := by omega
    have hlen : ((c :: cs).flatten.length : Int) = c.length + cs.flatten.length := by
      simp
    unfold readallFrom
    simp only [List.map_cons, h1, if_false]
    by_cases h2 : count + 100 > maxCount
    · have h3 : ¬ count + ((c :: cs).flatten.length : Int) + 100 ≤ maxCount := by
        rw [hlen]; omega
      rw [if_pos h2, if_neg h3]
      exact ⟨rfl, fun h => absurd h h3⟩
    · have h4 : ¬ c.length = 0 := by omega
      have h5 : ¬ INT_MAX < count + (c.length : Int) := by omega
      simp only [h2, h4, h5, if_false]
      obtain ⟨a, b⟩ := ih (count + c.length) (stored ++ c)
        (fun x hx => hsz x (List.mem_cons_of_mem _ hx)) (by omega) (by omega)
      have e1 : count + (c.length : Int) + (cs.flatten.length : Int) =
          count + ((c :: cs).flatten.length : Int) := by rw [hlen]; omega
      rw [e1] at a b
      refine ⟨a, fun h => ?_⟩
      rw [b h, List.flatten_cons, List.append_assoc]

/-- The loop of `readall` with `maxCount = INT_MAX` on chunks of 100 bytes
that together pass `INT_MAX - 100`: the sum `count + 100` overflows. -/
theorem readallFrom_overflow (c : Bytes) (hc : c.length = 100) : ∀ (n : Nat) (count : Int)
    (stored : Bytes), 0 ≤ count → INT_MAX < count + 100 * n + 100 →
    readallFrom INT_MAX (List.replicate n (.data c)) count stored = .overflow := by
  intro n
  induction n with
  | zero =>
    intro count stored _ h
    unfold readallFrom
    have : INT_MAX < count + 100 := by simpa using h
    simp [this]
  | succ n ih =>
    intro count stored h0 h
    unfold readallFrom
    by_cases h1 : INT_MAX < count + 100
    · simp [h1]
    · have h2 : ¬ count + 100 > INT_MAX := h1
      have h4 : ¬ c.length = 0 := by omega
      have h5 : ¬ INT_MAX < count + (c.length : Int) := by omega
      simp only [List.replicate_succ, h1, h2, h4, h5, if_false]
      apply ih
      · omega
      · rw [hc]; push_cast at h ⊢; omega

/-! ## `readall`: stated properties -/

/-- C14: an oversize env file is an error.  Let `read` deliver the L bytes of
a file in chunks of 1 to 100 bytes without error, and let `maxCount` be a
buffer size for which `count + 100` is an `int` at every test, that is at most
`INT_MAX - 100`, as the sizes 12288 and 4096 that the callers pass are.  Then
readall returns L if L + 100 <= maxCount and -1 otherwise; and with the
plugin's size of 12288, `read_dmtcp_env_file` exits for every file longer than
12188 bytes and returns every other file in full, followed by the EOF
sentinel. -/
theorem C14_readall_oversize (chunks : List Bytes) (maxCount : Int)
    (hsz : ∀ c ∈ chunks, 1 ≤ c.length ∧ c.length ≤ 100) (hmax : maxCount ≤ INT_MAX - 100) :
    (readall (chunks.map .data) maxCount).code =
      some (if (chunks.flatten.length : Int) + 100 ≤ maxCount
        then (chunks.flatten.length : Int) else -1) ∧
    read_dmtcp_env_file true (some (chunks.map .data)) 12288 =
      if chunks.flatten.length ≤ 12188
      then .buffer (chunks.flatten ++
        readEOF :: List.replicate (12287 - chunks.flatten.length) 0)
      else .exited 1 := by
  constructor
  · have := (readallFrom_chunks maxCount hmax chunks 0 [] hsz (by omega) (by decide)).1
    simpa [readall] using this
  · obtain ⟨a, b⟩ := readallFrom_chunks 12288 (by decide) chunks 0 [] hsz (by omega) (by decide)
    simp only [Int.zero_add, List.nil_append] at a b
    have hrd : readall (chunks.map .data) 12288 =
        readallFrom 12288 (chunks.map .data) 0 [] := rfl
    unfold read_dmtcp_env_file
    simp only [Bool.not_true, Bool.false_eq_true, if_false, hrd]
    by_cases h : chunks.flatten.length ≤ 12188
    · have h' : (chunks.flatten.length : Int) + 100 ≤ 12288 := by omega
      have h2 : ¬ ((chunks.flatten.length : Int) < 0) := by omega
      have h3 : ((12288 : Int) - (chunks.flatten.length : Int) - 1).toNat =
          12287 - chunks.flatten.length := by omega
      rw [b h', if_pos h]
      simp only [h2, if_false, h3]
    · have h' : ¬ (chunks.flatten.length : Int) + 100 ≤ 12288 := by omega
      simp only [h', if_false] at a
      cases hr : readallFrom 12288 (chunks.map .data) 0 [] with
      | overflow => rw [hr] at a; simp [ReadallResult.code] at a
      | returned r stored =>
        rw [hr] at a
        simp only [ReadallResult.code, Option.some.injEq] at a
        subst a
        rw [if_neg h]
        rfl

/-- C14, at a file of 5 bytes read as 3 and 2 bytes: with `maxCount = 105`
readall returns 5, with `maxCount = 104` it returns -1, and
`read_dmtcp_env_file` returns the 5 bytes, the EOF sentinel and the zero bytes
of the rest of its 12288-byte buffer. -/
theorem C14_readall_oversize_witness :
    (readall ([[72, 61, 49], [50, 10]].map .data) 105).code =
      some (if (([[72, 61, 49], [50, 10]].flatten.length : Nat) : Int) + 100 ≤ 105
        then (([[72, 61, 49], [50, 10]].flatten.length : Nat) : Int) else -1) ∧
    (readall ([[72, 61, 49], [50, 10]].map .data) 104).code =
      some (if (([[72, 61, 49], [50, 10]].flatten.length : Nat) : Int) + 100 ≤ 104
        then (([[72, 61, 49], [50, 10]].flatten.length : Nat) : Int) else -1) ∧
    read_dmtcp_env_file true (some ([[72, 61, 49], [50, 10]].map .data)) 12288 =
      (if [[72, 61, 49], [50, 10]].flatten.length ≤ 12188
        then .buffer ([[72, 61, 49], [50, 10]].flatten ++
          readEOF :: List.replicate (12287 - [[72, 61, 49], [50, 10]].flatten.length) 0)
        else .exited 1) :=
  ⟨(C14_readall_oversize [[72, 61, 49], [50, 10]] 105 (by simp) (by decide)).1,
    (C14_readall_oversize [[72, 61, 49], [50, 10]] 104 (by simp) (by decide)).1,
    (C14_readall_oversize [[72, 61, 49], [50, 10]] 105 (by simp) (by decide)).2⟩

/-! ## The registries: lemmas -/

theorem wf_empty : ConnList.empty.wf := ⟨List.nodup_nil, fun _ h => by simp [ConnList.empty] at h⟩

theorem holders_empty (fd : Int) : ConnList.empty.holders fd = 0 := rfl

/-- A new connection is put at the end of the registry, with `fd` as its FD. -/
theorem addNew_conns (l : ConnList) (fd : Int) (c : Connection) (hwf : l.wf) :
    (l.addNew fd c).conns = l.conns ++ [{ c with id := l.nextId, fds := c.fds ++ [fd] }] ∧
      (l.addNew fd c).nextId = l.nextId + 1 := by
  have hno : l.conns.any (fun x => x.id == l.nextId) = false := by
    rw [List.any_eq_false]
    intro x hx
    have := hwf.2 x hx
    simp only [beq_iff_eq]
    omega
  simp [ConnList.addNew, ConnList.alloc, ConnList.add, hno]

theorem addNew_wf (l : ConnList) (fd : Int) (c : Connection) (hwf : l.wf) :
    (l.addNew fd c).wf := by
  obtain ⟨h1, h2⟩ := addNew_conns l fd c hwf
  refine ⟨?_, ?_⟩
  · rw [h1, List.map_append, List.nodup_append]
    refine ⟨hwf.1, by simp, ?_⟩
    intro a ha hb
    simp only [List.map_cons, List.map_nil, List.mem_singleton] at hb
    obtain ⟨x, hx, rfl⟩ := List.mem_map.mp ha
    have := hwf.2 x hx
    omega
  · intro x hx
    rw [h1] at hx
    rw [h2]
    rcases List.mem_append.mp hx with hx | hx
    · have := hwf.2 x hx
      omega
    · simp only [List.mem_singleton] at hx
      subst hx
      simp

theorem addNew_holders (l : ConnList) (fd : Int) (c : Connection) (hwf : l.wf) (hc : c.fds = [])
    (fd' : Int) :
    (l.addNew fd c).holders fd' = l.holders fd' + if fd' = fd then 1 else 0 := by
  obtain ⟨h1, _⟩ := addNew_conns l fd c hwf
  simp only [ConnList.holders, h1, hc, List.nil_append, List.filter_append, List.length_append]
  congr 1
  by_cases h : fd' = fd <;> simp [List.filter_cons, h]

/-- A connection of the registry that is given one more FD: the connections
stay the same but for the FD list of that one. -/
theorem add_conns (l : ConnList) (fd : Int) (c : Connection) (hc : c ∈ l.conns) :
    (l.add fd c).conns =
        l.conns.map (fun x => if x.id = c.id then { x with fds := x.fds ++ [fd] } else x) ∧
      (l.add fd c).nextId = l.nextId := by
  have hany : l.conns.any (fun x => x.id == c.id) = true := by
    rw [List.any_eq_true]
    exact ⟨c, hc, by simp⟩
  simp [ConnList.add, hany]

theorem add_wf (l : ConnList) (fd : Int) (c : Connection) (hc : c ∈ l.conns) (hwf : l.wf) :
    (l.add fd c).wf := by
  obtain ⟨h1, h2⟩ := add_conns l fd c hc
  have hid : (l.add fd c).conns.map (·.id) = l.conns.map (·.id) := by
    rw [h1, List.map_map]
    apply List.map_congr_left
    intro x _
    simp only [Function.comp]
    split_ifs <;> rfl
  refine ⟨by rw [hid]; exact hwf.1, ?_⟩
  intro x hx
  have : x.id ∈ (l.add fd c).conns.map (·.id) := List.mem_map_of_mem _ hx
  rw [hid] at this
  obtain ⟨y, hy, hxy⟩ := List.mem_map.mp this
  rw [h2, ← hxy]
  exact hwf.2 y hy

/-- In a well-formed registry the connection with a given identifier is found
once. -/
theorem filter_id_eq (l : ConnList) (c : Connection) (hc : c ∈ l.conns) (hwf : l.wf) :
    l.conns.filter (fun x => decide (x.id = c.id)) = [c] := by
  have key : ∀ (cs : List Connection), (cs.map (·.id)).Nodup → c ∈ cs →
      cs.filter (fun x => decide (x.id = c.id)) = [c] := by
    intro cs
    induction cs with
    | nil => intro _ h; simp at h
    | cons a as ih =>
      intro hn hm
      simp only [List.map_cons, List.nodup_cons] at hn
      rcases List.mem_cons.mp hm with rfl | hm
      · have : as.filter (fun x => decide (x.id = c.id)) = [] := by
          rw [List.filter_eq_nil_iff]
          intro x hx
          simp only [decide_eq_true_eq]
          intro h
          exact hn.1 (by rw [← h]; exact List.mem_map_of_mem _ hx)
        simp [List.filter_cons, this]
      · have hne : a.id ≠ c.id := by
          intro h
          exact hn.1 (by rw [h]; exact List.mem_map_of_mem _ hm)
        simp [List.filter_cons, hne, ih hn.2 hm]
  exact key l.conns hwf.1 hc

theorem add_holders (l : ConnList) (fd : Int) (c : Connection) (hc : c ∈ l.conns)
    (hwf : l.wf) (hfd : fd ∉ c.fds) (fd' : Int) :
    (l.add fd c).holders fd' = l.holders fd' + if fd' = fd then 1 else 0 := by
  obtain ⟨h1, _⟩ := add_conns l fd c hc
  simp only [ConnList.holders, h1]
  have key : ∀ (cs : List Connection), (cs.map (·.id)).Nodup →
      ((cs.map (fun x => if x.id = c.id then { x with fds := x.fds ++ [fd] } else x)).filter
        fun x => decide (fd' ∈ x.fds)).length =
      (cs.filter fun x => decide (fd' ∈ x.fds)).length +
        if fd' = fd then (cs.filter fun x => decide (x.id = c.id ∧ fd ∉ x.fds)).length else 0 := by
    intro cs
    induction cs with
    | nil => intro _; simp
    | cons a as ih =>
      intro hn
      simp only [List.map_cons, List.nodup_cons] at hn
      have := ih hn.2
      simp only [List.map_cons, List.filter_cons]
      by_cases h1 : a.id = c.id <;> by_cases h2 : fd' = fd <;> by_cases h3 : fd' ∈ a.fds <;>
        simp_all <;> omega
  rw [key l.conns hwf.1]
  congr 1
  by_cases h : fd' = fd
  · simp only [h, if_true]
    have hf : l.conns.filter (fun x => decide (x.id = c.id ∧ fd ∉ x.fds)) =
        (l.conns.filter (fun x => decide (x.id = c.id))).filter (fun x => decide (fd ∉ x.fds)) := by
      rw [List.filter_filter]
      congr 1
      funext x
      simp [Bool.and_comm]
    rw [hf, filter_id_eq l c hc hwf]
    simp [hfd]
  · simp [h]

/-- What `processFileConnection` does, by the class of the path and mode. -/
theorem processFileConnection_class (os : Os) (l : ConnList) (fd : Int) (path : Option Bytes)
    (flags mode : Int) (st_mode : Nat) (hst : (os.fdInfo fd).st_mode = some st_mode) :
    match classOf (resolvedPath os fd path) st_mode (isBq os (resolvedPath os fd path)) with
    | some (k, t) =>
      ∃ c, processFileConnection os l fd path flags mode = .ok (l.addNew fd c) ∧
        c.conType = k ∧ c.subType = t ∧ c.path = resolvedPath os fd path ∧ c.fds = []
    | none => ∃ f, processFileConnection os l fd path flags mode = .error f := by
  unfold processFileConnection classOf resolvedPath
  rw [hst]
  generalize str "/dev/tty" = a1
  generalize str "/dev/pty" = a2
  generalize str "/dev/ptmx" = a3
  generalize str "/dev/pts/ptmx" = a4
  generalize str "/dev/pts/" = a5
  dsimp only
  generalize upToNul (resolveDevice os fd path) = p
  by_cases h1 : p = a1
  · rw [if_pos h1, if_pos h1]; exact ⟨_, rfl, rfl, rfl, rfl, rfl⟩
  rw [if_neg h1, if_neg h1]
  by_cases h2 : p = a2
  · rw [if_pos h2, if_pos h2]; exact ⟨_, rfl⟩
  rw [if_neg h2, if_neg h2]
  by_cases h3 : strStartsWith p a2 = true
  · rw [if_pos h3, if_pos h3]; exact ⟨_, rfl, rfl, rfl, rfl, rfl⟩
  rw [if_neg h3, if_neg h3]
  by_cases h4 : strStartsWith p a1 = true
  · rw [if_pos h4, if_pos h4]; exact ⟨_, rfl, rfl, rfl, rfl, rfl⟩
  rw [if_neg h4, if_neg h4]
  by_cases h5 : p = a3 ∨ p = a4
  · rw [if_pos h5, if_pos h5]; exact ⟨_, rfl, rfl, rfl, rfl, rfl⟩
  rw [if_neg h5, if_neg h5]
  by_cases h6 : strStartsWith p a5 = true
  · rw [if_pos h6, if_pos h6]
    refine ⟨_, rfl, ?_, ?_, ?_, ?_⟩ <;> split_ifs <;> rfl
  rw [if_neg h6, if_neg h6]
  by_cases h7 : (S_ISREG st_mode || S_ISCHR st_mode || S_ISDIR st_mode || S_ISBLK st_mode) = true
  · rw [if_pos h7, if_pos h7]; exact ⟨_, rfl, rfl, rfl, rfl, rfl⟩
  rw [if_neg h7, if_neg h7]
  by_cases h8 : S_ISFIFO st_mode = true
  · rw [if_pos h8, if_pos h8]; exact ⟨_, rfl, rfl, rfl, rfl, rfl⟩
  rw [if_neg h8, if_neg h8]
  exact ⟨_, rfl⟩

theorem strStartsWith_self (s : Bytes) : strStartsWith s s = true := by
  simp [strStartsWith]

theorem classOf_none_iff (p : Bytes) (m : Nat) (bq : Bool) :
    classOf p m bq = none ↔
      p = str "/dev/pty" ∨
        (strStartsWith p (str "/dev/pty") = false ∧ strStartsWith p (str "/dev/tty") = false ∧
          p ≠ str "/dev/ptmx" ∧ strStartsWith p (str "/dev/pts/") = false ∧
          (S_ISREG m || S_ISCHR m || S_ISDIR m || S_ISBLK m) = false ∧ S_ISFIFO m = false) := by
  have hne12 : str "/dev/tty" ≠ str "/dev/pty" := by decide
  have h45 : strStartsWith (str "/dev/pts/ptmx") (str "/dev/pts/") = true := by decide
  unfold classOf
  generalize str "/dev/tty" = a1 at *
  generalize str "/dev/pty" = a2 at *
  generalize str "/dev/ptmx" = a3 at *
  generalize str "/dev/pts/ptmx" = a4 at *
  generalize str "/dev/pts/" = a5 at *
  by_cases h1 : p = a1
  · subst h1
    rw [if_pos rfl]
    simp [hne12, strStartsWith_self]
  rw [if_neg h1]
  by_cases h2 : p = a2
  · rw [if_pos h2]
    simp [h2]
  rw [if_neg h2]
  by_cases h3 : strStartsWith p a2 = true
  · rw [if_pos h3]
    simp [h2, h3]
  rw [if_neg h3]
  by_cases h4 : strStartsWith p a1 = true
  · rw [if_pos h4]
    simp [h2, h4]
  rw [if_neg h4]
  by_cases h5 : p = a3 ∨ p = a4
  · rw [if_pos h5]
    rcases h5 with h5 | h5
    · subst h5
      simp [h2]
    · subst h5
      simp [h2, h45]
  rw [if_neg h5]
  by_cases h6 : strStartsWith p a5 = true
  · rw [if_pos h6]
    simp [h2, h6]
  rw [if_neg h6]
  by_cases h7 : (S_ISREG m || S_ISCHR m || S_ISDIR m || S_ISBLK m) = true
  · rw [if_pos h7]
    simp only [reduceCtorEq, false_iff, not_or, not_and]
    refine ⟨h2, ?_⟩
    intro _ _ _ _ h
    rw [h7] at h
    exact absurd h (by decide)
  rw [if_neg h7]
  by_cases h8 : S_ISFIFO m = true
  · rw [if_pos h8]
    simp [h2, h8]
  rw [if_neg h8]
  simp only [true_iff]
  right
  simp only [not_or] at h5
  exact ⟨by simpa using h3, by simpa using h4, h5.1, by simpa using h6, by simpa using h7,
    by simpa using h8⟩

/-- One pass of the loop of the scan, by the branch the FD takes. -/
theorem scanFd_eq (os : Os) (l : ConnList) (fd : Int) (m : Nat)
    (hm : (os.fdInfo fd).st_mode = some m) :
    scanFd os l fd =
      match branchOf os fd with
      | .skipped => .ok l
      | .ctty => scanCtty os l fd
      | .file => scanFile os l fd (isRegularFile m) (os.fdInfo fd).device
      | .stdio => .ok (l.addNew fd StdioConnection) := by
  have hp : (os.pbsJobId = true ∧ strStartsWith (os.fdInfo fd).device (str "/proc") = true ∧
      strEndsWith (os.fdInfo fd).device (str "environ") = true) ↔
      pbsEnviron os (os.fdInfo fd).device = true := by
    simp [pbsEnviron, and_assoc]
  unfold scanFd branchOf scanCtty cttyTypeOf isRegularFile
  rw [hm]
  simp only [hp]
  generalize str "/" = s3
  by_cases h1 : (os.fdInfo fd).valid = true
  · by_cases h2 : (os.fdInfo fd).protectedFd = true
    · simp [h1, h2]
    · simp only [h1, h2, Bool.not_true, Bool.false_eq_true, if_false, Bool.or_self]
      split_ifs <;> rfl
  · simp [h1]

theorem scanFd_fstat (os : Os) (l l' : ConnList) (fd : Int) (h : scanFd os l fd = .ok l')
    (hm : (os.fdInfo fd).st_mode = none) : l' = l ∧ branchOf os fd = .skipped := by
  unfold scanFd at h
  unfold branchOf
  rw [hm] at h
  by_cases h1 : (os.fdInfo fd).valid = true
  · by_cases h2 : (os.fdInfo fd).protectedFd = true
    · simp only [h1, h2, Bool.not_true, Bool.false_eq_true, if_false, if_true] at h
      exact ⟨(Except.ok.inj h).symm, by simp [h2]⟩
    · simp [h1, h2] at h
  · simp only [h1, Bool.not_false, if_true] at h
    exact ⟨(Except.ok.inj h).symm, by simp [h1]⟩

theorem not_mem_of_holders_zero (l : ConnList) (fd : Int) (h : l.holders fd = 0)
    (c : Connection) (hc : c ∈ l.conns) : fd ∉ c.fds := by
  intro hfd
  have : c ∈ l.conns.filter fun c => decide (fd ∈ c.fds) :=
    List.mem_filter.mpr ⟨hc, by simpa using hfd⟩
  unfold ConnList.holders at h
  rw [List.length_eq_zero.mp h] at this
  simp at this

theorem joined_effect (l l' : ConnList) (fd : Int) (hwf : l.wf) (h0 : l.holders fd = 0)
    (h : Joined l fd l') :
    l'.wf ∧ ∀ fd', l'.holders fd' = l.holders fd' + if fd' = fd then 1 else 0 := by
  rcases h with ⟨c, hc, rfl⟩ | ⟨c, hc, rfl⟩
  · exact ⟨add_wf l fd c hc hwf,
      add_holders l fd c hc hwf (not_mem_of_holders_zero l fd h0 c hc)⟩
  · exact ⟨addNew_wf l fd c hwf, addNew_holders l fd c hwf hc⟩

theorem processFileConnection_ok (os : Os) (l l' : ConnList) (fd : Int) (path : Option Bytes)
    (flags mode : Int) (h : processFileConnection os l fd path flags mode = .ok l') :
    ∃ m k t c, (os.fdInfo fd).st_mode = some m ∧
      classOf (resolvedPath os fd path) m (isBq os (resolvedPath os fd path)) = some (k, t) ∧
      l' = l.addNew fd c ∧ c.conType = k ∧ c.subType = t ∧
      c.path = resolvedPath os fd path ∧ c.fds = [] := by
  cases hm : (os.fdInfo fd).st_mode with
  | none => simp [processFileConnection, hm] at h
  | some m =>
    have hc := processFileConnection_class os l fd path flags mode m hm
    cases hk : classOf (resolvedPath os fd path) m (isBq os (resolvedPath os fd path)) with
    | none =>
      rw [hk] at hc
      obtain ⟨f, hf⟩ := hc
      rw [hf] at h
      exact absurd h (by simp)
    | some kt =>
      obtain ⟨k, t⟩ := kt
      rw [hk] at hc
      obtain ⟨c, h1, h2, h3, h4, h5⟩ := hc
      rw [h1] at h
      exact ⟨m, k, t, c, rfl, hk, (Except.ok.inj h).symm, h2, h3, h4, h5⟩

theorem scanFile_ok (os : Os) (l l' : ConnList) (fd : Int) (isReg : Bool) (device : Bytes)
    (h : scanFile os l fd isReg device = .ok l') :
    (∃ c, isReg = true ∧ findDuplication os l fd = some c ∧ c ∈ l.conns ∧ l' = l.add fd c) ∨
    ((isReg = true → findDuplication os l fd = none) ∧
      processFileConnection os l fd (some (upToNul device)) (-1) (-1) = .ok l') := by
  unfold scanFile at h
  cases hr : isReg with
  | false =>
    simp only [hr, Bool.false_eq_true, if_false] at h
    exact Or.inr ⟨by simp, h⟩
  | true =>
    simp only [hr, if_true] at h
    cases hd : findDuplication os l fd with
    | none =>
      rw [hd] at h
      exact Or.inr ⟨fun _ => rfl, h⟩
    | some c =>
      rw [hd] at h
      refine Or.inl ⟨c, rfl, rfl, ?_, (Except.ok.inj h).symm⟩
      exact List.mem_of_find?_eq_some hd

theorem scanCtty_ok (os : Os) (l l' : ConnList) (fd : Int) (h : scanCtty os l fd = .ok l') :
    (∃ c c', c ∈ l.conns ∧ c.subType = cttyTypeOf os fd ∧ c.path = (os.fdInfo fd).device ∧
      c' ∈ l.conns ∧ (∃ fd0, c.fds.head? = some fd0 ∧ fd0 ∈ c'.fds) ∧ l' = l.add fd c') ∨
    (l.conns.find? (fun c => c.subType == cttyTypeOf os fd && c.path == (os.fdInfo fd).device) =
        none ∧
      l' = l.addNew fd { PtyConnection (upToNul (os.fdInfo fd).device) (-1) (-1)
        (cttyTypeOf os fd) with preExistingCTTY := true }) := by
  unfold scanCtty at h
  cases hf : l.conns.find?
      (fun c => c.subType == cttyTypeOf os fd && c.path == (os.fdInfo fd).device) with
  | none =>
    rw [hf] at h
    exact Or.inr ⟨rfl, (Except.ok.inj h).symm⟩
  | some c =>
    rw [hf] at h
    simp only at h
    have hc : c ∈ l.conns := List.mem_of_find?_eq_some hf
    have hp := List.find?_some hf
    simp only [Bool.and_eq_true, beq_iff_eq] at hp
    cases hh : c.fds.head? with
    | none => rw [hh] at h; simp at h
    | some fd0 =>
      rw [hh] at h
      simp only at h
      have hmem : fd0 ∈ c.fds := List.mem_of_mem_head? hh
      unfold ConnList.processDup at h
      cases hg : l.conns.find? (fun c => decide (fd0 ∈ c.fds)) with
      | none =>
        have := List.find?_eq_none.mp hg c hc
        simp [hmem] at this
      | some c' =>
        rw [hg] at h
        have hc' : c' ∈ l.conns := List.mem_of_find?_eq_some hg
        have hp' := List.find?_some hg
        simp only [decide_eq_true_eq] at hp'
        exact Or.inl ⟨c, c', hc, hp.1, hp.2, hc', ⟨fd0, hh, hp'⟩, (Except.ok.inj h).symm⟩

/-- An FD that the scan does not pass over joins a connection or gets one. -/
theorem scanFd_joined (os : Os) (l l' : ConnList) (fd : Int) (h : scanFd os l fd = .ok l')
    (hb : branchOf os fd ≠ .skipped) : Joined l fd l' := by
  cases hm : (os.fdInfo fd).st_mode with
  | none => exact absurd (scanFd_fstat os l l' fd h hm).2 hb
  | some m =>
    rw [scanFd_eq os l fd m hm] at h
    cases hbr : branchOf os fd with
    | skipped => exact absurd hbr hb
    | ctty =>
      rw [hbr] at h
      rcases scanCtty_ok os l l' fd h with ⟨c, c', _, _, _, hc', _, rfl⟩ | ⟨_, rfl⟩
      · exact Or.inl ⟨c', hc', rfl⟩
      · exact Or.inr ⟨_, rfl, rfl⟩
    | file =>
      rw [hbr] at h
      rcases scanFile_ok os l l' fd _ _ h with ⟨c, _, _, hc, rfl⟩ | ⟨_, hp⟩
      · exact Or.inl ⟨c, hc, rfl⟩
      · obtain ⟨_, _, _, c, _, _, rfl, _, _, _, hc⟩ := processFileConnection_ok os l l' fd _ _ _ hp
        exact Or.inr ⟨c, hc, rfl⟩
    | stdio =>
      rw [hbr] at h
      exact Or.inr ⟨StdioConnection, rfl, (Except.ok.inj h).symm⟩

/-- An FD that the scan passes over leaves the registry as it is. -/
theorem scanFd_skipped (os : Os) (l l' : ConnList) (fd : Int) (h : scanFd os l fd = .ok l')
    (hb : branchOf os fd = .skipped) : l' = l := by
  cases hm : (os.fdInfo fd).st_mode with
  | none => exact (scanFd_fstat os l l' fd h hm).1
  | some m =>
    rw [scanFd_eq os l fd m hm, hb] at h
    exact (Except.ok.inj h).symm

theorem eq_of_id_eq (l : ConnList) (hwf : l.wf) (x c : Connection) (hx : x ∈ l.conns)
    (hc : c ∈ l.conns) (h : x.id = c.id) : x = c := by
  have := filter_id_eq l c hc hwf
  have hm : x ∈ l.conns.filter (fun y => decide (y.id = c.id)) :=
    List.mem_filter.mpr ⟨hx, by simpa using h⟩
  rw [this] at hm
  simpa using hm

theorem mem_add (l : ConnList) (fd : Int) (c : Connection) (hc : c ∈ l.conns) (hwf : l.wf)
    (x' : Connection) :
    x' ∈ (l.add fd c).conns ↔
      (x' ∈ l.conns ∧ x'.id ≠ c.id) ∨ x' = { c with fds := c.fds ++ [fd] } := by
  rw [(add_conns l fd c hc).1, List.mem_map]
  constructor
  · rintro ⟨x, hx, rfl⟩
    by_cases h : x.id = c.id
    · have := eq_of_id_eq l hwf x c hx hc h
      subst this
      simp
    · simp only [h, if_false]
      exact Or.inl ⟨hx, h⟩
  · rintro (⟨hx, hne⟩ | rfl)
    · exact ⟨x', hx, by simp [hne]⟩
    · exact ⟨c, hc, by simp⟩

theorem mem_addNew (l : ConnList) (fd : Int) (c : Connection) (hwf : l.wf) (x' : Connection) :
    x' ∈ (l.addNew fd c).conns ↔
      x' ∈ l.conns ∨ x' = { c with id := l.nextId, fds := c.fds ++ [fd] } := by
  rw [(addNew_conns l fd c hwf).1]
  simp

/-- Two connections of a registry that hold the same FD are one, when no FD
is held twice. -/
theorem eq_of_holders_le_one (l : ConnList) (x : Int) (h : l.holders x ≤ 1)
    (c c' : Connection) (hc : c ∈ l.conns) (hc' : c' ∈ l.conns) (hx : x ∈ c.fds)
    (hx' : x ∈ c'.fds) : c = c' := by
  have m1 : c ∈ l.conns.filter fun c => decide (x ∈ c.fds) :=
    List.mem_filter.mpr ⟨hc, by simpa using hx⟩
  have m2 : c' ∈ l.conns.filter fun c => decide (x ∈ c.fds) :=
    List.mem_filter.mpr ⟨hc', by simpa using hx'⟩
  unfold ConnList.holders at h
  match hf : l.conns.filter fun c => decide (x ∈ c.fds) with
  | [] => rw [hf] at m1; simp at m1
  | [y] =>
    rw [hf] at m1 m2
    simp only [List.mem_singleton] at m1 m2
    rw [m1, m2]
  | y :: z :: rest => rw [hf] at h; simp at h

theorem holders_pos (l : ConnList) (x : Int) (c : Connection) (hc : c ∈ l.conns)
    (hx : x ∈ c.fds) : 1 ≤ l.holders x := by
  have m1 : c ∈ l.conns.filter fun c => decide (x ∈ c.fds) :=
    List.mem_filter.mpr ⟨hc, by simpa using hx⟩
  unfold ConnList.holders
  exact List.length_pos_of_mem m1

theorem holders_zero_of_not_mem (l : ConnList) (x : Int)
    (h : ∀ c ∈ l.conns, x ∉ c.fds) : l.holders x = 0 := by
  unfold ConnList.holders
  rw [List.length_eq_zero, List.filter_eq_nil_iff]
  intro c hc
  simpa using h c hc

theorem checkDup_append (os : Os) (c : Connection) (fd x : Int) (hne : c.fds ≠ []) :
    checkDup os { c with fds := c.fds ++ [fd] } x = checkDup os c x := by
  unfold checkDup
  obtain ⟨a, t, h⟩ := List.exists_cons_of_ne_nil hne
  simp [h]

theorem checkDup_iff (os : Os) (c : Connection) (x : Int) :
    checkDup os c x = true ↔ ∃ fd0, c.fds.head? = some fd0 ∧ sameFile os fd0 x := by
  unfold checkDup sameFile
  cases h : c.fds.head? with
  | none => simp
  | some fd0 => simp

theorem scanInv_empty (os : Os) : ScanInv os [] ConnList.empty where
  wf := wf_empty
  fds_ne := fun c h => by simp [ConnList.empty] at h
  fds_proc := fun c h => by simp [ConnList.empty] at h
  once := fun x => by simp [holders_empty]
  same := fun c h => by simp [ConnList.empty] at h
  uniq := fun c h => by simp [ConnList.empty] at h
  held := fun x h => by simp at h
  notCtty := fun c h => by simp [ConnList.empty] at h

theorem scanInv_skip (os : Os) (processed : List Int) (l : ConnList) (fd : Int)
    (h : ScanInv os processed l) (hb : branchOf os fd ≠ .file) :
    ScanInv os (fd :: processed) l where
  wf := h.wf
  fds_ne := h.fds_ne
  fds_proc := fun c hc x hx => List.mem_cons_of_mem _ (h.fds_proc c hc x hx)
  once := h.once
  same := h.same
  uniq := h.uniq
  held := by
    intro x hx hf
    rcases List.mem_cons.mp hx with rfl | hx
    · exact absurd hf.1 hb
    · exact h.held x hx hf
  notCtty := h.notCtty

theorem sameFile_of_checkDup (os : Os) (c1 c2 : Connection) (x : Int)
    (h1 : checkDup os c1 x = true) (h2 : checkDup os c2 x = true) :
    ∃ y ∈ c2.fds, checkDup os c1 y = true := by
  rw [checkDup_iff] at h1 h2
  obtain ⟨a, ha, ha1, ha2⟩ := h1
  obtain ⟨b, hb, hb1, hb2⟩ := h2
  refine ⟨b, List.mem_of_mem_head? hb, ?_⟩
  rw [checkDup_iff]
  exact ⟨a, ha, ha1.trans hb1.symm, ha2.trans hb2.symm⟩

/-- The invariant of the scan is kept when the FD joins a connection of the
registry: a file connection only when `checkDup` holds for it. -/
theorem scanInv_add (os : Os) (P : List Int) (l : ConnList) (fd : Int) (c : Connection)
    (h : ScanInv os P l) (hc : c ∈ l.conns) (hfd : fd ∉ P)
    (hdup : c.conType = .FILE → checkDup os c fd = true)
    (hcl : fileClass os fd → c.conType = .FILE) : ScanInv os (fd :: P) (l.add fd c) := by
  have hconns := (add_conns l fd c hc).1
  generalize hf : (fun x : Connection =>
    if x.id = c.id then { x with fds := x.fds ++ [fd] } else x) = f at hconns
  have hfT : ∀ o, (f o).conType = o.conType := by
    intro o; subst hf; by_cases e : o.id = c.id <;> simp [e]
  have hfS : ∀ o, (f o).subType = o.subType := by
    intro o; subst hf; by_cases e : o.id = c.id <;> simp [e]
  have hfD : ∀ o ∈ l.conns, ∀ y, checkDup os (f o) y = checkDup os o y := by
    intro o ho y; subst hf
    by_cases e : o.id = c.id
    · simp only [e, if_true]
      exact checkDup_append os o fd y (h.fds_ne o ho)
    · simp [e]
  have hfF : ∀ o ∈ l.conns, ∀ y ∈ (f o).fds, y ∈ o.fds ∨ (y = fd ∧ o = c) := by
    intro o ho y hy; subst hf
    by_cases e : o.id = c.id
    · simp only [e, if_true, List.mem_append, List.mem_singleton] at hy
      rcases hy with hy | hy
      · exact Or.inl hy
      · exact Or.inr ⟨hy, eq_of_id_eq l h.wf o c ho hc e⟩
    · simp only [e, if_false] at hy
      exact Or.inl hy
  have hfM : ∀ o, ∀ y ∈ o.fds, y ∈ (f o).fds := by
    intro o y hy; subst hf
    by_cases e : o.id = c.id <;> simp [e, hy]
  have hfc : fd ∈ (f c).fds := by subst hf; simp
  have h0 : ∀ o ∈ l.conns, fd ∉ o.fds := fun o ho hx => hfd (h.fds_proc o ho fd hx)
  constructor
  · exact add_wf l fd c hc h.wf
  · intro x hx
    rw [hconns, List.mem_map] at hx
    obtain ⟨o, ho, rfl⟩ := hx
    intro hn
    have := hfM o
    rw [hn] at this
    obtain ⟨a, t, e⟩ := List.exists_cons_of_ne_nil (h.fds_ne o ho)
    exact absurd (this a (by simp [e])) (by simp)
  · intro x hx y hy
    rw [hconns, List.mem_map] at hx
    obtain ⟨o, ho, rfl⟩ := hx
    rcases hfF o ho y hy with hy | ⟨rfl, _⟩
    · exact List.mem_cons_of_mem _ (h.fds_proc o ho y hy)
    · exact List.mem_cons_self _ _
  · intro x
    rw [add_holders l fd c hc h.wf (h0 c hc) x]
    by_cases e : x = fd
    · subst e
      rw [holders_zero_of_not_mem l x h0]
      simp
    · simp only [e, if_false, Nat.add_zero]
      exact h.once x
  · intro x hx hX y hy
    rw [hconns, List.mem_map] at hx
    obtain ⟨o, ho, rfl⟩ := hx
    rw [hfD o ho]
    rw [hfT] at hX
    rcases hfF o ho y hy with hy | ⟨rfl, rfl⟩
    · exact h.same o ho hX y hy
    · exact hdup hX
  · intro c1 h1 c2 h2 t1 t2 x hx hd
    rw [hconns, List.mem_map] at h1 h2
    obtain ⟨o1, ho1, rfl⟩ := h1
    obtain ⟨o2, ho2, rfl⟩ := h2
    rw [hfT] at t1 t2
    rw [hfD o1 ho1] at hd
    rcases hfF o2 ho2 x hx with hy | ⟨rfl, rfl⟩
    · rw [h.uniq o1 ho1 o2 ho2 t1 t2 x hy hd]
    · obtain ⟨y, hy, hd'⟩ := sameFile_of_checkDup os o1 o2 x hd (hdup t2)
      rw [h.uniq o1 ho1 o2 ho2 t1 t2 y hy hd']
  · intro x hx hX
    rcases List.mem_cons.mp hx with rfl | hx
    · exact ⟨f c, by rw [hconns]; exact List.mem_map_of_mem f hc, by rw [hfT]; exact hcl hX, hfc⟩
    · obtain ⟨o, ho, t, hm⟩ := h.held x hx hX
      exact ⟨f o, by rw [hconns]; exact List.mem_map_of_mem f ho, by rw [hfT]; exact t,
        hfM o x hm⟩
  · intro x hx hX
    rw [hconns, List.mem_map] at hx
    obtain ⟨o, ho, rfl⟩ := hx
    rw [hfT] at hX
    rw [hfS]
    exact h.notCtty o ho hX

/-- The invariant of the scan is kept when the FD gets a new connection: a
file connection only when `checkDup` holds for no file connection. -/
theorem scanInv_addNew (os : Os) (P : List Int) (l : ConnList) (fd : Int) (c : Connection)
    (h : ScanInv os P l) (hc : c.fds = []) (hfd : fd ∉ P)
    (hnew : c.conType = .FILE →
      (c.subType ≠ .PTY_CTTY ∧ c.subType ≠ .PTY_PARENT_CTTY) ∧
      ∀ c1 ∈ l.conns, c1.conType = .FILE → checkDup os c1 fd = false)
    (hcl : fileClass os fd → c.conType = .FILE) : ScanInv os (fd :: P) (l.addNew fd c) := by
  have hconns := (addNew_conns l fd c h.wf).1
  rw [hc, List.nil_append] at hconns
  generalize hn : ({ c with id := l.nextId, fds := [fd] } : Connection) = n at hconns
  have hnT : n.conType = c.conType := by subst hn; rfl
  have hnS : n.subType = c.subType := by subst hn; rfl
  have hnF : n.fds = [fd] := by subst hn; rfl
  have hnD : checkDup os n fd = true := by
    rw [checkDup_iff]
    exact ⟨fd, by rw [hnF]; rfl, rfl, rfl⟩
  have h0 : ∀ o ∈ l.conns, fd ∉ o.fds := fun o ho hx => hfd (h.fds_proc o ho fd hx)
  have hmem : ∀ x, x ∈ (l.addNew fd c).conns ↔ x ∈ l.conns ∨ x = n := by
    intro x; rw [hconns]; simp
  constructor
  · exact addNew_wf l fd c h.wf
  · intro x hx
    rcases (hmem x).mp hx with hx | rfl
    · exact h.fds_ne x hx
    · rw [hnF]; simp
  · intro x hx y hy
    rcases (hmem x).mp hx with hx | rfl
    · exact List.mem_cons_of_mem _ (h.fds_proc x hx y hy)
    · rw [hnF] at hy
      simp only [List.mem_singleton] at hy
      subst hy
      exact List.mem_cons_self _ _
  · intro x
    rw [addNew_holders l fd c h.wf hc x]
    by_cases e : x = fd
    · subst e
      rw [holders_zero_of_not_mem l x h0]
      simp
    · simp only [e, if_false, Nat.add_zero]
      exact h.once x
  · intro x hx hX y hy
    rcases (hmem x).mp hx with hx | rfl
    · exact h.same x hx hX y hy
    · rw [hnF] at hy
      simp only [List.mem_singleton] at hy
      subst hy
      exact hnD
  · intro c1 h1 c2 h2 t1 t2 x hx hd
    rcases (hmem c1).mp h1 with g1 | g1
    · rcases (hmem c2).mp h2 with g2 | g2
      · exact h.uniq c1 g1 c2 g2 t1 t2 x hx hd
      · rw [g2, hnF] at hx
        simp only [List.mem_singleton] at hx
        rw [g2, hnT] at t2
        rw [hx, (hnew t2).2 c1 g1 t1] at hd
        exact absurd hd (by simp)
    · rcases (hmem c2).mp h2 with g2 | g2
      · rw [g1, hnT] at t1
        have hs := h.same c2 g2 t2 x hx
        rw [checkDup_iff] at hd hs
        obtain ⟨a, ha, ha1, ha2⟩ := hd
        obtain ⟨b, hb, hb1, hb2⟩ := hs
        rw [g1, hnF] at ha
        simp only [List.head?_cons, Option.some.injEq] at ha
        rw [← ha] at ha1 ha2
        have : checkDup os c2 fd = true := by
          rw [checkDup_iff]
          exact ⟨b, hb, hb1.trans ha1.symm, hb2.trans ha2.symm⟩
        rw [(hnew t1).2 c2 g2 t2] at this
        exact absurd this (by simp)
      · rw [g1, g2]
  · intro x hx hX
    rcases List.mem_cons.mp hx with rfl | hx
    · exact ⟨n, (hmem n).mpr (Or.inr rfl), by rw [hnT]; exact hcl hX, by rw [hnF]; simp⟩
    · obtain ⟨o, ho, t, hm⟩ := h.held x hx hX
      exact ⟨o, (hmem o).mpr (Or.inl ho), t, hm⟩
  · intro x hx hX
    rcases (hmem x).mp hx with hx | rfl
    · exact h.notCtty x hx hX
    · rw [hnT] at hX
      rw [hnS]
      exact (hnew hX).1

theorem classOf_FILE (p : Bytes) (m : Nat) (bq : Bool) (t : SubType)
    (h : classOf p m bq = some (.FILE, t)) :
    isRegularFile m = true ∧ (t = .FILE_BATCH_QUEUE ∨ t = .FILE_REGULAR) := by
  unfold classOf at h
  generalize str "/dev/tty" = a1 at h
  generalize str "/dev/pty" = a2 at h
  generalize str "/dev/ptmx" = a3 at h
  generalize str "/dev/pts/ptmx" = a4 at h
  generalize str "/dev/pts/" = a5 at h
  unfold isRegularFile
  split_ifs at h <;> simp_all

/-- One pass of the scan keeps the invariant. -/
theorem scanInv_step (os : Os) (P : List Int) (l l' : ConnList) (fd : Int)
    (h : ScanInv os P l) (hfd : fd ∉ P) (hs : scanFd os l fd = .ok l') :
    ScanInv os (fd :: P) l' := by
  cases hm : (os.fdInfo fd).st_mode with
  | none =>
    obtain ⟨rfl, hb⟩ := scanFd_fstat os l l' fd hs hm
    exact scanInv_skip os P l' fd h (by rw [hb]; decide)
  | some m =>
    rw [scanFd_eq os l fd m hm] at hs
    cases hbr : branchOf os fd with
    | skipped =>
      rw [hbr] at hs
      have := Except.ok.inj hs
      subst this
      exact scanInv_skip os P l fd h (by rw [hbr]; decide)
    | stdio =>
      rw [hbr] at hs
      have := Except.ok.inj hs
      subst this
      exact scanInv_addNew os P l fd StdioConnection h rfl hfd
        (fun hT => absurd hT (by decide))
        (fun hF => absurd hF.1 (by rw [hbr]; decide))
    | ctty =>
      rw [hbr] at hs
      rcases scanCtty_ok os l l' fd hs with ⟨c, c', hc, hsub, _, hc', ⟨fd0, h0, h0'⟩, rfl⟩ | ⟨_, rfl⟩
      · have hcc : c = c' := eq_of_holders_le_one l fd0 (h.once fd0) c c' hc hc'
          (List.mem_of_mem_head? h0) h0'
        subst hcc
        refine scanInv_add os P l fd c h hc hfd ?_ (fun hF => absurd hF.1 (by rw [hbr]; decide))
        intro hT
        have := h.notCtty c hc hT
        rw [hsub] at this
        unfold cttyTypeOf at this
        split_ifs at this <;> simp at this
      · exact scanInv_addNew os P l fd _ h rfl hfd
          (fun hT => absurd hT (by simp [PtyConnection, Connection.blank]))
          (fun hF => absurd hF.1 (by rw [hbr]; decide))
    | file =>
      rw [hbr] at hs
      rcases scanFile_ok os l l' fd _ _ hs with ⟨c, _, hd, hc, rfl⟩ | ⟨hnd, hp⟩
      · have hp := List.find?_some hd
        simp only [Bool.and_eq_true, beq_iff_eq] at hp
        exact scanInv_add os P l fd c h hc hfd (fun _ => hp.2) (fun _ => hp.1)
      · obtain ⟨m', k, t, c, hm', hk, rfl, hT, hS, _, hfds⟩ :=
          processFileConnection_ok os l l' fd _ _ _ hp
        rw [hm] at hm'
        have := Option.some.inj hm'
        subst this
        refine scanInv_addNew os P l fd c h hfds hfd ?_ ?_
        · intro hF
          rw [hT] at hF
          subst hF
          obtain ⟨hr, ht⟩ := classOf_FILE _ _ _ _ hk
          refine ⟨?_, ?_⟩
          · rw [hS]
            rcases ht with rfl | rfl <;> exact ⟨by decide, by decide⟩
          · intro c1 h1 t1
            have := List.find?_eq_none.mp (hnd hr) c1 h1
            simpa [t1] using this
        · rintro ⟨_, m2, t2, hm2, _, hk2⟩
          rw [hm] at hm2
          have := Option.some.inj hm2
          subst this
          rw [hk] at hk2
          rw [hT]
          exact (Prod.mk.inj (Option.some.inj hk2)).1

/-- The scan, begun where the invariant holds, ends where it holds. -/
theorem scanInv_scanFds (os : Os) (fds : List Int) :
    ∀ (P : List Int) (l l' : ConnList), ScanInv os P l → fds.Nodup → (∀ x ∈ fds, x ∉ P) →
      scanFds os fds l = .ok l' → ScanInv os (fds.reverse ++ P) l' := by
  induction fds with
  | nil =>
    intro P l l' h _ _ hs
    have := Except.ok.inj hs
    subst this
    simpa using h
  | cons fd fds ih =>
    intro P l l' h hnd hP hs
    unfold scanFds at hs
    cases h1 : scanFd os l fd with
    | error f => rw [h1] at hs; simp at hs
    | ok l1 =>
      rw [h1] at hs
      simp only at hs
      have hnd' := List.nodup_cons.mp hnd
      have := ih (fd :: P) l1 l' (scanInv_step os P l l1 fd h (hP fd (List.mem_cons_self _ _)) h1)
        hnd'.2
        (by
          intro x hx hx'
          rcases List.mem_cons.mp hx' with rfl | hx'
          · exact hnd'.1 hx
          · exact hP x (List.mem_cons_of_mem _ hx) hx')
        hs
      simpa using this

theorem socketScanFd_eq (os : Os) (l : ConnList) (fd : Int) :
    socketScanFd os l fd =
      if socketTakes os fd = true then l.addNew fd { TcpConnection with preExisting := true }
      else l := by
  unfold socketScanFd socketTakes
  generalize str "/" = s
  by_cases h1 : (os.fdInfo fd).valid = true <;>
  by_cases h2 : (os.fdInfo fd).protectedFd = true <;>
  by_cases h3 : (os.fdInfo fd).device = os.ctty <;>
  by_cases h4 : isBq os (upToNul (os.fdInfo fd).device) = true <;>
  by_cases h5 : fd ≤ 2 <;>
  by_cases h6 : strStartsWith (os.fdInfo fd).device s = true <;>
  simp [h1, h2, h3, h4, h5, h6]

theorem socketScan_holders (os : Os) (fds : List Int) :
    ∀ (l : ConnList), l.wf → fds.Nodup →
      (fds.foldl (socketScanFd os) l).wf ∧
      ∀ x, (fds.foldl (socketScanFd os) l).holders x =
        l.holders x + if x ∈ fds ∧ socketTakes os x = true then 1 else 0 := by
  induction fds with
  | nil => intro l hwf _; exact ⟨hwf, fun x => by simp⟩
  | cons fd fds ih =>
    intro l hwf hnd
    have hnd' := List.nodup_cons.mp hnd
    rw [List.foldl_cons, socketScanFd_eq]
    by_cases ht : socketTakes os fd = true
    · rw [if_pos ht]
      obtain ⟨w, hh⟩ := ih (l.addNew fd { TcpConnection with preExisting := true })
        (addNew_wf l fd _ hwf) hnd'.2
      refine ⟨w, fun x => ?_⟩
      rw [hh x, addNew_holders l fd _ hwf rfl x]
      by_cases e : x = fd
      · subst e
        simp [hnd'.1, ht]
      · simp [e]
    · rw [if_neg ht]
      obtain ⟨w, hh⟩ := ih l hwf hnd'.2
      refine ⟨w, fun x => ?_⟩
      rw [hh x]
      by_cases e : x = fd
      · subst e
        simp [hnd'.1, ht]
      · simp [e]

theorem scanFds_holders (os : Os) (fds : List Int) :
    ∀ (P : List Int) (l l' : ConnList), ScanInv os P l → fds.Nodup → (∀ x ∈ fds, x ∉ P) →
      scanFds os fds l = .ok l' →
      ∀ x, l'.holders x =
        l.holders x + if x ∈ fds ∧ branchOf os x ≠ .skipped then 1 else 0 := by
  induction fds with
  | nil =>
    intro P l l' _ _ _ hs x
    have := Except.ok.inj hs
    subst this
    simp
  | cons fd fds ih =>
    intro P l l' h hnd hP hs x
    unfold scanFds at hs
    cases h1 : scanFd os l fd with
    | error f => rw [h1] at hs; simp at hs
    | ok l1 =>
      rw [h1] at hs
      simp only at hs
      have hnd' := List.nodup_cons.mp hnd
      have hfd : fd ∉ P := hP fd (List.mem_cons_self _ _)
      have h0 : l.holders fd = 0 :=
        holders_zero_of_not_mem l fd fun o ho hx => hfd (h.fds_proc o ho fd hx)
      have := ih (fd :: P) l1 l' (scanInv_step os P l l1 fd h hfd h1) hnd'.2
        (by
          intro y hy hy'
          rcases List.mem_cons.mp hy' with rfl | hy'
          · exact hnd'.1 hy
          · exact hP y (List.mem_cons_of_mem _ hy) hy')
        hs x
      rw [this]
      by_cases hb : branchOf os fd = .skipped
      · have e1 := scanFd_skipped os l l1 fd h1 hb
        subst e1
        by_cases e : x = fd
        · subst e
          simp [hnd'.1, hb]
        · simp [e]
      · obtain ⟨_, hh⟩ := joined_effect l l1 fd h.wf h0 (scanFd_joined os l l1 fd h1 hb)
        rw [hh x]
        by_cases e : x = fd
        · subst e
          simp [hnd'.1, hb]
        · simp [e]

/-! ### Shared-memory areas: lemmas -/

theorem opensOf_append (a b : List SysEvent) : opensOf (a ++ b) = opensOf a ++ opensOf b := by
  simp [opensOf]

theorem mmapsOf_append (a b : List SysEvent) : mmapsOf (a ++ b) = mmapsOf a ++ mmapsOf b := by
  simp [mmapsOf]

theorem prepareShmArea_blanked (os : ShmOs) (st : FileState) (a : ProcMapsArea)
    (h : isBlankedArea os st.fileExists a = true) :
    prepareShmArea os st a =
      if os.openResult (st.trace.length + 1) a.name = -1 then .error .openFailed
      else if os.callOk (st.trace.length + 2) = true then
        .ok { st with
          list := st.list.addNew (os.openResult (st.trace.length + 1) a.name)
            (FileConnection a.name (os.memProtToOpenFlags a.prot) 0 .FILE_SHM)
          shmAreas := st.shmAreas ++ [a]
          shmAreaConn := st.shmAreaConn ++ [st.list.nextId]
          trace := st.trace ++ [.msync a.addr a.size,
            .openFile a.name (os.memProtToOpenFlags a.prot)
              (os.openResult (st.trace.length + 1) a.name), blankMapping a] }
      else .error .mmapFailed := by
  unfold isBlankedArea shmCandidate at h
  simp only [Bool.and_eq_true, decide_eq_true_eq, Bool.not_eq_true', Bool.or_eq_false_iff] at h
  obtain ⟨⟨⟨⟨⟨h1, h2⟩, h3⟩, ⟨h4, h5⟩, h6⟩, h7⟩, h8⟩ := h
  unfold prepareShmArea
  simp only [h1, h2, h3, h4, h5, h6, h7, h8, ne_eq, not_false_eq_true, and_self, if_true,
    Bool.false_eq_true, if_false, Bool.or_self, FileState.emit, openAssert, mmapAssert,
    List.length_append, List.length_singleton, ConnList.alloc, ConnList.addNew, blankMapping,
    not_true_eq_false]
  by_cases ho : os.openResult (st.trace.length + 1) a.name = -1
  · simp [ho]
  · simp only [ho, if_false, List.append_assoc, List.singleton_append]
    by_cases hc : os.callOk (st.trace.length + 1 + 1) = true
    · simp [hc]
    · simp [hc]

theorem prepareShmArea_unlinked (os : ShmOs) (st : FileState) (a : ProcMapsArea)
    (h : isUnlinkedArea os st.fileExists a = true) :
    prepareShmArea os st a =
      .ok { st with unlinkedShmAreas := st.unlinkedShmAreas ++ [stripDeleted os a]
                    trace := st.trace ++ [.msync a.addr a.size] } := by
  unfold isUnlinkedArea shmCandidate at h
  simp only [Bool.and_eq_true, decide_eq_true_eq, Bool.not_eq_true', Bool.or_eq_false_iff] at h
  obtain ⟨⟨⟨⟨⟨⟨h1, h2⟩, h3⟩, ⟨h4, h5⟩, h6⟩, h7⟩, h8⟩, h9, h10⟩ := h
  unfold prepareShmArea
  rw [if_pos ⟨h1, h2⟩, if_neg (by simp [h3]), if_neg (by simp [h4, h5, h6])]
  simp only [FileState.emit]
  rw [if_neg (by simp [h7]), if_pos h8, if_neg (by simp [h9, h10])]
  rfl

theorem prepareShmArea_other (os : ShmOs) (st st' : FileState) (a : ProcMapsArea)
    (hb : isBlankedArea os st.fileExists a = false)
    (hu : isUnlinkedArea os st.fileExists a = false)
    (h : prepareShmArea os st a = .ok st') :
    ∃ evs, st' = { st with trace := st.trace ++ evs } ∧ mmapsOf evs = [] ∧ opensOf evs = [] := by
  unfold prepareShmArea at h
  unfold isBlankedArea shmCandidate at hb
  unfold isUnlinkedArea shmCandidate at hu
  by_cases h1 : a.flags &&& MAP_SHARED ≠ 0 ∧ a.prot ≠ 0
  · rw [if_pos h1] at h
    by_cases h3 : isInternalName a.name = true
    · rw [if_pos h3] at h
      exact ⟨[], by simpa using (Except.ok.inj h).symm, rfl, rfl⟩
    · rw [if_neg h3] at h
      by_cases h4 : (os.isNscdArea a || os.isIBShmArea a || os.isSysVShmArea a) = true
      · rw [if_pos h4] at h
        exact ⟨[], by simpa using (Except.ok.inj h).symm, rfl, rfl⟩
      · rw [if_neg h4] at h
        simp only [FileState.emit] at h
        simp only [h1.1, h1.2, h3, h4, ne_eq, not_false_eq_true, decide_True, Bool.not_false,
          Bool.and_self, Bool.true_and, Bool.and_true, Bool.and_eq_false_imp,
          Bool.not_eq_true] at hb hu
        by_cases h5 : st.fileExists a.name = true
        · rw [if_pos h5] at h
          have h6 := hb h5
          simp only [h6, Bool.false_eq_true, if_false] at h
          exact ⟨[.msync a.addr a.size], (Except.ok.inj h).symm, rfl, rfl⟩
        · rw [if_neg h5] at h
          by_cases h7 : strEndsWith a.name os.DELETED_FILE_SUFFIX = true
          · rw [if_pos h7] at h
            have h5' : st.fileExists a.name = false := by simpa using h5
            have h8 := hu (by simp [h5', h7])
            simp only [Bool.not_eq_false'] at h8
            rw [if_pos h8] at h
            exact ⟨[.msync a.addr a.size, .warning a.name],
              by simpa using (Except.ok.inj h).symm, rfl, rfl⟩
          · rw [if_neg h7] at h
            exact absurd h (by simp)
  · rw [if_neg h1] at h
    exact ⟨[], by simpa using (Except.ok.inj h).symm, rfl, rfl⟩

theorem forAreas_append (body : FileState → ProcMapsArea → Except Failure FileState)
    (xs : List ProcMapsArea) (a : ProcMapsArea) (st : FileState) :
    forAreas body (xs ++ [a]) st =
      match forAreas body xs st with
      | .error f => .error f
      | .ok st1 => body st1 a := by
  induction xs generalizing st with
  | nil =>
    simp only [List.nil_append, forAreas]
    cases body st a <;> rfl
  | cons x xs ih =>
    simp only [List.cons_append, forAreas]
    cases body st x with
    | error f => rfl
    | ok st1 => exact ih st1

/-- A property that the body of a loop over areas keeps holds when the loop
ends. -/
theorem forAreas_ind (body : FileState → ProcMapsArea → Except Failure FileState)
    (Inv : List ProcMapsArea → FileState → Prop)
    (step : ∀ done st a st', Inv done st → body st a = .ok st' → Inv (done ++ [a]) st') :
    ∀ (areas done : List ProcMapsArea) (st st' : FileState), Inv done st →
      forAreas body areas st = .ok st' → Inv (done ++ areas) st' := by
  intro areas
  induction areas with
  | nil =>
    intro done st st' h hs
    have := Except.ok.inj hs
    subst this
    simpa using h
  | cons a rest ih =>
    intro done st st' h hs
    unfold forAreas at hs
    cases hb : body st a with
    | error f => rw [hb] at hs; simp at hs
    | ok st1 =>
      rw [hb] at hs
      have := ih (done ++ [a]) st1 st' (step done st a st1 h hb) hs
      simpa using this

theorem shmPrepared_step (os : ShmOs) (st0 : FileState) (done : List ProcMapsArea)
    (st st' : FileState) (a : ProcMapsArea) (news : List Connection) (evs : List SysEvent)
    (h : ShmPrepared os st0 done st news evs) (hs : prepareShmArea os st a = .ok st') :
    ∃ news' evs', ShmPrepared os st0 (done ++ [a]) st' news' evs' := by
  by_cases hb : isBlankedArea os st0.fileExists a = true
  · have hb' : isBlankedArea os st.fileExists a = true := by rw [h.fileExists]; exact hb
    rw [prepareShmArea_blanked os st a hb'] at hs
    by_cases ho : os.openResult (st.trace.length + 1) a.name = -1
    · rw [if_pos ho] at hs; exact absurd hs (by simp)
    · rw [if_neg ho] at hs
      by_cases hc : os.callOk (st.trace.length + 2) = true
      · rw [if_pos hc] at hs
        have := (Except.ok.inj hs).symm
        subst this
        obtain ⟨c1, c2⟩ := addNew_conns st.list (os.openResult (st.trace.length + 1) a.name)
          (FileConnection a.name (os.memProtToOpenFlags a.prot) 0 .FILE_SHM) h.wf
        refine ⟨news ++ [{ FileConnection a.name (os.memProtToOpenFlags a.prot) 0 .FILE_SHM with
            id := st.list.nextId, fds := [os.openResult (st.trace.length + 1) a.name] }],
          evs ++ [.msync a.addr a.size,
            .openFile a.name (os.memProtToOpenFlags a.prot)
              (os.openResult (st.trace.length + 1) a.name), blankMapping a], ?_⟩
        constructor
        · exact h.fileExists
        · exact h.virtPtyId
        · simp [h.shmAreas, List.filter_append, hb]
        · have hu : isUnlinkedArea os st0.fileExists a = false := by
            unfold isBlankedArea at hb
            unfold isUnlinkedArea
            simp only [Bool.and_eq_true] at hb
            simp [hb.1.2]
          simp [h.unlinked, List.filter_append, hu]
        · exact h.missing
        · exact addNew_wf _ _ _ h.wf
        · simp only [c1, h.conns, List.append_assoc]
          rfl
        · simp [h.ids]
        · simp [h.kinds, List.filter_append, hb, FileConnection, Connection.blank]
        · have e1 : opensOf [.msync a.addr a.size,
              .openFile a.name (os.memProtToOpenFlags a.prot)
                (os.openResult (st.trace.length + 1) a.name), blankMapping a] =
              [os.openResult (st.trace.length + 1) a.name] := rfl
          simp [h.fds, opensOf_append, e1, FileConnection, Connection.blank]
        · simp [h.trace]
        · have e1 : mmapsOf [.msync a.addr a.size,
              .openFile a.name (os.memProtToOpenFlags a.prot)
                (os.openResult (st.trace.length + 1) a.name), blankMapping a] =
              [blankMapping a] := rfl
          simp [mmapsOf_append, h.mmaps, List.filter_append, hb, e1]
      · rw [if_neg hc] at hs; exact absurd hs (by simp)
  · have hb0 : isBlankedArea os st0.fileExists a = false := by simpa using hb
    by_cases hu : isUnlinkedArea os st0.fileExists a = true
    · have hu' : isUnlinkedArea os st.fileExists a = true := by rw [h.fileExists]; exact hu
      rw [prepareShmArea_unlinked os st a hu'] at hs
      have := (Except.ok.inj hs).symm
      subst this
      refine ⟨news, evs ++ [.msync a.addr a.size], ?_⟩
      constructor
      · exact h.fileExists
      · exact h.virtPtyId
      · simp [h.shmAreas, List.filter_append, hb0]
      · simp [h.unlinked, List.filter_append, hu]
      · exact h.missing
      · exact h.wf
      · exact h.conns
      · exact h.ids
      · simp [h.kinds, List.filter_append, hb0]
      · have e1 : opensOf [.msync a.addr a.size] = [] := rfl
        simp [h.fds, opensOf_append, e1]
      · simp [h.trace]
      · have e1 : mmapsOf [.msync a.addr a.size] = [] := rfl
        simp [mmapsOf_append, h.mmaps, List.filter_append, hb0, e1]
    · have hu0 : isUnlinkedArea os st0.fileExists a = false := by simpa using hu
      obtain ⟨e, rfl, he, he2⟩ := prepareShmArea_other os st st' a
        (by rw [h.fileExists]; exact hb0) (by rw [h.fileExists]; exact hu0) hs
      refine ⟨news, evs ++ e, ?_⟩
      constructor
      · exact h.fileExists
      · exact h.virtPtyId
      · simp [h.shmAreas, List.filter_append, hb0]
      · simp [h.unlinked, List.filter_append, hu0]
      · exact h.missing
      · exact h.wf
      · exact h.conns
      · exact h.ids
      · simp [h.kinds, List.filter_append, hb0]
      · simp [h.fds, opensOf_append, he2]
      · simp [h.trace]
      · simp [mmapsOf_append, h.mmaps, List.filter_append, hb0, he]

/-- What `prepareShmList` leaves, if no assertion fails. -/
theorem prepareShmList_spec (os : ShmOs) (areas : List ProcMapsArea) (st st' : FileState)
    (hwf : st.list.wf) (h : prepareShmList os areas st = .ok st') :
    ∃ news evs, ShmPrepared os st areas st' news evs := by
  unfold prepareShmList at h
  have := forAreas_ind (prepareShmArea os)
    (fun done s => ∃ news evs, ShmPrepared os st done s news evs)
    (fun done s a s' ⟨news, evs, hi⟩ hs => shmPrepared_step os st done s s' a news evs hi hs)
    areas [] _ st' ⟨[], [], ?_⟩ h
  · simpa using this
  · constructor <;> first | rfl | exact hwf | simp

theorem prepareShmArea_total (os : ShmOs) (st : FileState) (a : ProcMapsArea)
    (hopen : ∀ n name, os.openResult n name ≠ -1) (hcall : ∀ n, os.callOk n = true)
    (hdel : shmCandidate os a = true → st.fileExists a.name = false →
      strEndsWith a.name os.DELETED_FILE_SUFFIX = true) :
    ∃ st', prepareShmArea os st a = .ok st' ∧ st'.fileExists = st.fileExists := by
  by_cases hb : isBlankedArea os st.fileExists a = true
  · rw [prepareShmArea_blanked os st a hb, if_neg (hopen _ _), if_pos (hcall _)]
    exact ⟨_, rfl, rfl⟩
  · by_cases hu : isUnlinkedArea os st.fileExists a = true
    · rw [prepareShmArea_unlinked os st a hu]
      exact ⟨_, rfl, rfl⟩
    · have key : ∃ st', prepareShmArea os st a = .ok st' := by
        unfold prepareShmArea
        unfold shmCandidate at hdel
        by_cases h1 : a.flags &&& MAP_SHARED ≠ 0 ∧ a.prot ≠ 0
        · rw [if_pos h1]
          by_cases h3 : isInternalName a.name = true
          · rw [if_pos h3]; exact ⟨_, rfl⟩
          · rw [if_neg h3]
            by_cases h4 : (os.isNscdArea a || os.isIBShmArea a || os.isSysVShmArea a) = true
            · rw [if_pos h4]; exact ⟨_, rfl⟩
            · rw [if_neg h4]
              simp only [FileState.emit]
              have hc : (decide (a.flags &&& MAP_SHARED ≠ 0) && decide (a.prot ≠ 0) &&
                  !isInternalName a.name &&
                  !(os.isNscdArea a || os.isIBShmArea a || os.isSysVShmArea a)) = true := by
                rw [decide_eq_true h1.1, decide_eq_true h1.2]
                simp only [Bool.not_eq_true] at h3 h4
                rw [h3, h4]
                rfl
              by_cases h5 : st.fileExists a.name = true
              · rw [if_pos h5]
                by_cases h6 : os.accessW a.name = true
                · exact absurd (by
                    unfold isBlankedArea shmCandidate
                    rw [hc, h5, h6]
                    rfl) hb
                · rw [if_neg h6]; exact ⟨_, rfl⟩
              · rw [if_neg h5]
                have h7 := hdel hc (by simpa using h5)
                rw [if_pos h7]
                split_ifs <;> exact ⟨_, rfl⟩
        · rw [if_neg h1]; exact ⟨_, rfl⟩
      obtain ⟨st', hs⟩ := key
      obtain ⟨e, he, _⟩ := prepareShmArea_other os st st' a (by simpa using hb)
        (by simpa using hu) hs
      exact ⟨st', hs, by rw [he]⟩

/-- The function `prepareShmList` returns when no call fails and every
remaining area whose file is gone has a name that ends with the deleted
suffix. -/
theorem prepareShmList_total (os : ShmOs) (areas : List ProcMapsArea) (st : FileState)
    (hopen : ∀ n name, os.openResult n name ≠ -1) (hcall : ∀ n, os.callOk n = true)
    (hdel : ∀ a ∈ areas, shmCandidate os a = true → st.fileExists a.name = false →
      strEndsWith a.name os.DELETED_FILE_SUFFIX = true) :
    ∃ st', prepareShmList os areas st = .ok st' := by
  unfold prepareShmList
  have key : ∀ (areas : List ProcMapsArea) (s : FileState), s.fileExists = st.fileExists →
      (∀ a ∈ areas, shmCandidate os a = true → st.fileExists a.name = false →
        strEndsWith a.name os.DELETED_FILE_SUFFIX = true) →
      ∃ st', forAreas (prepareShmArea os) areas s = .ok st' := by
    intro areas
    induction areas with
    | nil => intro s _ _; exact ⟨s, rfl⟩
    | cons a rest ih =>
      intro s hs hd
      obtain ⟨s1, h1, h2⟩ := prepareShmArea_total os s a hopen hcall
        (by rw [hs]; exact hd a (List.mem_cons_self _ _))
      unfold forAreas
      rw [h1]
      exact ih s1 (h2.trans hs) fun b hb => hd b (List.mem_cons_of_mem _ hb)
  exact key areas _ rfl hdel

/-! ### The restart of unlinked shared-memory areas: lemmas -/

theorem actsOf_append (a b : List SysEvent) : actsOf (a ++ b) = actsOf a ++ actsOf b := by
  simp [actsOf]

theorem ShmFrame.frameRefl (st : FileState) : ShmFrame st st [] :=
  ⟨rfl, rfl, rfl, rfl, rfl, by simp⟩

theorem ShmFrame.frameTrans {a b c : FileState} {e1 e2 : List SysEvent} (h1 : ShmFrame a b e1)
    (h2 : ShmFrame b c e2) : ShmFrame a c (e1 ++ e2) :=
  ⟨h2.list.trans h1.list, h2.shmAreas.trans h1.shmAreas, h2.unlinked.trans h1.unlinked,
    h2.shmAreaConn.trans h1.shmAreaConn, h2.virtPtyId.trans h1.virtPtyId,
    by rw [h2.trace, h1.trace, List.append_assoc]⟩

theorem ShmFrame.frameEmit (st : FileState) (e : SysEvent) : ShmFrame st (st.emit e) [e] :=
  ⟨rfl, rfl, rfl, rfl, rfl, rfl⟩

theorem restoreShmArea_ok (os : ShmOs) (st st' : FileState) (a : ProcMapsArea) (fd : Int)
    (h : restoreShmArea os st a fd = .ok st') :
    ∃ evs, ShmFrame st st' evs ∧ actsOf evs = [restoreAct a] ∧
      st'.missingUnlinkedShmFiles = st.missingUnlinkedShmFiles ∧
      st'.fileExists = st.fileExists := by
  unfold restoreShmArea at h
  by_cases hfd : fd = -1
  · rw [if_pos hfd] at h
    unfold openAssert at h
    by_cases ho : os.openResult st.trace.length a.name = -1
    · simp [ho] at h
    · simp only [ho, if_false] at h
      unfold mmapAssert at h
      by_cases hc : os.callOk (st.emit (.openFile a.name (os.memProtToOpenFlags a.prot)
          (os.openResult st.trace.length a.name))).trace.length = true
      · simp only [hc, if_true] at h
        have := (Except.ok.inj h).symm
        subst this
        exact ⟨[.openFile a.name (os.memProtToOpenFlags a.prot)
            (os.openResult st.trace.length a.name),
          .mmap a.addr a.size a.prot (MAP_FIXED ||| a.flags)
            (os.openResult st.trace.length a.name) a.offset,
          .close (os.openResult st.trace.length a.name)],
          ⟨rfl, rfl, rfl, rfl, rfl, by simp [FileState.emit]⟩, rfl, rfl, rfl⟩
      · simp [hc] at h
  · rw [if_neg hfd] at h
    simp only at h
    unfold mmapAssert at h
    by_cases hc : os.callOk st.trace.length = true
    · simp only [hc, if_true] at h
      have := (Except.ok.inj h).symm
      subst this
      exact ⟨[.mmap a.addr a.size a.prot (MAP_FIXED ||| a.flags) fd a.offset, .close fd],
        ⟨rfl, rfl, rfl, rfl, rfl, by simp [FileState.emit]⟩, rfl, rfl, rfl⟩
    · simp [hc] at h

theorem restoreShmArea_total (os : ShmOs) (st : FileState) (a : ProcMapsArea) (fd : Int)
    (hopen : ∀ n name, os.openResult n name ≠ -1) (hcall : ∀ n, os.callOk n = true) :
    ∃ st', restoreShmArea os st a fd = .ok st' := by
  unfold restoreShmArea openAssert mmapAssert
  by_cases hfd : fd = -1
  · simp [hfd, hopen, hcall]
  · simp [hfd, hcall]

theorem recreateShmFileAndMap_ok (os : ShmOs) (st st' : FileState) (a : ProcMapsArea)
    (h : recreateShmFileAndMap os st a = .ok st') :
    ∃ evs, ShmFrame st st' evs ∧
      actsOf evs = [.recreate a.name, .populate a.addr a.size, restoreAct a] ∧
      st'.missingUnlinkedShmFiles = st.missingUnlinkedShmFiles := by
  unfold recreateShmFileAndMap at h
  by_cases h1 : os.callOk st.trace.length = true
  · simp only [h1, Bool.not_true, Bool.false_eq_true, if_false] at h
    -- the two ways of opening the file
    have key : ∀ (fd : Int) (s : FileState) (e : List SysEvent),
        ShmFrame (st.emit (.createDirectoryTree a.name)) s e → actsOf e = [] →
        s.missingUnlinkedShmFiles = st.missingUnlinkedShmFiles →
        (if (!os.callOk s.trace.length) = true then Except.error Failure.lseekFailed
          else if (!os.callOk (s.emit (.lseek fd a.offset)).trace.length) = true then
            Except.error Failure.writeAllFailed
          else restoreShmArea os ((s.emit (.lseek fd a.offset)).emit
            (.writeAll fd a.addr a.size)) a fd) = .ok st' →
        ∃ evs, ShmFrame st st' evs ∧
          actsOf evs = [.recreate a.name, .populate a.addr a.size, restoreAct a] ∧
          st'.missingUnlinkedShmFiles = st.missingUnlinkedShmFiles := by
      intro fd s e hf he hm hs
      by_cases h2 : os.callOk s.trace.length = true
      · simp only [h2, Bool.not_true, Bool.false_eq_true, if_false] at hs
        by_cases h3 : os.callOk (s.emit (.lseek fd a.offset)).trace.length = true
        · simp only [h3, Bool.not_true, Bool.false_eq_true, if_false] at hs
          obtain ⟨e2, f2, a2, m2, _⟩ := restoreShmArea_ok os _ st' a fd hs
          refine ⟨[.createDirectoryTree a.name] ++ (e ++
            (([.lseek fd a.offset] ++ [.writeAll fd a.addr a.size]) ++ e2)), ?_, ?_, ?_⟩
          · exact (ShmFrame.frameEmit st _).frameTrans (hf.frameTrans
              (((ShmFrame.frameEmit s _).frameTrans (ShmFrame.frameEmit _ _)).frameTrans f2))
          · rw [actsOf_append, actsOf_append, actsOf_append, he, a2]
            rfl
          · rw [m2]
            exact hm
        · simp [h3] at hs
      · simp [h2] at hs
    by_cases hex : (st.emit (.createDirectoryTree a.name)).fileExists a.name = true
    · simp only [hex, if_true] at h
      unfold openAssert at h
      by_cases ho : os.openResult ((st.emit (.createDirectoryTree a.name)).emit
          (.openFile a.name (O_CREAT ||| O_EXCL ||| O_RDWR) (-1))).trace.length a.name = -1
      · simp [ho] at h
      · simp only [ho, if_false] at h
        exact key _ _ [.openFile a.name (O_CREAT ||| O_EXCL ||| O_RDWR) (-1),
            .openFile a.name O_RDWR _]
          ((ShmFrame.frameEmit _ _).frameTrans (ShmFrame.frameEmit _ _)) rfl rfl h
    · simp only [hex, Bool.false_eq_true, if_false] at h
      unfold openAssert at h
      by_cases ho : os.openResult (st.emit (.createDirectoryTree a.name)).trace.length a.name
          = -1
      · simp [ho] at h
      · simp only [ho, if_false] at h
        exact key (os.openResult (st.emit (.createDirectoryTree a.name)).trace.length a.name)
          { (st.emit (.createDirectoryTree a.name)).emit
              (.openFile a.name (O_CREAT ||| O_EXCL ||| O_RDWR)
                (os.openResult (st.emit (.createDirectoryTree a.name)).trace.length a.name)) with
            fileExists := Function.update st.fileExists a.name true }
          [.openFile a.name (O_CREAT ||| O_EXCL ||| O_RDWR)
            (os.openResult (st.emit (.createDirectoryTree a.name)).trace.length a.name)]
          ⟨rfl, rfl, rfl, rfl, rfl, rfl⟩ rfl rfl h
  · simp [h1] at h

theorem recreateShmFileAndMap_total (os : ShmOs) (st : FileState) (a : ProcMapsArea)
    (hopen : ∀ n name, os.openResult n name ≠ -1) (hcall : ∀ n, os.callOk n = true) :
    ∃ st', recreateShmFileAndMap os st a = .ok st' := by
  unfold recreateShmFileAndMap
  simp only [hcall, Bool.not_true, Bool.false_eq_true, if_false]
  by_cases hex : (st.emit (.createDirectoryTree a.name)).fileExists a.name = true
  · simp only [hex, if_true, openAssert, hopen, if_false]
    exact restoreShmArea_total os _ a _ hopen hcall
  · simp only [hex, Bool.false_eq_true, if_false, openAssert, hopen]
    exact restoreShmArea_total os _ a _ hopen hcall

theorem foldl_emit_frame (f : Connection → SysEvent) (hf : ∀ c, (f c).act = none)
    (cs : List Connection) (st : FileState) :
    ∃ e, ShmFrame st (cs.foldl (fun st c => st.emit (f c)) st) e ∧ actsOf e = [] ∧
      (cs.foldl (fun st c => st.emit (f c)) st).fileExists = st.fileExists ∧
      (cs.foldl (fun st c => st.emit (f c)) st).missingUnlinkedShmFiles =
        st.missingUnlinkedShmFiles := by
  induction cs generalizing st with
  | nil => exact ⟨[], ShmFrame.frameRefl st, rfl, rfl, rfl⟩
  | cons c cs ih =>
    obtain ⟨e, fr, ha, hx, hm⟩ := ih (st.emit (f c))
    refine ⟨[f c] ++ e, (ShmFrame.frameEmit st _).frameTrans fr, ?_, hx, hm⟩
    rw [actsOf_append, ha]
    simp [actsOf, hf c]

theorem postRestartArea_ok (os : ShmOs) (st st' : FileState) (a : ProcMapsArea)
    (h : postRestartArea os st a = .ok st') :
    ∃ evs, ShmFrame st st' evs ∧ st'.fileExists = st.fileExists ∧
      st'.missingUnlinkedShmFiles =
        st.missingUnlinkedShmFiles ++ [a].filter (fun a => !st.fileExists a.name) ∧
      actsOf evs = ([a].filter fun a => st.fileExists a.name).map restoreAct := by
  unfold postRestartArea at h
  by_cases hex : st.fileExists a.name = true
  · rw [if_pos hex] at h
    obtain ⟨e, f, ha, hm, hx⟩ := restoreShmArea_ok os _ st' a (-1) h
    refine ⟨[.warning a.name] ++ e, (ShmFrame.frameEmit st _).frameTrans f, hx, ?_, ?_⟩
    · rw [hm]
      simp [hex, FileState.emit]
    · rw [actsOf_append, ha]
      simp [hex, actsOf, SysEvent.act]
  · rw [if_neg hex] at h
    have := (Except.ok.inj h).symm
    subst this
    exact ⟨[], ⟨rfl, rfl, rfl, rfl, rfl, by simp⟩, rfl, by simp [hex], by simp [hex, actsOf]⟩

theorem postRestartArea_total (os : ShmOs) (st : FileState) (a : ProcMapsArea)
    (hopen : ∀ n name, os.openResult n name ≠ -1) (hcall : ∀ n, os.callOk n = true) :
    ∃ st', postRestartArea os st a = .ok st' := by
  unfold postRestartArea
  split_ifs
  · exact restoreShmArea_total os _ a _ hopen hcall
  · exact ⟨_, rfl⟩

theorem forAreas_total (body : FileState → ProcMapsArea → Except Failure FileState)
    (hbody : ∀ st a, ∃ st', body st a = .ok st') (areas : List ProcMapsArea) (st : FileState) :
    ∃ st', forAreas body areas st = .ok st' := by
  induction areas generalizing st with
  | nil => exact ⟨st, rfl⟩
  | cons a rest ih =>
    obtain ⟨s1, h1⟩ := hbody st a
    unfold forAreas
    rw [h1]
    exact ih s1

/-- What `postRestart` does with the unlinked areas, if no assertion fails. -/
theorem postRestart_ok (os : ShmOs) (st st' : FileState) (h : postRestart os st = .ok st') :
    ∃ evs, ShmFrame st st' evs ∧ st'.fileExists = st.fileExists ∧
      st'.missingUnlinkedShmFiles = st.missingUnlinkedShmFiles ++
        st.unlinkedShmAreas.filter (fun a => !st.fileExists a.name) ∧
      actsOf evs = (st.unlinkedShmAreas.filter fun a => st.fileExists a.name).map restoreAct := by
  unfold postRestart at h
  simp only at h
  obtain ⟨e1, fr1, a1, x1, m1⟩ := foldl_emit_frame (fun con => .ptyPostRestart con.id)
    (fun _ => rfl) ((st.emit (.setVirtualPtyId st.virtPtyId)).list.conns.filter fun con =>
        !con.hasLock && con.conType == .PTY && con.preExistingCTTY)
    (st.emit (.setVirtualPtyId st.virtPtyId))
  generalize ((st.emit (.setVirtualPtyId st.virtPtyId)).list.conns.filter fun con =>
        !con.hasLock && con.conType == .PTY && con.preExistingCTTY).foldl
      (fun st con => st.emit (.ptyPostRestart con.id))
      (st.emit (.setVirtualPtyId st.virtPtyId)) = s0 at h fr1 x1 m1
  have f0 : ∃ e0, ShmFrame st s0 e0 ∧ actsOf e0 = [] ∧ s0.fileExists = st.fileExists ∧
      s0.missingUnlinkedShmFiles = st.missingUnlinkedShmFiles :=
    ⟨[.setVirtualPtyId st.virtPtyId] ++ e1, (ShmFrame.frameEmit st _).frameTrans fr1,
      by rw [actsOf_append, a1]; rfl, x1, m1⟩
  obtain ⟨e0, fr0, a0, x0, m0⟩ := f0
  have hu : s0.unlinkedShmAreas = st.unlinkedShmAreas := fr0.unlinked
  rw [hu] at h
  cases hl : forAreas (postRestartArea os) st.unlinkedShmAreas s0 with
  | error f => rw [hl] at h; simp at h
  | ok s1 =>
    rw [hl] at h
    have := (Except.ok.inj h).symm
    subst this
    have := forAreas_ind (postRestartArea os)
      (fun done s => ∃ evs, ShmFrame s0 s evs ∧ s.fileExists = s0.fileExists ∧
        s.missingUnlinkedShmFiles = s0.missingUnlinkedShmFiles ++
          done.filter (fun a => !s0.fileExists a.name) ∧
        actsOf evs = (done.filter fun a => s0.fileExists a.name).map restoreAct)
      (by
        rintro done s a s' ⟨evs, fr, hx, hm, ha⟩ hs
        obtain ⟨e, fr', hx', hm', ha'⟩ := postRestartArea_ok os s s' a hs
        refine ⟨evs ++ e, fr.frameTrans fr', hx'.trans hx, ?_, ?_⟩
        · rw [hm', hm, hx, List.filter_append, List.append_assoc]
        · rw [actsOf_append, ha, ha', hx, List.filter_append, List.map_append])
      st.unlinkedShmAreas [] s0 s1 ⟨[], ShmFrame.frameRefl s0, rfl, by simp, by simp [actsOf]⟩ hl
    simp only [List.nil_append] at this
    obtain ⟨evs, fr, hx, hm, ha⟩ := this
    refine ⟨e0 ++ (evs ++ [.basePostRestart]), fr0.frameTrans (fr.frameTrans (ShmFrame.frameEmit s1 _)),
      hx.trans x0, ?_, ?_⟩
    · show s1.missingUnlinkedShmFiles = _
      rw [hm, m0, x0]
    · rw [actsOf_append, actsOf_append, a0, ha, x0]
      simp [actsOf, SysEvent.act]

theorem postRestart_total (os : ShmOs) (st : FileState)
    (hopen : ∀ n name, os.openResult n name ≠ -1) (hcall : ∀ n, os.callOk n = true) :
    ∃ st', postRestart os st = .ok st' := by
  unfold postRestart
  simp only
  obtain ⟨s, hs⟩ := forAreas_total (postRestartArea os)
    (fun st a => postRestartArea_total os st a hopen hcall)
    ((st.emit (.setVirtualPtyId st.virtPtyId)).list.conns.filter (fun con =>
      !con.hasLock && con.conType == .PTY && con.preExistingCTTY) |>.foldl
      (fun st con => st.emit (.ptyPostRestart con.id))
      (st.emit (.setVirtualPtyId st.virtPtyId))).unlinkedShmAreas _
  rw [hs]
  exact ⟨_, rfl⟩

/-- What `refill` does with the deferred areas, if no assertion fails. -/
theorem refill_ok (os : ShmOs) (isRestart : Bool) (st st' : FileState)
    (h : refill os isRestart st = .ok st') :
    ∃ evs, ShmFrame st st' evs ∧
      st'.missingUnlinkedShmFiles = st.missingUnlinkedShmFiles ∧
      actsOf evs =
        if isRestart then (st.missingUnlinkedShmFiles.map recreateActs).flatten else [] := by
  unfold refill at h
  simp only at h
  obtain ⟨e0, fr0, a0, _, m0⟩ := foldl_emit_frame (fun con => .ptyPreRefill con.id isRestart)
    (fun _ => rfl) (st.list.conns.filter fun con => con.hasLock && con.conType == .PTY) st
  generalize (st.list.conns.filter fun con => con.hasLock && con.conType == .PTY).foldl
      (fun st con => st.emit (.ptyPreRefill con.id isRestart)) st = s0 at h fr0 m0
  cases hr : isRestart with
  | false =>
    simp only [hr, Bool.false_eq_true, if_false] at h
    have := (Except.ok.inj h).symm
    subst this
    refine ⟨e0 ++ [.baseRefill false], fr0.frameTrans (ShmFrame.frameEmit s0 _), m0, ?_⟩
    rw [actsOf_append, a0]
    rfl
  | true =>
    simp only [hr, if_true] at h
    cases hl : forAreas (recreateShmFileAndMap os) s0.missingUnlinkedShmFiles s0 with
    | error f => rw [hl] at h; simp at h
    | ok s1 =>
      rw [hl] at h
      have := (Except.ok.inj h).symm
      subst this
      have := forAreas_ind (recreateShmFileAndMap os)
        (fun done s => ∃ evs, ShmFrame s0 s evs ∧
          s.missingUnlinkedShmFiles = s0.missingUnlinkedShmFiles ∧
          actsOf evs = (done.map recreateActs).flatten)
        (by
          rintro done s a s' ⟨evs, fr, hm, ha⟩ hs
          obtain ⟨e, fr', ha', hm'⟩ := recreateShmFileAndMap_ok os s s' a hs
          refine ⟨evs ++ e, fr.frameTrans fr', hm'.trans hm, ?_⟩
          rw [actsOf_append, ha, ha']
          simp [recreateActs])
        s0.missingUnlinkedShmFiles [] s0 s1 ⟨[], ShmFrame.frameRefl s0, rfl, by simp [actsOf]⟩ hl
      simp only [List.nil_append] at this
      obtain ⟨evs, fr, hm, ha⟩ := this
      refine ⟨e0 ++ (evs ++ [.baseRefill true]), fr0.frameTrans (fr.frameTrans (ShmFrame.frameEmit s1 _)),
        ?_, ?_⟩
      · show s1.missingUnlinkedShmFiles = _
        rw [hm, m0]
      · rw [actsOf_append, actsOf_append, a0, ha, m0]
        simp [actsOf, SysEvent.act]

theorem refill_total (os : ShmOs) (isRestart : Bool) (st : FileState)
    (hopen : ∀ n name, os.openResult n name ≠ -1) (hcall : ∀ n, os.callOk n = true) :
    ∃ st', refill os isRestart st = .ok st' := by
  unfold refill
  simp only
  cases isRestart with
  | false => exact ⟨_, rfl⟩
  | true =>
    simp only [if_true]
    obtain ⟨s, hs⟩ := forAreas_total (recreateShmFileAndMap os)
      (fun st a => recreateShmFileAndMap_total os st a hopen hcall)
      ((st.list.conns.filter fun con => con.hasLock && con.conType == .PTY).foldl
        (fun st con => st.emit (.ptyPreRefill con.id true)) st).missingUnlinkedShmFiles _
    rw [hs]
    exact ⟨_, rfl⟩

theorem remapFrom_ok (os : ShmOs) (areas : List ProcMapsArea) :
    ∀ (i : Nat) (st st' : FileState), remapFrom os areas i st = .ok st' →
      ∃ evs, st'.trace = st.trace ++ evs ∧ actsOf evs = areas.map restoreAct ∧
        st'.missingUnlinkedShmFiles = st.missingUnlinkedShmFiles ∧
        st'.unlinkedShmAreas = st.unlinkedShmAreas ∧ st'.fileExists = st.fileExists ∧
        st'.shmAreaConn = st.shmAreaConn ∧ st'.shmAreas = st.shmAreas := by
  induction areas with
  | nil =>
    intro i st st' h
    have := (Except.ok.inj h).symm
    subst this
    exact ⟨[], by simp, rfl, rfl, rfl, rfl, rfl, rfl⟩
  | cons a rest ih =>
    intro i st st' h
    unfold remapFrom at h
    cases h1 : st.shmAreaConn[i]? with
    | none => rw [h1] at h; simp at h
    | some id =>
      rw [h1] at h
      simp only at h
      cases h2 : (st.list.conns.find? (·.id == id)).bind (·.fds.head?) with
      | none => rw [h2] at h; simp at h
      | some fd =>
        rw [h2] at h
        simp only at h
        unfold mmapAssert at h
        by_cases hc : os.callOk st.trace.length = true
        · simp only [hc, if_true] at h
          obtain ⟨e, ht, ha, hm, hu, hx, hs, hh⟩ := ih _ _ _ h
          refine ⟨[.mmap a.addr a.size a.prot (MAP_FIXED ||| a.flags) fd a.offset, .close fd] ++ e,
            ?_, ?_, hm, hu, hx, hs, hh⟩
          · rw [ht]
            simp [FileState.emit]
          · rw [actsOf_append, ha]
            rfl
        · simp [hc] at h

/-- What `remapShmMaps` does, if no assertion fails. -/
theorem remapShmMaps_ok (os : ShmOs) (st st' : FileState) (h : remapShmMaps os st = .ok st') :
    ∃ evs, st'.trace = st.trace ++ evs ∧ actsOf evs = st.shmAreas.map restoreAct ∧
      st'.missingUnlinkedShmFiles = st.missingUnlinkedShmFiles ∧
      st'.unlinkedShmAreas = st.unlinkedShmAreas ∧ st'.fileExists = st.fileExists ∧
      st'.shmAreaConn = [] ∧ st'.shmAreas = [] := by
  unfold remapShmMaps at h
  cases hr : remapFrom os st.shmAreas 0 st with
  | error f => rw [hr] at h; simp at h
  | ok s1 =>
    rw [hr] at h
    have := (Except.ok.inj h).symm
    subst this
    obtain ⟨e, ht, ha, hm, hu, hx, _, _⟩ := remapFrom_ok os st.shmAreas 0 st s1 hr
    exact ⟨e, ht, ha, hm, hu, hx, rfl, rfl⟩

theorem unlinkAll_ok (os : ShmOs) (areas : List ProcMapsArea) :
    ∀ (st : FileState), ∃ evs,
      (areas.foldl (unlinkArea os) st).trace = st.trace ++ evs ∧
      actsOf evs = areas.map (fun a => .unlink a.name) ∧
      (areas.foldl (unlinkArea os) st).missingUnlinkedShmFiles = st.missingUnlinkedShmFiles ∧
      (areas.foldl (unlinkArea os) st).shmAreas = st.shmAreas ∧
      (areas.foldl (unlinkArea os) st).shmAreaConn = st.shmAreaConn := by
  induction areas with
  | nil => intro st; exact ⟨[], by simp, rfl, rfl, rfl, rfl⟩
  | cons a rest ih =>
    intro st
    obtain ⟨e, ht, ha, hm, hs, hc⟩ := ih (unlinkArea os st a)
    rw [List.foldl_cons]
    by_cases hk : (st.fileExists a.name && os.callOk st.trace.length) = true
    · have hu : unlinkArea os st a = { st.emit (.unlink a.name) with
          fileExists := Function.update st.fileExists a.name false } := by
        unfold unlinkArea; rw [if_pos hk]
      rw [hu] at ht hm hs hc ⊢
      refine ⟨[.unlink a.name] ++ e, ?_, ?_, hm, hs, hc⟩
      · rw [ht]; simp [FileState.emit]
      · rw [actsOf_append, ha]; rfl
    · have hu : unlinkArea os st a = (st.emit (.unlink a.name)).emit (.warning a.name) := by
        unfold unlinkArea; rw [if_neg hk]
      rw [hu] at ht hm hs hc ⊢
      refine ⟨[.unlink a.name, .warning a.name] ++ e, ?_, ?_, hm, hs, hc⟩
      · rw [ht]; simp [FileState.emit]
      · rw [actsOf_append, ha]; rfl

/-- What `resume` does with the blanked and the deferred areas, if no
assertion fails. -/
theorem resume_ok (os : ShmOs) (isRestart : Bool) (st st' : FileState)
    (h : resume os isRestart st = .ok st') :
    ∃ evs, st'.trace = st.trace ++ evs ∧
      actsOf evs = st.shmAreas.map restoreAct ++
        (if isRestart then st.missingUnlinkedShmFiles.map (fun a => .unlink a.name) else []) ∧
      st'.missingUnlinkedShmFiles = st.missingUnlinkedShmFiles ∧
      st'.shmAreas = [] ∧ st'.shmAreaConn = [] := by
  unfold resume at h
  cases hr : remapShmMaps os (st.emit (.baseResume isRestart)) with
  | error f => rw [hr] at h; simp at h
  | ok s1 =>
    rw [hr] at h
    obtain ⟨e, ht, ha, hm, _, _, hc, hs⟩ := remapShmMaps_ok os _ s1 hr
    have := (Except.ok.inj h).symm
    subst this
    cases isRestart with
    | false =>
      simp only [Bool.false_eq_true, if_false, List.append_nil]
      refine ⟨[.baseResume false] ++ e, ?_, ?_, hm, hs, hc⟩
      · rw [ht]; simp [FileState.emit]
      · rw [actsOf_append, ha]; rfl
    | true =>
      simp only [if_true]
      obtain ⟨e2, ht2, ha2, hm2, hs2, hc2⟩ := unlinkAll_ok os s1.missingUnlinkedShmFiles s1
      refine ⟨[.baseResume true] ++ (e ++ e2), ?_, ?_, hm2.trans hm, hs2.trans hs, hc2.trans hc⟩
      · rw [ht2, ht]; simp [FileState.emit]
      · rw [actsOf_append, actsOf_append, ha, ha2, hm]; rfl

/-! ### The parallel lists `shmAreas` and `shmAreaConn`: lemmas -/

theorem find_id (l : ConnList) (hnd : (l.conns.map (·.id)).Nodup) (c : Connection)
    (hc : c ∈ l.conns) : l.conns.find? (·.id == c.id) = some c := by
  cases hf : l.conns.find? (·.id == c.id) with
  | none =>
    have := List.find?_eq_none.mp hf c hc
    simp at this
  | some c' =>
    have h1 : c' ∈ l.conns := List.mem_of_find?_eq_some hf
    have h2 := List.find?_some hf
    simp only [beq_iff_eq] at h2
    rw [List.inj_on_of_nodup_map hnd h1 hc h2]

theorem processClose_ids (l : ConnList) (fd : Int) (hnd : (l.conns.map (·.id)).Nodup) :
    ((l.processClose fd).conns.map (·.id)).Nodup := by
  unfold ConnList.processClose
  simp only
  have hs : (List.filter (fun c => !c.fds.isEmpty)
      (l.conns.map fun c => { c with fds := c.fds.filter (· ≠ fd) })).Sublist
      (l.conns.map fun c => { c with fds := c.fds.filter (· ≠ fd) }) := List.filter_sublist _
  have := (hs.map (·.id)).nodup (by
    rw [List.map_map]
    exact hnd)
  exact this

theorem processClose_holdsOnly (l : ConnList) (fd : Int) (id : Nat) (fd' : Int)
    (h : HoldsOnly l id fd') (hne : fd' ≠ fd) : HoldsOnly (l.processClose fd) id fd' := by
  obtain ⟨c, hc, hid, hfds⟩ := h
  refine ⟨c, ?_, hid, hfds⟩
  unfold ConnList.processClose
  simp only [List.mem_filter, List.mem_map]
  refine ⟨⟨c, hc, ?_⟩, by simp [hfds]⟩
  have : c.fds.filter (· ≠ fd) = c.fds := by
    rw [hfds]
    simp [hne]
  rw [this]

theorem processClose_forall₂ (l : ConnList) (fd : Int) (ids : List Nat) (fds : List Int)
    (h : List.Forall₂ (HoldsOnly l) ids fds) (hfd : fd ∉ fds) :
    List.Forall₂ (HoldsOnly (l.processClose fd)) ids fds := by
  induction h with
  | nil => exact List.Forall₂.nil
  | @cons x y xs ys hxy _ ih =>
    exact List.Forall₂.cons
      (processClose_holdsOnly l fd x y hxy (fun e => hfd (e ▸ List.mem_cons_self _ _)))
      (ih fun hm => hfd (List.mem_cons_of_mem _ hm))

/-- The loop of `remapShmMaps` makes no access out of bounds when the
connections of `shmAreaConn` from index `i` on are in the registry, each with
one FD of its own: it ends, or an assertion on `mmap` fails. -/
theorem remapFrom_safe (os : ShmOs) (areas : List ProcMapsArea) :
    ∀ (i : Nat) (st : FileState) (pre ids : List Nat) (fds : List Int),
      st.shmAreaConn = pre ++ ids → pre.length = i → ids.length = areas.length →
      (st.list.conns.map (·.id)).Nodup → List.Forall₂ (HoldsOnly st.list) ids fds → fds.Nodup →
      (∃ st', remapFrom os areas i st = .ok st') ∨
        (remapFrom os areas i st = .error .mmapFailed ∧ ∃ n, os.callOk n = false) := by
  induction areas with
  | nil => intro i st _ _ _ _ _ _ _ _ _; exact Or.inl ⟨st, rfl⟩
  | cons a rest ih =>
    intro i st pre ids fds hs hp hl hnd hf hfn
    cases hf with
    | nil => simp at hl
    | @cons id fd ids' fds' h1 h2 =>
      unfold remapFrom
      have e1 : st.shmAreaConn[i]? = some id := by
        rw [hs, ← hp, List.getElem?_append_right (Nat.le_refl _)]
        simp
      rw [e1]
      simp only
      obtain ⟨c, hc, hid, hfds⟩ := h1
      have e2 : (st.list.conns.find? (·.id == id)).bind (·.fds.head?) = some fd := by
        rw [← hid, find_id st.list hnd c hc]
        simp [hfds]
      rw [e2]
      simp only
      unfold mmapAssert
      by_cases hk : os.callOk st.trace.length = true
      · simp only [hk, if_true]
        have hfn' := List.nodup_cons.mp hfn
        refine ih (i + 1) _ (pre ++ [id]) ids' fds' ?_ ?_ ?_ ?_ ?_ hfn'.2
        · simp [FileState.emit, hs]
        · simp [hp]
        · simpa using hl
        · exact processClose_ids _ fd hnd
        · exact processClose_forall₂ _ fd ids' fds' h2 hfn'.1
      · simp only [hk, if_false]
        exact Or.inr ⟨rfl, st.trace.length, by simpa using hk⟩

/-- After `prepareShmList` the connections of `shmAreaConn` are in the
registry, each with the FD that `open` returned as its only FD. -/
theorem shmPrepared_holdsOnly (os : ShmOs) (st0 : FileState) (done : List ProcMapsArea)
    (st : FileState) (news : List Connection) (evs : List SysEvent)
    (h : ShmPrepared os st0 done st news evs) :
    List.Forall₂ (HoldsOnly st.list) st.shmAreaConn (opensOf evs) := by
  rw [← h.ids]
  have hf := h.fds
  have hsub : ∀ c ∈ news, c ∈ st.list.conns := by
    intro c hc
    rw [h.conns]
    exact List.mem_append_right _ hc
  generalize opensOf evs = fds at hf
  clear h
  induction news generalizing fds with
  | nil =>
    cases fds with
    | nil => exact List.Forall₂.nil
    | cons _ _ => simp at hf
  | cons c cs ih =>
    cases fds with
    | nil => simp at hf
    | cons fd fds =>
      simp only [List.map_cons, List.cons.injEq] at hf
      exact List.Forall₂.cons ⟨c, hsub c (List.mem_cons_self _ _), rfl, hf.1⟩
        (ih (fun x hx => hsub x (List.mem_cons_of_mem _ hx)) fds hf.2)

/-- C16: `processFileConnection` classifies an FD by its resolved path and its
stat mode, the first matching rule winning, as `classOf` writes the rules of
the claim out.  For an FD that `fstat` succeeds on and a well-formed registry:
in every case with a class exactly one connection, of that kind and subtype and
with the FD as its only FD, is added to the registry; in the other cases an
assertion fails, and these are exactly the path `/dev/pty` and the paths of no
terminal pattern whose file is neither regular, character, directory, block
nor FIFO. -/
theorem C16_classification (os : Os) (l : ConnList) (fd : Int) (path : Option Bytes)
    (flags mode : Int) (st_mode : Nat) (hst : (os.fdInfo fd).st_mode = some st_mode)
    (hwf : l.wf) :
    (∀ k t, classOf (resolvedPath os fd path) st_mode (isBq os (resolvedPath os fd path)) =
        some (k, t) →
      ∃ c l', processFileConnection os l fd path flags mode = .ok l' ∧
        l'.conns = l.conns ++ [c] ∧ c.conType = k ∧ c.subType = t ∧
        c.path = resolvedPath os fd path ∧ c.fds = [fd]) ∧
    ((∃ f, processFileConnection os l fd path flags mode = .error f) ↔
      classOf (resolvedPath os fd path) st_mode (isBq os (resolvedPath os fd path)) = none) ∧
    (classOf (resolvedPath os fd path) st_mode (isBq os (resolvedPath os fd path)) = none ↔
      resolvedPath os fd path = str "/dev/pty" ∨
        (strStartsWith (resolvedPath os fd path) (str "/dev/pty") = false ∧
          strStartsWith (resolvedPath os fd path) (str "/dev/tty") = false ∧
          resolvedPath os fd path ≠ str "/dev/ptmx" ∧
          strStartsWith (resolvedPath os fd path) (str "/dev/pts/") = false ∧
          (S_ISREG st_mode || S_ISCHR st_mode || S_ISDIR st_mode || S_ISBLK st_mode) = false ∧
          S_ISFIFO st_mode = false)) := by
  have h := processFileConnection_class os l fd path flags mode st_mode hst
  refine ⟨?_, ?_, classOf_none_iff _ _ _⟩
  · intro k t hk
    rw [hk] at h
    obtain ⟨c, h1, h2, h3, h4, h5⟩ := h
    refine ⟨{ c with id := l.nextId, fds := c.fds ++ [fd] }, _, h1, (addNew_conns l fd c hwf).1,
      h2, h3, h4, ?_⟩
    simp [h5]
  · constructor
    · rintro ⟨f, hf⟩
      cases hc : classOf (resolvedPath os fd path) st_mode (isBq os (resolvedPath os fd path)) with
      | none => rfl
      | some kt =>
        rw [hc] at h
        obtain ⟨c, h1, _⟩ := h
        rw [h1] at hf
        exact absurd hf (by simp)
    · intro hc
      rw [hc] at h
      exact h

/-- C16, at samples: FD 5 on `/dev/pts/ptmx` becomes a PTY master although its
path starts with `/dev/pts/`; for FD 9 on `/dev/pty` and for the socket FD 6 an
assertion fails. -/
theorem C16_classification_witness :
    (sampleOs (str "/dev/pts/3") []).fdInfo 5 =
        ⟨true, false, some 0o020666, str "/dev/pts/ptmx", 12, 2⟩ ∧
    (∃ c l', processFileConnection (sampleOs (str "/dev/pts/3") []) ConnList.empty 5 none
          (-1) (-1) = .ok l' ∧
        l'.conns = ConnList.empty.conns ++ [c] ∧ c.conType = .PTY ∧ c.subType = .PTY_MASTER ∧
        c.path = resolvedPath (sampleOs (str "/dev/pts/3") []) 5 none ∧ c.fds = [5]) ∧
    (∃ f, processFileConnection (sampleOs (str "/dev/pts/3") []) ConnList.empty 9 none
        (-1) (-1) = .error f) ∧
    (∃ f, processFileConnection (sampleOs (str "/dev/pts/3") []) ConnList.empty 6 none
        (-1) (-1) = .error f) :=
  ⟨by decide,
    (C16_classification (sampleOs (str "/dev/pts/3") []) ConnList.empty 5 none (-1) (-1)
      0o020666 (by decide) wf_empty).1 .PTY .PTY_MASTER (by decide),
    (C16_classification (sampleOs (str "/dev/pts/3") []) ConnList.empty 9 none (-1) (-1)
      0o020666 (by decide) wf_empty).2.1.mpr (by decide),
    (C16_classification (sampleOs (str "/dev/pts/3") []) ConnList.empty 6 none (-1) (-1)
      0o140777 (by decide) wf_empty).2.1.mpr (by decide)⟩

/-- C17 (amended): duplicates of files share a single Connection.  Let
`FileConnList::scanForPreExisting` run on the empty registry over distinct
open FDs and end without a failed assertion.  Then any two of these FDs that
refer to the same device and inode, that the scan handles as files (a
batch-queue file, or an FD above 2 whose device name starts with `/`, not a
controlling terminal) and that `processFileConnection` classifies as files
(regular, character, directory or block, not a terminal path) are in the FD
list of one and the same file connection, and no other connection holds
either of them. -/
theorem C17_duplicates_share (os : Os) (fds : List Int) (l' : ConnList) (hnd : fds.Nodup)
    (hs : FileConnList_scanForPreExisting os fds ConnList.empty = .ok l') (a b : Int)
    (ha : a ∈ fds) (hb : b ∈ fds) (hfa : fileClass os a) (hfb : fileClass os b)
    (hab : sameFile os a b) :
    ∃ c ∈ l'.conns, c.conType = .FILE ∧ a ∈ c.fds ∧ b ∈ c.fds ∧
      l'.holders a = 1 ∧ l'.holders b = 1 := by
  have inv := scanInv_scanFds os fds [] ConnList.empty l' (scanInv_empty os) hnd
    (fun _ _ => List.not_mem_nil _) hs
  obtain ⟨ca, hca, ta, ma⟩ := inv.held a (by simpa using ha) hfa
  obtain ⟨cb, hcb, tb, mb⟩ := inv.held b (by simpa using hb) hfb
  have hd : checkDup os ca b = true := by
    have := inv.same ca hca ta a ma
    rw [checkDup_iff] at this ⊢
    obtain ⟨x, hx, h1, h2⟩ := this
    exact ⟨x, hx, h1.trans hab.1, h2.trans hab.2⟩
  have hcc := inv.uniq ca hca cb hcb ta tb b mb hd
  subst hcc
  exact ⟨ca, hca, ta, ma, mb,
    Nat.le_antisymm (inv.once a) (holders_pos l' a ca hca ma),
    Nat.le_antisymm (inv.once b) (holders_pos l' b ca hca mb)⟩

/-- C17 (amended), at the sample process: FDs 3 and 4, opened on the same
regular file, end in one connection. -/
theorem C17_duplicates_share_witness :
    ∃ c ∈ (registryOf (FileConnList_scanForPreExisting (sampleOs (str "/dev/pts/3") [])
        sampleFds ConnList.empty)).conns,
      c.conType = .FILE ∧ 3 ∈ c.fds ∧ 4 ∈ c.fds ∧
      (registryOf (FileConnList_scanForPreExisting (sampleOs (str "/dev/pts/3") [])
        sampleFds ConnList.empty)).holders 3 = 1 ∧
      (registryOf (FileConnList_scanForPreExisting (sampleOs (str "/dev/pts/3") [])
        sampleFds ConnList.empty)).holders 4 = 1 :=
  C17_duplicates_share (sampleOs (str "/dev/pts/3") []) sampleFds _ (by decide) rfl 3 4
    (by decide) (by decide)
    ⟨by decide, 0o100644, .FILE_REGULAR, rfl, by decide, by decide⟩
    ⟨by decide, 0o100644, .FILE_REGULAR, rfl, by decide, by decide⟩
    ⟨rfl, rfl⟩

/-- C17 as stated fails.  In the sample process, with a controlling terminal
other than `/dev/pts/3`, FDs 0, 1 and 2 are on the same device and inode and
so are FDs 7 and 8, on a FIFO; the scan gives each of them a connection of its
own: only the regular file of FDs 3 and 4 has its FDs in one connection. -/
theorem C17_counterexample :
    sameFile (sampleOs (str "/dev/pts/9") []) 0 1 ∧
    sameFile (sampleOs (str "/dev/pts/9") []) 7 8 ∧
    (registryOf (FileConnList_scanForPreExisting (sampleOs (str "/dev/pts/9") [])
      sampleFds ConnList.empty)).conns.map (·.fds) = [[0], [1], [2], [3, 4], [5], [7], [8]] ∧
    ((registryOf (FileConnList_scanForPreExisting (sampleOs (str "/dev/pts/9") [])
      sampleFds ConnList.empty)).conns.map (·.conType)).drop 3 = [.FILE, .PTY, .FIFO, .FIFO] := by
  refine ⟨⟨rfl, rfl⟩, ⟨rfl, rfl⟩, ?_, ?_⟩ <;> decide

/-- C18: no FD is registered twice by the two scans.  Let
`FileConnList::scanForPreExisting` and `SocketConnList::scanForPreExisting`
run, each on its empty registry, over the same distinct open FDs, the first
ending without a failed assertion.  The name that
`jalib::Filesystem::GetControllingTerm` gives for the terminal of the parent
is the path of a terminal device, or is empty when there is none, and no open
FD has an empty device name: so let every FD whose device has that name have a
device name that starts with `/`.  Then the file registry holds an FD once if
the scan does not pass it over and not at all otherwise, the socket registry
holds an FD once if it is a pre-existing socket (and no SLURM job runs) and
not at all otherwise, and no FD is held by both: every FD is in the FD list of
exactly one connection or of none. -/
theorem C18_one_registry (os : Os) (fds : List Int) (lf : ConnList) (hnd : fds.Nodup)
    (hpc : ∀ fd ∈ fds, (os.fdInfo fd).device = os.parentCtty →
      strStartsWith (os.fdInfo fd).device (str "/") = true)
    (hs : FileConnList_scanForPreExisting os fds ConnList.empty = .ok lf) (fd : Int) :
    lf.holders fd = (if fd ∈ fds ∧ branchOf os fd ≠ .skipped then 1 else 0) ∧
    (SocketConnList_scanForPreExisting os fds ConnList.empty).holders fd =
      (if fd ∈ fds ∧ os.slurmJob = false ∧ socketTakes os fd = true then 1 else 0) ∧
    lf.holders fd + (SocketConnList_scanForPreExisting os fds ConnList.empty).holders fd ≤ 1 := by
  have hf := scanFds_holders os fds [] ConnList.empty lf (scanInv_empty os) hnd
    (fun _ _ => List.not_mem_nil _) hs fd
  rw [holders_empty, Nat.zero_add] at hf
  have hk : (SocketConnList_scanForPreExisting os fds ConnList.empty).holders fd =
      (if fd ∈ fds ∧ os.slurmJob = false ∧ socketTakes os fd = true then 1 else 0) := by
    unfold SocketConnList_scanForPreExisting
    by_cases hj : os.slurmJob = true
    · simp [hj, holders_empty]
    · rw [if_neg hj, (socketScan_holders os fds ConnList.empty wf_empty hnd).2 fd, holders_empty,
        Nat.zero_add]
      simp [hj]
  refine ⟨hf, hk, ?_⟩
  rw [hf, hk]
  by_cases hm : fd ∈ fds
  · by_cases ht : socketTakes os fd = true
    · have hb : branchOf os fd = .skipped := by
        have hp := hpc fd hm
        unfold socketTakes at ht
        unfold branchOf
        generalize str "/" = s at ht hp ⊢
        simp only [Bool.and_eq_true, Bool.not_eq_true', decide_eq_false_iff_not] at ht
        obtain ⟨⟨⟨⟨⟨h1, h2⟩, h3⟩, h4⟩, h5⟩, h6⟩ := ht
        have h7 : ¬ (os.fdInfo fd).device = os.parentCtty := by
          intro e
          rw [hp e] at h6
          exact absurd h6 (by simp)
        simp [h1, h2, h3, h4, h5, h6, h7]
      simp only [hb, ne_eq, not_true_eq_false, and_false, if_false, Nat.zero_add]
      split_ifs <;> omega
    · simp [ht]
      split_ifs <;> omega
  · simp [hm]

/-- C18, at the sample process, whose parent has no controlling
terminal: FD 6, a socket, is held by the socket registry alone, and FD 3, a
file, by the file registry alone. -/
theorem C18_one_registry_witness :
    ((registryOf (FileConnList_scanForPreExisting (sampleOs (str "/dev/pts/3") [])
        sampleFds ConnList.empty)).holders 6 = 0 ∧
      (SocketConnList_scanForPreExisting (sampleOs (str "/dev/pts/3") []) sampleFds
        ConnList.empty).holders 6 = 1) ∧
    ((registryOf (FileConnList_scanForPreExisting (sampleOs (str "/dev/pts/3") [])
        sampleFds ConnList.empty)).holders 3 = 1 ∧
      (SocketConnList_scanForPreExisting (sampleOs (str "/dev/pts/3") []) sampleFds
        ConnList.empty).holders 3 = 0) :=
  ⟨⟨(C18_one_registry (sampleOs (str "/dev/pts/3") []) sampleFds
        (registryOf (FileConnList_scanForPreExisting (sampleOs (str "/dev/pts/3") [])
          sampleFds ConnList.empty)) (by decide) (by decide) rfl 6).1.trans (by decide),
    by decide⟩, by decide, by decide⟩

/-- C19: what `FileConnList::prepareShmList` records.  When the function
returns, whatever the four lists held before: `shmAreas` holds, in the order
of `/proc/self/maps`, the areas that are `MAP_SHARED` with a protection other
than 0, are no DMTCP-internal, NSCD, InfiniBand or SysV region, and whose file
exists and is writable; for each of them, in that order, a new `FILE_SHM`
FileConnection with the name of the area and one FD was appended to the
registry and to `shmAreaConn`, and the only calls of `mmap` made are, for each
of them, a `PROT_NONE` anonymous fixed mapping of the same address and size;
`unlinkedShmAreas` holds the remaining areas whose file does not exist and
whose name ends with the deleted suffix and does not start with the
`/dev/zero` or `/dev/null` deleted name, the suffix stripped; any other area
is recorded nowhere, and `missingUnlinkedShmFiles` is empty.  No area is put
in both lists.  The function does return when no call fails and every
remaining area whose file is gone has a name that ends with the deleted
suffix. -/
theorem C19_prepareShmList (os : ShmOs) (areas : List ProcMapsArea) (st : FileState)
    (hwf : st.list.wf) :
    (∀ st', prepareShmList os areas st = .ok st' →
      st'.shmAreas = areas.filter (isBlankedArea os st.fileExists) ∧
      st'.unlinkedShmAreas =
        (areas.filter (isUnlinkedArea os st.fileExists)).map (stripDeleted os) ∧
      st'.missingUnlinkedShmFiles = [] ∧
      (∃ news, st'.list.conns = st.list.conns ++ news ∧ news.map (·.id) = st'.shmAreaConn ∧
        news.map (fun c => (c.conType, c.subType, c.path, c.fds.length)) =
          st'.shmAreas.map fun a => (.FILE, .FILE_SHM, a.name, 1)) ∧
      mmapsOf (st'.trace.drop st.trace.length) = st'.shmAreas.map blankMapping) ∧
    (∀ a ∈ areas, ¬ (isBlankedArea os st.fileExists a = true ∧
      isUnlinkedArea os st.fileExists a = true)) ∧
    ((∀ n name, os.openResult n name ≠ -1) → (∀ n, os.callOk n = true) →
      (∀ a ∈ areas, shmCandidate os a = true → st.fileExists a.name = false →
        strEndsWith a.name os.DELETED_FILE_SUFFIX = true) →
      ∃ st', prepareShmList os areas st = .ok st') := by
  refine ⟨?_, ?_, prepareShmList_total os areas st⟩
  · intro st' h
    obtain ⟨news, evs, p⟩ := prepareShmList_spec os areas st st' hwf h
    refine ⟨p.shmAreas, p.unlinked, p.missing, ⟨news, p.conns, p.ids, ?_⟩, ?_⟩
    · have h1 := p.kinds
      have h2 := p.fds
      rw [p.shmAreas]
      have hl : ∀ c ∈ news, c.fds.length = 1 := by
        intro c hc
        have : c.fds ∈ news.map (·.fds) := List.mem_map_of_mem _ hc
        rw [h2] at this
        obtain ⟨fd, _, e⟩ := List.mem_map.mp this
        rw [← e]
        rfl
      apply List.ext_getElem
      · have := congrArg List.length h1
        simpa using this
      · intro i hi1 hi2
        have e1 := congrArg (fun l => l[i]?) h1
        simp only [List.getElem?_map] at e1
        simp only [List.getElem_map]
        rw [List.getElem?_eq_getElem (by simpa using hi1),
          List.getElem?_eq_getElem (by simpa using hi2)] at e1
        simp only [Option.map_some', Option.some.injEq, Prod.mk.injEq] at e1
        simp only [Prod.mk.injEq]
        exact ⟨e1.1, e1.2.1, e1.2.2, hl _ (List.getElem_mem _)⟩
    · rw [p.trace, List.drop_left, p.mmaps, p.shmAreas]
  · intro a _ ⟨hb, hu⟩
    unfold isBlankedArea at hb
    unfold isUnlinkedArea at hu
    simp only [Bool.and_eq_true, Bool.not_eq_true'] at hb hu
    rw [hb.1.2] at hu
    exact absurd hu.1.1.2 (by simp)

/-- C19, at the sample process: of its six areas, the one of `/tmp/shm` is put
in `shmAreas`, gets the connection 0 with the FD 11 and is blanked, the one of
`/tmp/gone` is put in `unlinkedShmAreas` under that name, and the lists no
longer hold what they held before. -/
theorem C19_prepareShmList_witness :
    samplePrepared.shmAreas =
      sampleAreas.filter (isBlankedArea sampleShmOs sampleFileState.fileExists) ∧
    samplePrepared.shmAreas = [⟨0x1000, 4096, 3, MAP_SHARED, 0, str "/tmp/shm"⟩] ∧
    samplePrepared.unlinkedShmAreas = [⟨0x3000, 8192, 3, MAP_SHARED, 4096, str "/tmp/gone"⟩] ∧
    samplePrepared.missingUnlinkedShmFiles = [] ∧ samplePrepared.shmAreaConn = [0] ∧
    samplePrepared.list.conns.map (fun c => (c.id, c.conType, c.subType, c.path, c.fds)) =
      [(0, .FILE, .FILE_SHM, str "/tmp/shm", [11])] ∧
    mmapsOf samplePrepared.trace = [.mmap 0x1000 4096 PROT_NONE 0x32 (-1) 0] :=
  ⟨((C19_prepareShmList sampleShmOs sampleAreas sampleFileState wf_empty).1 samplePrepared
      rfl).1, by decide, by decide, by decide, by decide, by decide, by decide⟩

/-- C20: the restart of the unlinked shared-memory areas.  Let
`missingUnlinkedShmFiles` be empty, as `prepareShmList` left it at checkpoint,
and let `postRestart`, `refill(true)` and `resume(true)` run one after the
other, no assertion failing.  Then `postRestart` maps, in order, the unlinked
areas whose path exists on disk, each at its address, size, protection, flags
and offset, and does nothing else to an area or its file; it puts the others,
in order, in `missingUnlinkedShmFiles`.  `refill(true)` recreates, populates
and maps these deferred areas, in order, and nothing else.  `resume(true)`,
after the mappings of `remapShmMaps`, unlinks the files of these deferred
areas, in order, and nothing else.  No area is both mapped in `postRestart`
and deferred.  With `isRestart` false, `refill` does nothing to an area or a
file and `resume` only makes the mappings of `remapShmMaps`.  `postRestart`
and `refill(true)` do return when no call fails, and `resume(true)` returns
when `remapShmMaps` does. -/
theorem C20_restart_lifecycle (os : ShmOs) (st : FileState)
    (hmiss : st.missingUnlinkedShmFiles = []) :
    (∀ st1 st2 st3, postRestart os st = .ok st1 → refill os true st1 = .ok st2 →
      resume os true st2 = .ok st3 →
      st1.missingUnlinkedShmFiles =
        st.unlinkedShmAreas.filter (fun a => !st.fileExists a.name) ∧
      actsOf (st1.trace.drop st.trace.length) =
        (st.unlinkedShmAreas.filter fun a => st.fileExists a.name).map restoreAct ∧
      actsOf (st2.trace.drop st1.trace.length) =
        ((st.unlinkedShmAreas.filter fun a => !st.fileExists a.name).map recreateActs).flatten ∧
      actsOf (st3.trace.drop st2.trace.length) =
        st.shmAreas.map restoreAct ++
          (st.unlinkedShmAreas.filter fun a => !st.fileExists a.name).map
            fun a => .unlink a.name) ∧
    (∀ a, ¬ (a ∈ st.unlinkedShmAreas.filter (fun a => st.fileExists a.name) ∧
      a ∈ st.unlinkedShmAreas.filter (fun a => !st.fileExists a.name))) ∧
    (∀ s s', refill os false s = .ok s' → actsOf (s'.trace.drop s.trace.length) = []) ∧
    (∀ s s', resume os false s = .ok s' →
      actsOf (s'.trace.drop s.trace.length) = s.shmAreas.map restoreAct) ∧
    ((∀ n name, os.openResult n name ≠ -1) → (∀ n, os.callOk n = true) →
      ∃ st1 st2, postRestart os st = .ok st1 ∧ refill os true st1 = .ok st2 ∧
        ∀ s, remapShmMaps os (st2.emit (.baseResume true)) = .ok s →
          ∃ st3, resume os true st2 = .ok st3) := by
  refine ⟨?_, ?_, ?_, ?_, ?_⟩
  · intro st1 st2 st3 h1 h2 h3
    obtain ⟨e1, f1, x1, m1, a1⟩ := postRestart_ok os st st1 h1
    obtain ⟨e2, f2, m2, a2⟩ := refill_ok os true st1 st2 h2
    obtain ⟨e3, t3, a3, _⟩ := resume_ok os true st2 st3 h3
    rw [hmiss, List.nil_append] at m1
    refine ⟨m1, ?_, ?_, ?_⟩
    · rw [f1.trace, List.drop_left, a1]
    · rw [f2.trace, List.drop_left, a2, m1]
      rfl
    · rw [t3, List.drop_left, a3, f2.shmAreas, f1.shmAreas, m2, m1]
      rfl
  · rintro a ⟨h1, h2⟩
    have h1 := (List.mem_filter.mp h1).2
    have h2 := (List.mem_filter.mp h2).2
    rw [h1] at h2
    exact absurd h2 (by simp)
  · intro s s' h
    obtain ⟨e, f, _, a⟩ := refill_ok os false s s' h
    rw [f.trace, List.drop_left, a]
    rfl
  · intro s s' h
    obtain ⟨e, t, a, _⟩ := resume_ok os false s s' h
    rw [t, List.drop_left, a]
    simp
  · intro hopen hcall
    obtain ⟨st1, h1⟩ := postRestart_total os st hopen hcall
    obtain ⟨st2, h2⟩ := refill_total os true st1 hopen hcall
    refine ⟨st1, st2, h1, h2, fun s hs => ?_⟩
    unfold resume
    rw [hs]
    exact ⟨_, rfl⟩

/-- C20, at the sample process: `postRestart` maps the area of `/tmp/back`
and defers the area of `/tmp/gone`, `refill(true)` recreates, populates and
maps that one, and `resume(true)` unlinks `/tmp/gone`. -/
theorem C20_restart_lifecycle_witness :
    sampleRestart1.missingUnlinkedShmFiles =
      sampleRestartState.unlinkedShmAreas.filter
        (fun a => !sampleRestartState.fileExists a.name) ∧
    sampleRestart1.missingUnlinkedShmFiles =
      [⟨0x3000, 8192, 3, MAP_SHARED, 4096, str "/tmp/gone"⟩] ∧
    actsOf sampleRestart1.trace = [.remap 0x8000 4096 3 0x11 0] ∧
    actsOf (sampleRestart2.trace.drop sampleRestart1.trace.length) =
      [.recreate (str "/tmp/gone"), .populate 0x3000 8192, .remap 0x3000 8192 3 0x11 4096] ∧
    actsOf (sampleRestart3.trace.drop sampleRestart2.trace.length) =
      [.unlink (str "/tmp/gone")] ∧
    sampleRestart3.fileExists (str "/tmp/gone") = false :=
  ⟨((C20_restart_lifecycle sampleShmOs sampleRestartState rfl).1 sampleRestart1 sampleRestart2
      sampleRestart3 rfl rfl rfl).1, by decide, by decide, by decide, by decide, by decide⟩

/-! ## The election of the leader of a connection: lemmas -/

theorem preCkptRegisterNSData_eq (comp : List Peer) (p : Peer) :
    SocketConnList_preCkptRegisterNSData comp p =
      (p.list.conns.map (checkLocking comp p),
        ((p.list.conns.map (checkLocking comp p)).filter fun con =>
          con.hasLock && con.conType == .TCP).map fun con => .sendPeerInformation con.id) := by
  unfold SocketConnList_preCkptRegisterNSData
  have key : ∀ (cs : List Connection) (acc : List Connection × List ConnAct),
      cs.foldl
        (fun (acc : List Connection × List ConnAct) con =>
          if ((checkLocking comp p con).hasLock && (checkLocking comp p con).conType == .TCP) = true
          then (acc.1 ++ [checkLocking comp p con],
            acc.2 ++ [.sendPeerInformation (checkLocking comp p con).id])
          else (acc.1 ++ [checkLocking comp p con], acc.2)) acc =
      (acc.1 ++ cs.map (checkLocking comp p),
        acc.2 ++ ((cs.map (checkLocking comp p)).filter fun con =>
          con.hasLock && con.conType == .TCP).map fun con => .sendPeerInformation con.id) := by
    intro cs
    induction cs with
    | nil => intro acc; simp
    | cons c cs ih =>
      intro acc
      rw [List.foldl_cons, ih]
      by_cases h : ((checkLocking comp p c).hasLock && (checkLocking comp p c).conType == .TCP)
          = true
      · simp [h, List.filter_cons]
      · simp [h, List.filter_cons]
  have := key p.list.conns ([], [])
  simpa using this

theorem electBefore_iff (a b : Nat × Nat) :
    electBefore a b = true ↔ toLex a ≤ toLex b := by
  unfold electBefore
  rw [Prod.Lex.le_iff]
  simp

theorem hasLockOn_iff (comp : List Peer) (p : Peer) (o : Nat) :
    HasLockOn comp p o ↔
      ∃ c ∈ p.list.conns, p.objectOf c.id = o ∧
        ∀ q ∈ comp, ∀ d ∈ q.list.conns, q.objectOf d.id = o →
          toLex (c.id, p.upid) ≤ toLex (d.id, q.upid) := by
  unfold HasLockOn
  rw [preCkptRegisterNSData_eq]
  simp only [List.mem_map]
  constructor
  · rintro ⟨c', ⟨c, hc, rfl⟩, ho, hl⟩
    refine ⟨c, hc, ho, ?_⟩
    intro q hq d hd hqo
    simp only [checkLocking, List.all_eq_true, Bool.or_eq_true, Bool.not_eq_true',
      beq_eq_false_iff_ne, ne_eq] at hl ho
    rcases hl q hq d hd with h | h
    · exact absurd (hqo.trans ho.symm) h
    · exact (electBefore_iff _ _).mp h
  · rintro ⟨c, hc, ho, hmin⟩
    refine ⟨checkLocking comp p c, ⟨c, hc, rfl⟩, ho, ?_⟩
    simp only [checkLocking, List.all_eq_true, Bool.or_eq_true, Bool.not_eq_true',
      beq_eq_false_iff_ne, ne_eq]
    intro q hq d hd
    by_cases hqo : q.objectOf d.id = p.objectOf c.id
    · exact Or.inr ((electBefore_iff _ _).mpr (hmin q hq d hd (hqo.trans ho)))
    · exact Or.inl hqo

/-- Exactly one worker of the computation has the lock of a connection that
names the kernel object `o`, if a connection of some worker names it. -/
theorem leader_unique (comp : List Peer) (hnd : (comp.map (·.upid)).Nodup) (o : Nat)
    (hex : ∃ p ∈ comp, ∃ c ∈ p.list.conns, p.objectOf c.id = o) :
    ∃! p, p ∈ comp ∧ HasLockOn comp p o := by
  -- the least pair of a connection identifier and a `UniquePid` on the object
  let T : Set (Lex (Nat × Nat)) :=
    { k | ∃ p ∈ comp, ∃ c ∈ p.list.conns, p.objectOf c.id = o ∧ k = toLex (c.id, p.upid) }
  have hT : T.Nonempty := by
    obtain ⟨p, hp, c, hc, ho⟩ := hex
    exact ⟨toLex (c.id, p.upid), p, hp, c, hc, ho, rfl⟩
  obtain ⟨m, ⟨p, hp, c, hc, ho, rfl⟩, hmin⟩ := WellFounded.has_min wellFounded_lt T hT
  have hle : ∀ q ∈ comp, ∀ d ∈ q.list.conns, q.objectOf d.id = o →
      toLex (c.id, p.upid) ≤ toLex (d.id, q.upid) := by
    intro q hq d hd hqo
    exact not_lt.mp (hmin _ ⟨q, hq, d, hd, hqo, rfl⟩)
  refine ⟨p, ⟨hp, (hasLockOn_iff comp p o).mpr ⟨c, hc, ho, hle⟩⟩, ?_⟩
  rintro q ⟨hq, hlq⟩
  obtain ⟨d, hd, hdo, hdmin⟩ := (hasLockOn_iff comp q o).mp hlq
  have h1 := hle q hq d hd hdo
  have h2 := hdmin p hp c hc ho
  have h3 := le_antisymm h1 h2
  have h4 : p.upid = q.upid := by
    have := congrArg (fun k => (ofLex k).2) h3
    simpa using this
  exact (List.inj_on_of_nodup_map hnd hp hq h4).symm

/-- The calls that a worker makes for its connections before the checkpoint
are all for connections whose lock it has. -/
theorem acts_locked (p : Peer) (conns : List Connection) :
    (∀ a ∈ SocketConnList_preCkptSendQueries conns,
      ∃ c ∈ conns, c.id = a.conn ∧ c.hasLock = true) ∧
    (∀ a ∈ (SocketConnList_preCkpt p conns).1, ∃ c ∈ conns, c.id = a.conn ∧ c.hasLock = true) ∧
    (∀ a ∈ FileConnList_preCkpt p conns, ∃ c ∈ conns, c.id = a.conn ∧ c.hasLock = true) := by
  refine ⟨?_, ?_, ?_⟩
  · intro a ha
    simp only [SocketConnList_preCkptSendQueries, List.mem_map, List.mem_filter,
      Bool.and_eq_true] at ha
    obtain ⟨c, ⟨hc, hl, _⟩, rfl⟩ := ha
    exact ⟨c, hc, rfl, hl⟩
  · intro a ha
    simp only [SocketConnList_preCkpt, List.mem_append, List.mem_map, List.mem_filter,
      Bool.and_eq_true] at ha
    rcases ha with ⟨c, ⟨hc, hl, _⟩, rfl⟩ | ⟨c, ⟨hc, hl, _⟩, rfl⟩ <;> exact ⟨c, hc, rfl, hl⟩
  · intro a ha
    simp only [FileConnList_preCkpt, List.mem_map, List.mem_filter, Bool.and_eq_true] at ha
    obtain ⟨c, ⟨hc, ⟨hl, _⟩, _⟩, rfl⟩ := ha
    exact ⟨c, hc, rfl, hl⟩

/-! ## Start-up and the wire format: stated properties -/

/-- C21: the checkpoint signal.  `DmtcpWorker::determineCkptSignal` returns a
signal in 1..31 whenever the default `CKPT_SIGNAL` is in 1..31, and the default
when `DMTCP_SIGCKPT` is not set.  When `errno` is 0 at the call and `strtol`
converts the variable to a value v that is an `int`, it returns v if v is in
1..31 and the default otherwise, as it returns the default when `strtol`
converts nothing.  But `errno` is not cleared before `strtol` is called: with
`errno` 2 at the call and `DMTCP_SIGCKPT=10` the default 12 is returned, not
10.  And the `long` that `strtol` returns is assigned to an `int`: for
`DMTCP_SIGCKPT=4294967306`, a number outside 1..31, the signal 10 is returned,
not the default. -/
theorem C21_ckpt_signal :
    (∀ (CKPT_SIGNAL errno : Int) (tmp : Option Bytes), 1 ≤ CKPT_SIGNAL → CKPT_SIGNAL ≤ 31 →
      1 ≤ determineCkptSignal CKPT_SIGNAL errno tmp ∧
        determineCkptSignal CKPT_SIGNAL errno tmp ≤ 31) ∧
    (∀ (CKPT_SIGNAL errno : Int), determineCkptSignal CKPT_SIGNAL errno none = CKPT_SIGNAL) ∧
    (∀ (CKPT_SIGNAL : Int) (tmp : Bytes), (strtol tmp).erange = false →
      -2147483648 ≤ (strtol tmp).value → (strtol tmp).value ≤ 2147483647 →
      determineCkptSignal CKPT_SIGNAL 0 (some tmp) =
        if (strtol tmp).noConversion = false ∧ 1 ≤ (strtol tmp).value ∧ (strtol tmp).value ≤ 31
        then (strtol tmp).value else CKPT_SIGNAL) ∧
    (strtol (str "10") = ⟨10, false, false⟩ ∧
      determineCkptSignal 12 2 (some (str "10")) = 12) ∧
    (strtol (str "4294967306") = ⟨4294967306, false, false⟩ ∧
      determineCkptSignal 12 0 (some (str "4294967306")) = 10) := by
  refine ⟨?_, fun _ _ => rfl, ?_, ⟨by decide, by decide⟩, ⟨by decide, by decide⟩⟩
  · intro C e tmp h1 h2
    cases tmp with
    | none => exact ⟨h1, h2⟩
    | some t =>
      simp only [determineCkptSignal]
      split_ifs <;> omega
  · intro C t he h1 h2
    have hl : longToInt (strtol t).value = (strtol t).value := by
      unfold longToInt
      omega
    simp only [determineCkptSignal, he, hl, Bool.false_eq_true, if_false, ne_eq,
      not_true_eq_false, false_or]
    by_cases hc : (strtol t).noConversion = true
    · simp only [hc, if_true, Bool.true_eq_false, false_and, if_false]
      split_ifs <;> rfl
    · have hc' : (strtol t).noConversion = false := by simpa using hc
      simp only [hc', Bool.false_eq_true, if_false, true_and]
      by_cases hr : 1 ≤ (strtol t).value ∧ (strtol t).value ≤ 31
      · rw [if_neg (by omega), if_pos hr]
      · rw [if_pos (by omega), if_neg hr]

/-- C21, at samples with `errno` 0: `DMTCP_SIGCKPT=10` gives 10, the
hexadecimal `0x1F` gives 31, and `32`, `0` and `abc` give the default 12. -/
theorem C21_ckpt_signal_witness :
    determineCkptSignal 12 0 (some (str "10")) = 10 ∧
    determineCkptSignal 12 0 (some (str "0x1F")) = 31 ∧
    determineCkptSignal 12 0 (some (str "32")) = 12 ∧
    determineCkptSignal 12 0 (some (str "0")) = 12 ∧
    determineCkptSignal 12 0 (some (str "abc")) = 12 ∧
    (1 ≤ determineCkptSignal 12 2 (some (str "4294967306")) ∧
      determineCkptSignal 12 2 (some (str "4294967306")) ≤ 31) :=
  ⟨(C21_ckpt_signal.2.2.1 12 (str "10") (by decide) (by decide) (by decide)).trans (by decide),
    (C21_ckpt_signal.2.2.1 12 (str "0x1F") (by decide) (by decide) (by decide)).trans
      (by decide),
    (C21_ckpt_signal.2.2.1 12 (str "32") (by decide) (by decide) (by decide)).trans (by decide),
    (C21_ckpt_signal.2.2.1 12 (str "0") (by decide) (by decide) (by decide)).trans (by decide),
    (C21_ckpt_signal.2.2.1 12 (str "abc") (by decide) (by decide) (by decide)).trans (by decide),
    C21_ckpt_signal.1 12 2 (some (str "4294967306")) (by decide) (by decide)⟩

/-- C22: the first call of `Util::getCoordHostAndPort`.  With the shared data
not initialised and `_firstTime` still true, the call leaves in `host` the host
given if it is not empty, else `DMTCP_COORD_HOST` if set, else `DMTCP_HOST` if
set, else the default host; and in `*port` the port given if it is not
`UNINITIALIZED_PORT`, else the integer value of `DMTCP_COORD_PORT` if set, else
that of `DMTCP_PORT` if set, else 0 when the mode includes `COORD_NEW`, else
the default port.  So a new-style variable that is set wins over its
deprecated alias, whatever that one holds. -/
theorem C22_first_call (cfg : CoordConfig) (sd : SharedData) (env : CoordEnv) (s : CoordCache)
    (mode : Nat) (host : Bytes) (port : Int) (hsd : sd.initialized = false)
    (hfirst : s._firstTime = true) :
    (getCoordHostAndPort cfg sd env s mode host port).1 = firstCallHost cfg env host ∧
    (getCoordHostAndPort cfg sd env s mode host port).2.1 = firstCallPort cfg env mode port ∧
    (∀ h, env.coordHost = some h → host = [] →
      (getCoordHostAndPort cfg sd env s mode host port).1 = h) ∧
    (∀ p, env.coordPort = some p → port = cfg.UNINITIALIZED_PORT →
      (getCoordHostAndPort cfg sd env s mode host port).2.1 = cfg.StringToInt p) := by
  unfold getCoordHostAndPort firstCallHost firstCallPort
  simp only [hsd, hfirst, Bool.false_eq_true, if_false, if_true]
  refine ⟨?_, ?_, ?_, ?_⟩
  · by_cases hh : host = []
    · simp only [hh, if_true, ne_eq, not_true_eq_false, if_false]
      cases env.coordHost with
      | some h => simp
      | none => cases env.host <;> simp
    · simp [hh]
  · by_cases hp : port = cfg.UNINITIALIZED_PORT
    · simp only [hp, if_true, ne_eq, not_true_eq_false, if_false]
      cases env.coordPort with
      | some p => simp
      | none => cases env.port <;> simp
    · simp [hp]
  · intro h he hh
    simp [he, hh]
  · intro p he hp
    simp [he, hp]

/-- C22, at the sample environment: with no host and no port given the first
call returns `nodeA` and 9000, the values of `DMTCP_COORD_HOST` and
`DMTCP_COORD_PORT`, not those of the deprecated aliases. -/
theorem C22_first_call_witness :
    (getCoordHostAndPort sampleCoordConfig noSharedData sampleCoordEnv CoordCache.init 0 []
      (-1)).1 = firstCallHost sampleCoordConfig sampleCoordEnv [] ∧
    (getCoordHostAndPort sampleCoordConfig noSharedData sampleCoordEnv CoordCache.init 0 []
      (-1)).1 = str "nodeA" ∧
    (getCoordHostAndPort sampleCoordConfig noSharedData sampleCoordEnv CoordCache.init 0 []
      (-1)).2.1 = 9000 :=
  ⟨(C22_first_call sampleCoordConfig noSharedData sampleCoordEnv CoordCache.init 0 [] (-1) rfl
      rfl).1, by decide, by decide⟩

/-- C23: the layout of the control-message header.  With the fields of
`struct DmtcpMessage` laid out in declaration order, each at the next multiple
of its alignment, `UniquePid` taken as 24 bytes and an enumeration, a `pid_t`
and an `in_addr` as 4 bytes, the fields are at the offsets of the wire-format
table of the spec, whether a 64-bit integer is aligned to 4 bytes or to 8:
each field begins where the one before it ends, the sizes add up to 144, and
`sizeof(DmtcpMessage)` is 144, the header size that the worker compares
`msgSize` with. -/
theorem C23_header_layout :
    (∀ a64 ∈ [4, 8],
      DmtcpMessage.layout a64 =
        [("_magicBits", 0, 16), ("_msgSize", 16, 4), ("extraBytes", 20, 4), ("type", 24, 4),
          ("state", 28, 4), ("from", 32, 24), ("compGroup", 56, 24), ("virtualPid", 80, 4),
          ("realPid", 84, 4), ("nsid", 88, 8), ("keyLen", 96, 4), ("valLen", 100, 4),
          ("numPeers", 104, 4), ("isRunning", 108, 4), ("coordCmd", 112, 4),
          ("coordCmdStatus", 116, 4), ("coordTimeStamp", 120, 8),
          ("theCheckpointInterval", 128, 4), ("ipAddr", 132, 4), ("uniqueIdOffset", 136, 4),
          ("logMask", 140, 4)] ∧
      (DmtcpMessage.layout a64).map (fun f => (f.2.1, f.2.2)) = wireFormat ∧
      contiguous (DmtcpMessage.layout a64) = true ∧
      ((DmtcpMessage.layout a64).map fun f => f.2.2).sum = 144 ∧
      DmtcpMessage.sizeof a64 = 144) ∧
    DMTCP_MSG_SIZE = 144 := by
  refine ⟨?_, rfl⟩
  intro a64 h
  simp only [List.mem_cons, List.mem_singleton, List.not_mem_nil, or_false] at h
  rcases h with rfl | rfl <;> exact ⟨rfl, rfl, rfl, rfl, rfl⟩

/-- C23, on a 64-bit host and on 32-bit x86: the header has 144 bytes and
`coordTimeStamp`, its 64-bit integer, is at offset 120. -/
theorem C23_header_layout_witness :
    (DmtcpMessage.sizeof 8 = 144 ∧ DmtcpMessage.sizeof 4 = 144) ∧
    (DmtcpMessage.layout 8).lookup "coordTimeStamp" = some (120, 8) ∧
    (DmtcpMessage.layout 4).lookup "coordTimeStamp" = some (120, 8) :=
  ⟨⟨(C23_header_layout.1 8 (by decide)).2.2.2.2, (C23_header_layout.1 4 (by decide)).2.2.2.2⟩,
    by rw [(C23_header_layout.1 8 (by decide)).1]; rfl,
    by rw [(C23_header_layout.1 4 (by decide)).1]; rfl⟩

/-- C24: one leader for a connection.  Let `Connection::checkLocking` elect
as the spec has it: the lowest ConnectionIdentifier wins, ties broken by the
lowest UniquePid.  Then in a computation of workers with different UniquePids,
after `SocketConnList::preCkptRegisterNSData` has called `checkLocking` on
every connection, for every kernel object that a connection of some worker
names exactly one worker of the computation has `hasLock` set on a connection
that names it; and every call that a worker makes for a connection in
`preCkptRegisterNSData`, `preCkptSendQueries`, `SocketConnList::preCkpt` and
the loop of `FileConnList::preCkpt` is for a connection whose lock it has. -/
theorem C24_one_leader (comp : List Peer) (hnd : (comp.map (·.upid)).Nodup) :
    (∀ o, (∃ p ∈ comp, ∃ c ∈ p.list.conns, p.objectOf c.id = o) →
      ∃! p, p ∈ comp ∧ HasLockOn comp p o) ∧
    (∀ p ∈ comp, ∀ a ∈ actsBeforeCkpt comp p, HasLockOn comp p (p.objectOf a.conn)) := by
  refine ⟨fun o hex => leader_unique comp hnd o hex, ?_⟩
  intro p _ a ha
  have key : ∃ c ∈ (SocketConnList_preCkptRegisterNSData comp p).1,
      c.id = a.conn ∧ c.hasLock = true := by
    obtain ⟨h1, h2, h3⟩ := acts_locked p (SocketConnList_preCkptRegisterNSData comp p).1
    simp only [actsBeforeCkpt, List.mem_append] at ha
    rcases ha with ((ha | ha) | ha) | ha
    · rw [preCkptRegisterNSData_eq] at ha ⊢
      simp only [List.mem_map, List.mem_filter, Bool.and_eq_true] at ha
      obtain ⟨c, ⟨hc, hl, _⟩, rfl⟩ := ha
      exact ⟨c, List.mem_map.mpr hc, rfl, hl⟩
    · exact h1 a ha
    · exact h2 a ha
    · exact h3 a ha
  obtain ⟨c, hc, hid, hl⟩ := key
  exact ⟨c, hc, by rw [hid], hl⟩

/-- C24, at the sample computation: of the two workers that hold the
connection 5 only the first gets its lock, and makes the calls for it; the
second gets the lock of its connection 6 and makes the calls for that one. -/
theorem C24_one_leader_witness :
    (∃! p, p ∈ samplePeers ∧ HasLockOn samplePeers p 77) ∧
    samplePeers.map (fun p => (SocketConnList_preCkptRegisterNSData samplePeers p).1.map
      fun c => (c.id, c.hasLock)) = [[(5, true)], [(5, false), (6, true)]] ∧
    samplePeers.map (actsBeforeCkpt samplePeers) =
      [[.sendPeerInformation 5, .recvPeerInformation 5, .doSendHandshakes 5,
          .doRecvHandshakes 5],
        [.sendPeerInformation 6, .recvPeerInformation 6, .doSendHandshakes 6,
          .doRecvHandshakes 6]] :=
  ⟨(C24_one_leader samplePeers (by decide)).1 77
      ⟨_, List.mem_cons_self _ _, _, List.mem_cons_self _ _, rfl⟩,
    by decide, by decide⟩

/-! ## The buffers of the plugin: lemmas -/

/-- While `readall` runs, `count` is the number of bytes stored, and a call of
`read` is made only when 100 more bytes fit below `maxCount`. -/
theorem readallFrom_bounds (maxCount : Int) : ∀ (reads : List ReadResult) (count : Int)
    (stored : Bytes) (r : Int) (st : Bytes),
    (∀ b, .data b ∈ reads → b.length ≤ 100) → count = stored.length →
    (stored.length : Int) ≤ maxCount →
    readallFrom maxCount reads count stored = .returned r st →
    (st.length : Int) ≤ maxCount ∧ (0 ≤ r → r = st.length ∧ r + 100 ≤ maxCount) := by
  intro reads
  induction reads with
  | nil =>
    intro count stored r st _ hc hs h
    unfold readallFrom at h
    split_ifs at h with h1 h2
    · simp only [ReadallResult.returned.injEq] at h
      obtain ⟨rfl, rfl⟩ := h
      exact ⟨hs, fun hr => absurd hr (by decide)⟩
    · simp only [ReadallResult.returned.injEq] at h
      obtain ⟨rfl, rfl⟩ := h
      exact ⟨hs, fun _ => ⟨hc, by omega⟩⟩
  | cons x rest ih =>
    intro count stored r st hch hc hs h
    unfold readallFrom at h
    split_ifs at h with h1 h2
    · simp only [ReadallResult.returned.injEq] at h
      obtain ⟨rfl, rfl⟩ := h
      exact ⟨hs, fun hr => absurd hr (by decide)⟩
    · cases x with
      | data bytes =>
        simp only at h
        have hb := hch bytes (List.mem_cons_self _ _)
        split_ifs at h with h3 h4
        · simp only [ReadallResult.returned.injEq] at h
          obtain ⟨rfl, rfl⟩ := h
          exact ⟨hs, fun _ => ⟨hc, by omega⟩⟩
        · exact ih (count + bytes.length) (stored ++ bytes) r st
            (fun b hb' => hch b (List.mem_cons_of_mem _ hb'))
            (by simp [hc]) (by simp only [List.length_append, Nat.cast_add]; omega) h
      | error errno =>
        simp only at h
        split_ifs at h with h3
        · simp only [ReadallResult.returned.injEq] at h
          obtain ⟨rfl, rfl⟩ := h
          exact ⟨hs, fun hr => absurd hr (by decide)⟩
        · exact ih count stored r st (fun b hb' => hch b (List.mem_cons_of_mem _ hb')) hc hs h

theorem expandVar_eq (R env : Env) (buf : Bytes) (s : Locals) (nm : Bytes)
    (h : readEnvName (buf.drop (s.c + 1)) = some nm) :
    expandVar R env buf s = expandName R env nm s := by
  unfold expandVar expandName expandBody
  rw [h]

theorem advanceDest_spec (s : Locals) :
    (∀ f, advanceDest s = .fault f → f = .readOutOfBounds) ∧
    (∀ s1 act, advanceDest s = .next s1 act → s1.c = s.c) ∧ advanceDest s ≠ .done := by
  unfold advanceDest
  cases cstr s.destMem s.destOff BUF_SIZE with
  | none => simp
  | some t =>
    refine ⟨by simp, ?_, by simp⟩
    intro s1 act h
    simp only [Step.next.injEq] at h
    rw [← h.1]

theorem expandBody_spec (R env : Env) (nm : Bytes) (s' : Locals) :
    (∀ f, expandBody R env nm s' = .fault f → f ≠ .readPastBuffer) ∧
    (∀ s1 act, expandBody R env nm s' = .next s1 act → s1.c = s'.c) := by
  unfold expandBody
  cases isNameChanged s' nm with
  | none =>
    exact ⟨fun f h => by simp only [Step.fault.injEq] at h; rw [← h]; decide, by simp⟩
  | some changed =>
    simp only
    cases (if changed = true then getenv env nm else none) with
    | some v =>
      simp only
      by_cases h2 : s'.destOff + BUF_SIZE ≤ BUF_SIZE
      · rw [if_pos h2]
        obtain ⟨a, b, _⟩ := advanceDest_spec
          (s'.setDestMem (strncpy s'.destMem s'.destOff v BUF_SIZE))
        refine ⟨fun f h => by rw [a f h]; decide, fun s1 act h => ?_⟩
        rw [b s1 act h, setDestMem_c]
      · rw [if_neg h2]
        exact ⟨fun f h => by simp only [Step.fault.injEq] at h; rw [← h]; decide, by simp⟩
    | none =>
      simp only
      cases hr : s'.destRegion with
      | nameBuf =>
        exact ⟨fun f h => by simp only [Step.fault.injEq] at h; rw [← h]; decide, by simp⟩
      | valueBuf =>
        simp only
        cases R nm with
        | none =>
          refine ⟨by simp, fun s1 act h => ?_⟩
          simp only [Step.next.injEq] at h
          rw [← h.1]
        | some v =>
          simp only
          obtain ⟨a, b, _⟩ := advanceDest_spec
            (s'.setDestMem (strncpy s'.destMem s'.destOff v (BUF_SIZE - s'.destOff)))
          refine ⟨fun f h => by rw [a f h]; decide, fun s1 act h => ?_⟩
          rw [b s1 act h, setDestMem_c]

theorem expandName_spec (R env : Env) (nm : Bytes) (s : Locals) :
    (∀ f, expandName R env nm s = .fault f → f ≠ .readPastBuffer) ∧
    (∀ s1 act, expandName R env nm s = .next s1 act → s1.c = s.c + 1 + nm.length) := by
  unfold expandName
  by_cases h1 : BUF_SIZE ≤ nm.length
  · rw [if_pos h1]
    exact ⟨fun f h => by simp only [Step.fault.injEq] at h; rw [← h]; decide, by simp⟩
  · rw [if_neg h1]
    obtain ⟨a, b⟩ := expandBody_spec R env nm { s with c := s.c + 1 + nm.length }
    exact ⟨a, fun s1 act h => b s1 act h⟩

theorem copyChar_fault (x : Nat) (s : Locals) (f : Fault) (h : copyChar x s = .fault f) :
    f = .writeOutOfBounds := by
  unfold copyChar storeInc store at h
  by_cases hd : s.destOff < BUF_SIZE
  · simp [hd, Except.map] at h
  · simp only [hd, if_false, Except.map] at h
    simp only [Step.fault.injEq] at h
    exact h.symm

theorem endOfLine_fault (s : Locals) (f : Fault) (h : endOfLine s = .fault f) :
    f ≠ .readPastBuffer := by
  unfold endOfLine at h
  cases hs : storeInc 0 s with
  | error g =>
    simp only [hs, Step.fault.injEq] at h
    unfold storeInc store at hs
    by_cases hd : s.destOff < BUF_SIZE
    · simp [hd, Except.map] at hs
    · simp only [hd, if_false, Except.map, Except.error.injEq] at hs
      rw [← h, ← hs]
      decide
  | ok s1 =>
    simp only [hs] at h
    split at h
    · simp only [Step.fault.injEq] at h
      rw [← h]; decide
    · split at h
      · simp only [Step.fault.injEq] at h
        rw [← h]; decide
      · split at h
        · rename_i g hg
          simp only [Step.fault.injEq] at h
          unfold recordName at hg
          split_ifs at hg
          simp only [Except.error.injEq] at hg
          rw [← h, ← hg]
          decide
        · simp at h

theorem SameUpTo.get {buf buf' : Bytes} {p : Nat} (h : SameUpTo buf buf' p) (i : Nat)
    (hi : i ≤ p) : ∃ x, buf[i]? = some x ∧ buf'[i]? = some x := by
  have hlt : p < buf.length := by
    by_contra hge
    have := h.eof
    rw [List.getElem?_eq_none (by omega)] at this
    simp at this
  rcases Nat.lt_or_eq_of_le hi with hi | rfl
  · have hi2 : i < buf.length := by omega
    refine ⟨buf[i], List.getElem?_eq_getElem hi2, ?_⟩
    rw [← h.same i hi]
    exact List.getElem?_eq_getElem hi2
  · exact ⟨readEOF, h.eof, h.eof'⟩

theorem skipToEol_same {buf buf' : Bytes} {p : Nat} (h : SameUpTo buf buf' p) :
    ∀ (k c : Nat), c + k = p →
      skipToEol (buf.drop c) = skipToEol (buf'.drop c) ∧
      ∃ n, skipToEol (buf.drop c) = some n ∧ c + n ≤ p := by
  intro k
  induction k with
  | zero =>
    intro c hc
    have hc' : c = p := by omega
    subst hc'
    rw [drop_of_getElem? buf c _ h.eof, drop_of_getElem? buf' c _ h.eof']
    simp [skipToEol]
  | succ k ih =>
    intro c hc
    obtain ⟨x, hx, hx'⟩ := h.get c (by omega)
    obtain ⟨e, n, hn, hle⟩ := ih (c + 1) (by omega)
    rw [drop_of_getElem? buf c x hx, drop_of_getElem? buf' c x hx']
    simp only [skipToEol]
    by_cases hxx : x = 10 ∨ x = readEOF
    · simp only [hxx, if_true]
      exact ⟨trivial, 0, rfl, by omega⟩
    · simp only [hxx, if_false]
      rw [← e, hn]
      exact ⟨rfl, n + 1, rfl, by omega⟩

theorem readEnvName_same {buf buf' : Bytes} {p : Nat} (h : SameUpTo buf buf' p) :
    ∀ (k c : Nat), c + k = p →
      ∃ nm, readEnvName (buf.drop c) = some nm ∧ readEnvName (buf'.drop c) = some nm ∧
        c + nm.length ≤ p := by
  intro k
  induction k with
  | zero =>
    intro c hc
    have hc' : c = p := by omega
    subst hc'
    rw [drop_of_getElem? buf c _ h.eof, drop_of_getElem? buf' c _ h.eof']
    exact ⟨[], rfl, rfl, by simp⟩
  | succ k ih =>
    intro c hc
    obtain ⟨x, hx, hx'⟩ := h.get c (by omega)
    obtain ⟨nm, hn, hn', hle⟩ := ih (c + 1) (by omega)
    rw [drop_of_getElem? buf c x hx, drop_of_getElem? buf' c x hx']
    simp only [readEnvName]
    by_cases hxx : (isalnum x || decide (x = 95)) = true
    · simp only [hxx, if_true, hn, hn', Option.map_some']
      exact ⟨x :: nm, rfl, rfl, by simp; omega⟩
    · simp only [hxx, if_false]
      exact ⟨[], rfl, rfl, by simp; omega⟩

/-- A pass of the loop made at or before the EOF sentinel at index `p` reads
no byte after it: it is the same in the two buffers, is no read past the
buffer, and leaves `c` at or before `p`. -/
theorem step_before_eof (R env : Env) {buf buf' : Bytes} {p : Nat} (h : SameUpTo buf buf' p)
    (s : Locals) (hc : s.c ≤ p) :
    step R env buf s = step R env buf' s ∧ step R env buf s ≠ .fault .readPastBuffer ∧
      ∀ s1 act, step R env buf s = .next s1 act → s1.c ≤ p := by
  obtain ⟨x, hx, hx'⟩ := h.get s.c hc
  unfold step
  rw [hx, hx']
  simp only
  by_cases h1 : x = readEOF
  · simp [h1]
  · have hlt : s.c < p := by
      rcases Nat.lt_or_eq_of_le hc with hlt | heq
      · exact hlt
      · rw [heq, h.eof] at hx
        exact absurd (Option.some.inj hx).symm h1
    rw [if_neg h1, if_neg h1]
    have cc : ∀ y, copyChar y s ≠ .fault .readPastBuffer ∧
        ∀ s1 act, copyChar y s = .next s1 act → s1.c ≤ p := by
      intro y
      refine ⟨fun hf => ?_, fun s1 act hn => ?_⟩
      · have := copyChar_fault y s _ hf
        exact absurd this (by decide)
      · have := copyChar_c y s s1 act hn
        omega
    by_cases h2 : x = 10
    · rw [if_pos h2, if_pos h2]
      refine ⟨rfl, ?_⟩
      by_cases h3 : s.isStringMode = true
      · rw [if_pos h3]; exact cc x
      · rw [if_neg h3]
        by_cases h4 : s.nameBuf 0 = 0
        · rw [if_pos h4]
          refine ⟨by simp, fun s1 act hn => ?_⟩
          simp only [Step.next.injEq] at hn
          rw [← hn.1]
          simp only
          omega
        · rw [if_neg h4]
          refine ⟨fun hf => endOfLine_fault s _ hf rfl, fun s1 act hn => ?_⟩
          have := endOfLine_c s s1 act hn
          omega
    · rw [if_neg h2, if_neg h2]
      by_cases h3 : x = 32 ∨ x = 9 ∨ x = 35
      · rw [if_pos h3, if_pos h3]
        by_cases h4 : s.isStringMode = true
        · rw [if_pos h4, if_pos h4]; exact ⟨rfl, cc x⟩
        · rw [if_neg h4, if_neg h4]
          obtain ⟨e, n, hn, hle⟩ := skipToEol_same h (p - s.c) s.c (by omega)
          rw [← e, hn]
          refine ⟨rfl, by simp, fun s1 act hn => ?_⟩
          simp only [Step.next.injEq] at hn
          rw [← hn.1]
          exact hle
      · rw [if_neg h3, if_neg h3]
        by_cases h5 : x = 61
        · rw [if_pos h5, if_pos h5]
          refine ⟨rfl, ?_⟩
          cases hs : store 0 s with
          | error f =>
            simp only
            unfold store at hs
            by_cases hd : s.destOff < BUF_SIZE
            · simp [hd] at hs
            · simp only [hd, if_false, Except.error.injEq] at hs
              exact ⟨by rw [← hs]; simp, by simp⟩
          | ok s1 =>
            simp only
            refine ⟨by simp, fun s2 act hn => ?_⟩
            simp only [Step.next.injEq] at hn
            rw [← hn.1]
            simp only [store_c 0 s s1 hs]
            omega
        · rw [if_neg h5, if_neg h5]
          by_cases h6 : x = 92
          · rw [if_pos h6, if_pos h6]
            have hlt2 : s.c + 1 < p := by
              rcases Nat.lt_or_eq_of_le (Nat.succ_le_of_lt hlt) with h7 | h7
              · exact h7
              · exact absurd (h6 ▸ hx) (h.noesc s.c h7)
            obtain ⟨y, hy, hy'⟩ := h.get (s.c + 1) (by omega)
            rw [hy, hy']
            refine ⟨rfl, ?_⟩
            simp only
            cases hs : storeInc y s with
            | error f =>
              simp only
              unfold storeInc store at hs
              by_cases hd : s.destOff < BUF_SIZE
              · simp [hd, Except.map] at hs
              · simp only [hd, if_false, Except.map, Except.error.injEq] at hs
                exact ⟨by rw [← hs]; simp, by simp⟩
            | ok s1 =>
              simp only
              refine ⟨by simp, fun s2 act hn => ?_⟩
              simp only [Step.next.injEq] at hn
              rw [← hn.1]
              simp only [storeInc_c y s s1 hs]
              omega
          · rw [if_neg h6, if_neg h6]
            by_cases h7 : x = 34
            · rw [if_pos h7, if_pos h7]
              refine ⟨rfl, by simp, fun s1 act hn => ?_⟩
              simp only [Step.next.injEq] at hn
              rw [← hn.1]
              simp only
              omega
            · rw [if_neg h7, if_neg h7]
              by_cases h8 : x = 36
              · rw [if_pos h8, if_pos h8]
                obtain ⟨nm, hn, hn', hle⟩ := readEnvName_same h (p - (s.c + 1)) (s.c + 1)
                  (by omega)
                rw [expandVar_eq R env buf s nm hn, expandVar_eq R env buf' s nm hn']
                obtain ⟨a, b⟩ := expandName_spec R env nm s
                refine ⟨rfl, fun hf => a _ hf rfl, fun s1 act hs => ?_⟩
                rw [b s1 act hs]
                omega
              · rw [if_neg h8, if_neg h8]
                exact ⟨rfl, cc x⟩

/-- The loop started at or before the EOF sentinel at index `p` runs the same
on the two buffers and never reads past the buffer. -/
theorem readLoop_before_eof (R : Env) {buf buf' : Bytes} {p : Nat} (h : SameUpTo buf buf' p) :
    ∀ (fuel : Nat) (s : Locals) (e : Env), s.c ≤ p →
      readLoop R buf fuel s e = readLoop R buf' fuel s e ∧
      readLoop R buf fuel s e ≠ .fault .readPastBuffer := by
  intro fuel
  induction fuel with
  | zero => intro s e _; exact ⟨rfl, by simp [readLoop]⟩
  | succ f ih =>
    intro s e hc
    obtain ⟨h1, h2, h3⟩ := step_before_eof R e h s hc
    simp only [readLoop]
    rw [← h1]
    cases hs : step R e buf s with
    | done => exact ⟨rfl, by simp⟩
    | fault x =>
      refine ⟨rfl, ?_⟩
      intro hx
      simp only [Result.fault.injEq] at hx
      rw [hx] at hs
      exact h2 hs
    | next s1 act => exact ih s1 _ (h3 s1 act hs)

theorem readAndSetEnv_before_eof (R env : Env) {buf buf' : Bytes} {p : Nat}
    (h : SameUpTo buf buf' p) :
    readAndSetEnv R buf env = readAndSetEnv R buf' env ∧
      readAndSetEnv R buf env ≠ .fault .readPastBuffer := by
  have a := readAndSetEnv_ne_outOfFuel R buf env
  have b := readAndSetEnv_ne_outOfFuel R buf' env
  unfold readAndSetEnv at a b ⊢
  have a1 := readLoop_mono R buf (buf.length + 1) (buf'.length + 1) initLocals env a
  have b1 := readLoop_mono R buf' (buf'.length + 1) (buf.length + 1) initLocals env b
  obtain ⟨k1, k2⟩ := readLoop_before_eof R h (buf.length + 1 + (buf'.length + 1)) initLocals env
    (by simp [initLocals])
  rw [a1] at k1 k2
  rw [show buf.length + 1 + (buf'.length + 1) = buf'.length + 1 + (buf.length + 1) by omega,
    b1] at k1
  exact ⟨k1, k2⟩

/-- Library call `strncpy` followed by `strlen`: a value that fits below the
end of the array is read back from where it was stored. -/
theorem cstr_strncpy (m : Mem) (off : Nat) (v : Bytes)
    (h : off + (upToNul v).length < BUF_SIZE) :
    cstr (strncpy m off v (BUF_SIZE - off)) off BUF_SIZE = some (upToNul v) := by
  unfold cstr
  apply cstrAux_of_bytes _ _ _ _ (by omega)
  · intro k hk
    have hc : off ≤ off + k ∧ off + k < off + (BUF_SIZE - off) := by omega
    simp only [strncpy, hc, and_self, if_true, Nat.add_sub_cancel_left]
  · have hc : off ≤ off + (upToNul v).length ∧
        off + (upToNul v).length < off + (BUF_SIZE - off) := by omega
    simp only [strncpy, hc, and_self, if_true, Nat.add_sub_cancel_left]
    simp
  · intro x hx
    have := List.mem_takeWhile_imp hx
    simpa using this

/-- The case `'$'` for a name changed earlier in the file: `strncpy(dest,
getenv(envName), sizeof nameBuf)` stores 1000 bytes from `dest` on, so it
stores outside the array as soon as `dest` is not at its start. -/
theorem expandVar_changed (R env : Env) (buf : Bytes) (s : Locals) (nm v : Bytes)
    (hn : readEnvName (buf.drop (s.c + 1)) = some nm) (hl : nm.length < BUF_SIZE)
    (hc : isNameChanged s nm = some true) (hv : getenv env nm = some v) (ho : 0 < s.destOff) :
    expandVar R env buf s = .fault .writeOutOfBounds := by
  rw [expandVar_eq R env buf s nm hn]
  unfold expandName expandBody
  rw [if_neg (by omega)]
  have hc' : isNameChanged { s with c := s.c + 1 + nm.length } nm = some true := hc
  rw [hc']
  simp only [if_true, hv]
  rw [if_neg]
  intro h
  have h2 : s.destOff + BUF_SIZE ≤ BUF_SIZE := h
  omega

/-- The case `'$'` for a name not changed earlier in the file and defined in
the restart environment, `dest` being inside `valueBuf`:
`dmtcp_get_restart_env` is given the room that is left, and a value that fits
there with its NUL is appended at `dest`. -/
theorem expandVar_restart (R env : Env) (buf : Bytes) (s : Locals) (nm v : Bytes)
    (hn : readEnvName (buf.drop (s.c + 1)) = some nm) (hl : nm.length < BUF_SIZE)
    (hc : isNameChanged s nm = some false) (hr : s.destRegion = .valueBuf)
    (hv : R nm = some v) (ho : s.destOff + (upToNul v).length < BUF_SIZE) :
    expandVar R env buf s =
      .next { s with c := s.c + 1 + nm.length,
                     valueBuf := strncpy s.valueBuf s.destOff v (BUF_SIZE - s.destOff),
                     destOff := s.destOff + (upToNul v).length } none := by
  rw [expandVar_eq R env buf s nm hn]
  unfold expandName expandBody
  rw [if_neg (by omega)]
  have hc' : isNameChanged { s with c := s.c + 1 + nm.length } nm = some false := hc
  rw [hc']
  cases s with
  | mk c nb vb nc ne r off sm =>
    simp only at hr ho
    subst hr
    simp only [Bool.false_eq_true, if_false, hv, Locals.setDestMem, Locals.destMem, advanceDest,
      cstr_strncpy vb off v ho]

/-- The case `'$'` for a name changed earlier in the file, `dest` being at
the start of `valueBuf`: the 1000 bytes that `strncpy` stores are the array,
and the value is appended at `dest`. -/
theorem expandVar_changed_start (R env : Env) (buf : Bytes) (s : Locals) (nm v : Bytes)
    (hn : readEnvName (buf.drop (s.c + 1)) = some nm) (hl : nm.length < BUF_SIZE)
    (hc : isNameChanged s nm = some true) (hr : s.destRegion = .valueBuf)
    (hv : getenv env nm = some v) (ho : s.destOff = 0) (hfit : (upToNul v).length < BUF_SIZE) :
    expandVar R env buf s =
      .next { s with c := s.c + 1 + nm.length,
                     valueBuf := strncpy s.valueBuf 0 v BUF_SIZE,
                     destOff := (upToNul v).length } none := by
  rw [expandVar_eq R env buf s nm hn]
  unfold expandName expandBody
  rw [if_neg (by omega)]
  have hc' : isNameChanged { s with c := s.c + 1 + nm.length } nm = some true := hc
  rw [hc']
  have hcs := cstr_strncpy s.valueBuf 0 v (by omega)
  cases s with
  | mk c nb vb nc ne r off sm =>
    simp only at hr ho hcs
    subst hr ho
    simp only [Nat.sub_zero] at hcs
    simp only [if_true, hv, Locals.setDestMem, Locals.destMem, advanceDest, Nat.zero_add,
      Nat.le_refl, hcs]

theorem step_valueByte (R env : Env) (buf : Bytes) (s : Locals) (x : Nat) (q : Bool)
    (hm : s.isStringMode = q) (hb : buf[s.c]? = some x) (hv : valueByte q x) :
    step R env buf s = copyChar x s := by
  cases q with
  | true => exact step_quoted R env buf s x hm hb (by simpa [valueByte] using hv)
  | false => exact step_plain R env buf s x hb (by simpa [valueByte] using hv)

theorem copied_valueBuf (s : Locals) (t : Bytes) (hr : s.destRegion = .valueBuf) :
    s.copied t = { s with valueBuf := blit s.valueBuf s.destOff t, c := s.c + t.length,
                          destOff := s.destOff + t.length } := by
  cases s with
  | mk c nb vb nc ne r off sm =>
    simp only at hr
    subst hr
    rfl

/-- The case `'='` of the `switch` while `dest` points into `valueBuf`: a NUL
is stored at `dest` and `dest` goes back to the start of `valueBuf`. -/
theorem step_eqInValue (R env : Env) (buf : Bytes) (s : Locals)
    (hb : buf[s.c]? = some 61) (hr : s.destRegion = .valueBuf) (ho : s.destOff < BUF_SIZE) :
    step R env buf s =
      .next { s with valueBuf := Function.update s.valueBuf s.destOff 0, c := s.c + 1,
                     destOff := 0 } none := by
  cases s with
  | mk c nb vb nc ne r off sm =>
    simp only at hb hr ho
    subst hr
    simp [step, hb, store, ho, Locals.setDestMem, Locals.destMem]

/-- A stretch of a value and the `=` after it, read while `dest` is at the
start of `valueBuf`: `dest` is at the start of `valueBuf` again. -/
theorem reaches_segment (R : Env) (buf : Bytes) (e : Env) (t : Bytes) (s : Locals)
    (hr : s.destRegion = .valueBuf) (ho : s.destOff = 0) (hat : At buf s.c (t ++ [61]))
    (hl : t.length < BUF_SIZE) (hv : ∀ x ∈ t, valueByte s.isStringMode x) :
    ∃ s', Reaches R buf s e s' e ∧ s'.destRegion = .valueBuf ∧ s'.destOff = 0 ∧
      s'.isStringMode = s.isStringMode ∧ s'.nameBuf = s.nameBuf ∧
      s'.nameChanged_end = s.nameChanged_end ∧ s'.c = s.c + (t ++ [61]).length := by
  have run := reaches_copyRun R buf e t s hat.left (by rw [ho]; omega)
    (fun x hx s1 hs1 hb => step_valueByte R e buf s1 x _ hs1 hb (hv x hx))
  rw [copied_valueBuf s t hr] at run
  have st := step_eqInValue R e buf
    { s with valueBuf := blit s.valueBuf s.destOff t, c := s.c + t.length,
             destOff := s.destOff + t.length }
    hat.right.head hr (by simp only [ho]; omega)
  exact ⟨_, run.trans (Reaches.pass st), hr, rfl, rfl, rfl, rfl, by simp [Nat.add_assoc]⟩

theorem reaches_segments (R : Env) (buf : Bytes) (e : Env) : ∀ (segs : List Bytes) (s : Locals),
    s.destRegion = .valueBuf → s.destOff = 0 → At buf s.c (joinEq segs) →
    (∀ t ∈ segs, t.length < BUF_SIZE ∧ ∀ x ∈ t, valueByte s.isStringMode x) →
    ∃ s', Reaches R buf s e s' e ∧ s'.destRegion = .valueBuf ∧ s'.destOff = 0 ∧
      s'.isStringMode = s.isStringMode ∧ s'.nameBuf = s.nameBuf ∧
      s'.nameChanged_end = s.nameChanged_end ∧ s'.c = s.c + (joinEq segs).length := by
  intro segs
  induction segs with
  | nil =>
    intro s hr ho _ _
    exact ⟨s, Reaches.refl R buf s e, hr, ho, rfl, rfl, rfl, by simp [joinEq]⟩
  | cons t segs ih =>
    intro s hr ho hat hok
    have hj : joinEq (t :: segs) = (t ++ [61]) ++ joinEq segs := by simp [joinEq]
    rw [hj] at hat ⊢
    obtain ⟨h1, h2⟩ := hok t (List.mem_cons_self _ _)
    obtain ⟨s1, r1, a1, b1, c1, d1, e1, f1⟩ := reaches_segment R buf e t s hr ho hat.left h1 h2
    obtain ⟨s2, r2, a2, b2, c2, d2, e2, f2⟩ := ih s1 a1 b1 (by rw [f1]; exact hat.right)
      (fun u hu => by rw [c1]; exact hok u (List.mem_cons_of_mem _ hu))
    exact ⟨s2, r1.trans r2, a2, b2, by rw [c2, c1], by rw [d2, d1], by rw [e2, e1],
      by rw [f2, f1, List.length_append (t ++ [61])]; omega⟩

/-- The name of a line, its `=` and the `"` of a quoted value, read from the
start of a line: the name is in `nameBuf` and `dest` at the start of
`valueBuf`. -/
theorem reaches_nameEq (R : Env) (buf : Bytes) (e : Env) (name : Bytes) (q : Bool) (s : Locals)
    (hs : s.atLineStart) (hat : At buf s.c (name ++ 61 :: quoteIf q)) (hname : okText name) :
    ∃ s', Reaches R buf s e s' e ∧ s'.destRegion = .valueBuf ∧ s'.destOff = 0 ∧
      s'.isStringMode = q ∧ cstr s'.nameBuf 0 BUF_SIZE = some name ∧ s'.nameBuf 0 ≠ 0 ∧
      s'.nameChanged_end = s.nameChanged_end ∧
      s'.c = s.c + (name ++ 61 :: quoteIf q).length := by
  obtain ⟨hr, ho, hm⟩ := hs
  obtain ⟨nne, nlen, nb⟩ := hname
  have nlen' : name.length < BUF_SIZE := by simp only [BUF_SIZE] at nlen ⊢; omega
  have run := reaches_copyRun R buf e name s hat.left (by rw [ho]; omega)
    (fun x hx s1 _ hb => step_plain R e buf s1 x hb (nb x hx).1)
  have hb : buf[s.c + name.length]? = some 61 := hat.right.head
  cases s with
  | mk c nb0 vb nc ne r off sm =>
    simp only at hr ho hm hat hb
    subst hr ho hm
    simp only [Locals.copied, Locals.setDestMem, Locals.destMem, Nat.zero_add] at run
    have st : step R e buf
        { c := c + name.length, nameBuf := blit nb0 0 name, valueBuf := vb, nameChanged := nc,
          nameChanged_end := ne, destRegion := .nameBuf, destOff := name.length,
          isStringMode := false } =
        .next
          { c := c + name.length + 1,
            nameBuf := Function.update (blit nb0 0 name) name.length 0, valueBuf := vb,
            nameChanged := nc, nameChanged_end := ne, destRegion := .valueBuf, destOff := 0,
            isStringMode := false } none := by
      simp [step, hb, store, nlen', Locals.setDestMem, Locals.destMem]
    have hcs : cstr (Function.update (blit nb0 0 name) name.length 0) 0 BUF_SIZE = some name := by
      apply cstr_of_bytes _ _ nlen'
      · intro k hk
        rw [Function.update_noteq (by omega), blit_apply]
        simp [hk]
      · simp
      · exact fun x hx => (nb x hx).2
    have hfirst : Function.update (blit nb0 0 name) name.length 0 0 ≠ 0 := by
      rw [Function.update_noteq]
      · obtain ⟨a, t, ha⟩ := List.exists_cons_of_ne_nil nne
        rw [ha, blit_apply]
        have := (nb a (by rw [ha]; exact List.mem_cons_self _ _)).2
        simpa using this
      · intro h
        exact nne (List.length_eq_zero.mp h.symm)
    cases q with
    | false =>
      exact ⟨_, run.trans (Reaches.pass st), rfl, rfl, rfl, hcs, hfirst, rfl,
        by simp [quoteIf, Nat.add_assoc]⟩
    | true =>
      have hb2 : buf[c + name.length + 1]? = some 34 := by
        have := hat.right.tail.head
        simpa [quoteIf] using this
      have st2 : step R e buf
          { c := c + name.length + 1,
            nameBuf := Function.update (blit nb0 0 name) name.length 0, valueBuf := vb,
            nameChanged := nc, nameChanged_end := ne, destRegion := .valueBuf, destOff := 0,
            isStringMode := false } =
          .next
            { c := c + name.length + 1 + 1,
              nameBuf := Function.update (blit nb0 0 name) name.length 0, valueBuf := vb,
              nameChanged := nc, nameChanged_end := ne, destRegion := .valueBuf, destOff := 0,
              isStringMode := true } none := by
        simp [step, hb2]
      exact ⟨_, run.trans ((Reaches.pass st).trans (Reaches.pass st2)), rfl, rfl, rfl, hcs,
        hfirst, rfl, by simp [quoteIf, Nat.add_assoc]⟩

/-- The last stretch of a value, the `"` of a quoted value and the newline,
read while `dest` is at the start of `valueBuf`: `setenv` is called with that
stretch as the value. -/
theorem reaches_lastValue (R : Env) (buf : Bytes) (e : Env) (name last : Bytes) (q : Bool)
    (s : Locals) (hr : s.destRegion = .valueBuf) (ho : s.destOff = 0) (hm : s.isStringMode = q)
    (hname : cstr s.nameBuf 0 BUF_SIZE = some name) (hfirst : s.nameBuf 0 ≠ 0)
    (hat : At buf s.c (last ++ (quoteIf q ++ [10]))) (hl : last.length < BUF_SIZE)
    (hv : ∀ x ∈ last, valueByte q x ∧ x ≠ 0)
    (hrec : s.nameChanged_end + name.length + 1 ≤ NAME_CHANGED_SIZE) :
    ∃ s', Reaches R buf s e s' ((EnvAction.set name last).apply e) ∧ s'.atLineStart ∧
      s'.c = s.c + (last ++ (quoteIf q ++ [10])).length ∧
      s'.nameChanged_end = s.nameChanged_end + name.length + 1 := by
  have run := reaches_copyRun R buf e last s hat.left (by rw [ho]; omega)
    (fun x hx s1 hs1 hb => step_valueByte R e buf s1 x _ hs1 hb (by rw [hm]; exact (hv x hx).1))
  rw [copied_valueBuf s last hr] at run
  cases s with
  | mk c nb vb nc ne r off sm =>
    simp only at hr ho hm hname hfirst hat hrec run
    subst hr ho hm
    simp only [Nat.zero_add] at run
    have hvalue : cstr (Function.update (blit vb 0 last) last.length 0) 0 BUF_SIZE =
        some last := by
      apply cstr_of_bytes _ _ hl
      · intro k hk
        rw [Function.update_noteq (by omega), blit_apply]
        simp [hk]
      · simp
      · exact fun x hx => (hv x hx).2
    cases sm with
    | false =>
      have hnl : buf[c + last.length]? = some 10 := by
        have := hat.right.head
        simpa [quoteIf] using this
      obtain ⟨s', h4, a4, c4, e4, _⟩ := step_endSet R e buf
        { c := c + last.length, nameBuf := nb, valueBuf := blit vb 0 last, nameChanged := nc,
          nameChanged_end := ne, destRegion := .valueBuf, destOff := last.length,
          isStringMode := false }
        name last hnl rfl hfirst rfl hl hname hvalue hrec
      exact ⟨s', run.trans (Reaches.call h4), a4, by rw [c4]; simp [quoteIf, Nat.add_assoc],
        e4⟩
    | true =>
      have hq : buf[c + last.length]? = some 34 := by
        have := hat.right.head
        simpa [quoteIf] using this
      have hnl : buf[c + last.length + 1]? = some 10 := by
        have := hat.right.tail.head
        simpa [quoteIf] using this
      have st : step R e buf
          { c := c + last.length, nameBuf := nb, valueBuf := blit vb 0 last, nameChanged := nc,
            nameChanged_end := ne, destRegion := .valueBuf, destOff := last.length,
            isStringMode := true } =
          .next
            { c := c + last.length + 1, nameBuf := nb, valueBuf := blit vb 0 last,
              nameChanged := nc, nameChanged_end := ne, destRegion := .valueBuf,
              destOff := last.length, isStringMode := false } none := by
        simp [step, hq]
      obtain ⟨s', h4, a4, c4, e4, _⟩ := step_endSet R e buf
        { c := c + last.length + 1, nameBuf := nb, valueBuf := blit vb 0 last,
          nameChanged := nc, nameChanged_end := ne, destRegion := .valueBuf,
          destOff := last.length, isStringMode := false }
        name last hnl rfl hfirst rfl hl hname hvalue hrec
      exact ⟨s', run.trans ((Reaches.pass st).trans (Reaches.call h4)), a4,
        by rw [c4]; simp [quoteIf, Nat.add_assoc], e4⟩

/-- A line NAME=VALUE whose VALUE holds `=`, read from the start of a line:
`setenv` is called with the stretch of VALUE after its last `=`. -/
theorem reaches_eqLine (R : Env) (buf : Bytes) (e : Env) (name : Bytes) (q : Bool)
    (segs : List Bytes) (last : Bytes) (s : Locals) (hs : s.atLineStart)
    (hat : At buf s.c (eqLine name q segs last)) (hname : okText name)
    (hsegs : ∀ t ∈ segs, t.length < BUF_SIZE ∧ ∀ x ∈ t, valueByte q x)
    (hl : last.length < BUF_SIZE) (hv : ∀ x ∈ last, valueByte q x ∧ x ≠ 0)
    (hrec : s.nameChanged_end + name.length + 1 ≤ NAME_CHANGED_SIZE) :
    ∃ s', Reaches R buf s e s' ((EnvAction.set name last).apply e) ∧ s'.atLineStart ∧
      s'.c = s.c + (eqLine name q segs last).length ∧
      s'.nameChanged_end = s.nameChanged_end + name.length + 1 := by
  have hre : eqLine name q segs last =
      (name ++ 61 :: quoteIf q) ++ (joinEq segs ++ (last ++ (quoteIf q ++ [10]))) := by
    simp [eqLine]
  rw [hre] at hat ⊢
  obtain ⟨s1, r1, a1, b1, c1, d1, e1, f1, g1⟩ := reaches_nameEq R buf e name q s hs hat.left hname
  obtain ⟨s2, r2, a2, b2, c2, d2, e2, f2⟩ := reaches_segments R buf e segs s1 a1 b1
    (by rw [g1]; exact hat.right.left) (by rw [c1]; exact hsegs)
  obtain ⟨s3, r3, a3, b3, c3⟩ := reaches_lastValue R buf e name last q s2 a2 b2 (by rw [c2, c1])
    (by rw [d2]; exact d1) (by rw [d2]; exact e1)
    (by rw [f2, g1]; exact hat.right.right) hl hv (by rw [e2, f1]; exact hrec)
  refine ⟨s3, r1.trans (r2.trans r3), a3, ?_, by rw [c3, e2, f1]⟩
  rw [b3, f2, g1]
  simp only [List.length_append]
  omega

/-- A file of plain lines with, among them, a line NAME=VALUE whose VALUE
holds `=`: the call returns, and the line has set NAME to the stretch of VALUE
after its last `=`. -/
theorem readAndSetEnv_eqLine (R env : Env) (ls ls2 : List EnvAction) (name : Bytes) (q : Bool)
    (segs : List Bytes) (last pad : Bytes)
    (hls : ∀ a ∈ ls, okLine a) (hls2 : ∀ a ∈ ls2, okLine a) (hname : okText name)
    (hsegs : ∀ t ∈ segs, t.length < BUF_SIZE ∧ ∀ x ∈ t, valueByte q x)
    (hl : last.length < BUF_SIZE) (hv : ∀ x ∈ last, valueByte q x ∧ x ≠ 0)
    (hsz : recordedSize ls + (name.length + 1) + recordedSize ls2 ≤ NAME_CHANGED_SIZE) :
    readAndSetEnv R
        (renderFile ls ++ (eqLine name q segs last ++ (renderFile ls2 ++ readEOF :: pad))) env =
      .returned (specEnvAfter (ls ++ .set name last :: ls2) env) := by
  generalize hbuf :
    renderFile ls ++ (eqLine name q segs last ++ (renderFile ls2 ++ readEOF :: pad)) = buf
  have hat1 : At buf 0 (renderFile ls) := by
    rw [← hbuf]
    have := At_mid [] (renderFile ls) (eqLine name q segs last ++ (renderFile ls2 ++ readEOF :: pad))
    simpa using this
  have hat2 : At buf (renderFile ls).length (eqLine name q segs last) := by
    rw [← hbuf]
    exact At_mid (renderFile ls) (eqLine name q segs last) (renderFile ls2 ++ readEOF :: pad)
  have hat3 : At buf ((renderFile ls).length + (eqLine name q segs last).length)
      (renderFile ls2 ++ [readEOF]) := by
    rw [← hbuf]
    have := At_mid (renderFile ls ++ eqLine name q segs last) (renderFile ls2 ++ [readEOF]) pad
    simpa using this
  obtain ⟨s1, r1, a1, b1, c1⟩ := reaches_lines R buf (ls.map EnvAction.toLine) initLocals env
    initLocals_atLineStart (by rw [renderLines_toLine]; simpa [initLocals] using hat1)
    (fun x hx => by
      obtain ⟨a, ha, rfl⟩ := List.mem_map.mp hx
      exact toLine_ok a (hls a ha))
    (by rw [linesSize_toLine]; simp only [initLocals]; omega)
  rw [renderLines_toLine] at b1
  rw [linesSize_toLine] at c1
  simp only [initLocals, Nat.zero_add] at b1 c1
  rw [map_action_toLine] at r1
  obtain ⟨s2, r2, a2, b2, c2⟩ := reaches_eqLine R buf (applyAll ls env) name q segs last s1 a1
    (by rw [b1]; exact hat2) hname hsegs hl hv (by rw [c1]; omega)
  obtain ⟨s3, r3, a3, b3, c3⟩ := reaches_lines R buf (ls2.map EnvAction.toLine) s2
    ((EnvAction.set name last).apply (applyAll ls env)) a2
    (by rw [renderLines_toLine, b2, b1]; exact hat3.left)
    (fun x hx => by
      obtain ⟨a, ha, rfl⟩ := List.mem_map.mp hx
      exact toLine_ok a (hls2 a ha))
    (by rw [linesSize_toLine, c2, c1]; omega)
  rw [renderLines_toLine] at b3
  rw [map_action_toLine] at r3
  rw [readAndSetEnv_of_reaches_eof R buf env _ s3 (r1.trans (r2.trans r3))
    (by rw [b3, b2, b1]; exact hat3.right.head)]
  congr 1
  have e1 := applyAll_eq_specEnvAfter ls env (fun a ha => validName_of_okLine a (hls a ha))
  have e2 := applyAll_eq_specEnvAfter ls2 ((EnvAction.set name last).apply (specEnvAfter ls env))
    (fun a ha => validName_of_okLine a (hls2 a ha))
  rw [e1, e2]
  simp [specEnvAfter, List.foldl_append, EnvAction.apply, setenv, validName_of_okText name hname]

/-! ## The buffers of the plugin: stated properties -/

/-- C25: `readAndSetEnv` and the EOF sentinel.  Let the buffer hold the EOF
sentinel at index `p`, the byte before it being no backslash.  Then the call
ends (it returns, or stops at a store outside one of its arrays), it reads no
byte past the end of the buffer, and it reads no byte after index `p`: on every
buffer with the same bytes up to `p` the call ends in the same way, with the
same environment.  A backslash just before the sentinel breaks this, since
`case '\\'` copies the byte after the backslash without looking at it: on the
two bytes backslash, sentinel the call reads past the buffer, and with more
bytes after them it goes on and applies the lines found there. -/
theorem C25_stops_at_sentinel (R env : Env) (buf buf' : Bytes) (p : Nat)
    (he : buf[p]? = some readEOF) (he' : buf'[p]? = some readEOF)
    (hs : ∀ i, i < p → buf[i]? = buf'[i]?) (hb : ∀ i, i + 1 = p → buf[i]? ≠ some 92) :
    (readAndSetEnv R buf env = readAndSetEnv R buf' env ∧
      readAndSetEnv R buf env ≠ .fault .readPastBuffer ∧
      readAndSetEnv R buf env ≠ .outOfFuel) ∧
    readAndSetEnv R [92, readEOF] env = .fault .readPastBuffer ∧
    readAndSetEnv R [92, readEOF, readEOF] env = .returned env ∧
    readAndSetEnv R [92, readEOF, 61, 49, 10, readEOF] env =
      .returned (setenv env [readEOF] [49]) := by
  obtain ⟨a, b⟩ := readAndSetEnv_before_eof R env ⟨he, he', hs, hb⟩
  exact ⟨⟨a, b, readAndSetEnv_ne_outOfFuel R buf env⟩, rfl, rfl, rfl⟩

/-- C25, at the file `A=1` followed by the sentinel and then by other bytes:
the call returns with `A` set, whatever follows the sentinel. -/
theorem C25_stops_at_sentinel_witness :
    readAndSetEnv emptyEnv [65, 61, 49, 10, readEOF, 66, 61, 50, 10, readEOF] emptyEnv =
      readAndSetEnv emptyEnv [65, 61, 49, 10, readEOF] emptyEnv ∧
    (readAndSetEnv emptyEnv [65, 61, 49, 10, readEOF, 66, 61, 50, 10, readEOF]
      emptyEnv).lookup [66] = some none ∧
    (readAndSetEnv emptyEnv [65, 61, 49, 10, readEOF, 66, 61, 50, 10, readEOF]
      emptyEnv).lookup [65] = some (some [49]) :=
  ⟨(C25_stops_at_sentinel emptyEnv emptyEnv [65, 61, 49, 10, readEOF, 66, 61, 50, 10, readEOF]
      [65, 61, 49, 10, readEOF] 4 rfl rfl (by decide)
      (by
        intro i hi
        have h3 : i = 3 := by omega
        subst h3
        decide)).1.1,
    by decide!, by decide!⟩

/-- C26: the stores of the case `'$'`.  Let the loop be at a `$` followed by a
name shorter than 1000 bytes while `dest` is inside `valueBuf`, and let the
value of the name, with its NUL, fit between `dest` and the end of `valueBuf`.
If the name was not changed earlier in the file, `dmtcp_get_restart_env` is
given the room that is left and the value is appended at `dest`, inside the
array.  If the name was changed earlier in the file, `strncpy(dest,
getenv(envName), sizeof nameBuf)` stores 1000 bytes from `dest` on: inside the
array when `dest` is at its start, past its end as soon as text stands before
the reference.  So the file `A=1`, `B=x$A` ends in a store outside `valueBuf`,
while `B=x$A` alone, with `A` taken from the restart environment, sets `B` to
`x1`; and a file of plain lines as in C8 returns, every store inside its
array. -/
theorem C26_expansion_stores (R env : Env) (buf : Bytes) (s : Locals) (nm v : Bytes)
    (hb : buf[s.c]? = some 36) (hn : readEnvName (buf.drop (s.c + 1)) = some nm)
    (hl : nm.length < BUF_SIZE) (hr : s.destRegion = .valueBuf)
    (hfit : s.destOff + (upToNul v).length < BUF_SIZE) :
    (isNameChanged s nm = some false → R nm = some v →
      step R env buf s =
        .next { s with c := s.c + 1 + nm.length,
                       valueBuf := strncpy s.valueBuf s.destOff v (BUF_SIZE - s.destOff),
                       destOff := s.destOff + (upToNul v).length } none) ∧
    (isNameChanged s nm = some true → getenv env nm = some v →
      (s.destOff = 0 →
        step R env buf s =
          .next { s with c := s.c + 1 + nm.length,
                         valueBuf := strncpy s.valueBuf 0 v BUF_SIZE,
                         destOff := (upToNul v).length } none) ∧
      (0 < s.destOff → step R env buf s = .fault .writeOutOfBounds)) ∧
    (readAndSetEnv emptyEnv [65, 61, 49, 10, 66, 61, 120, 36, 65, 10, readEOF] emptyEnv).faultOf =
      some .writeOutOfBounds ∧
    (readAndSetEnv sampleRestartEnv [66, 61, 120, 36, 65, 10, readEOF] emptyEnv).lookup [66] =
      some (some [120, 49]) ∧
    ∀ (ls : List EnvAction) (pad : Bytes), (∀ l ∈ ls, okLine l) →
      recordedSize ls ≤ NAME_CHANGED_SIZE →
      readAndSetEnv R (renderFile ls ++ readEOF :: pad) env = .returned (specEnvAfter ls env) := by
  have hstep : step R env buf s = expandVar R env buf s := by
    simp [step, hb]
  refine ⟨?_, ?_, by decide!, by decide!, ?_⟩
  · intro hc hv
    rw [hstep]
    exact expandVar_restart R env buf s nm v hn hl hc hr hv hfit
  · intro hc hv
    refine ⟨fun ho => ?_, fun ho => ?_⟩
    · rw [hstep]
      exact expandVar_changed_start R env buf s nm v hn hl hc hr hv ho (by omega)
    · rw [hstep]
      exact expandVar_changed R env buf s nm v hn hl hc hv ho
  · intro ls pad hok hsz
    exact readAndSetEnv_file R env ls pad hok hsz

/-- C26, at the `$` of the line `B=x$A`, `A` defined in the restart
environment only: the value `1` is stored at `valueBuf[1]`. -/
theorem C26_expansion_stores_witness :
    step sampleRestartEnv emptyEnv [66, 61, 120, 36, 65, 10, readEOF]
        { initLocals with c := 3, destRegion := .valueBuf, destOff := 1 } =
      .next { initLocals with c := 3 + 1 + ([65] : Bytes).length, destRegion := .valueBuf,
                              valueBuf := strncpy initLocals.valueBuf 1 [49] (BUF_SIZE - 1),
                              destOff := 1 + (upToNul [49]).length } none :=
  (C26_expansion_stores sampleRestartEnv emptyEnv [66, 61, 120, 36, 65, 10, readEOF]
    { initLocals with c := 3, destRegion := .valueBuf, destOff := 1 } [65] [49]
    (by decide) (by decide) (by decide) rfl (by decide)).1 (by decide) rfl

/-- C27: `readall` stays inside the buffer.  Let every call of `read` store at
most the 100 bytes it is asked for and let `maxCount` be at least 100.  When
`readall` returns, the bytes it stored, from `buf[0]` on, are at most
`maxCount`; and when the value returned is not negative it is the number of
bytes stored and is at most `maxCount - 100`.  So the buffer that
`read_dmtcp_env_file` returns has `size` bytes and the EOF sentinel at index
`count`, inside it, after the bytes of the file. -/
theorem C27_readall_bounds (reads : List ReadResult) (maxCount : Int)
    (hread : ∀ b, .data b ∈ reads → b.length ≤ 100) (hmax : 100 ≤ maxCount) :
    (∀ r stored, readall reads maxCount = .returned r stored →
      (stored.length : Int) ≤ maxCount ∧
      (0 ≤ r → r = stored.length ∧ r ≤ maxCount - 100)) ∧
    (∀ buf, read_dmtcp_env_file true (some reads) maxCount = .buffer buf →
      (buf.length : Int) = maxCount ∧
      ∃ stored, readall reads maxCount = .returned stored.length stored ∧
        (stored.length : Int) ≤ maxCount - 100 ∧ buf.take stored.length = stored ∧
        buf[stored.length]? = some readEOF) := by
  have key : ∀ r stored, readall reads maxCount = .returned r stored →
      (stored.length : Int) ≤ maxCount ∧ (0 ≤ r → r = stored.length ∧ r ≤ maxCount - 100) := by
    intro r stored h
    obtain ⟨a, b⟩ := readallFrom_bounds maxCount reads 0 [] r stored hread rfl
      (by simp only [List.length_nil, Nat.cast_zero]; omega) h
    exact ⟨a, fun hr => ⟨(b hr).1, by have := (b hr).2; omega⟩⟩
  refine ⟨key, ?_⟩
  intro buf h
  unfold read_dmtcp_env_file at h
  simp only [Bool.not_true, Bool.false_eq_true, if_false] at h
  cases hr : readall reads maxCount with
  | overflow => rw [hr] at h; simp at h
  | returned count stored =>
    rw [hr] at h
    simp only at h
    by_cases hc : count < 0
    · simp [hc] at h
    · simp only [hc, if_false, EnvFileResult.buffer.injEq] at h
      obtain ⟨_, b⟩ := key count stored hr
      obtain ⟨b1, b2⟩ := b (by omega)
      subst h
      refine ⟨?_, stored, by rw [← b1], by omega, by simp,
        by rw [List.getElem?_append_right (Nat.le_refl _)]; simp⟩
      simp only [List.length_append, List.length_cons, List.length_replicate, Nat.cast_add,
        Nat.cast_succ]
      omega

/-- C27, at a file of 5 bytes read as 3 and 2 bytes into the 12288 bytes of
the plugin: `readall` returns 5 and the sentinel is stored at index 5. -/
theorem C27_readall_bounds_witness :
    readall [.data [72, 61, 49], .data [50, 10]] 12288 = .returned 5 [72, 61, 49, 50, 10] ∧
    ((5 : Int) = ([72, 61, 49, 50, 10] : Bytes).length ∧ (5 : Int) ≤ 12288 - 100) ∧
    ∀ buf, read_dmtcp_env_file true (some [.data [72, 61, 49], .data [50, 10]]) 12288 =
        .buffer buf → (buf.length : Int) = 12288 :=
  ⟨by decide,
    ((C27_readall_bounds [.data [72, 61, 49], .data [50, 10]] 12288
      (by
        intro b hb
        simp only [List.mem_cons, ReadResult.data.injEq, List.mem_singleton, List.not_mem_nil,
          or_false] at hb
        rcases hb with rfl | rfl <;> decide)
      (by decide)).1 5 [72, 61, 49, 50, 10] (by decide)).2 (by decide),
    fun buf h => ((C27_readall_bounds [.data [72, 61, 49], .data [50, 10]] 12288
      (by
        intro b hb
        simp only [List.mem_cons, ReadResult.data.injEq, List.mem_singleton, List.not_mem_nil,
          or_false] at hb
        rcases hb with rfl | rfl <;> decide)
      (by decide)).2 buf h).1⟩

/-- C28: a value that holds `=`.  The claim has NAME set to the complete
VALUE.  But `case '='` stores a NUL at `dest` and sets `dest` back to the start
of `valueBuf` at every `=`, and, unlike the cases of the space, the tab, `#`
and the newline, it does not test `isStringMode`, so it does the same inside a
string.  In a file of NAME=VALUE and NAME lines as in C8, let a line be
NAME=VALUE, or NAME="VALUE", where VALUE is made of stretches of text with a
`=` after each, followed by a last stretch: every stretch shorter than 1000
bytes and made of the bytes of a value as in C8 (in the quoted line also
spaces, tabs, `#` and newlines), the last one with no NUL.  Then the call
returns, and the line has set NAME to the last stretch alone: the `=` and
everything before the last `=` of VALUE is lost.  So `A=b=c` sets `A` to `c`,
not to `b=c`, and `OPTS="a=b"` sets `OPTS` to `b`, not to `a=b`; only with the
`=` written as backslash `=` is the complete value kept. -/
theorem C28_value_after_last_eq (R env : Env) (ls ls2 : List EnvAction) (name : Bytes)
    (quoted : Bool) (segs : List Bytes) (last pad : Bytes)
    (hls : ∀ a ∈ ls, okLine a) (hls2 : ∀ a ∈ ls2, okLine a) (hname : okText name)
    (hsegs : ∀ t ∈ segs, t.length < BUF_SIZE ∧ ∀ x ∈ t, valueByte quoted x)
    (hlast : last.length < BUF_SIZE ∧ ∀ x ∈ last, valueByte quoted x ∧ x ≠ 0)
    (hsz : recordedSize ls + (name.length + 1) + recordedSize ls2 ≤ NAME_CHANGED_SIZE) :
    readAndSetEnv R
        (renderFile ls ++ (eqLine name quoted segs last ++ (renderFile ls2 ++ readEOF :: pad)))
        env =
      .returned (specEnvAfter (ls ++ .set name last :: ls2) env) ∧
    ((readAndSetEnv emptyEnv (str "A=b=c\n" ++ [readEOF]) sampleEnv).lookup (str "A") =
        some (some (str "c")) ∧ str "c" ≠ str "b=c") ∧
    ((readAndSetEnv emptyEnv (str "OPTS=\"a=b\"\n" ++ [readEOF]) sampleEnv).lookup (str "OPTS") =
        some (some (str "b")) ∧ str "b" ≠ str "a=b") ∧
    (readAndSetEnv emptyEnv (str "A=b\\=c\n" ++ [readEOF]) sampleEnv).lookup (str "A") =
      some (some (str "b=c")) := by
  refine ⟨readAndSetEnv_eqLine R env ls ls2 name quoted segs last pad hls hls2 hname hsegs
    hlast.1 hlast.2 hsz, ⟨?_, ?_⟩, ⟨?_, ?_⟩, ?_⟩ <;> decide!

/-- C28, at the lines `A=b=c` and `OPTS="a=b"`: the call returns with `A` set
to `c` and with `OPTS` set to `b`. -/
theorem C28_value_after_last_eq_witness :
    (eqLine [65] false [[98]] [99] = [65, 61, 98, 61, 99, 10] ∧
      readAndSetEnv emptyEnv
          (renderFile [] ++ (eqLine [65] false [[98]] [99] ++ (renderFile [] ++ readEOF :: [])))
          sampleEnv =
        .returned (specEnvAfter ([] ++ .set [65] [99] :: []) sampleEnv)) ∧
    (eqLine [79, 80, 84, 83] true [[97]] [98] = [79, 80, 84, 83, 61, 34, 97, 61, 98, 34, 10] ∧
      readAndSetEnv emptyEnv
          (renderFile [] ++
            (eqLine [79, 80, 84, 83] true [[97]] [98] ++ (renderFile [] ++ readEOF :: [])))
          sampleEnv =
        .returned (specEnvAfter ([] ++ .set [79, 80, 84, 83] [98] :: []) sampleEnv)) :=
  ⟨⟨rfl, (C28_value_after_last_eq emptyEnv sampleEnv [] [] [65] false [[98]] [99] []
      (by simp) (by simp) (by simp [okText, plainByte])
      (by simp [valueByte, plainByte]) (by simp [valueByte, plainByte]) (by decide)).1⟩,
    ⟨rfl, (C28_value_after_last_eq emptyEnv sampleEnv [] [] [79, 80, 84, 83] true [[97]] [98] []
      (by simp) (by simp) (by simp [okText, plainByte])
      (by simp [valueByte, quotedByte]) (by simp [valueByte, quotedByte]) (by decide)).1⟩⟩

/-- C29: the cache of `Util::getCoordHostAndPort`.  The first call, made with
the shared data not initialised, clears `_firstTime`.  From then on every call
made with the shared data not initialised returns the cached host and the
cached port, whatever host, port and mode it is given, but that a cached port
of 0 is first replaced by the port given if that is positive; the call changes
nothing else.  So over any later calls the cached host never changes, a cached
port other than 0 never changes, and a cached port of 0 becomes the first
positive port given.  `Util::setCoordPort(p)` changes the cached port exactly
when it is 0 and p is positive, and never the cached host.  A call made with
the shared data initialised leaves the cache as it is. -/
theorem C29_cached (cfg : CoordConfig) (env : CoordEnv) (s : CoordCache)
    (hf : s._firstTime = false) :
    (∀ (s0 : CoordCache) (sd : SharedData) (mode : Nat) (host : Bytes) (port : Int),
      sd.initialized = false →
      (getCoordHostAndPort cfg sd env s0 mode host port).2.2._firstTime = false) ∧
    (∀ (sd : SharedData) (mode : Nat) (host : Bytes) (port : Int), sd.initialized = false →
      getCoordHostAndPort cfg sd env s mode host port =
        (s._cachedHost, (if 0 < port ∧ s._cachedPort = 0 then port else s._cachedPort),
          { s with _cachedPort := if 0 < port ∧ s._cachedPort = 0 then port else s._cachedPort })) ∧
    (∀ (sd : SharedData) (mode : Nat) (host : Bytes) (port : Int), sd.initialized = true →
      (getCoordHostAndPort cfg sd env s mode host port).2.2 = s) ∧
    (∀ calls : List CoordCall,
      (afterCalls cfg env s calls)._firstTime = false ∧
      (afterCalls cfg env s calls)._cachedHost = s._cachedHost ∧
      (afterCalls cfg env s calls)._cachedPort =
        if s._cachedPort ≠ 0 then s._cachedPort else firstPositivePort calls) ∧
    (∀ (sd : SharedData) (p : Int), sd.initialized = false →
      (setCoordPort cfg sd env s p)._cachedHost = s._cachedHost ∧
      ((setCoordPort cfg sd env s p)._cachedPort ≠ s._cachedPort ↔
        s._cachedPort = 0 ∧ 0 < p) ∧
      ((s._cachedPort = 0 ∧ 0 < p) → (setCoordPort cfg sd env s p)._cachedPort = p)) := by
  have later : ∀ (c : CoordCache) (sd : SharedData) (mode : Nat) (host : Bytes) (port : Int),
      c._firstTime = false → sd.initialized = false →
      getCoordHostAndPort cfg sd env c mode host port =
        (c._cachedHost, (if 0 < port ∧ c._cachedPort = 0 then port else c._cachedPort),
          { c with _cachedPort :=
            if 0 < port ∧ c._cachedPort = 0 then port else c._cachedPort }) := by
    intro c sd mode host port h1 h2
    unfold getCoordHostAndPort
    simp only [h1, h2, Bool.false_eq_true, if_false, gt_iff_lt]
  have inited : ∀ (c : CoordCache) (sd : SharedData) (mode : Nat) (host : Bytes) (port : Int),
      sd.initialized = true → (getCoordHostAndPort cfg sd env c mode host port).2.2 = c := by
    intro c sd mode host port h
    unfold getCoordHostAndPort
    simp [h]
  refine ⟨?_, fun sd mode host port h => later s sd mode host port hf h,
    fun sd mode host port h => inited s sd mode host port h, ?_, ?_⟩
  · intro s0 sd mode host port h
    by_cases h0 : s0._firstTime = true
    · unfold getCoordHostAndPort
      simp only [h, h0, Bool.false_eq_true, if_false, if_true]
    · have h0' : s0._firstTime = false := by simpa using h0
      rw [later s0 sd mode host port h0' h]
      exact h0'
  · intro calls
    induction calls generalizing s with
    | nil =>
      refine ⟨hf, rfl, ?_⟩
      simp only [afterCalls, List.foldl_nil, firstPositivePort, List.find?_nil]
      by_cases h : s._cachedPort = 0 <;> simp [h]
    | cons x rest ih =>
      have hstep : afterCalls cfg env s (x :: rest) =
          afterCalls cfg env (getCoordHostAndPort cfg x.sd env s x.mode x.host x.port).2.2
            rest := rfl
      rw [hstep]
      by_cases hi : x.sd.initialized = true
      · rw [inited s x.sd x.mode x.host x.port hi]
        obtain ⟨a, b, c⟩ := ih s hf
        refine ⟨a, b, ?_⟩
        rw [c]
        have : firstPositivePort (x :: rest) = firstPositivePort rest := by
          simp [firstPositivePort, List.find?_cons, hi]
        rw [this]
      · have hi' : x.sd.initialized = false := by simpa using hi
        rw [later s x.sd x.mode x.host x.port hf hi']
        obtain ⟨a, b, c⟩ := ih { s with _cachedPort :=
          if 0 < x.port ∧ s._cachedPort = 0 then x.port else s._cachedPort } hf
        refine ⟨a, b, ?_⟩
        rw [c]
        simp only
        by_cases hs : s._cachedPort = 0
        · by_cases hp : 0 < x.port
          · have hx : x.port ≠ 0 := by omega
            simp [hs, hp, hx, firstPositivePort, List.find?_cons, hi']
          · simp [hs, hp, firstPositivePort, List.find?_cons, hi']
        · simp [hs]
  · intro sd p h
    unfold setCoordPort
    rw [later s sd cfg.COORD_ANY [] p hf h]
    simp only
    refine ⟨trivial, ?_, ?_⟩
    · by_cases hs : s._cachedPort = 0
      · by_cases hp : 0 < p
        · simp [hs, hp]
          omega
        · simp [hs, hp]
      · simp [hs]
    · intro hc
      simp [hc]

/-- C29, at the sample configuration after a first call made with the port 0:
a call that passes the port 5000 makes 5000 the cached port, and the calls
after it, passing other hosts and ports, return the cached host and 5000. -/
theorem C29_cached_witness :
    (afterCalls sampleCoordConfig sampleCoordEnv ⟨false, str "nodeA", 0⟩
      [⟨noSharedData, 0, str "x", -1⟩, ⟨noSharedData, 2, str "y", 5000⟩,
        ⟨noSharedData, 0, str "z", 6000⟩])._cachedPort =
      (if (0 : Int) ≠ 0 then 0 else firstPositivePort
        [⟨noSharedData, 0, str "x", -1⟩, ⟨noSharedData, 2, str "y", 5000⟩,
          ⟨noSharedData, 0, str "z", 6000⟩]) ∧
    afterCalls sampleCoordConfig sampleCoordEnv ⟨false, str "nodeA", 0⟩
      [⟨noSharedData, 0, str "x", -1⟩, ⟨noSharedData, 2, str "y", 5000⟩,
        ⟨noSharedData, 0, str "z", 6000⟩] = ⟨false, str "nodeA", 5000⟩ ∧
    getCoordHostAndPort sampleCoordConfig noSharedData sampleCoordEnv ⟨false, str "nodeA", 5000⟩
      2 (str "other") 6000 = (str "nodeA", 5000, ⟨false, str "nodeA", 5000⟩) :=
  ⟨(C29_cached sampleCoordConfig sampleCoordEnv ⟨false, str "nodeA", 0⟩ rfl).2.2.2.1
      [⟨noSharedData, 0, str "x", -1⟩, ⟨noSharedData, 2, str "y", 5000⟩,
        ⟨noSharedData, 0, str "z", 6000⟩] |>.2.2,
    by decide, by decide⟩

/-- C30: `shmAreas` and `shmAreaConn` are parallel lists.  When
`prepareShmList` returns, the two lists have the same length and, index by
index, `shmAreaConn` names the `FILE_SHM` connection, new in the registry, that
was opened for the area of `shmAreas`: it has the name of the area and, as its
only FD, the one that `open` returned.  When `remapShmMaps` then returns, the
two lists are empty and its calls of `mmap` are, in order, one for each area of
`shmAreas`, at its address, size, protection, flags and offset.  And if the FDs
that `open` returned are all different, `remapShmMaps` makes no access out of
bounds: it returns, unless the assertion on a call of `mmap` fails. -/
theorem C30_parallel_lists (os : ShmOs) (areas : List ProcMapsArea) (st st1 : FileState)
    (hwf : st.list.wf) (h : prepareShmList os areas st = .ok st1) :
    st1.shmAreaConn.length = st1.shmAreas.length ∧
    (∃ news, st1.list.conns = st.list.conns ++ news ∧ news.map (·.id) = st1.shmAreaConn ∧
      news.map (fun c => (c.conType, c.subType, c.path)) =
        st1.shmAreas.map (fun a => (.FILE, .FILE_SHM, a.name)) ∧
      news.map (·.fds) = (opensOf (st1.trace.drop st.trace.length)).map fun fd => [fd]) ∧
    (∀ st2, remapShmMaps os st1 = .ok st2 →
      st2.shmAreas = [] ∧ st2.shmAreaConn = [] ∧
      actsOf (st2.trace.drop st1.trace.length) = st1.shmAreas.map restoreAct) ∧
    ((opensOf (st1.trace.drop st.trace.length)).Nodup →
      (∃ st2, remapShmMaps os st1 = .ok st2) ∨
        (remapShmMaps os st1 = .error .mmapFailed ∧ ∃ n, os.callOk n = false)) := by
  obtain ⟨news, evs, p⟩ := prepareShmList_spec os areas st st1 hwf h
  have hdrop : st1.trace.drop st.trace.length = evs := by rw [p.trace, List.drop_left]
  have hlen : st1.shmAreaConn.length = st1.shmAreas.length := by
    have h1 := congrArg List.length p.ids
    have h2 := congrArg List.length p.kinds
    rw [← p.shmAreas] at h2
    simp only [List.length_map] at h1 h2
    omega
  refine ⟨hlen, ⟨news, p.conns, p.ids, ?_, ?_⟩, ?_, ?_⟩
  · rw [p.shmAreas]
    exact p.kinds
  · rw [hdrop]
    exact p.fds
  · intro st2 h2
    obtain ⟨e, ht, ha, _, _, _, hc, hs⟩ := remapShmMaps_ok os st1 st2 h2
    refine ⟨hs, hc, ?_⟩
    rw [ht, List.drop_left, ha]
  · intro hnd
    rw [hdrop] at hnd
    have := remapFrom_safe os st1.shmAreas 0 st1 [] st1.shmAreaConn (opensOf evs) rfl rfl hlen
      p.wf.1 (shmPrepared_holdsOnly os st areas st1 news evs p) hnd
    unfold remapShmMaps
    rcases this with ⟨s, hs⟩ | ⟨hs, hn⟩
    · rw [hs]
      exact Or.inl ⟨_, rfl⟩
    · rw [hs]
      exact Or.inr ⟨rfl, hn⟩

/-- C30, at the sample process: after `prepareShmList` each list has one
entry, the area of `/tmp/shm` and the connection 0; `remapShmMaps` maps the
area back through the FD 11, closes it and leaves the lists and the registry
empty. -/
theorem C30_parallel_lists_witness :
    samplePrepared.shmAreaConn.length = samplePrepared.shmAreas.length ∧
    (samplePrepared.shmAreas.map (·.name), samplePrepared.shmAreaConn) =
      ([str "/tmp/shm"], [0]) ∧
    sampleRemapped.shmAreas = [] ∧ sampleRemapped.shmAreaConn = [] ∧
    sampleRemapped.list.conns = [] ∧
    sampleRemapped.trace.drop samplePrepared.trace.length =
      [.mmap 0x1000 4096 3 0x11 11 0, .close 11] :=
  ⟨(C30_parallel_lists sampleShmOs sampleAreas sampleFileState samplePrepared wf_empty rfl).1,
    by decide, by decide, by decide, by decide, by decide⟩

end Dmtcp
